import Mathlib

/-!
# gopherlog / logstash: scanner and parser

A shallow embedding of `logstash/token.go`, `logstash/lexer.go`, `logstash/config.go`
and `logstash/parser.go`, followed by theorems about it.

Conventions of the embedding.

* The input is the sequence of runes that `ReadRune` delivers, a `List Char`.
  The Go strings that hold token literals and names are written rune by rune with
  `WriteRune`, so they are valid UTF-8 and are kept as their runes, a `List Char` too.
* A string that `strconv.Unquote` returns can hold any bytes (`"\xff"` is one byte
  and no UTF-8), so the string values of a configuration are byte lists, `List Nat`
  with every element below 256; `utf8Bytes` gives the bytes of a text.
* Mutable receivers become explicit state: every method returns its Go results
  paired with the new state.
* Go `int` line and column counters are `Nat` (they start at 0 or 1 and are only
  incremented or restored to an earlier value).
* Every `for` loop is a function with a fuel argument that yields `none` when the
  fuel is used up; the callers pass a bound taken from the length of the unread
  input, and `none` is never the result of a Go return.
-/

namespace Logstash

/-! ## token.go -/

/-- The `Token` enumeration of token.go, in declaration order. -/
inductive Token
  | TokenIllegal
  | TokenEOF
  | TokenUnexpectedEOF
  | TokenWhitespace
  | TokenIdentifier
  | TokenAssignment
  | TokenLCurlyBrace
  | TokenLBracket
  | TokenLParen
  | TokenRParen
  | TokenRCurlyBrace
  | TokenRBracket
  | TokenString
  | TokenNumber
  | TokenIf
  | TokenElse
  | TokenComment
  | TokenComma
  | TokenBool
  | TokenEqRegex
  | TokenNEqRegex
  | TokenEq
  | TokenNEq
  | TokenLT
  | TokenGT
  | TokenLTE
  | TokenGTE
  | TokenAnd
  | TokenOr
  | TokenIn
  | TokenNotIn
  | TokenNand
  | TokenXor
  | TokenNot
  | TokenNegate
  | TokenRegex
  deriving DecidableEq, Repr

open Token

/-- Modelled from the spec: the generated file token_string.go (`go:generate stringer
-type=Token`) is not part of the sources; `String()` is the name of the constant, which
is what the error messages show as the expected kind. -/
def Token.String : Token → List Char
  | TokenIllegal => "TokenIllegal".toList
  | TokenEOF => "TokenEOF".toList
  | TokenUnexpectedEOF => "TokenUnexpectedEOF".toList
  | TokenWhitespace => "TokenWhitespace".toList
  | TokenIdentifier => "TokenIdentifier".toList
  | TokenAssignment => "TokenAssignment".toList
  | TokenLCurlyBrace => "TokenLCurlyBrace".toList
  | TokenLBracket => "TokenLBracket".toList
  | TokenLParen => "TokenLParen".toList
  | TokenRParen => "TokenRParen".toList
  | TokenRCurlyBrace => "TokenRCurlyBrace".toList
  | TokenRBracket => "TokenRBracket".toList
  | TokenString => "TokenString".toList
  | TokenNumber => "TokenNumber".toList
  | TokenIf => "TokenIf".toList
  | TokenElse => "TokenElse".toList
  | TokenComment => "TokenComment".toList
  | TokenComma => "TokenComma".toList
  | TokenBool => "TokenBool".toList
  | TokenEqRegex => "TokenEqRegex".toList
  | TokenNEqRegex => "TokenNEqRegex".toList
  | TokenEq => "TokenEq".toList
  | TokenNEq => "TokenNEq".toList
  | TokenLT => "TokenLT".toList
  | TokenGT => "TokenGT".toList
  | TokenLTE => "TokenLTE".toList
  | TokenGTE => "TokenGTE".toList
  | TokenAnd => "TokenAnd".toList
  | TokenOr => "TokenOr".toList
  | TokenIn => "TokenIn".toList
  | TokenNotIn => "TokenNotIn".toList
  | TokenNand => "TokenNand".toList
  | TokenXor => "TokenXor".toList
  | TokenNot => "TokenNot".toList
  | TokenNegate => "TokenNegate".toList
  | TokenRegex => "TokenRegex".toList

/-! ## lexer.go -/

/-- The sentinel `var eof = rune(0)`. -/
def eof : Char := Char.ofNat 0

/-- The `io.RuneScanner` behind the position tracker: `NewScanner` wraps the input in a
`bufio.Reader`. `rest` is the input not yet read; `last` is the rune that `UnreadRune`
can push back, present exactly after a successful `ReadRune` and cleared by a failed
read and by an unread. -/
structure RuneScanner where
  rest : List Char
  last : Option Char
  deriving DecidableEq, Repr

/-- Reading a rune of the buffered reader: at the end of the input the rune is 0 and the
error (second component `true`) is `io.EOF`. -/
def RuneScanner.ReadRune (b : RuneScanner) : (Char × Bool) × RuneScanner :=
  match b with
  | { rest := [], last := _ } => ((Char.ofNat 0, true), { rest := [], last := none })
  | { rest := c :: cs, last := _ } => ((c, false), { rest := cs, last := some c })

/-- Unreading a rune of the buffered reader: it fails (`true`) with
`ErrInvalidUnreadRune` unless the last operation was a successful `ReadRune`. -/
def RuneScanner.UnreadRune (b : RuneScanner) : Bool × RuneScanner :=
  match b with
  | { rest := rest, last := none } => (true, { rest := rest, last := none })
  | { rest := rest, last := some c } => (false, { rest := c :: rest, last := none })

/-- The struct `positionTracker`. -/
structure positionTracker where
  RuneScanner : RuneScanner
  line : Nat
  col : Nat
  lastLine : Nat
  lastCol : Nat
  deriving DecidableEq, Repr

/-- Method `positionTracker.ReadRune`: the rune and the error flag of the underlying
read; the position moves whether or not the read succeeded. -/
def positionTracker.ReadRune (p : positionTracker) : (Char × Bool) × positionTracker :=
  match p with
  | { RuneScanner := rs, line := line, col := col, lastLine := _, lastCol := _ } =>
    match rs.ReadRune with
    | ((r, err), rs1) =>
      if r = '\n' then
        ((r, err), { RuneScanner := rs1, line := line + 1, col := 1,
                     lastLine := line, lastCol := col })
      else
        ((r, err), { RuneScanner := rs1, line := line, col := col + 1,
                     lastLine := line, lastCol := col })

/-- Method `positionTracker.UnreadRune`: the position is restored only when the
underlying unread succeeded. -/
def positionTracker.UnreadRune (p : positionTracker) : Bool × positionTracker :=
  match p with
  | { RuneScanner := rs, line := line, col := col, lastLine := lastLine, lastCol := lastCol } =>
    match rs.UnreadRune with
    | (false, rs1) =>
      (false, { RuneScanner := rs1, line := lastLine, col := lastCol,
                lastLine := lastLine, lastCol := lastCol })
    | (true, rs1) =>
      (true, { RuneScanner := rs1, line := line, col := col,
               lastLine := lastLine, lastCol := lastCol })

/-- Method `positionTracker.Pos`. -/
def positionTracker.Pos (p : positionTracker) : Nat × Nat :=
  match p with
  | { RuneScanner := _, line := line, col := col, lastLine := _, lastCol := _ } => (line, col)

/-- The constructor `NewpositionTracker`. -/
def NewpositionTracker (r : RuneScanner) : positionTracker :=
  { RuneScanner := r, line := 1, col := 0, lastLine := 1, lastCol := 0 }

/-- The struct `Scanner`. -/
structure Scanner where
  r : positionTracker
  deriving DecidableEq, Repr

/-- Method `Scanner.Pos`. -/
def Scanner.Pos (s : Scanner) : Nat × Nat :=
  match s with
  | { r := r } => r.Pos

def isWhitespace (ch : Char) : Bool :=
  ch = ' ' || ch = '\t' || ch = '\n'

def isLetter (ch : Char) : Bool :=
  (decide ('a' ≤ ch) && decide (ch ≤ 'z')) || (decide ('A' ≤ ch) && decide (ch ≤ 'Z'))

def isDigit (ch : Char) : Bool :=
  decide ('0' ≤ ch) && decide (ch ≤ '9')

def isOperator (ch : Char) : Bool :=
  (decide ('<' ≤ ch) && decide (ch ≤ '>')) || ch = '!'

/-- The constructor `NewScanner`, on the runes of the reader it is given. -/
def NewScanner (input : List Char) : Scanner :=
  { r := NewpositionTracker { rest := input, last := none } }

/-- Method `Scanner.read`: the rune read, or `eof` when the read failed. -/
def Scanner.read (s : Scanner) : Char × Scanner :=
  match s with
  | { r := r } =>
    match r.ReadRune with
    | ((_, true), r1) => (eof, { r := r1 })
    | ((ch, false), r1) => (ch, { r := r1 })

/-- Method `Scanner.unread`; the error of `UnreadRune` is dropped. -/
def Scanner.unread (s : Scanner) : Scanner :=
  match s with
  | { r := r } =>
    match r.UnreadRune with
    | (_, r1) => { r := r1 }

/-- The unread input of a scanner. -/
def Scanner.rest (s : Scanner) : List Char := s.r.RuneScanner.rest

/-- Method `Scanner.scanOperator`. -/
def Scanner.scanOperator (s : Scanner) : (Token × List Char) × Scanner :=
  match s.read with
  | (ch, s1) =>
    match s1.read with
    | (ch2, s2) =>
      if ch = '=' then
        if ch2 = '~' then ((TokenEqRegex, "=~".toList), s2)
        else if ch2 = '=' then ((TokenEq, "==".toList), s2)
        else if ch2 = '>' then ((TokenAssignment, "=>".toList), s2)
        else ((TokenIllegal, [ch, ch2]), s2)
      else if ch = '!' then
        if ch2 = '=' then ((TokenNEq, "!=".toList), s2)
        else if ch2 = '~' then ((TokenNEqRegex, "!~".toList), s2)
        else ((TokenNegate, "!".toList), s2.unread)
      else if ch = '>' then
        if ch2 = '=' then ((TokenGTE, ">=".toList), s2)
        else ((TokenGT, ">".toList), s2.unread)
      else if ch = '<' then
        if ch2 = '=' then ((TokenLTE, ">=".toList), s2)
        else ((TokenLT, ">".toList), s2.unread)
      else ((TokenIllegal, [ch]), s2.unread)

/-- The `for` loop of `Scanner.scanWhitespace`. -/
def Scanner.scanWhitespaceLoop :
    Nat → List Char → Scanner → Option ((Token × List Char) × Scanner)
  | 0, _, _ => none
  | n + 1, buf, s =>
    match s.read with
    | (ch, s1) =>
      if ch = eof then some ((TokenWhitespace, buf), s1)
      else if !isWhitespace ch then some ((TokenWhitespace, buf), s1.unread)
      else Scanner.scanWhitespaceLoop n (buf ++ [ch]) s1

/-- Method `Scanner.scanWhitespace`. -/
def Scanner.scanWhitespace (s : Scanner) : Option ((Token × List Char) × Scanner) :=
  match s.read with
  | (ch, s1) => Scanner.scanWhitespaceLoop (s1.rest.length + 1) [ch] s1

/-- The `for` loop of `Scanner.scanSequence`. -/
def Scanner.scanSequenceLoop (tokenType : Token) (delim : Char) (newline : Bool) :
    Nat → List Char → Bool → Scanner → Option ((Token × List Char) × Scanner)
  | 0, _, _, _ => none
  | n + 1, buf, escaped, s =>
    match s.read with
    | (ch, s1) =>
      if ch = eof then some ((TokenIllegal, buf), s1)
      else if !newline && ch = '\n' then some ((TokenIllegal, buf), s1)
      else if !escaped && ch = delim then some ((tokenType, buf), s1)
      else if !escaped && ch = '\\' then
        Scanner.scanSequenceLoop tokenType delim newline n (buf ++ [ch]) true s1
      else
        Scanner.scanSequenceLoop tokenType delim newline n (buf ++ [ch]) false s1

/-- Method `Scanner.scanSequence`. -/
def Scanner.scanSequence (s : Scanner) (tokenType : Token) (delim : Char) (newline : Bool) :
    Option ((Token × List Char) × Scanner) :=
  match s.read with
  | (_, s1) => Scanner.scanSequenceLoop tokenType delim newline (s1.rest.length + 1) [] false s1

/-- Method `Scanner.scanRegex`. -/
def Scanner.scanRegex (s : Scanner) : Option ((Token × List Char) × Scanner) :=
  s.scanSequence TokenRegex '/' false

/-- Method `Scanner.scanString`. -/
def Scanner.scanString (s : Scanner) : Option ((Token × List Char) × Scanner) :=
  match s.scanSequence TokenString '"' true with
  | none => none
  | some ((tok, lit), s1) => some ((tok, '"' :: (lit ++ ['"'])), s1)

/-- The `for` loop of `Scanner.scanNumber`. -/
def Scanner.scanNumberLoop :
    Nat → List Char → Bool → Scanner → Option ((Token × List Char) × Scanner)
  | 0, _, _, _ => none
  | n + 1, buf, hasDecimal, s =>
    match s.read with
    | (ch, s1) =>
      if ch = eof then some ((TokenNumber, buf), s1)
      else if hasDecimal && ch = '.' then some ((TokenIllegal, buf), s1)
      else if isLetter ch then some ((TokenIllegal, buf), s1)
      else if !isDigit ch then some ((TokenNumber, buf), s1.unread)
      else if ch = '.' then Scanner.scanNumberLoop n (buf ++ [ch]) true s1
      else Scanner.scanNumberLoop n (buf ++ [ch]) hasDecimal s1

/-- Method `Scanner.scanNumber`. -/
def Scanner.scanNumber (s : Scanner) : Option ((Token × List Char) × Scanner) :=
  match s.read with
  | (ch, s1) => Scanner.scanNumberLoop (s1.rest.length + 1) [ch] false s1

/-- The `for` loop of `Scanner.scanComment`. -/
def Scanner.scanCommentLoop :
    Nat → List Char → Scanner → Option ((Token × List Char) × Scanner)
  | 0, _, _ => none
  | n + 1, buf, s =>
    match s.read with
    | (ch, s1) =>
      if ch = eof then some ((TokenComment, buf), s1)
      else if ch = '\n' then some ((TokenComment, buf), s1.unread)
      else Scanner.scanCommentLoop n (buf ++ [ch]) s1

/-- Method `Scanner.scanComment`. -/
def Scanner.scanComment (s : Scanner) : Option ((Token × List Char) × Scanner) :=
  match s.read with
  | (ch, s1) => Scanner.scanCommentLoop (s1.rest.length + 1) [ch] s1

/-- The keyword `switch` at the end of `Scanner.scanIdentifier`. -/
def keywordToken (str : List Char) : Token :=
  if str = "and".toList then TokenAnd
  else if str = "or".toList then TokenOr
  else if str = "nand".toList then TokenNand
  else if str = "xor".toList then TokenXor
  else if str = "if".toList then TokenIf
  else if str = "else".toList then TokenElse
  else if str = "not".toList then TokenNot
  else if str = "in".toList then TokenIn
  else TokenIdentifier

/-- The `for` loop of `Scanner.scanIdentifier`. -/
def Scanner.scanIdentifierLoop : Nat → List Char → Scanner → Option (List Char × Scanner)
  | 0, _, _ => none
  | n + 1, buf, s =>
    match s.read with
    | (ch, s1) =>
      if ch = eof then some (buf, s1)
      else if !isLetter ch && !isDigit ch && ch ≠ '_' && ch ≠ '@' && ch ≠ '-' then
        some (buf, s1.unread)
      else Scanner.scanIdentifierLoop n (buf ++ [ch]) s1

/-- Method `Scanner.scanIdentifier`. -/
def Scanner.scanIdentifier (s : Scanner) : Option ((Token × List Char) × Scanner) :=
  match s.read with
  | (ch, s1) =>
    match Scanner.scanIdentifierLoop (s1.rest.length + 1) [ch] s1 with
    | none => none
    | some (str, s2) => some ((keywordToken str, str), s2)

/-- Method `Scanner.Scan`. -/
def Scanner.Scan (s : Scanner) : Option ((Token × List Char) × Scanner) :=
  match s.read with
  | (ch, s1) =>
    if isWhitespace ch then s1.unread.scanWhitespace
    else if isLetter ch || ch = '@' then s1.unread.scanIdentifier
    else if isOperator ch then some s1.unread.scanOperator
    else if isDigit ch then s1.unread.scanNumber
    else if ch = eof then some ((TokenEOF, []), s1)
    else if ch = '{' then some ((TokenLCurlyBrace, [ch]), s1)
    else if ch = '(' then some ((TokenLParen, [ch]), s1)
    else if ch = '[' then some ((TokenLBracket, [ch]), s1)
    else if ch = '}' then some ((TokenRCurlyBrace, [ch]), s1)
    else if ch = ')' then some ((TokenRParen, [ch]), s1)
    else if ch = ']' then some ((TokenRBracket, [ch]), s1)
    else if ch = ',' then some ((TokenComma, [ch]), s1)
    else if ch = '#' then s1.scanComment
    else if ch = '/' then s1.unread.scanRegex
    else if ch = '"' then s1.unread.scanString
    else some ((TokenIllegal, [ch]), s1)

/-! ## strconv (the Go library functions the parser calls) -/

deriving instance DecidableEq for Except

set_option linter.dupNamespace false

/-- The errors the parser can return. `Error.Error` gives the message text. -/
inductive Error
  /-- The value of `errIllegal`. -/
  | illegal (lit : List Char) (l c : Nat)
  /-- The value of `errUnexpected`, and of `getToken` with one expected kind. -/
  | unexpected (lit expected : List Char) (l c : Nat)
  /-- The value of `getToken` with several expected kinds (already joined by a bar). -/
  | unexpectedOneOf (lit expected : List Char) (l c : Nat)
  /-- The value of `Parser.err`, wrapping another error. -/
  | parse (inner : Error) (l c : Nat)
  /-- The first merge error of `parsePluginFields`. -/
  | notArray (lit : List Char)
  /-- The second merge error of `parsePluginFields`. -/
  | newValue (lit : List Char)
  /-- The value `strconv.ErrSyntax`. -/
  | ErrSyntax
  /-- The value `strconv.ErrRange`. -/
  | ErrRange
  /-- A `*strconv.NumError`. -/
  | NumError (Func Num : List Char) (Err : Error)
  /-- The `panic` at the end of `parseField`. -/
  | panic (msg : List Char)
  deriving DecidableEq, Repr

/-- The verb `%d` of package fmt on a non-negative integer. -/
def fmtInt (n : Nat) : List Char := Nat.toDigits 10 n

/-- The method `Error()` of an error value: the text built by `fmt.Errorf` at the place
the error is made. The number of a `NumError` is shown between double quotes, which is
what `strconv.Quote` does to a literal made of digits and dots. -/
def Error.Error : Error → List Char
  | .illegal lit l c =>
    "illegal token ".toList ++ [Char.ofNat 39] ++ lit ++ [Char.ofNat 39] ++ " on line ".toList
      ++ fmtInt l ++ " col ".toList ++ fmtInt c
  | .unexpected lit expected l c =>
    "unexpected token ".toList ++ [Char.ofNat 39] ++ lit ++ [Char.ofNat 39]
      ++ " expected ".toList ++ [Char.ofNat 39] ++ expected ++ [Char.ofNat 39]
      ++ " on line ".toList ++ fmtInt l ++ " col ".toList ++ fmtInt c
  | .unexpectedOneOf lit expected l c =>
    "unexpected token ".toList ++ [Char.ofNat 39] ++ lit ++ [Char.ofNat 39]
      ++ " expected one of ".toList ++ expected
      ++ " on line ".toList ++ fmtInt l ++ " col ".toList ++ fmtInt c
  | .parse inner l c =>
    "parse error: ".toList ++ inner.Error ++ " at line ".toList ++ fmtInt l
      ++ " col ".toList ++ fmtInt c
  | .notArray lit =>
    "field ".toList ++ [Char.ofNat 39] ++ lit ++ [Char.ofNat 39]
      ++ " already delcared and not an array".toList
  | .newValue lit =>
    "field ".toList ++ [Char.ofNat 39] ++ lit ++ [Char.ofNat 39]
      ++ " is an array but new value is not a string or []string".toList
  | .ErrSyntax => "invalid syntax".toList
  | .ErrRange => "value out of range".toList
  | .NumError fn num err =>
    "strconv.".toList ++ fn ++ ": parsing ".toList ++ ['"'] ++ num ++ ['"'] ++ ": ".toList
      ++ err.Error
  | .panic msg => msg

/-- The helper `unhex` of strconv. -/
def unhex (c : Char) : Option Nat :=
  if '0' ≤ c ∧ c ≤ '9' then some (c.toNat - 48)
  else if 'a' ≤ c ∧ c ≤ 'f' then some (c.toNat - 97 + 10)
  else if 'A' ≤ c ∧ c ≤ 'F' then some (c.toNat - 65 + 10)
  else none

/-- The value of a run of hexadecimal digits, most significant first. -/
def hexValue : List Char → Option Nat
  | [] => some 0
  | c :: cs =>
    match unhex c, hexValue cs with
    | some d, some v => some (d * 16 ^ cs.length + v)
    | _, _ => none

/-- The function `utf8.ValidRune`. -/
def validRune (v : Nat) : Bool :=
  decide (v < 0xD800) || (decide (0xDFFF < v) && decide (v ≤ 0x10FFFF))

/-- An octal digit of an escape `\ooo`. -/
def octal (c : Char) : Option Nat :=
  if '0' ≤ c ∧ c ≤ '7' then some (c.toNat - 48) else none

/-- The function `utf8.EncodeRune` on a rune given as its number: the one to four
bytes of its UTF-8 encoding; a surrogate or a number above U+10FFFF is written as
U+FFFD. -/
def EncodeRune (r : Nat) : List Nat :=
  if r ≤ 0x7F then [r]
  else if r ≤ 0x7FF then [0xC0 + r / 64, 0x80 + r % 64]
  else if 0x10FFFF < r ∨ (0xD800 ≤ r ∧ r ≤ 0xDFFF) then [0xEF, 0xBF, 0xBD]
  else if r ≤ 0xFFFF then [0xE0 + r / 4096, 0x80 + r / 64 % 64, 0x80 + r % 64]
  else [0xF0 + r / 262144, 0x80 + r / 4096 % 64, 0x80 + r / 64 % 64, 0x80 + r % 64]

/-- The bytes of the Go string that holds the runes `s`: each rune in UTF-8. -/
def utf8Bytes : List Char → List Nat
  | [] => []
  | c :: cs => EncodeRune c.toNat ++ utf8Bytes cs

/-- The function `strconv.UnquoteChar(s, '"')` on a string given as its runes: the
value of the first character or escape sequence of `s`, the flag `multibyte`, and the
number of runes of `s` it takes; `none` is `ErrSyntax` (empty input, an unescaped double
quote, an unknown or truncated escape, `\'`). A rune of 0x80 or more and the escapes
`\u`, `\U` are multibyte; `\xhh` and `\ooo` give a single byte and are not. -/
def UnquoteChar (s : List Char) : Option (Nat × Bool × Nat) :=
  match s with
  | [] => none
  | c :: cs =>
    if c = '"' then none
    else if 0x80 ≤ c.toNat then some (c.toNat, true, 1)
    else if c ≠ '\\' then some (c.toNat, false, 1)
    else
      match cs with
      | [] => none
      | e :: t =>
        if e = 'a' then some (7, false, 2)
        else if e = 'b' then some (8, false, 2)
        else if e = 'f' then some (12, false, 2)
        else if e = 'n' then some (10, false, 2)
        else if e = 'r' then some (13, false, 2)
        else if e = 't' then some (9, false, 2)
        else if e = 'v' then some (11, false, 2)
        else if e = '\\' then some (92, false, 2)
        else if e = '"' then some (34, false, 2)
        else if e = 'x' then
          if t.length < 2 then none
          else (hexValue (t.take 2)).map (fun v => (v, false, 4))
        else if e = 'u' then
          if t.length < 4 then none
          else
            match hexValue (t.take 4) with
            | some v => if validRune v then some (v, true, 6) else none
            | none => none
        else if e = 'U' then
          if t.length < 8 then none
          else
            match hexValue (t.take 8) with
            | some v => if validRune v then some (v, true, 10) else none
            | none => none
        else
          match octal e with
          | none => none
          | some o1 =>
            if t.length < 2 then none
            else
              match octal (t.headD '0'), octal ((t.drop 1).headD '0') with
              | some o2, some o3 =>
                if o1 * 64 + o2 * 8 + o3 > 255 then none
                else some (o1 * 64 + o2 * 8 + o3, false, 4)
              | _, _ => none

/-- The loop of `strconv.Unquote` over the text between the two double quotes: one
`UnquoteChar` after the other, each value appended to the buffer as the single byte
`byte(c)` when it is below 0x80 or not multibyte, and as `utf8.EncodeRune` of it
otherwise. `skip` counts the runes that the last `UnquoteChar` has taken and that are
still to be passed over; `none` is `ErrSyntax`. -/
def unquoteChars : Nat → List Char → Option (List Nat)
  | 0, [] => some []
  | _ + 1, [] => none
  | skip + 1, _ :: cs => unquoteChars skip cs
  | 0, c :: cs =>
    match UnquoteChar (c :: cs) with
    | none => none
    | some (v, multibyte, k) =>
      (unquoteChars (k - 1) cs).map
        (fun r => (if v < 0x80 ∨ multibyte = false then [v % 256] else EncodeRune v) ++ r)

/-- The function `strconv.Unquote` on a literal in double quotes, the only form the
scanner hands to the parser (other literals are a syntax error here): the literal must
have at least two characters, start and end with `"`, and hold no newline. A body
without backslash and double quote is returned as it is; any other goes through the
loop. The result is the bytes of the Go string. -/
def Unquote (s : List Char) : Except Error (List Nat) :=
  match s with
  | [] => .error .ErrSyntax
  | q :: t =>
    if q ≠ '"' then .error .ErrSyntax
    else if t.getLast? ≠ some '"' then .error .ErrSyntax
    else if '\n' ∈ t.dropLast then .error .ErrSyntax
    else if '\\' ∉ t.dropLast ∧ '"' ∉ t.dropLast then .ok (utf8Bytes t.dropLast)
    else
      match unquoteChars 0 t.dropLast with
      | some r => .ok r
      | none => .error .ErrSyntax

/-- The digit loop of `strconv.ParseUint` in base 10 for 64 bits: a character that is
not a decimal digit is a syntax error, a value above 2^64 - 1 a range error. -/
def ParseUintLoop : Nat → List Char → Except Error Nat
  | n, [] => .ok n
  | n, c :: cs =>
    if isDigit c then
      if n ≥ (2 ^ 64 - 1) / 10 + 1 then .error .ErrRange
      else if n * 10 + (c.toNat - 48) > 2 ^ 64 - 1 then .error .ErrRange
      else ParseUintLoop (n * 10 + (c.toNat - 48)) cs
    else .error .ErrSyntax

/-- The call `strconv.ParseInt(s, 10, 64)`: an optional sign, then decimal digits; the
result is a signed 64-bit integer, or a `NumError` with `ErrSyntax` or `ErrRange`. -/
def ParseInt (s : List Char) : Except Error Int :=
  match s with
  | [] => .error (.NumError "ParseInt".toList s .ErrSyntax)
  | c :: cs =>
    let neg := decide (c = '-')
    let body := if c = '+' ∨ c = '-' then cs else s
    if body = [] then .error (.NumError "ParseInt".toList s .ErrSyntax)
    else
      match ParseUintLoop 0 body with
      | .error .ErrRange => .error (.NumError "ParseInt".toList s .ErrRange)
      | .error _ => .error (.NumError "ParseInt".toList s .ErrSyntax)
      | .ok un =>
        if !neg && decide (un ≥ 2 ^ 63) then .error (.NumError "ParseInt".toList s .ErrRange)
        else if neg && decide (un > 2 ^ 63) then .error (.NumError "ParseInt".toList s .ErrRange)
        else .ok (if neg then - (un : Int) else (un : Int))

/-- The digits of a decimal literal with the dot removed, and the number of digits after
the dot; `none` when a character is neither a digit nor a dot, or there are two dots. -/
def decimalParts : List Char → Option (List Char × Nat)
  | [] => some ([], 0)
  | c :: cs =>
    match decimalParts cs with
    | none => none
    | some (ds, k) =>
      if c = '.' then (if ('.' ∈ cs) then none else some (ds, cs.length))
      else if isDigit c then some (c :: ds, k)
      else none

/-- The call `strconv.ParseFloat(s, 64)` on a literal of digits with a dot. The float64
itself is not computed: the value is kept as its literal. The call fails (range error)
when the decimal value rounds to infinity, that is when it is at least 2^1024 - 2^970,
and (syntax error) when the literal has no digit or another character. -/
def ParseFloat (s : List Char) : Except Error (List Char) :=
  match decimalParts s with
  | none => .error (.NumError "ParseFloat".toList s .ErrSyntax)
  | some (ds, k) =>
    if ds = [] then .error (.NumError "ParseFloat".toList s .ErrSyntax)
    else if ds.foldl (fun n c => n * 10 + (c.toNat - 48)) 0 ≥ (2 ^ 1024 - 2 ^ 970) * 10 ^ k then
      .error (.NumError "ParseFloat".toList s .ErrRange)
    else .ok s

/-! ## config.go -/

/-- A field value, the dynamic type behind `interface{}`: `string`, `int64`, `float64`
(kept as its literal) or `[]string`; a string is its bytes. -/
inductive Value
  | str (s : List Nat)
  | int (n : Int)
  | float (lit : List Char)
  | strs (xs : List (List Nat))
  deriving DecidableEq, Repr

/-- The map type `PluginFields`: a list of bindings with distinct keys, in the order in
which the keys were first assigned. -/
abbrev PluginFields := List (List Char × Value)

/-- Index expression `fields[k]`; `none` is the nil interface of an absent key. -/
def PluginFields.get (m : PluginFields) (k : List Char) : Option Value :=
  match m with
  | [] => none
  | (k1, v1) :: t => if k1 = k then some v1 else PluginFields.get t k

/-- Assignment `fields[k] = v`. -/
def PluginFields.set (m : PluginFields) (k : List Char) (v : Value) : PluginFields :=
  match m with
  | [] => [(k, v)]
  | (k1, v1) :: t => if k1 = k then (k, v) :: t else (k1, v1) :: PluginFields.set t k v

/-- The struct `PluginConfig`. -/
structure PluginConfig where
  Name : List Char
  Fields : PluginFields
  deriving DecidableEq, Repr

/-- The struct `Config`. -/
structure Config where
  Input : List PluginConfig
  Filter : List PluginConfig
  Output : List PluginConfig
  deriving DecidableEq, Repr

/-! ## parser.go -/

/-- The anonymous struct `Parser.buf`. -/
structure ParserBuf where
  tok : Token
  lit : List Char
  n : Nat
  line : Nat
  col : Nat
  deriving DecidableEq, Repr

/-- The struct `Parser`. -/
structure Parser where
  s : Scanner
  line : Nat
  col : Nat
  buf : ParserBuf
  deriving DecidableEq, Repr

/-- The constructor `NewParser`, on the runes of the reader it is given. -/
def NewParser (input : List Char) : Parser :=
  { s := NewScanner input, line := 0, col := 0,
    buf := { tok := TokenIllegal, lit := [], n := 0, line := 0, col := 0 } }

/-- Method `Parser.scan`. -/
def Parser.scan (p : Parser) : Option ((Token × List Char) × Parser) :=
  match p with
  | { s := s, line := line, col := col,
      buf := { tok := btok, lit := blit, n := n, line := bline, col := bcol } } =>
    if n ≠ 0 then
      some ((btok, blit), { s := s, line := line, col := col,
                            buf := { tok := btok, lit := blit, n := 0, line := bline, col := bcol } })
    else
      match s.Pos with
      | (l0, c0) =>
        match s.Scan with
        | none => none
        | some ((tok, lit), s1) =>
          match s1.Pos with
          | (l1, c1) =>
            some ((tok, lit), { s := s1, line := l1, col := c1,
                                buf := { tok := tok, lit := lit, n := n, line := l0, col := c0 } })

/-- Method `Parser.unscan`. -/
def Parser.unscan (p : Parser) : Parser :=
  match p with
  | { s := s, line := line, col := col,
      buf := { tok := btok, lit := blit, n := _, line := bline, col := bcol } } =>
    { s := s, line := line, col := col,
      buf := { tok := btok, lit := blit, n := 1, line := bline, col := bcol } }

/-- Method `Parser.Pos`. -/
def Parser.Pos (p : Parser) : Nat × Nat :=
  if p.buf.n ≠ 0 then (p.buf.line, p.buf.col) else (p.line, p.col)

/-- Method `Parser.PrevPos`. -/
def Parser.PrevPos (p : Parser) : Nat × Nat :=
  match p with
  | { s := _, line := _, col := _,
      buf := { tok := _, lit := _, n := _, line := bline, col := bcol } } => (bline, bcol)

/-- The `for` loop of `Parser.scanIgnoreWhitespaceComment`. -/
def Parser.scanIgnoreWhitespaceCommentLoop :
    Nat → Token → List Char → Parser → Option ((Token × List Char) × Parser)
  | 0, _, _, _ => none
  | n + 1, tok, lit, p =>
    if tok = TokenWhitespace ∨ tok = TokenComment then
      match p.scan with
      | none => none
      | some ((tok1, lit1), p1) => Parser.scanIgnoreWhitespaceCommentLoop n tok1 lit1 p1
    else some ((tok, lit), p)

/-- Method `Parser.scanIgnoreWhitespaceComment`. -/
def Parser.scanIgnoreWhitespaceComment (p : Parser) : Option ((Token × List Char) × Parser) :=
  match p.scan with
  | none => none
  | some ((tok, lit), p1) =>
    Parser.scanIgnoreWhitespaceCommentLoop (p1.s.rest.length + 2) tok lit p1

/-- Method `Parser.errUnexpected`. -/
def Parser.errUnexpected (p : Parser) (expected lit : List Char) : Error :=
  match p.PrevPos with
  | (l, c) => .unexpected lit expected l c

/-- Method `Parser.errIllegal`. -/
def Parser.errIllegal (p : Parser) (lit : List Char) : Error :=
  match p.PrevPos with
  | (l, c) => .illegal lit l c

/-- Method `Parser.err`. -/
def Parser.err (p : Parser) (err : Error) : Error :=
  match p.PrevPos with
  | (l, c) => .parse err l c

/-- Method `Parser.getToken`: the token, its literal and the error (`none` is nil). -/
def Parser.getToken (p : Parser) (types : List Token) :
    Option ((Token × List Char × Option Error) × Parser) :=
  match p.scanIgnoreWhitespaceComment with
  | none => none
  | some ((tok, lit), p1) =>
    if tok = TokenIllegal then some ((tok, lit, some (p1.errIllegal lit)), p1)
    else if tok ∈ types then some ((tok, lit, none), p1)
    else
      match p1.PrevPos with
      | (l, c) =>
        match types with
        | [t] => some ((tok, lit, some (.unexpected lit t.String l c)), p1)
        | _ =>
          some ((tok, lit,
            some (.unexpectedOneOf lit (List.intercalate ['|'] (types.map Token.String)) l c)),
            p1)

/-- The `for` loop of `Parser.parseArray`. -/
def Parser.parseArrayLoop :
    Nat → List (List Nat) → Parser → Option (Except Error (List (List Nat)) × Parser)
  | 0, _, _ => none
  | n + 1, vals, p =>
    match p.getToken [TokenRBracket, TokenString, TokenComma] with
    | none => none
    | some ((_, _, some err), p1) => some (.error err, p1)
    | some ((tok, lit, none), p1) =>
      if tok = TokenComma then Parser.parseArrayLoop n vals p1
      else if tok = TokenRBracket then some (.ok vals, p1)
      else
        match Unquote lit with
        | .error e => some (.error (p1.err e), p1)
        | .ok str => Parser.parseArrayLoop n (vals ++ [str]) p1

/-- Method `Parser.parseArray`. -/
def Parser.parseArray (p : Parser) : Option (Except Error (List (List Nat)) × Parser) :=
  match p.getToken [TokenLBracket] with
  | none => none
  | some ((_, _, some err), p1) => some (.error err, p1)
  | some ((_, _, none), p1) => Parser.parseArrayLoop (p1.s.rest.length + 1) [] p1

/-- Method `Parser.parseField`. -/
def Parser.parseField (p : Parser) : Option (Except Error Value × Parser) :=
  match p.getToken [TokenAssignment] with
  | none => none
  | some ((_, _, some err), p1) => some (.error err, p1)
  | some ((_, _, none), p1) =>
    match p1.getToken [TokenString, TokenNumber, TokenLBracket] with
    | none => none
    | some ((_, _, some err), p2) => some (.error err, p2)
    | some ((tok, lit, none), p2) =>
      if tok = TokenString then
        match Unquote lit with
        | .error e => some (.error e, p2)
        | .ok str => some (.ok (.str str), p2)
      else if tok = TokenLBracket then
        match p2.unscan.parseArray with
        | none => none
        | some (.error e, p3) => some (.error e, p3)
        | some (.ok vals, p3) => some (.ok (.strs vals), p3)
      else if tok = TokenNumber then
        if '.' ∈ lit then
          match ParseFloat lit with
          | .error e => some (.error e, p2)
          | .ok f => some (.ok (.float f), p2)
        else
          match ParseInt lit with
          | .error e => some (.error e, p2)
          | .ok i => some (.ok (.int i), p2)
      else some (.error (.panic ("unexpected token: ".toList ++ tok.String)), p2)

/-- The merge of lines 164 to 180 of `Parser.parsePluginFields`: the value to store
under `lit` when `field` has just been parsed, or the merge error. -/
def Parser.mergeField (p : Parser) (fields : PluginFields) (lit : List Char) (field : Value) :
    Except Error Value :=
  match fields.get lit with
  | none => .ok field
  | some (.strs strs) =>
    match field with
    | .str str => .ok (.strs (strs ++ [str]))
    | .strs strs2 => .ok (.strs (strs ++ strs2))
    | _ => .error (p.err (.newValue lit))
  | some _ => .error (p.err (.notArray lit))

/-- The `for` loop of `Parser.parsePluginFields`. -/
def Parser.parsePluginFieldsLoop :
    Nat → PluginFields → Parser → Option (Except Error PluginFields × Parser)
  | 0, _, _ => none
  | n + 1, fields, p =>
    match p.getToken [TokenIdentifier, TokenRCurlyBrace] with
    | none => none
    | some ((_, _, some err), p1) => some (.error err, p1)
    | some ((tok, lit, none), p1) =>
      if tok = TokenRCurlyBrace then some (.ok fields, p1)
      else
        match p1.parseField with
        | none => none
        | some (.error err, p2) => some (.error err, p2)
        | some (.ok field, p2) =>
          match p2.mergeField fields lit field with
          | .error err => some (.error err, p2)
          | .ok merged => Parser.parsePluginFieldsLoop n (fields.set lit merged) p2

/-- Method `Parser.parsePluginFields`. -/
def Parser.parsePluginFields (p : Parser) : Option (Except Error PluginFields × Parser) :=
  match p.getToken [TokenLCurlyBrace] with
  | none => none
  | some ((_, _, some err), p1) => some (.error err, p1)
  | some ((_, _, none), p1) => Parser.parsePluginFieldsLoop (p1.s.rest.length + 1) [] p1

/-- The `for` loop of `Parser.parseSectionBlock`. -/
def Parser.parseSectionBlockLoop :
    Nat → List PluginConfig → Parser → Option (Except Error (List PluginConfig) × Parser)
  | 0, _, _ => none
  | n + 1, cfgs, p =>
    match p.getToken [TokenIdentifier, TokenRCurlyBrace] with
    | none => none
    | some ((_, _, some err), p1) => some (.error err, p1)
    | some ((tok, lit, none), p1) =>
      if tok = TokenRCurlyBrace then some (.ok cfgs, p1)
      else
        match p1.parsePluginFields with
        | none => none
        | some (.error err, p2) => some (.error err, p2)
        | some (.ok fields, p2) =>
          Parser.parseSectionBlockLoop n (cfgs ++ [{ Name := lit, Fields := fields }]) p2

/-- Method `Parser.parseSectionBlock`. -/
def Parser.parseSectionBlock (p : Parser) : Option (Except Error (List PluginConfig) × Parser) :=
  match p.getToken [TokenLCurlyBrace] with
  | none => none
  | some ((_, _, some err), p1) => some (.error err, p1)
  | some ((_, _, none), p1) => Parser.parseSectionBlockLoop (p1.s.rest.length + 1) [] p1

/-- The `for` loop of `Parser.Parse`. -/
def Parser.ParseLoop : Nat → Config → Parser → Option (Except Error Config × Parser)
  | 0, _, _ => none
  | n + 1, cfg, p =>
    match p.getToken [TokenIdentifier] with
    | none => none
    | some ((tok, lit, err), p1) =>
      if tok = TokenEOF then some (.ok cfg, p1)
      else
        match err with
        | some e => some (.error e, p1)
        | none =>
          if lit ≠ "input".toList ∧ lit ≠ "output".toList ∧ lit ≠ "filter".toList then
            some (.error (p1.errUnexpected "input|output|filter".toList lit), p1)
          else
            match p1.parseSectionBlock with
            | none => none
            | some (.error e, p2) => some (.error e, p2)
            | some (.ok cfgs, p2) =>
              if lit = "input".toList then
                Parser.ParseLoop n { cfg with Input := cfg.Input ++ cfgs } p2
              else if lit = "filter".toList then
                Parser.ParseLoop n { cfg with Filter := cfg.Filter ++ cfgs } p2
              else if lit = "output".toList then
                Parser.ParseLoop n { cfg with Output := cfg.Output ++ cfgs } p2
              else Parser.ParseLoop n cfg p2

/-- Method `Parser.Parse`. -/
def Parser.Parse (p : Parser) : Option (Except Error Config × Parser) :=
  Parser.ParseLoop (p.s.rest.length + 1) { Input := [], Filter := [], Output := [] } p

/-- The call `NewParser(r).Parse()` on a reader that delivers `input`: the Config, or
the error. -/
def Parse (input : List Char) : Option (Except Error Config) :=
  (NewParser input).Parse.map (fun r => r.1)

/-! ## The scanner as a function of the unread input

`Scan` depends on the unread input only; `lex` is that dependency, and `Scan_lex` states
it. The position fields and the pushed-back rune do not influence the token. -/

/-- The characters the loop of `scanWhitespace` appends to its buffer, and the input it
leaves unread. -/
def wsRun : List Char → List Char × List Char
  | [] => ([], [])
  | c :: cs =>
    if c = eof then ([], cs)
    else if !isWhitespace c then ([], c :: cs)
    else (c :: (wsRun cs).1, (wsRun cs).2)

/-- The characters the loop of `scanIdentifier` appends, and the input it leaves. -/
def identRun : List Char → List Char × List Char
  | [] => ([], [])
  | c :: cs =>
    if c = eof then ([], cs)
    else if !isLetter c && !isDigit c && c ≠ '_' && c ≠ '@' && c ≠ '-' then ([], c :: cs)
    else (c :: (identRun cs).1, (identRun cs).2)

/-- The token kind the loop of `scanNumber` ends with, the characters it appends, and
the input it leaves. -/
def numRun : Bool → List Char → Token × List Char × List Char
  | _, [] => (TokenNumber, [], [])
  | hasDecimal, c :: cs =>
    if c = eof then (TokenNumber, [], cs)
    else if hasDecimal && c = '.' then (TokenIllegal, [], cs)
    else if isLetter c then (TokenIllegal, [], cs)
    else if !isDigit c then (TokenNumber, [], c :: cs)
    else
      ((numRun (if c = '.' then true else hasDecimal) cs).1,
        c :: (numRun (if c = '.' then true else hasDecimal) cs).2.1,
        (numRun (if c = '.' then true else hasDecimal) cs).2.2)

/-- The characters the loop of `scanComment` appends, and the input it leaves. -/
def commentRun : List Char → List Char × List Char
  | [] => ([], [])
  | c :: cs =>
    if c = eof then ([], cs)
    else if c = '\n' then ([], c :: cs)
    else (c :: (commentRun cs).1, (commentRun cs).2)

/-- Whether the loop of `scanSequence` reaches the closing delimiter, the characters it
appends, and the input it leaves. -/
def seqRun (delim : Char) (newline : Bool) : Bool → List Char → Bool × List Char × List Char
  | _, [] => (false, [], [])
  | escaped, c :: cs =>
    if c = eof then (false, [], cs)
    else if !newline && c = '\n' then (false, [], cs)
    else if !escaped && c = delim then (true, [], cs)
    else
      ((seqRun delim newline (!escaped && c = '\\') cs).1,
        c :: (seqRun delim newline (!escaped && c = '\\') cs).2.1,
        (seqRun delim newline (!escaped && c = '\\') cs).2.2)

/-- What `scanOperator` returns when it reads `ch` and then finds `cs`: the token and the
input left unread. -/
def lexOperator (ch : Char) (cs : List Char) : (Token × List Char) × List Char :=
  if ch = '=' then
    if cs.headD eof = '~' then ((TokenEqRegex, "=~".toList), cs.tail)
    else if cs.headD eof = '=' then ((TokenEq, "==".toList), cs.tail)
    else if cs.headD eof = '>' then ((TokenAssignment, "=>".toList), cs.tail)
    else ((TokenIllegal, [ch, cs.headD eof]), cs.tail)
  else if ch = '!' then
    if cs.headD eof = '=' then ((TokenNEq, "!=".toList), cs.tail)
    else if cs.headD eof = '~' then ((TokenNEqRegex, "!~".toList), cs.tail)
    else ((TokenNegate, "!".toList), cs)
  else if ch = '>' then
    if cs.headD eof = '=' then ((TokenGTE, ">=".toList), cs.tail)
    else ((TokenGT, ">".toList), cs)
  else if ch = '<' then
    if cs.headD eof = '=' then ((TokenLTE, ">=".toList), cs.tail)
    else ((TokenLT, ">".toList), cs)
  else ((TokenIllegal, [ch]), cs)

/-- What `Scan` returns on a given unread input, as a function of that input alone: the
token, its literal, and the input left unread. -/
def lex : List Char → (Token × List Char) × List Char
  | [] => ((TokenEOF, []), [])
  | c :: cs =>
    if isWhitespace c then ((TokenWhitespace, c :: (wsRun cs).1), (wsRun cs).2)
    else if isLetter c || c = '@' then
      ((keywordToken (c :: (identRun cs).1), c :: (identRun cs).1), (identRun cs).2)
    else if isOperator c then lexOperator c cs
    else if isDigit c then
      (((numRun false cs).1, c :: (numRun false cs).2.1), (numRun false cs).2.2)
    else if c = eof then ((TokenEOF, []), cs)
    else if c = '{' then ((TokenLCurlyBrace, [c]), cs)
    else if c = '(' then ((TokenLParen, [c]), cs)
    else if c = '[' then ((TokenLBracket, [c]), cs)
    else if c = '}' then ((TokenRCurlyBrace, [c]), cs)
    else if c = ')' then ((TokenRParen, [c]), cs)
    else if c = ']' then ((TokenRBracket, [c]), cs)
    else if c = ',' then ((TokenComma, [c]), cs)
    else if c = '#' then
      ((TokenComment, cs.headD eof :: (commentRun cs.tail).1), (commentRun cs.tail).2)
    else if c = '/' then
      ((if (seqRun '/' false false cs).1 then TokenRegex else TokenIllegal,
        (seqRun '/' false false cs).2.1), (seqRun '/' false false cs).2.2)
    else if c = '"' then
      ((if (seqRun '"' true false cs).1 then TokenString else TokenIllegal,
        '"' :: ((seqRun '"' true false cs).2.1 ++ ['"'])), (seqRun '"' true false cs).2.2)
    else ((TokenIllegal, [c]), cs)

/-- The escape flag of `scanSequence` after it has read `body`, starting from `esc`. -/
def escapedAfter : Bool → List Char → Bool
  | esc, [] => esc
  | esc, c :: cs => escapedAfter (!esc && decide (c = '\\')) cs

/-- Every occurrence of `delim` in `body` is read while the escape flag of `scanSequence`
is set (the flag is `esc` at the start). -/
def delimsEscaped (delim : Char) : Bool → List Char → Bool
  | _, [] => true
  | esc, c :: cs => (decide (c ≠ delim) || esc) && delimsEscaped delim (!esc && decide (c = '\\')) cs

/-- The parser state after `getToken types` on `p` (the state `p` itself when the loop
bound is exhausted). -/
def Parser.afterToken (p : Parser) (types : List Token) : Parser :=
  match p.getToken types with
  | some (_, p1) => p1
  | none => p

/-- The parser state after `parseField` on `p`. -/
def Parser.afterField (p : Parser) : Parser :=
  match p.parseField with
  | some (_, p1) => p1
  | none => p

/-- A parser at the start of `f => "y" }`, inside a plugin block. -/
def exampleAtFieldY : Parser := NewParser "f => \"y\" \x7d".toList

/-- A parser at the start of `tags => "b" }`, inside a plugin block. -/
def exampleAtTagsB : Parser := NewParser "tags => \"b\" \x7d".toList

/-- The loop of `scanIgnoreWhitespaceComment` as a function of the unread input: skip
Whitespace and Comment tokens, at most `n` of them. -/
def sigLoop : Nat → List Char → (Token × List Char) × List Char
  | 0, X => lex X
  | n + 1, X =>
    if (lex X).1.1 = TokenWhitespace ∨ (lex X).1.1 = TokenComment then sigLoop n (lex X).2
    else lex X

/-- The next significant token of the unread input `X`, its literal, and the input left
unread: what `scanIgnoreWhitespaceComment` returns when no token is pushed back. -/
def sig (X : List Char) : (Token × List Char) × List Char := sigLoop X.length X

/-- What a parser state records after it has fetched the token `tok` with literal `lit`
and left `Y` unread. -/
def Parser.Holds (p : Parser) (tok : Token) (lit : List Char) (Y : List Char) : Prop :=
  p.buf.n = 0 ∧ p.buf.tok = tok ∧ p.buf.lit = lit ∧ p.s.rest = Y

/-- A character an identifier may start with: a letter or `@`. -/
def isIdentStart (c : Char) : Bool := isLetter c || decide (c = '@')

/-- A character an identifier may go on with: a letter, a digit, `_`, `@` or `-`. -/
def isIdentChar (c : Char) : Bool :=
  isLetter c || isDigit c || decide (c = '_') || decide (c = '@') || decide (c = '-')

/-- The keywords of `scanIdentifier`. -/
def keywords : List (List Char) :=
  ["and".toList, "or".toList, "nand".toList, "xor".toList, "if".toList, "else".toList,
   "not".toList, "in".toList]

/-- An identifier that is not a keyword. -/
def isIdentifier (s : List Char) : Bool :=
  match s with
  | [] => false
  | c :: cs => isIdentStart c && cs.all isIdentChar && !(keywords.contains s)

/-- A text that can be written between double quotes as it is: no `"`, no
backslash, no newline, no NUL. -/
def isPlainString (s : List Char) : Bool :=
  s.all (fun c => decide (c ≠ '"') && decide (c ≠ '\\') && decide (c ≠ '\n') && decide (c ≠ eof))

/-- The function `utf8.DecodeRune` on a string given as its bytes: the first rune and
the number of bytes it takes. A byte that does not start a well-formed encoding
(a continuation byte, an overlong form, a surrogate, a value above U+10FFFF, a
truncated sequence) is U+FFFD of width 1. -/
def DecodeRune : List Nat → Nat × Nat
  | [] => (0xFFFD, 0)
  | b0 :: t =>
    if b0 < 0x80 then (b0, 1)
    else if 0xC2 ≤ b0 ∧ b0 ≤ 0xDF then
      match t with
      | b1 :: _ =>
        if 0x80 ≤ b1 ∧ b1 ≤ 0xBF then ((b0 - 0xC0) * 64 + (b1 - 0x80), 2) else (0xFFFD, 1)
      | _ => (0xFFFD, 1)
    else if 0xE0 ≤ b0 ∧ b0 ≤ 0xEF then
      match t with
      | b1 :: b2 :: _ =>
        if (if b0 = 0xE0 then 0xA0 else 0x80) ≤ b1 ∧ b1 ≤ (if b0 = 0xED then 0x9F else 0xBF)
            ∧ 0x80 ≤ b2 ∧ b2 ≤ 0xBF then
          ((b0 - 0xE0) * 4096 + (b1 - 0x80) * 64 + (b2 - 0x80), 3)
        else (0xFFFD, 1)
      | _ => (0xFFFD, 1)
    else if 0xF0 ≤ b0 ∧ b0 ≤ 0xF4 then
      match t with
      | b1 :: b2 :: b3 :: _ =>
        if (if b0 = 0xF0 then 0x90 else 0x80) ≤ b1 ∧ b1 ≤ (if b0 = 0xF4 then 0x8F else 0xBF)
            ∧ 0x80 ≤ b2 ∧ b2 ≤ 0xBF ∧ 0x80 ≤ b3 ∧ b3 ≤ 0xBF then
          ((b0 - 0xF0) * 262144 + (b1 - 0x80) * 4096 + (b2 - 0x80) * 64 + (b3 - 0x80), 4)
        else (0xFFFD, 1)
      | _ => (0xFFFD, 1)
    else (0xFFFD, 1)

/-- The runes of a string given as its bytes, one `DecodeRune` after the other (a Go
`range` loop over the string). `skip` counts the bytes that the last `DecodeRune` has
taken and that are still to be passed over. -/
def decodeRunes : Nat → List Nat → List Char
  | _, [] => []
  | skip + 1, _ :: t => decodeRunes skip t
  | 0, b :: t =>
    Char.ofNat (DecodeRune (b :: t)).1 :: decodeRunes ((DecodeRune (b :: t)).2 - 1) t

/-- The text of a string value: its runes. -/
def textOf (b : List Nat) : List Char := decodeRunes 0 b

/-- A string value that can be written between double quotes as it is: its bytes are the
UTF-8 of a text without `"`, backslash, newline and NUL. -/
def isPlainValue (b : List Nat) : Bool :=
  isPlainString (textOf b) && decide (utf8Bytes (textOf b) = b)

/-- A separator between tokens: one or more spaces, tabs or newlines, the characters of
`isWhitespace`. -/
def isSeparator (sep : List Char) : Bool :=
  !sep.isEmpty && sep.all (fun c => decide (c = ' ') || decide (c = '\t') || decide (c = '\n'))

/-- The number a string of decimal digits denotes. -/
def decimalValue (s : List Char) : Nat :=
  s.foldl (fun n c => n * 10 + (c.toNat - 48)) 0

/-- A text written between double quotes. -/
def quoted (s : List Char) : List Char := '"' :: (s ++ ['"'])

/-- The elements of an array, each in double quotes, separated by a comma and `sep`, the
last one followed by `sep`. -/
def renderElems (sep : List Char) : List (List Char) → List Char
  | [] => []
  | [a] => quoted a ++ sep
  | a :: b :: t => quoted a ++ ',' :: (sep ++ renderElems sep (b :: t))

/-- A field value as it is written in a configuration: a string in double quotes, an
integer in decimal, an array as `[ "a", "b" ]`. -/
def renderValue (sep : List Char) : Value → List Char
  | .str s => quoted (textOf s)
  | .int n => fmtInt n.toNat
  | .float lit => lit
  | .strs xs => '[' :: (sep ++ (renderElems sep (xs.map textOf) ++ [']']))

/-- The fields of a plugin, each as `name => value`, tokens separated by `sep`. -/
def renderFields (sep : List Char) : PluginFields → List Char
  | [] => []
  | (k, v) :: t =>
    k ++ (sep ++ ('=' :: '>' :: (sep ++ (renderValue sep v ++ (sep ++ renderFields sep t)))))

/-- The plugins of a section, each as `name { fields }`, tokens separated by `sep`. -/
def renderPlugins (sep : List Char) : List PluginConfig → List Char
  | [] => []
  | p :: t =>
    p.Name ++ (sep ++ ('{' :: (sep ++ (renderFields sep p.Fields ++ ('}' :: (sep
      ++ renderPlugins sep t))))))

/-- A section as `keyword { plugins }`, tokens separated by `sep`. -/
def renderSection (sep : List Char) (kw : List Char) (ps : List PluginConfig) : List Char :=
  kw ++ (sep ++ ('{' :: (sep ++ (renderPlugins sep ps ++ ['}']))))

/-- The text of a Config: `input { ... } filter { ... } output { ... }`, tokens separated
by `sep`. -/
def render (sep : List Char) (cfg : Config) : List Char :=
  renderSection sep "input".toList cfg.Input ++ (sep
    ++ (renderSection sep "filter".toList cfg.Filter ++ (sep
      ++ renderSection sep "output".toList cfg.Output)))

/-- A value the round trip covers: a plain string (the UTF-8 of a text without `"`,
backslash, newline and NUL), an integer of 0 to 2^63 - 1, or a list of plain strings. -/
def valueOk : Value → Bool
  | .str s => isPlainValue s
  | .int n => decide (0 ≤ n) && decide (n ≤ 2 ^ 63 - 1)
  | .float _ => false
  | .strs xs => xs.all isPlainValue

/-- Field names are identifiers, distinct within the plugin, and the values are covered. -/
def fieldsOk (fs : PluginFields) : Bool :=
  fs.all (fun kv => isIdentifier kv.1 && valueOk kv.2) && decide (fs.map Prod.fst).Nodup

/-- The plugin name is an identifier and the fields are covered. -/
def pluginOk (p : PluginConfig) : Bool := isIdentifier p.Name && fieldsOk p.Fields

/-- Every plugin of every section is covered. -/
def configOk (cfg : Config) : Bool :=
  cfg.Input.all pluginOk && cfg.Filter.all pluginOk && cfg.Output.all pluginOk

/-- The constant `exampleLogstashConfig` of parser_test.go. -/
def exampleLogstashConfig : List Char :=
  ("\ninput \x7b\n  stdin \x7b\n    codec => \"json_lines\"\n    type => \"stdin\"\n"
    ++ "    tags => [ \"\x7b\x7b ansible_hostname \x7d\x7d\" ]\n\n    tags => \"hi\"\n"
    ++ "    tags=>[\"a\"]\n\n  \x7d\n\x7d\nfilter \x7b\n  mutate \x7b\n"
    ++ "    gsub => [ \"__REALTIME_TIMESTAMP\", \".\x7b3\x7d$\", \"\" ]\n"
    ++ "    rename => [ \"MESSAGE\", \"message\" ]\n  \x7d\n\n    json \x7b\n"
    ++ "      source => \"message\"\n      add_tag => [ \"json\" ]\n    \x7d\n  \n  date \x7b\n"
    ++ "    match => [ \"__REALTIME_TIMESTAMP\", \"UNIX_MS\"]\n    timezone => \"UTC\"\n  \x7d\n"
    ++ "\x7d\noutput \x7b\n  elasticsearch_http \x7b\n"
    ++ "    host => \"\x7b\x7b elastic_host \x7d\x7d\"\n"
    ++ "    index => \"journald-%\x7b+YYYY.MM.dd\x7d\"\n    port => 9200\n"
    ++ "    document_id => \"%\x7b__CURSOR\x7d\"\n  \x7d\n\x7d\n").toList

/-- The `switch` at the end of the loop of `Parse`: the Config after the plugins `cfgs`
of a section with keyword `lit` have been appended. -/
def addSection (cfg : Config) (lit : List Char) (cfgs : List PluginConfig) : Config :=
  if lit = "input".toList then { cfg with Input := cfg.Input ++ cfgs }
  else if lit = "filter".toList then { cfg with Filter := cfg.Filter ++ cfgs }
  else if lit = "output".toList then { cfg with Output := cfg.Output ++ cfgs }
  else cfg

/-- A small Config with a string, an integer and an array field. -/
def exampleConfig : Config :=
  { Input := [{ Name := "stdin".toList,
                Fields := [("codec".toList, .str (utf8Bytes "json_lines".toList)),
                           ("tags".toList,
                             .strs [utf8Bytes "a".toList, utf8Bytes "b c".toList])] }],
    Filter := [],
    Output := [{ Name := "elasticsearch_http".toList,
                 Fields := [("port".toList, .int 9200), ("@meta-x_1".toList, .strs [])] }] }

/-- The text `input { p { f => d } }` with the field value `d`, tokens separated by
`sep`. -/
def oneFieldText (sep d : List Char) : List Char :=
  "input".toList ++ (sep ++ ('{' :: (sep ++ ('p' :: (sep ++ ('{' :: (sep ++ ('f' :: (sep
    ++ ('=' :: '>' :: (sep ++ (d ++ (sep ++ ('}' :: (sep ++ ['}'])))))))))))))))

/-- The Config with the single input plugin `p` and its single field `f` of value `v`. -/
def oneFieldConfig (v : Value) : Config :=
  { Input := [{ Name := ['p'], Fields := [(['f'], v)] }], Filter := [], Output := [] }

/-- The parser state `q` is the parser state `p` with `B` appended to the input that is
still unread: the pushed-back token is the same. -/
def Parser.Ext (B : List Char) (p q : Parser) : Prop :=
  q.buf.n = p.buf.n ∧ q.buf.tok = p.buf.tok ∧ q.buf.lit = p.buf.lit ∧ q.s.rest = p.s.rest ++ B

/-- The Config whose three sequences are those of `c` followed by those of `d`. -/
def Config.append (c d : Config) : Config :=
  { Input := c.Input ++ d.Input, Filter := c.Filter ++ d.Filter, Output := c.Output ++ d.Output }

/-- An item between the brackets of an array: a comma, or a string literal given by its
body, the text between its quotes. -/
inductive ArrayItem
  | comma
  | string (body : List Char)
  deriving DecidableEq, Repr

/-- The text of a sequence of array items, each written after the whitespace that is
given with it (which may be empty). -/
def arrayText : List (List Char × ArrayItem) → List Char
  | [] => []
  | (W, .comma) :: t => W ++ ',' :: arrayText t
  | (W, .string body) :: t => W ++ (quoted body ++ arrayText t)

/-- The body of a string literal that `Scan` returns as a String token: it holds no NUL,
every `"` in it is escaped, and no escape is pending at its end. -/
def isStringBody (body : List Char) : Bool :=
  decide (eof ∉ body) && delimsEscaped '"' false body && !escapedAfter false body

/-- Every item is written after whitespace only, and every string item is the body of a
string literal. -/
def itemsOk (items : List (List Char × ArrayItem)) : Bool :=
  items.all (fun it => it.1.all isWhitespace
    && match it.2 with
       | .comma => true
       | .string body => isStringBody body)

/-- The strings of a sequence of array items, unquoted, in order; `none` when
`strconv.Unquote` rejects one of them. -/
def arrayValues : List (List Char × ArrayItem) → Option (List (List Nat))
  | [] => some []
  | (_, .comma) :: t => arrayValues t
  | (_, .string body) :: t =>
    match Unquote (quoted body) with
    | .error _ => none
    | .ok v =>
      match arrayValues t with
      | none => none
      | some vs => some (v :: vs)

/-- The length of the maximal run of backslashes at the end of `l`. -/
def trailingBackslashes (l : List Char) : Nat :=
  (l.reverse.takeWhile (fun c => c = '\\')).length

/-- Every `"` of `cs`, the text that follows `pre`, is immediately preceded by a maximal
run of backslashes of odd length. -/
def quotesOddAfter (pre : List Char) : List Char → Bool
  | [] => true
  | c :: cs =>
    (decide (c ≠ '"') || decide (trailingBackslashes pre % 2 = 1))
      && quotesOddAfter (pre ++ [c]) cs

/-- Every `"` of `body` is immediately preceded by a maximal run of backslashes of odd
length. -/
def quotesOdd (body : List Char) : Bool := quotesOddAfter [] body

/-- The position fields after `ReadRune` has delivered the rune `c`, from the fields
`pos` before it: the update of lines 23 to 28 of lexer.go. -/
def advance1 (pos : Nat × Nat) (c : Char) : Nat × Nat :=
  match pos with
  | (line, col) => if c = '\n' then (line + 1, 1) else (line, col + 1)

/-- The position fields after the runes `cs` have been read, one `ReadRune` each. -/
def advance (pos : Nat × Nat) : List Char → Nat × Nat
  | [] => pos
  | c :: cs => advance (advance1 pos c) cs

/-- The tracker after `n` calls of `ReadRune`. -/
def positionTracker.readN : Nat → positionTracker → positionTracker
  | 0, p => p
  | n + 1, p =>
    match p.ReadRune with
    | (_, p1) => positionTracker.readN n p1

/-- The number of characters of `p` after its last newline (all of `p` when it has
none). -/
def afterLastNewline (p : List Char) : Nat :=
  (p.reverse.takeWhile (fun c => c ≠ '\n')).length

/-- The operator spellings, each with the token kind and the literal that `scanOperator`
returns for it (read off the `return` statements of lines 78 to 116 of lexer.go). -/
def operatorTable : List (List Char × Token × List Char) :=
  [("=~".toList, TokenEqRegex, "=~".toList), ("==".toList, TokenEq, "==".toList),
   ("=>".toList, TokenAssignment, "=>".toList), ("!=".toList, TokenNEq, "!=".toList),
   ("!~".toList, TokenNEqRegex, "!~".toList), (">=".toList, TokenGTE, ">=".toList),
   ("<=".toList, TokenLTE, ">=".toList), ("!".toList, TokenNegate, "!".toList),
   ("<".toList, TokenLT, ">".toList), (">".toList, TokenGT, ">".toList)]

/-- The scanner state `s` is in step with the whole input `X`: either a read has failed
(nothing is left unread and nothing can be pushed back), or the text read so far is a
part `pre` of `X` with the unread input behind it, `Pos()` is the position after reading
`pre`, and the rune that can be pushed back is the last one of `pre`, with the position
before it recorded. -/
def Scanner.Tracks (X : List Char) (s : Scanner) : Prop :=
  (s.rest = [] ∧ s.r.RuneScanner.last = none)
  ∨ ∃ pre, X = pre ++ s.rest ∧ s.Pos = advance (1, 0) pre
      ∧ ∀ c, s.r.RuneScanner.last = some c →
          ∃ pre0, pre = pre0 ++ [c] ∧ (s.r.lastLine, s.r.lastCol) = advance (1, 0) pre0

/-- The token in the buffer of `p` was scanned at a place of the input `X`: `X` is `pre`
followed by `Y0`, the token and its literal are what `Scan` returns on `Y0`, and the
recorded position is the position after reading `pre` (when `Y0` is not empty). -/
def Parser.BufAt (X : List Char) (p : Parser) : Prop :=
  ∃ pre Y0, X = pre ++ Y0 ∧ (lex Y0).1 = (p.buf.tok, p.buf.lit)
    ∧ (Y0 ≠ [] → (p.buf.line, p.buf.col) = advance (1, 0) pre)

/-- The error `e`, when it is an `illegal token` or `unexpected token` error, names a
significant token of the input `X` and the position after reading the text `pre` before
that token (when the token is not the end of the input). -/
def Error.At (X : List Char) (e : Logstash.Error) : Prop :=
  ∀ lit l c, (e = .illegal lit l c ∨ (∃ ex, e = .unexpected lit ex l c)
      ∨ (∃ ex, e = .unexpectedOneOf lit ex l c)) →
    ∃ pre Y0 tok, X = pre ++ Y0 ∧ (lex Y0).1 = (tok, lit) ∧ tok ≠ TokenWhitespace
      ∧ tok ≠ TokenComment ∧ (Y0 ≠ [] → (l, c) = advance (1, 0) pre)

/-- The sections of a configuration one after the other, each written as
`keyword { plugins }` and followed by `sep`. -/
def renderSections (sep : List Char) : List (List Char × List PluginConfig) → List Char
  | [] => []
  | (kw, ps) :: t => renderSection sep kw ps ++ (sep ++ renderSections sep t)

/-- One of the three section keywords `input`, `filter`, `output`. -/
def isSectionKeyword (kw : List Char) : Bool :=
  decide (kw = "input".toList) || decide (kw = "filter".toList) || decide (kw = "output".toList)

/-- The error of the merge of lines 164 to 180 of `Parser.parsePluginFields` when the
stored value `old` and the new value do not go together, before `p.err` adds the
position: a stored `[]string` refuses a new value that is no string and no `[]string`,
any other stored value refuses every new value. -/
def mergeConflict (old : Value) (lit : List Char) : Error :=
  match old with
  | .strs _ => .newValue lit
  | _ => .notArray lit

/-- A configuration text up to and including a second assignment of the field `lit`: the
complete sections `secs`, then the section `kw` with the complete plugins `ps`, then the
plugin `name` with the fields `fs` (among them `lit`), then `lit => v`, and after a
separator any text `R`. -/
def reassignText (sep : List Char) (secs : List (List Char × List PluginConfig))
    (kw : List Char) (ps : List PluginConfig) (name : List Char) (fs : PluginFields)
    (lit : List Char) (v : Value) (R : List Char) : List Char :=
  renderSections sep secs ++ (kw ++ (sep ++ ('{' :: (sep ++ (renderPlugins sep ps
    ++ (name ++ (sep ++ ('{' :: (sep ++ (renderFields sep fs ++ (lit ++ (sep
      ++ ('=' :: '>' :: (sep ++ (renderValue sep v ++ (sep ++ R))))))))))))))))

/-! ## Lemmas: the scanner -/

theorem read_cons (c : Char) (cs : List Char) (last : Option Char) (l k ll lk : Nat) :
    Scanner.read ⟨⟨⟨c :: cs, last⟩, l, k, ll, lk⟩⟩
      = (c, ⟨⟨⟨cs, some c⟩, if c = '\n' then l + 1 else l, if c = '\n' then 1 else k + 1, l, k⟩⟩) := by
  by_cases h : c = '\n' <;> simp [Scanner.read, positionTracker.ReadRune, RuneScanner.ReadRune, h]

theorem read_nil (last : Option Char) (l k ll lk : Nat) :
    Scanner.read ⟨⟨⟨[], last⟩, l, k, ll, lk⟩⟩ = (eof, ⟨⟨⟨[], none⟩, l, k + 1, l, k⟩⟩) := by
  simp [Scanner.read, positionTracker.ReadRune, RuneScanner.ReadRune]

theorem unread_some (c : Char) (cs : List Char) (l k ll lk : Nat) :
    Scanner.unread ⟨⟨⟨cs, some c⟩, l, k, ll, lk⟩⟩ = ⟨⟨⟨c :: cs, none⟩, ll, lk, ll, lk⟩⟩ := by
  simp [Scanner.unread, positionTracker.UnreadRune, RuneScanner.UnreadRune]

theorem unread_none (cs : List Char) (l k ll lk : Nat) :
    Scanner.unread ⟨⟨⟨cs, none⟩, l, k, ll, lk⟩⟩ = ⟨⟨⟨cs, none⟩, l, k, ll, lk⟩⟩ := by
  simp [Scanner.unread, positionTracker.UnreadRune, RuneScanner.UnreadRune]

@[simp] theorem rest_mk (cs : List Char) (last : Option Char) (l k ll lk : Nat) :
    Scanner.rest ⟨⟨⟨cs, last⟩, l, k, ll, lk⟩⟩ = cs := rfl

theorem scanWhitespaceLoop_eq (rest : List Char) :
    ∀ (n : Nat) (buf : List Char) (last : Option Char) (l k ll lk : Nat), rest.length < n →
      ∃ s1, Scanner.scanWhitespaceLoop n buf ⟨⟨⟨rest, last⟩, l, k, ll, lk⟩⟩
          = some ((TokenWhitespace, buf ++ (wsRun rest).1), s1) ∧ s1.rest = (wsRun rest).2 := by
  induction rest with
  | nil =>
    intro n buf last l k ll lk h
    cases n with
    | zero => simp at h
    | succ n => simp [Scanner.scanWhitespaceLoop, read_nil, wsRun]
  | cons c cs ih =>
    intro n buf last l k ll lk h
    cases n with
    | zero => simp at h
    | succ n =>
      simp only [List.length_cons, Nat.add_lt_add_iff_right] at h
      simp only [Scanner.scanWhitespaceLoop, read_cons, wsRun]
      by_cases h1 : c = eof
      · simp [h1]
      · by_cases h2 : isWhitespace c
        · simp only [h1, h2, if_false, Bool.not_true, Bool.false_eq_true]
          obtain ⟨s1, e1, e2⟩ := ih n (buf ++ [c]) (some c) _ _ l k h
          exact ⟨s1, by simpa using e1, e2⟩
        · simp [h1, h2, unread_some]

theorem scanIdentifierLoop_eq (rest : List Char) :
    ∀ (n : Nat) (buf : List Char) (last : Option Char) (l k ll lk : Nat), rest.length < n →
      ∃ s1, Scanner.scanIdentifierLoop n buf ⟨⟨⟨rest, last⟩, l, k, ll, lk⟩⟩
          = some (buf ++ (identRun rest).1, s1) ∧ s1.rest = (identRun rest).2 := by
  induction rest with
  | nil =>
    intro n buf last l k ll lk h
    cases n with
    | zero => simp at h
    | succ n => simp [Scanner.scanIdentifierLoop, read_nil, identRun]
  | cons c cs ih =>
    intro n buf last l k ll lk h
    cases n with
    | zero => simp at h
    | succ n =>
      simp only [List.length_cons, Nat.add_lt_add_iff_right] at h
      simp only [Scanner.scanIdentifierLoop, read_cons, identRun]
      by_cases h1 : c = eof
      · simp [h1]
      · by_cases h2 : (!isLetter c && !isDigit c && c ≠ '_' && c ≠ '@' && c ≠ '-') = true
        · simp only [h1, h2, if_false, if_true]
          simp [unread_some]
        · simp only [h1, h2, if_false]
          obtain ⟨s1, e1, e2⟩ := ih n (buf ++ [c]) (some c) _ _ l k h
          exact ⟨s1, by simpa using e1, e2⟩

theorem scanCommentLoop_eq (rest : List Char) :
    ∀ (n : Nat) (buf : List Char) (last : Option Char) (l k ll lk : Nat), rest.length < n →
      ∃ s1, Scanner.scanCommentLoop n buf ⟨⟨⟨rest, last⟩, l, k, ll, lk⟩⟩
          = some ((TokenComment, buf ++ (commentRun rest).1), s1)
        ∧ s1.rest = (commentRun rest).2 := by
  induction rest with
  | nil =>
    intro n buf last l k ll lk h
    cases n with
    | zero => simp at h
    | succ n => simp [Scanner.scanCommentLoop, read_nil, commentRun]
  | cons c cs ih =>
    intro n buf last l k ll lk h
    cases n with
    | zero => simp at h
    | succ n =>
      simp only [List.length_cons, Nat.add_lt_add_iff_right] at h
      simp only [Scanner.scanCommentLoop, read_cons, commentRun]
      by_cases h1 : c = eof
      · simp [h1]
      · by_cases h2 : c = '\n'
        · subst h2
          simp [show ¬ ('\n' = eof) from by decide, unread_some]
        · simp only [h1, h2, if_false]
          obtain ⟨s1, e1, e2⟩ := ih n (buf ++ [c]) (some c) _ _ l k h
          exact ⟨s1, by simpa using e1, e2⟩

theorem scanNumberLoop_eq (rest : List Char) :
    ∀ (n : Nat) (buf : List Char) (hd : Bool) (last : Option Char) (l k ll lk : Nat),
      rest.length < n →
      ∃ s1, Scanner.scanNumberLoop n buf hd ⟨⟨⟨rest, last⟩, l, k, ll, lk⟩⟩
          = some (((numRun hd rest).1, buf ++ (numRun hd rest).2.1), s1)
        ∧ s1.rest = (numRun hd rest).2.2 := by
  induction rest with
  | nil =>
    intro n buf hd last l k ll lk h
    cases n with
    | zero => simp at h
    | succ n => simp [Scanner.scanNumberLoop, read_nil, numRun]
  | cons c cs ih =>
    intro n buf hd last l k ll lk h
    cases n with
    | zero => simp at h
    | succ n =>
      simp only [List.length_cons, Nat.add_lt_add_iff_right] at h
      simp only [Scanner.scanNumberLoop, read_cons, numRun]
      by_cases h1 : c = eof
      · simp [h1]
      · by_cases h2 : (hd && decide (c = '.')) = true
        · simp [h1, h2]
        · by_cases h3 : isLetter c = true
          · simp [h1, h2, h3]
          · by_cases h4 : isDigit c = true
            · simp only [h1, h2, h3, h4, if_false, Bool.not_true, Bool.false_eq_true]
              by_cases h5 : c = '.'
              · simp only [h5, if_true]
                obtain ⟨s1, e1, e2⟩ := ih n (buf ++ ['.']) true (some '.') _ _ l k h
                exact ⟨s1, by simpa using e1, e2⟩
              · simp only [h5, if_false]
                obtain ⟨s1, e1, e2⟩ := ih n (buf ++ [c]) hd (some c) _ _ l k h
                exact ⟨s1, by simpa using e1, e2⟩
            · simp [h1, h2, h3, h4, unread_some]

theorem scanSequenceLoop_eq (tokenType : Token) (delim : Char) (newline : Bool)
    (rest : List Char) :
    ∀ (n : Nat) (buf : List Char) (esc : Bool) (last : Option Char) (l k ll lk : Nat),
      rest.length < n →
      ∃ s1, Scanner.scanSequenceLoop tokenType delim newline n buf esc ⟨⟨⟨rest, last⟩, l, k, ll, lk⟩⟩
          = some ((if (seqRun delim newline esc rest).1 then tokenType else TokenIllegal,
              buf ++ (seqRun delim newline esc rest).2.1), s1)
        ∧ s1.rest = (seqRun delim newline esc rest).2.2 := by
  induction rest with
  | nil =>
    intro n buf esc last l k ll lk h
    cases n with
    | zero => simp at h
    | succ n => simp [Scanner.scanSequenceLoop, read_nil, seqRun]
  | cons c cs ih =>
    intro n buf esc last l k ll lk h
    cases n with
    | zero => simp at h
    | succ n =>
      simp only [List.length_cons, Nat.add_lt_add_iff_right] at h
      simp only [Scanner.scanSequenceLoop, read_cons, seqRun]
      by_cases h1 : c = eof
      · simp [h1]
      · by_cases h2 : (!newline && decide (c = '\n')) = true
        · simp [h1, h2]
        · by_cases h3 : (!esc && decide (c = delim)) = true
          · simp [h1, h2, h3]
          · simp only [h1, h2, h3, if_false, Bool.false_eq_true]
            cases h4 : (!esc && decide (c = '\\'))
            · simp only [if_false, Bool.false_eq_true]
              obtain ⟨s1, e1, e2⟩ := ih n (buf ++ [c]) false (some c) _ _ l k h
              exact ⟨s1, by simpa using e1, e2⟩
            · simp only [if_true]
              obtain ⟨s1, e1, e2⟩ := ih n (buf ++ [c]) true (some c) _ _ l k h
              exact ⟨s1, by simpa using e1, e2⟩

theorem read_headD (cs : List Char) (last : Option Char) (l k ll lk : Nat) :
    ∃ s2, Scanner.read ⟨⟨⟨cs, last⟩, l, k, ll, lk⟩⟩ = (cs.headD eof, s2) ∧ s2.rest = cs.tail
      ∧ s2.unread.rest = cs := by
  cases cs with
  | nil => exact ⟨_, read_nil _ _ _ _ _, rfl, by simp [unread_none]⟩
  | cons d ds => exact ⟨_, read_cons _ _ _ _ _ _ _, rfl, by simp [unread_some]⟩

theorem scanOperator_eq (c : Char) (cs : List Char) (last : Option Char) (l k ll lk : Nat) :
    ∃ s1, Scanner.scanOperator ⟨⟨⟨c :: cs, last⟩, l, k, ll, lk⟩⟩ = ((lexOperator c cs).1, s1)
      ∧ s1.rest = (lexOperator c cs).2 := by
  obtain ⟨s2, e1, e2, e3⟩ := read_headD cs (some c) (if c = '\n' then l + 1 else l)
    (if c = '\n' then 1 else k + 1) l k
  simp only [Scanner.scanOperator, read_cons, e1, lexOperator]
  generalize cs.headD eof = d
  split_ifs
  all_goals first
    | exact ⟨_, rfl, e2⟩
    | exact ⟨_, rfl, e3⟩

theorem scanWhitespace_eq (c : Char) (cs : List Char) (last : Option Char) (l k ll lk : Nat) :
    ∃ s1, Scanner.scanWhitespace ⟨⟨⟨c :: cs, last⟩, l, k, ll, lk⟩⟩
        = some ((TokenWhitespace, c :: (wsRun cs).1), s1) ∧ s1.rest = (wsRun cs).2 := by
  simp only [Scanner.scanWhitespace, read_cons, rest_mk]
  obtain ⟨s1, e1, e2⟩ := scanWhitespaceLoop_eq cs (cs.length + 1) [c] (some c)
    (if c = '\n' then l + 1 else l) (if c = '\n' then 1 else k + 1) l k (by omega)
  exact ⟨s1, by rw [e1]; rfl, e2⟩

theorem scanIdentifier_eq (c : Char) (cs : List Char) (last : Option Char) (l k ll lk : Nat) :
    ∃ s1, Scanner.scanIdentifier ⟨⟨⟨c :: cs, last⟩, l, k, ll, lk⟩⟩
        = some ((keywordToken (c :: (identRun cs).1), c :: (identRun cs).1), s1)
      ∧ s1.rest = (identRun cs).2 := by
  simp only [Scanner.scanIdentifier, read_cons, rest_mk]
  obtain ⟨s1, e1, e2⟩ := scanIdentifierLoop_eq cs (cs.length + 1) [c] (some c)
    (if c = '\n' then l + 1 else l) (if c = '\n' then 1 else k + 1) l k (by omega)
  exact ⟨s1, by rw [e1]; rfl, e2⟩

theorem scanNumber_eq (c : Char) (cs : List Char) (last : Option Char) (l k ll lk : Nat) :
    ∃ s1, Scanner.scanNumber ⟨⟨⟨c :: cs, last⟩, l, k, ll, lk⟩⟩
        = some (((numRun false cs).1, c :: (numRun false cs).2.1), s1)
      ∧ s1.rest = (numRun false cs).2.2 := by
  simp only [Scanner.scanNumber, read_cons, rest_mk]
  obtain ⟨s1, e1, e2⟩ := scanNumberLoop_eq cs (cs.length + 1) [c] false (some c)
    (if c = '\n' then l + 1 else l) (if c = '\n' then 1 else k + 1) l k (by omega)
  exact ⟨s1, by rw [e1]; rfl, e2⟩

theorem scanComment_eq (cs : List Char) (last : Option Char) (l k ll lk : Nat) :
    ∃ s1, Scanner.scanComment ⟨⟨⟨cs, last⟩, l, k, ll, lk⟩⟩
        = some ((TokenComment, cs.headD eof :: (commentRun cs.tail).1), s1)
      ∧ s1.rest = (commentRun cs.tail).2 := by
  cases cs with
  | nil =>
    simp only [Scanner.scanComment, read_nil, rest_mk, List.headD_nil, List.tail_nil]
    obtain ⟨s1, e1, e2⟩ := scanCommentLoop_eq [] ([].length + 1) [eof] none l (k + 1) l k
      (by simp)
    exact ⟨s1, by rw [e1]; rfl, e2⟩
  | cons d ds =>
    simp only [Scanner.scanComment, read_cons, rest_mk, List.headD_cons, List.tail_cons]
    obtain ⟨s1, e1, e2⟩ := scanCommentLoop_eq ds (ds.length + 1) [d] (some d)
      (if d = '\n' then l + 1 else l) (if d = '\n' then 1 else k + 1) l k (by omega)
    exact ⟨s1, by rw [e1]; rfl, e2⟩

theorem scanSequence_eq (tokenType : Token) (delim : Char) (newline : Bool) (c : Char)
    (cs : List Char) (last : Option Char) (l k ll lk : Nat) :
    ∃ s1, Scanner.scanSequence ⟨⟨⟨c :: cs, last⟩, l, k, ll, lk⟩⟩ tokenType delim newline
        = some ((if (seqRun delim newline false cs).1 then tokenType else TokenIllegal,
            (seqRun delim newline false cs).2.1), s1)
      ∧ s1.rest = (seqRun delim newline false cs).2.2 := by
  simp only [Scanner.scanSequence, read_cons, rest_mk]
  obtain ⟨s1, e1, e2⟩ := scanSequenceLoop_eq tokenType delim newline cs (cs.length + 1) []
    false (some c) (if c = '\n' then l + 1 else l) (if c = '\n' then 1 else k + 1) l k
    (by omega)
  exact ⟨s1, by rw [e1]; rfl, e2⟩

theorem Scan_lex (s : Scanner) :
    ∃ s1, s.Scan = some ((lex s.rest).1, s1) ∧ s1.rest = (lex s.rest).2 := by
  obtain ⟨⟨⟨rest, last⟩, l, k, ll, lk⟩⟩ := s
  cases rest with
  | nil =>
    simp only [Scanner.Scan, read_nil, rest_mk, lex]
    simp [show isWhitespace eof = false from by decide, show isLetter eof = false from by decide,
      show isOperator eof = false from by decide, show isDigit eof = false from by decide,
      show ¬ (eof = '@') from by decide]
  | cons c cs =>
    simp only [Scanner.Scan, read_cons, rest_mk, lex, unread_some]
    by_cases h1 : isWhitespace c = true
    · simp only [if_pos h1]
      exact scanWhitespace_eq c cs none l k l k
    simp only [if_neg h1]
    by_cases h2 : (isLetter c || decide (c = '@')) = true
    · simp only [if_pos h2]
      exact scanIdentifier_eq c cs none l k l k
    simp only [if_neg h2]
    by_cases h3 : isOperator c = true
    · simp only [if_pos h3]
      obtain ⟨s1, e1, e2⟩ := scanOperator_eq c cs none l k l k
      exact ⟨s1, by rw [e1], e2⟩
    simp only [if_neg h3]
    by_cases h4 : isDigit c = true
    · simp only [if_pos h4]
      exact scanNumber_eq c cs none l k l k
    simp only [if_neg h4]
    by_cases h5 : c = eof
    · simp only [if_pos h5]; exact ⟨_, rfl, rfl⟩
    simp only [if_neg h5]
    by_cases h6 : c = '{'
    · simp only [if_pos h6]; exact ⟨_, rfl, rfl⟩
    simp only [if_neg h6]
    by_cases h7 : c = '('
    · simp only [if_pos h7]; exact ⟨_, rfl, rfl⟩
    simp only [if_neg h7]
    by_cases h8 : c = '['
    · simp only [if_pos h8]; exact ⟨_, rfl, rfl⟩
    simp only [if_neg h8]
    by_cases h9 : c = '}'
    · simp only [if_pos h9]; exact ⟨_, rfl, rfl⟩
    simp only [if_neg h9]
    by_cases h10 : c = ')'
    · simp only [if_pos h10]; exact ⟨_, rfl, rfl⟩
    simp only [if_neg h10]
    by_cases h11 : c = ']'
    · simp only [if_pos h11]; exact ⟨_, rfl, rfl⟩
    simp only [if_neg h11]
    by_cases h12 : c = ','
    · simp only [if_pos h12]; exact ⟨_, rfl, rfl⟩
    simp only [if_neg h12]
    by_cases h13 : c = '#'
    · simp only [if_pos h13]
      exact scanComment_eq cs (some c) _ _ l k
    simp only [if_neg h13]
    by_cases h14 : c = '/'
    · simp only [if_pos h14, Scanner.scanRegex]
      exact scanSequence_eq TokenRegex '/' false c cs none l k l k
    simp only [if_neg h14]
    by_cases h15 : c = '"'
    · simp only [if_pos h15, Scanner.scanString]
      obtain ⟨s1, e1, e2⟩ := scanSequence_eq TokenString '"' true c cs none l k l k
      rw [e1]
      exact ⟨s1, rfl, e2⟩
    simp only [if_neg h15]
    exact ⟨_, rfl, rfl⟩

theorem isDigit_ne_eof {c : Char} (h : isDigit c = true) : c ≠ eof := by
  intro he; subst he; revert h; decide

theorem isDigit_ne_dot {c : Char} (h : isDigit c = true) : c ≠ '.' := by
  intro he; subst he; revert h; decide

theorem isDigit_not_isLetter {c : Char} (h : isDigit c = true) : isLetter c = false := by
  simp only [isDigit, Bool.and_eq_true, decide_eq_true_eq] at h
  simp only [isLetter, Bool.or_eq_false_iff, Bool.and_eq_false_iff, decide_eq_false_iff_not]
  have h9a : ('9' : Char) < 'a' := by decide
  have h9A : ('9' : Char) < 'A' := by decide
  constructor
  · left; intro h1; exact absurd (lt_of_le_of_lt h.2 h9a) (not_lt.mpr h1)
  · left; intro h1; exact absurd (lt_of_le_of_lt h.2 h9A) (not_lt.mpr h1)

theorem isDigit_not_isWhitespace {c : Char} (h : isDigit c = true) : isWhitespace c = false := by
  simp only [isDigit, Bool.and_eq_true, decide_eq_true_eq] at h
  simp only [isWhitespace, Bool.or_eq_false_iff, decide_eq_false_iff_not]
  refine ⟨⟨?_, ?_⟩, ?_⟩ <;> (intro he; subst he; revert h; decide)

theorem isDigit_not_isOperator {c : Char} (h : isDigit c = true) : isOperator c = false := by
  simp only [isDigit, Bool.and_eq_true, decide_eq_true_eq] at h
  simp only [isOperator, Bool.or_eq_false_iff, Bool.and_eq_false_iff, decide_eq_false_iff_not]
  have h1 : ('9' : Char) < '<' := by decide
  constructor
  · left; intro h2; exact absurd (lt_of_le_of_lt h.2 h1) (not_lt.mpr h2)
  · intro he; subst he; revert h; decide

theorem isDigit_ne_at {c : Char} (h : isDigit c = true) : c ≠ '@' := by
  intro he; subst he; revert h; decide

theorem numRun_digits (a : List Char) (ha : ∀ x ∈ a, isDigit x = true) (hd : Bool) (c : Char)
    (R : List Char) (hc1 : c ≠ eof) (hc2 : isLetter c = false) (hc3 : isDigit c = false)
    (hc4 : (hd && decide (c = '.')) = false) :
    numRun hd (a ++ c :: R) = (TokenNumber, a, c :: R) := by
  induction a with
  | nil => simp [numRun, hc1, hc2, hc3, hc4]
  | cons x xs ih =>
    have hx := ha x (List.mem_cons_self _ _)
    have ih1 := ih (fun y hy => ha y (List.mem_cons_of_mem _ hy))
    simp [numRun, isDigit_ne_eof hx, isDigit_ne_dot hx, isDigit_not_isLetter hx, hx, ih1]

theorem lex_digits (x : Char) (a : List Char) (hx : isDigit x = true)
    (ha : ∀ y ∈ a, isDigit y = true) (c : Char) (R : List Char) (hc1 : c ≠ eof)
    (hc2 : isLetter c = false) (hc3 : isDigit c = false) :
    lex (x :: (a ++ c :: R)) = ((TokenNumber, x :: a), c :: R) := by
  simp [lex, isDigit_not_isWhitespace hx, isDigit_not_isLetter hx, isDigit_ne_at hx,
    isDigit_not_isOperator hx, hx, numRun_digits a ha false c R hc1 hc2 hc3 (by simp)]

theorem seqRun_closed (delim : Char) (hd : delim ≠ eof) (body R : List Char) :
    ∀ esc : Bool, eof ∉ body → delimsEscaped delim esc body = true →
      escapedAfter esc body = false →
      seqRun delim true esc (body ++ delim :: R) = (true, body, R) := by
  induction body with
  | nil =>
    intro esc _ _ h3
    simp only [escapedAfter] at h3
    subst h3
    simp [seqRun, hd]
  | cons c cs ih =>
    intro esc h1 h2 h3
    simp only [List.mem_cons, not_or] at h1
    simp only [delimsEscaped, Bool.and_eq_true, Bool.or_eq_true, decide_eq_true_eq] at h2
    simp only [escapedAfter] at h3
    have ih1 := ih _ h1.2 h2.2 h3
    have hce : c ≠ eof := fun h => h1.1 h.symm
    have h4 : (!esc && decide (c = delim)) = false := by
      rcases h2.1 with h | h
      · simp [h]
      · simp [h]
    simp [seqRun, hce, h4, ih1]

theorem lex_string (body R : List Char) (h1 : eof ∉ body)
    (h2 : delimsEscaped '"' false body = true) (h3 : escapedAfter false body = false) :
    lex ('"' :: (body ++ '"' :: R)) = ((TokenString, '"' :: (body ++ ['"'])), R) := by
  have h := seqRun_closed '"' (by decide) body R false h1 h2 h3
  simp only [lex]
  rw [if_neg (by decide), if_neg (by decide), if_neg (by decide), if_neg (by decide),
    if_neg (by decide), if_neg (by decide), if_neg (by decide), if_neg (by decide),
    if_neg (by decide), if_neg (by decide), if_neg (by decide), if_neg (by decide),
    if_neg (by decide), if_neg (by decide), if_pos trivial, h]
  rfl

theorem Unquote_newline (body : List Char) (h : '\n' ∈ body) :
    Unquote ('"' :: (body ++ ['"'])) = .error .ErrSyntax := by
  simp [Unquote, h]

theorem get_set_self (m : PluginFields) (k : List Char) (v : Value) :
    (PluginFields.set m k v).get k = some v := by
  induction m with
  | nil => simp [PluginFields.set, PluginFields.get]
  | cons kv t ih =>
    obtain ⟨k1, v1⟩ := kv
    by_cases h : k1 = k
    · simp [PluginFields.set, PluginFields.get, h]
    · simp [PluginFields.set, PluginFields.get, h, ih]

theorem get_set_other (m : PluginFields) (k k2 : List Char) (v : Value) (h : k2 ≠ k) :
    (PluginFields.set m k v).get k2 = m.get k2 := by
  induction m with
  | nil => simp [PluginFields.set, PluginFields.get, h.symm]
  | cons kv t ih =>
    obtain ⟨k1, v1⟩ := kv
    by_cases h1 : k1 = k
    · subst h1
      simp [PluginFields.set, PluginFields.get, h.symm]
    · by_cases h2 : k1 = k2
      · subst h2
        simp [PluginFields.set, PluginFields.get, h1]
      · simp [PluginFields.set, PluginFields.get, h1, h2, ih]

theorem wsRun_suffix (cs : List Char) : (wsRun cs).2 <:+ cs := by
  induction cs with
  | nil => simp [wsRun]
  | cons c cs ih =>
    simp only [wsRun]
    split_ifs
    · exact List.suffix_cons _ _
    · exact List.suffix_refl _
    · exact ih.trans (List.suffix_cons _ _)

theorem identRun_suffix (cs : List Char) : (identRun cs).2 <:+ cs := by
  induction cs with
  | nil => simp [identRun]
  | cons c cs ih =>
    simp only [identRun]
    split_ifs
    · exact List.suffix_cons _ _
    · exact List.suffix_refl _
    · exact ih.trans (List.suffix_cons _ _)

theorem commentRun_suffix (cs : List Char) : (commentRun cs).2 <:+ cs := by
  induction cs with
  | nil => simp [commentRun]
  | cons c cs ih =>
    simp only [commentRun]
    split_ifs
    · exact List.suffix_cons _ _
    · exact List.suffix_refl _
    · exact ih.trans (List.suffix_cons _ _)

theorem numRun_suffix (cs : List Char) : ∀ hd, (numRun hd cs).2.2 <:+ cs := by
  induction cs with
  | nil => intro hd; simp [numRun]
  | cons c cs ih =>
    intro hd
    simp only [numRun]
    split_ifs
    all_goals first
      | exact List.suffix_cons _ _
      | exact List.suffix_refl _
      | exact (ih _).trans (List.suffix_cons _ _)

theorem seqRun_suffix (delim : Char) (newline : Bool) (cs : List Char) :
    ∀ esc, (seqRun delim newline esc cs).2.2 <:+ cs := by
  induction cs with
  | nil => intro esc; simp [seqRun]
  | cons c cs ih =>
    intro esc
    simp only [seqRun]
    split_ifs
    all_goals first
      | exact List.suffix_cons _ _
      | exact (ih _).trans (List.suffix_cons _ _)

theorem ite_snd_suffix {α : Type} {c : Prop} [Decidable c] {a b : α × List Char}
    {cs : List Char} (ha : a.2 <:+ cs) (hb : b.2 <:+ cs) :
    (if c then a else b).2 <:+ cs := by
  split_ifs <;> assumption

theorem lexOperator_suffix (c : Char) (cs : List Char) : (lexOperator c cs).2 <:+ cs := by
  unfold lexOperator
  repeat' apply ite_snd_suffix
  all_goals first
    | exact List.suffix_refl _
    | exact List.tail_suffix _

theorem lex_cons_suffix (c : Char) (cs : List Char) : (lex (c :: cs)).2 <:+ cs := by
  rw [lex]
  repeat' apply ite_snd_suffix
  all_goals first
    | exact List.suffix_refl _
    | exact wsRun_suffix _
    | exact identRun_suffix _
    | exact lexOperator_suffix _ _
    | exact numRun_suffix _ _
    | exact seqRun_suffix _ _ _ _
    | exact List.tail_suffix _
    | exact (commentRun_suffix _).trans (List.tail_suffix _)

theorem lex_suffix (X : List Char) : (lex X).2 <:+ X := by
  cases X with
  | nil => simp [lex]
  | cons c cs => exact (lex_cons_suffix c cs).trans (List.suffix_cons _ _)

theorem lex_length (X : List Char) (h : X ≠ []) : (lex X).2.length < X.length := by
  cases X with
  | nil => exact absurd rfl h
  | cons c cs =>
    have := (lex_cons_suffix c cs).length_le
    simp only [List.length_cons]
    omega

theorem lex_nil : lex [] = ((TokenEOF, []), []) := rfl

theorem sigLoop_fuel (n : Nat) : ∀ (m : Nat) (X : List Char), X.length ≤ n → X.length ≤ m →
    sigLoop n X = sigLoop m X := by
  induction n with
  | zero =>
    intro m X h _
    have hX : X = [] := List.length_eq_zero.mp (Nat.le_zero.mp h)
    subst hX
    cases m with
    | zero => rfl
    | succ m => simp [sigLoop, lex_nil]
  | succ n ih =>
    intro m X h hm
    by_cases hc : (lex X).1.1 = TokenWhitespace ∨ (lex X).1.1 = TokenComment
    · have hX : X ≠ [] := by
        intro h0; subst h0; simp [lex_nil] at hc
      have hl := lex_length X hX
      cases m with
      | zero =>
        exact absurd (List.length_eq_zero.mp (Nat.le_zero.mp hm)) hX
      | succ m =>
        simp only [sigLoop, if_pos hc]
        exact ih m _ (by omega) (by omega)
    · cases m with
      | zero => simp only [sigLoop, if_neg hc]
      | succ m => simp only [sigLoop, if_neg hc]

theorem sig_eq (X : List Char) :
    sig X = if (lex X).1.1 = TokenWhitespace ∨ (lex X).1.1 = TokenComment
      then sig (lex X).2 else lex X := by
  by_cases hc : (lex X).1.1 = TokenWhitespace ∨ (lex X).1.1 = TokenComment
  · have hX : X ≠ [] := by
      intro h0; subst h0; simp [lex_nil] at hc
    have hl := lex_length X hX
    rw [if_pos hc]
    unfold sig
    cases hlen : X.length with
    | zero => exact absurd (List.length_eq_zero.mp hlen) hX
    | succ n =>
      simp only [sigLoop, if_pos hc]
      exact sigLoop_fuel n _ _ (by omega) (le_refl _)
  · rw [if_neg hc]
    unfold sig
    cases hlen : X.length with
    | zero => simp only [sigLoop]
    | succ n => simp only [sigLoop, if_neg hc]

theorem sig_suffix (X : List Char) : (sig X).2 <:+ X := by
  generalize hn : X.length = n
  induction n using Nat.strong_induction_on generalizing X with
  | _ n ih =>
    rw [sig_eq]
    by_cases hc : (lex X).1.1 = TokenWhitespace ∨ (lex X).1.1 = TokenComment
    · have hX : X ≠ [] := by
        intro h0; subst h0; simp [lex_nil] at hc
      have hl := lex_length X hX
      rw [if_pos hc]
      exact (ih _ (by omega) _ rfl).trans (lex_suffix X)
    · rw [if_neg hc]
      exact lex_suffix X

theorem sig_not_skipped (X : List Char) :
    (sig X).1.1 ≠ TokenWhitespace ∧ (sig X).1.1 ≠ TokenComment := by
  generalize hn : X.length = n
  induction n using Nat.strong_induction_on generalizing X with
  | _ n ih =>
    rw [sig_eq]
    by_cases hc : (lex X).1.1 = TokenWhitespace ∨ (lex X).1.1 = TokenComment
    · have hX : X ≠ [] := by
        intro h0; subst h0; simp [lex_nil] at hc
      have hl := lex_length X hX
      rw [if_pos hc]
      exact ih _ (by omega) _ rfl
    · rw [if_neg hc]
      exact not_or.mp hc

theorem sig_length (X : List Char) (h : (sig X).1.1 ≠ TokenEOF) :
    (sig X).2.length < X.length := by
  generalize hn : X.length = n
  induction n using Nat.strong_induction_on generalizing X with
  | _ n ih =>
    rw [sig_eq] at h ⊢
    by_cases hc : (lex X).1.1 = TokenWhitespace ∨ (lex X).1.1 = TokenComment
    · have hX : X ≠ [] := by
        intro h0; subst h0; simp [lex_nil] at hc
      have hl := lex_length X hX
      rw [if_pos hc] at h ⊢
      have := (sig_suffix (lex X).2).length_le
      omega
    · rw [if_neg hc] at h ⊢
      have hX : X ≠ [] := by
        intro h0; subst h0; simp [lex_nil] at h
      have hl := lex_length X hX
      omega

theorem scan_fresh (p : Parser) (h : p.buf.n = 0) :
    ∃ p1, p.scan = some ((lex p.s.rest).1, p1)
      ∧ p1.Holds (lex p.s.rest).1.1 (lex p.s.rest).1.2 (lex p.s.rest).2 := by
  obtain ⟨s, line, col, ⟨tok, lit, n, bl, bc⟩⟩ := p
  simp only at h
  subst h
  obtain ⟨s1, e1, e2⟩ := Scan_lex s
  obtain ⟨⟨rs, l, c, ll, lc⟩⟩ := s
  obtain ⟨⟨rs1, l1, c1, ll1, lc1⟩⟩ := s1
  refine ⟨{ s := ⟨⟨rs1, l1, c1, ll1, lc1⟩⟩, line := l1, col := c1,
            buf := { tok := (lex (Scanner.rest ⟨⟨rs, l, c, ll, lc⟩⟩)).1.1,
                     lit := (lex (Scanner.rest ⟨⟨rs, l, c, ll, lc⟩⟩)).1.2,
                     n := 0, line := l, col := c } }, ?_, ?_⟩
  · simp only [Parser.scan, e1, Scanner.Pos, positionTracker.Pos]
    simp
  · exact ⟨rfl, rfl, rfl, e2⟩

theorem scan_buffered (p : Parser) (h : p.buf.n ≠ 0) :
    ∃ p1, p.scan = some ((p.buf.tok, p.buf.lit), p1)
      ∧ p1.Holds p.buf.tok p.buf.lit p.s.rest := by
  obtain ⟨s, line, col, ⟨tok, lit, n, bl, bc⟩⟩ := p
  simp only at h
  refine ⟨{ s := s, line := line, col := col,
            buf := { tok := tok, lit := lit, n := 0, line := bl, col := bc } }, ?_, ?_⟩
  · simp only [Parser.scan, if_pos h]
  · exact ⟨rfl, rfl, rfl, rfl⟩

theorem scanIgnoreLoop_eq (n : Nat) : ∀ (tok : Token) (lit : List Char) (p : Parser),
    p.Holds tok lit p.s.rest → 0 < n →
    (tok = TokenWhitespace ∨ tok = TokenComment → p.s.rest.length + 1 < n) →
    ∃ p1, Parser.scanIgnoreWhitespaceCommentLoop n tok lit p
        = some ((if tok = TokenWhitespace ∨ tok = TokenComment then sig p.s.rest
            else ((tok, lit), p.s.rest)).1, p1)
      ∧ p1.Holds
          (if tok = TokenWhitespace ∨ tok = TokenComment then sig p.s.rest
            else ((tok, lit), p.s.rest)).1.1
          (if tok = TokenWhitespace ∨ tok = TokenComment then sig p.s.rest
            else ((tok, lit), p.s.rest)).1.2
          (if tok = TokenWhitespace ∨ tok = TokenComment then sig p.s.rest
            else ((tok, lit), p.s.rest)).2 := by
  induction n with
  | zero => intro tok lit p _ h; omega
  | succ n ih =>
    intro tok lit p hp _ h
    by_cases hc : tok = TokenWhitespace ∨ tok = TokenComment
    · have hn := h hc
      simp only [Parser.scanIgnoreWhitespaceCommentLoop, if_pos hc]
      obtain ⟨p1, e1, h1⟩ := scan_fresh p hp.1
      rw [e1]
      simp only
      rw [sig_eq]
      have h1r : p1.s.rest = (lex p.s.rest).2 := h1.2.2.2
      have := ih (lex p.s.rest).1.1 (lex p.s.rest).1.2 p1 (by rw [h1r]; exact h1) (by omega)
        (by
          intro hc2
          have hX : p.s.rest ≠ [] := by
            intro h0; rw [h0] at hc2; simp [lex_nil] at hc2
          have hl := lex_length _ hX
          rw [h1r]; omega)
      by_cases hc2 : (lex p.s.rest).1.1 = TokenWhitespace ∨ (lex p.s.rest).1.1 = TokenComment
      · simp only [if_pos hc2, h1r] at this ⊢
        exact this
      · simp only [if_neg hc2, h1r] at this ⊢
        exact this
    · simp only [Parser.scanIgnoreWhitespaceCommentLoop, if_neg hc]
      exact ⟨p, rfl, hp⟩

theorem scanIgnore_fresh (p : Parser) (h : p.buf.n = 0) :
    ∃ p1, p.scanIgnoreWhitespaceComment = some ((sig p.s.rest).1, p1)
      ∧ p1.Holds (sig p.s.rest).1.1 (sig p.s.rest).1.2 (sig p.s.rest).2 := by
  obtain ⟨p1, e1, h1⟩ := scan_fresh p h
  have h1r : p1.s.rest = (lex p.s.rest).2 := h1.2.2.2
  simp only [Parser.scanIgnoreWhitespaceComment, e1]
  have := scanIgnoreLoop_eq (p1.s.rest.length + 2) (lex p.s.rest).1.1 (lex p.s.rest).1.2 p1
    (by rw [h1r]; exact h1) (by omega) (by intro _; omega)
  rw [sig_eq]
  by_cases hc : (lex p.s.rest).1.1 = TokenWhitespace ∨ (lex p.s.rest).1.1 = TokenComment
  · simp only [if_pos hc, h1r] at this ⊢
    exact this
  · simp only [if_neg hc, h1r] at this ⊢
    exact this

theorem scanIgnore_buffered (p : Parser) (h : p.buf.n ≠ 0) (h1 : p.buf.tok ≠ TokenWhitespace)
    (h2 : p.buf.tok ≠ TokenComment) :
    ∃ p1, p.scanIgnoreWhitespaceComment = some ((p.buf.tok, p.buf.lit), p1)
      ∧ p1.Holds p.buf.tok p.buf.lit p.s.rest := by
  obtain ⟨p1, e1, hp1⟩ := scan_buffered p h
  simp only [Parser.scanIgnoreWhitespaceComment, e1, Parser.scanIgnoreWhitespaceCommentLoop]
  rw [if_neg (by simp [h1, h2])]
  exact ⟨p1, rfl, hp1⟩

theorem getToken_fresh (p : Parser) (types : List Token) (h : p.buf.n = 0) :
    ∃ p1 e, p.getToken types = some (((sig p.s.rest).1.1, (sig p.s.rest).1.2, e), p1)
      ∧ p1.Holds (sig p.s.rest).1.1 (sig p.s.rest).1.2 (sig p.s.rest).2
      ∧ (e = none ↔ (sig p.s.rest).1.1 ≠ TokenIllegal ∧ (sig p.s.rest).1.1 ∈ types) := by
  obtain ⟨p1, e1, h1⟩ := scanIgnore_fresh p h
  simp only [Parser.getToken, e1]
  by_cases hi : (sig p.s.rest).1.1 = TokenIllegal
  · simp only [if_pos hi]
    exact ⟨p1, _, rfl, h1, by simp [hi]⟩
  · simp only [if_neg hi]
    by_cases ht : (sig p.s.rest).1.1 ∈ types
    · simp only [if_pos ht]
      exact ⟨p1, _, rfl, h1, by simp [hi, ht]⟩
    · simp only [if_neg ht]
      split
      · exact ⟨p1, _, rfl, h1, by simpa using fun _ => ht⟩
      · exact ⟨p1, _, rfl, h1, by simp [ht]⟩

theorem getToken_buffered (p : Parser) (types : List Token) (h : p.buf.n ≠ 0)
    (h1 : p.buf.tok ≠ TokenWhitespace) (h2 : p.buf.tok ≠ TokenComment)
    (h3 : p.buf.tok ≠ TokenIllegal) (h4 : p.buf.tok ∈ types) :
    ∃ p1, p.getToken types = some ((p.buf.tok, p.buf.lit, none), p1)
      ∧ p1.Holds p.buf.tok p.buf.lit p.s.rest := by
  obtain ⟨p1, e1, hp1⟩ := scanIgnore_buffered p h h1 h2
  simp only [Parser.getToken, e1, if_neg h3, if_pos h4]
  exact ⟨p1, rfl, hp1⟩

theorem getToken_ok (p : Parser) (types : List Token) (h : p.buf.n = 0)
    (h1 : (sig p.s.rest).1.1 ≠ TokenIllegal) (h2 : (sig p.s.rest).1.1 ∈ types) :
    ∃ p1, p.getToken types = some (((sig p.s.rest).1.1, (sig p.s.rest).1.2, none), p1)
      ∧ p1.Holds (sig p.s.rest).1.1 (sig p.s.rest).1.2 (sig p.s.rest).2 := by
  obtain ⟨p1, e, e1, hp1, he⟩ := getToken_fresh p types h
  have : e = none := he.mpr ⟨h1, h2⟩
  subst this
  exact ⟨p1, e1, hp1⟩

theorem getToken_inv (p p1 : Parser) (types : List Token) (tok : Token) (lit : List Char)
    (h : p.buf.n = 0) (hg : p.getToken types = some ((tok, lit, none), p1)) :
    (sig p.s.rest).1 = (tok, lit) ∧ p1.Holds tok lit (sig p.s.rest).2 ∧ tok ≠ TokenIllegal
      ∧ tok ∈ types := by
  obtain ⟨q, e, e1, hq, he⟩ := getToken_fresh p types h
  rw [e1] at hg
  simp only [Option.some.injEq, Prod.mk.injEq] at hg
  obtain ⟨⟨ht, hl, hn⟩, hqp⟩ := hg
  subst hqp
  have := he.mp hn
  rw [ht] at this
  refine ⟨by rw [← ht, ← hl], ?_, this.1, this.2⟩
  rw [← ht, ← hl]
  exact hq

theorem isWhitespace_ne_eof {c : Char} (h : isWhitespace c = true) : c ≠ eof := by
  intro he; subst he; revert h; decide

theorem wsRun_skip (W X : List Char) (hW : ∀ c ∈ W, isWhitespace c = true)
    (hX : ∀ c, X.head? = some c → c ≠ eof ∧ isWhitespace c = false) :
    wsRun (W ++ X) = (W, X) := by
  induction W with
  | nil =>
    cases X with
    | nil => simp [wsRun]
    | cons c cs =>
      have := hX c rfl
      simp [wsRun, this.1, this.2]
  | cons w ws ih =>
    have hw := hW w (List.mem_cons_self _ _)
    have ih1 := ih (fun c hc => hW c (List.mem_cons_of_mem _ hc))
    simp [wsRun, isWhitespace_ne_eof hw, hw, ih1]

theorem sig_skip (W X : List Char) (hW : ∀ c ∈ W, isWhitespace c = true)
    (hX : ∀ c, X.head? = some c → c ≠ eof ∧ isWhitespace c = false) :
    sig (W ++ X) = sig X := by
  cases W with
  | nil => rfl
  | cons w ws =>
    have hw := hW w (List.mem_cons_self _ _)
    have h1 := wsRun_skip ws X (fun c hc => hW c (List.mem_cons_of_mem _ hc)) hX
    have hl : lex (w :: (ws ++ X)) = ((TokenWhitespace, w :: ws), X) := by
      rw [lex, if_pos hw, h1]
    rw [sig_eq, List.cons_append, hl]
    simp

theorem sig_of_lex (X : List Char) (h1 : (lex X).1.1 ≠ TokenWhitespace)
    (h2 : (lex X).1.1 ≠ TokenComment) : sig X = lex X := by
  rw [sig_eq, if_neg (by simp [h1, h2])]

theorem isIdentChar_ne_eof {c : Char} (h : isIdentChar c = true) : c ≠ eof := by
  intro he; subst he; revert h; decide

theorem identRun_ident (a : List Char) (ha : ∀ x ∈ a, isIdentChar x = true) (c : Char)
    (R : List Char) (hc1 : c ≠ eof) (hc2 : isIdentChar c = false) :
    identRun (a ++ c :: R) = (a, c :: R) := by
  induction a with
  | nil =>
    simp only [isIdentChar, Bool.or_eq_false_iff, decide_eq_false_iff_not] at hc2
    simp [identRun, hc1, hc2]
  | cons x xs ih =>
    have hx := ha x (List.mem_cons_self _ _)
    have ih1 := ih (fun y hy => ha y (List.mem_cons_of_mem _ hy))
    have hx2 : (!isLetter x && !isDigit x && decide (x ≠ '_') && decide (x ≠ '@')
        && decide (x ≠ '-')) = false := by
      simp only [isIdentChar, Bool.or_eq_true, decide_eq_true_eq] at hx
      rcases hx with (((h | h) | h) | h) | h <;> simp [h]
    simp only [List.cons_append, identRun, if_neg (isIdentChar_ne_eof hx), hx2, ih1]
    simp [ih1]

theorem isLetter_not_isWhitespace {c : Char} (h : isLetter c = true) :
    isWhitespace c = false := by
  simp only [isWhitespace, Bool.or_eq_false_iff, decide_eq_false_iff_not]
  refine ⟨⟨?_, ?_⟩, ?_⟩ <;> (intro he; subst he; revert h; decide)

theorem isIdentStart_not_isWhitespace {c : Char} (h : isIdentStart c = true) :
    isWhitespace c = false := by
  simp only [isIdentStart, Bool.or_eq_true, decide_eq_true_eq] at h
  rcases h with h | h
  · exact isLetter_not_isWhitespace h
  · subst h; decide

theorem keywordToken_of_not_keyword (s : List Char) (h : keywords.contains s = false) :
    keywordToken s = TokenIdentifier := by
  simp only [keywords, List.contains_eq_any_beq, List.any_cons, List.any_nil, Bool.or_false,
    Bool.or_eq_false_iff, beq_eq_false_iff_ne, ne_eq] at h
  obtain ⟨h1, h2, h3, h4, h5, h6, h7, h8⟩ := h
  simp only [keywordToken]
  rw [if_neg h1, if_neg h2, if_neg h3, if_neg h4, if_neg h5, if_neg h6, if_neg h7, if_neg h8]

theorem lex_identifier (s : List Char) (hs : isIdentifier s = true) (c : Char) (R : List Char)
    (hc1 : c ≠ eof) (hc2 : isIdentChar c = false) :
    lex (s ++ c :: R) = ((TokenIdentifier, s), c :: R) := by
  cases s with
  | nil => simp [isIdentifier] at hs
  | cons x xs =>
    simp only [isIdentifier, Bool.and_eq_true, List.all_eq_true, Bool.not_eq_true'] at hs
    obtain ⟨⟨hx, hxs⟩, hk⟩ := hs
    have h1 := identRun_ident xs hxs c R hc1 hc2
    have hx' : (isLetter x || decide (x = '@')) = true := hx
    rw [List.cons_append, lex, if_neg (by simp [isIdentStart_not_isWhitespace hx]), if_pos hx',
      h1, keywordToken_of_not_keyword _ hk]

theorem foldl_decimal_ge (l : List Char) : ∀ acc : Nat,
    acc ≤ l.foldl (fun n c => n * 10 + (c.toNat - 48)) acc := by
  induction l with
  | nil => intro acc; simp
  | cons c cs ih =>
    intro acc
    simp only [List.foldl_cons]
    exact le_trans (by omega) (ih _)

theorem ParseUintLoop_ok (l : List Char) (hl : ∀ c ∈ l, isDigit c = true) : ∀ acc : Nat,
    l.foldl (fun n c => n * 10 + (c.toNat - 48)) acc ≤ 2 ^ 64 - 1 →
    ParseUintLoop acc l = .ok (l.foldl (fun n c => n * 10 + (c.toNat - 48)) acc) := by
  induction l with
  | nil => intro acc _; simp [ParseUintLoop]
  | cons c cs ih =>
    intro acc h
    simp only [List.foldl_cons] at h ⊢
    have hc := hl c (List.mem_cons_self _ _)
    have hge := foldl_decimal_ge cs (acc * 10 + (c.toNat - 48))
    have h1 : ¬ (acc ≥ (2 ^ 64 - 1) / 10 + 1) := by omega
    have h2 : ¬ (acc * 10 + (c.toNat - 48) > 2 ^ 64 - 1) := by omega
    simp only [ParseUintLoop, hc, if_true, if_neg h1, if_neg h2]
    exact ih (fun x hx => hl x (List.mem_cons_of_mem _ hx)) _ h

theorem ParseUintLoop_range (l : List Char) (hl : ∀ c ∈ l, isDigit c = true) : ∀ acc : Nat,
    acc ≤ 2 ^ 64 - 1 → 2 ^ 64 - 1 < l.foldl (fun n c => n * 10 + (c.toNat - 48)) acc →
    ParseUintLoop acc l = .error .ErrRange := by
  induction l with
  | nil => intro acc h1 h2; simp at h2; omega
  | cons c cs ih =>
    intro acc h1 h2
    simp only [List.foldl_cons] at h2
    have hc := hl c (List.mem_cons_self _ _)
    simp only [ParseUintLoop, hc, if_true]
    by_cases h3 : acc ≥ (2 ^ 64 - 1) / 10 + 1
    · rw [if_pos h3]
    · rw [if_neg h3]
      by_cases h4 : acc * 10 + (c.toNat - 48) > 2 ^ 64 - 1
      · rw [if_pos h4]
      · rw [if_neg h4]
        exact ih (fun x hx => hl x (List.mem_cons_of_mem _ hx)) _ (by omega) h2

theorem isDigit_ne_plus {c : Char} (h : isDigit c = true) : c ≠ '+' := by
  intro he; subst he; revert h; decide

theorem isDigit_ne_minus {c : Char} (h : isDigit c = true) : c ≠ '-' := by
  intro he; subst he; revert h; decide

theorem ParseInt_digits (d : List Char) (h0 : d ≠ []) (hd : ∀ c ∈ d, isDigit c = true) :
    ParseInt d = if decimalValue d ≤ 2 ^ 63 - 1 then .ok (decimalValue d : Int)
      else .error (.NumError "ParseInt".toList d .ErrRange) := by
  cases d with
  | nil => exact absurd rfl h0
  | cons c cs =>
    have hc := hd c (List.mem_cons_self _ _)
    have hm : decide (c = '-') = false := decide_eq_false (isDigit_ne_minus hc)
    simp only [ParseInt]
    rw [if_neg (not_or.mpr ⟨isDigit_ne_plus hc, isDigit_ne_minus hc⟩), if_neg (List.cons_ne_nil c cs), hm]
    by_cases h1 : decimalValue (c :: cs) ≤ 2 ^ 64 - 1
    · rw [ParseUintLoop_ok (c :: cs) hd 0 h1]
      simp only [Bool.not_false, Bool.true_and, Bool.false_and, decide_eq_true_eq,
        Bool.false_eq_true, if_false]
      by_cases h2 : decimalValue (c :: cs) ≤ 2 ^ 63 - 1
      · rw [if_pos h2, if_neg (by simp only [decimalValue] at h2; omega)]
        rfl
      · rw [if_neg h2, if_pos (by simp only [decimalValue] at h2; omega)]
    · rw [ParseUintLoop_range (c :: cs) hd 0 (by omega) (by simpa [decimalValue] using h1)]
      rw [if_neg (by omega)]

theorem unquoteChars_plain (s : List Char) (h : ∀ c ∈ s, c ≠ '"' ∧ c ≠ '\\') :
    unquoteChars 0 s = some (utf8Bytes s) := by
  induction s with
  | nil => rfl
  | cons c cs ih =>
    have hc := h c (List.mem_cons_self _ _)
    have ih1 := ih (fun x hx => h x (List.mem_cons_of_mem _ hx))
    by_cases hb : 0x80 ≤ c.toNat
    · have h1 : UnquoteChar (c :: cs) = some (c.toNat, true, 1) := by
        simp only [UnquoteChar]
        rw [if_neg hc.1, if_pos hb]
      simp only [unquoteChars, h1, Nat.sub_self, ih1, Option.map_some', utf8Bytes]
      rw [if_neg (by simp; omega)]
    · have h1 : UnquoteChar (c :: cs) = some (c.toNat, false, 1) := by
        simp only [UnquoteChar]
        rw [if_neg hc.1, if_neg hb, if_pos hc.2]
      simp only [unquoteChars, h1, Nat.sub_self, ih1, Option.map_some', utf8Bytes]
      rw [if_pos (Or.inr trivial), EncodeRune, if_pos (by omega), Nat.mod_eq_of_lt (by omega)]

theorem Unquote_plain (s : List Char) (h : isPlainString s = true) :
    Unquote ('"' :: (s ++ ['"'])) = .ok (utf8Bytes s) := by
  simp only [isPlainString, List.all_eq_true, Bool.and_eq_true, decide_eq_true_eq] at h
  have h1 : '\n' ∉ s := fun hm => (h _ hm).1.2 rfl
  have h2 : '\\' ∉ s ∧ '"' ∉ s := ⟨fun hm => (h _ hm).1.1.2 rfl, fun hm => (h _ hm).1.1.1 rfl⟩
  have h3 : (s ++ ['"']).getLast? = some '"' := by simp
  have h4 : (s ++ ['"']).dropLast = s := by simp
  rw [Unquote, if_neg (by simp), if_neg (by simp [h3]), h4, if_neg h1, if_pos h2]

theorem Unquote_value (b : List Nat) (h : isPlainValue b = true) :
    Unquote ('"' :: (textOf b ++ ['"'])) = .ok b := by
  simp only [isPlainValue, Bool.and_eq_true, decide_eq_true_eq] at h
  rw [Unquote_plain _ h.1, h.2]

theorem map_utf8Bytes_textOf (xs : List (List Nat)) (h : ∀ x ∈ xs, isPlainValue x = true) :
    (xs.map textOf).map utf8Bytes = xs := by
  induction xs with
  | nil => rfl
  | cons a t ih =>
    have ha := h a (List.mem_cons_self _ _)
    simp only [isPlainValue, Bool.and_eq_true, decide_eq_true_eq] at ha
    simp only [List.map_cons, ha.2, ih (fun x hx => h x (List.mem_cons_of_mem _ hx))]

theorem plain_delimsEscaped (s : List Char) (h : ∀ c ∈ s, c ≠ '"' ∧ c ≠ '\\') :
    delimsEscaped '"' false s = true ∧ escapedAfter false s = false := by
  induction s with
  | nil => simp [delimsEscaped, escapedAfter]
  | cons c cs ih =>
    have hc := h c (List.mem_cons_self _ _)
    have ih1 := ih (fun x hx => h x (List.mem_cons_of_mem _ hx))
    simp [delimsEscaped, escapedAfter, hc.1, hc.2, ih1.1, ih1.2]

theorem lex_plain_string (s R : List Char) (h : isPlainString s = true) :
    lex ('"' :: (s ++ '"' :: R)) = ((TokenString, '"' :: (s ++ ['"'])), R) := by
  simp only [isPlainString, List.all_eq_true, Bool.and_eq_true, decide_eq_true_eq] at h
  have h1 : eof ∉ s := fun hm => (h _ hm).2 rfl
  have h2 := plain_delimsEscaped s (fun c hc => ⟨(h c hc).1.1.1, (h c hc).1.1.2⟩)
  exact lex_string s R h1 h2.1 h2.2

theorem sep_cons (sep : List Char) (h : isSeparator sep = true) :
    ∃ c t, sep = c :: t ∧ isWhitespace c = true ∧ c ≠ eof ∧ isIdentChar c = false
      ∧ isLetter c = false ∧ isDigit c = false := by
  cases sep with
  | nil => simp [isSeparator] at h
  | cons c t =>
    simp only [isSeparator, List.isEmpty_cons, Bool.not_false, List.all_cons, Bool.true_and,
      Bool.and_eq_true, Bool.or_eq_true, decide_eq_true_eq] at h
    refine ⟨c, t, rfl, ?_⟩
    rcases h.1 with (h1 | h1) | h1 <;> subst h1 <;> decide

theorem sep_ws (sep : List Char) (h : isSeparator sep = true) :
    ∀ c ∈ sep, isWhitespace c = true := by
  simp only [isSeparator, Bool.and_eq_true, List.all_eq_true, Bool.or_eq_true,
    decide_eq_true_eq] at h
  intro c hc
  rcases h.2 c hc with (h1 | h1) | h1 <;> subst h1 <;> decide

theorem head_ok_cons (c : Char) (R : List Char) (h1 : c ≠ eof) (h2 : isWhitespace c = false) :
    ∀ d, (c :: R).head? = some d → d ≠ eof ∧ isWhitespace d = false := by
  intro d hd
  simp only [List.head?_cons, Option.some.injEq] at hd
  subst hd
  exact ⟨h1, h2⟩

theorem sig_of_lex_eq (X Y : List Char) (tok : Token) (lit : List Char)
    (h : lex X = ((tok, lit), Y)) (h1 : tok ≠ TokenWhitespace) (h2 : tok ≠ TokenComment) :
    sig X = ((tok, lit), Y) := by
  rw [sig_of_lex X (by rw [h]; exact h1) (by rw [h]; exact h2), h]

theorem sig_skip_eq (W X Y : List Char) (c : Char) (R : List Char) (tok : Token)
    (lit : List Char) (hW : ∀ c ∈ W, isWhitespace c = true) (hX : X = c :: R)
    (hc1 : c ≠ eof) (hc2 : isWhitespace c = false)
    (h : lex X = ((tok, lit), Y)) (h1 : tok ≠ TokenWhitespace) (h2 : tok ≠ TokenComment) :
    sig (W ++ X) = ((tok, lit), Y) := by
  rw [sig_skip W X hW (by rw [hX]; exact head_ok_cons c R hc1 hc2)]
  exact sig_of_lex_eq X Y tok lit h h1 h2

theorem sig_identifier (W s sep R : List Char) (hW : ∀ c ∈ W, isWhitespace c = true)
    (hs : isIdentifier s = true) (hsep : isSeparator sep = true) :
    sig (W ++ (s ++ (sep ++ R))) = ((TokenIdentifier, s), sep ++ R) := by
  obtain ⟨c, t, e, _, hc1, hc2, _, _⟩ := sep_cons sep hsep
  subst e
  have hl := lex_identifier s hs c (t ++ R) hc1 hc2
  cases s with
  | nil => simp [isIdentifier] at hs
  | cons x xs =>
    have hx : isIdentStart x = true := by
      simp only [isIdentifier, Bool.and_eq_true] at hs
      exact hs.1.1
    have hxe : x ≠ eof := by
      intro he; subst he; revert hx; decide
    exact sig_skip_eq W _ _ x (xs ++ (c :: t ++ R)) _ _ hW rfl hxe
      (isIdentStart_not_isWhitespace hx) hl (by decide) (by decide)

theorem sig_number (W d sep R : List Char) (hW : ∀ c ∈ W, isWhitespace c = true)
    (h0 : d ≠ []) (hd : ∀ c ∈ d, isDigit c = true) (hsep : isSeparator sep = true) :
    sig (W ++ (d ++ (sep ++ R))) = ((TokenNumber, d), sep ++ R) := by
  obtain ⟨c, t, e, _, hc1, _, hc3, hc4⟩ := sep_cons sep hsep
  subst e
  cases d with
  | nil => exact absurd rfl h0
  | cons x xs =>
    have hx := hd x (List.mem_cons_self _ _)
    have hl := lex_digits x xs hx (fun y hy => hd y (List.mem_cons_of_mem _ hy)) c (t ++ R)
      hc1 hc3 hc4
    exact sig_skip_eq W _ _ x (xs ++ (c :: t ++ R)) _ _ hW rfl (isDigit_ne_eof hx)
      (isDigit_not_isWhitespace hx) hl (by decide) (by decide)

theorem sig_string (W s R : List Char) (hW : ∀ c ∈ W, isWhitespace c = true)
    (hs : isPlainString s = true) :
    sig (W ++ (quoted s ++ R)) = ((TokenString, quoted s), R) := by
  have hl := lex_plain_string s R hs
  have e : quoted s ++ R = '"' :: (s ++ '"' :: R) := by simp [quoted]
  exact sig_skip_eq W _ _ '"' (s ++ '"' :: R) _ _ hW e (by decide) (by decide)
    (by rw [e]; exact hl) (by decide) (by decide)

theorem lex_lcurly (R : List Char) : lex ('{' :: R) = ((TokenLCurlyBrace, ['{']), R) := by
  rw [lex, if_neg (by decide), if_neg (by decide), if_neg (by decide), if_neg (by decide),
    if_neg (by decide), if_pos rfl]

theorem lex_rcurly (R : List Char) : lex ('}' :: R) = ((TokenRCurlyBrace, ['}']), R) := by
  rw [lex, if_neg (by decide), if_neg (by decide), if_neg (by decide), if_neg (by decide),
    if_neg (by decide), if_neg (by decide), if_neg (by decide), if_neg (by decide),
    if_pos rfl]

theorem lex_lbracket (R : List Char) : lex ('[' :: R) = ((TokenLBracket, ['[']), R) := by
  rw [lex, if_neg (by decide), if_neg (by decide), if_neg (by decide), if_neg (by decide),
    if_neg (by decide), if_neg (by decide), if_neg (by decide), if_pos rfl]

theorem lex_rbracket (R : List Char) : lex (']' :: R) = ((TokenRBracket, [']']), R) := by
  rw [lex, if_neg (by decide), if_neg (by decide), if_neg (by decide), if_neg (by decide),
    if_neg (by decide), if_neg (by decide), if_neg (by decide), if_neg (by decide),
    if_neg (by decide), if_neg (by decide), if_pos rfl]

theorem lex_comma (R : List Char) : lex (',' :: R) = ((TokenComma, [',']), R) := by
  rw [lex, if_neg (by decide), if_neg (by decide), if_neg (by decide), if_neg (by decide),
    if_neg (by decide), if_neg (by decide), if_neg (by decide), if_neg (by decide),
    if_neg (by decide), if_neg (by decide), if_neg (by decide), if_pos rfl]

theorem lex_assign (R : List Char) :
    lex ('=' :: '>' :: R) = ((TokenAssignment, "=>".toList), R) := by
  rw [lex, if_neg (by decide), if_neg (by decide), if_pos (by decide)]
  simp [lexOperator]

theorem sig_lcurly (W R : List Char) (hW : ∀ c ∈ W, isWhitespace c = true) :
    sig (W ++ '{' :: R) = ((TokenLCurlyBrace, ['{']), R) :=
  sig_skip_eq W _ _ '{' R _ _ hW rfl (by decide) (by decide) (lex_lcurly R) (by decide) (by decide)

theorem sig_rcurly (W R : List Char) (hW : ∀ c ∈ W, isWhitespace c = true) :
    sig (W ++ '}' :: R) = ((TokenRCurlyBrace, ['}']), R) :=
  sig_skip_eq W _ _ '}' R _ _ hW rfl (by decide) (by decide) (lex_rcurly R) (by decide) (by decide)

theorem sig_lbracket (W R : List Char) (hW : ∀ c ∈ W, isWhitespace c = true) :
    sig (W ++ '[' :: R) = ((TokenLBracket, ['[']), R) :=
  sig_skip_eq W _ _ '[' R _ _ hW rfl (by decide) (by decide) (lex_lbracket R) (by decide) (by decide)

theorem sig_rbracket (W R : List Char) (hW : ∀ c ∈ W, isWhitespace c = true) :
    sig (W ++ ']' :: R) = ((TokenRBracket, [']']), R) :=
  sig_skip_eq W _ _ ']' R _ _ hW rfl (by decide) (by decide) (lex_rbracket R) (by decide) (by decide)

theorem sig_comma (W R : List Char) (hW : ∀ c ∈ W, isWhitespace c = true) :
    sig (W ++ ',' :: R) = ((TokenComma, [',']), R) :=
  sig_skip_eq W _ _ ',' R _ _ hW rfl (by decide) (by decide) (lex_comma R) (by decide) (by decide)

theorem sig_assign (W R : List Char) (hW : ∀ c ∈ W, isWhitespace c = true) :
    sig (W ++ '=' :: '>' :: R) = ((TokenAssignment, "=>".toList), R) :=
  sig_skip_eq W _ _ '=' ('>' :: R) _ _ hW rfl (by decide) (by decide) (lex_assign R) (by decide)
    (by decide)

theorem sig_nil : sig [] = ((TokenEOF, []), []) :=
  sig_of_lex_eq [] [] TokenEOF [] lex_nil (by decide) (by decide)

theorem Parser.Holds.n0 {p : Parser} {tok : Token} {lit Y : List Char} (h : p.Holds tok lit Y) :
    p.buf.n = 0 := h.1

theorem Parser.Holds.rest {p : Parser} {tok : Token} {lit Y : List Char} (h : p.Holds tok lit Y) :
    p.s.rest = Y := h.2.2.2

/-- One fetch of a token whose kind is expected: the result of `getToken` when the next
significant token of the unread input is known. -/
theorem getToken_at (p : Parser) (types : List Token) (X Y : List Char) (tok : Token)
    (lit : List Char) (hn : p.buf.n = 0) (hr : p.s.rest = X) (hs : sig X = ((tok, lit), Y))
    (h1 : tok ≠ TokenIllegal) (h2 : tok ∈ types) :
    ∃ p1, p.getToken types = some ((tok, lit, none), p1) ∧ p1.Holds tok lit Y := by
  have := getToken_ok p types hn (by rw [hr, hs]; exact h1) (by rw [hr, hs]; exact h2)
  rw [hr, hs] at this
  exact this

theorem parseArrayLoop_render (sep : List Char) (hsep : isSeparator sep = true)
    (xs : List (List Char)) :
    ∀ (acc : List (List Nat)) (p : Parser) (fuel : Nat) (W R : List Char),
      (∀ x ∈ xs, isPlainString x = true) → p.buf.n = 0 → (∀ c ∈ W, isWhitespace c = true) →
      p.s.rest = W ++ (renderElems sep xs ++ ']' :: R) → p.s.rest.length < fuel →
      ∃ p1, Parser.parseArrayLoop fuel acc p = some (.ok (acc ++ xs.map utf8Bytes), p1)
        ∧ p1.buf.n = 0
        ∧ p1.s.rest = R := by
  induction xs with
  | nil =>
    intro acc p fuel W R _ hn hW hr hf
    cases fuel with
    | zero => omega
    | succ fuel =>
      obtain ⟨p1, e1, h1⟩ := getToken_at p [TokenRBracket, TokenString, TokenComma] _ R
        TokenRBracket [']'] hn hr (by simpa [renderElems] using sig_rbracket W R hW)
        (by decide) (by decide)
      refine ⟨p1, ?_, h1.n0, h1.rest⟩
      simp [Parser.parseArrayLoop, e1]
  | cons a t ih =>
    intro acc p fuel W R hx hn hW hr hf
    have ha := hx a (List.mem_cons_self _ _)
    have ht : ∀ x ∈ t, isPlainString x = true := fun x h => hx x (List.mem_cons_of_mem _ h)
    cases fuel with
    | zero => omega
    | succ fuel =>
      cases t with
      | nil =>
        have hs := sig_string W a (sep ++ ']' :: R) hW ha
        obtain ⟨p1, e1, h1⟩ := getToken_at p [TokenRBracket, TokenString, TokenComma] _ _
          TokenString (quoted a) hn hr
          (by simpa [renderElems, List.append_assoc] using hs) (by decide) (by decide)
        have hlen : p1.s.rest.length < fuel := by
          rw [h1.rest]; rw [hr] at hf
          simp only [renderElems, List.length_append, List.length_cons, quoted] at hf ⊢
          omega
        obtain ⟨p2, e2, hn2, hr2⟩ := ih (acc ++ [utf8Bytes a]) p1 fuel sep R ht h1.n0 (sep_ws sep hsep)
          (by rw [h1.rest]; simp [renderElems]) hlen
        refine ⟨p2, ?_, hn2, hr2⟩
        simp only [Parser.parseArrayLoop, e1]
        rw [if_neg (by decide), if_neg (by decide)]
        simp only [quoted, Unquote_plain a ha]
        rw [e2]
        simp
      | cons b t2 =>
        have hs := sig_string W a (',' :: (sep ++ (renderElems sep (b :: t2) ++ ']' :: R))) hW ha
        obtain ⟨p1, e1, h1⟩ := getToken_at p [TokenRBracket, TokenString, TokenComma] _ _
          TokenString (quoted a) hn hr
          (by simpa [renderElems, List.append_assoc] using hs) (by decide) (by decide)
        have hs2 := sig_comma [] (sep ++ (renderElems sep (b :: t2) ++ ']' :: R))
          (by simp)
        obtain ⟨p2, e2, h2⟩ := getToken_at p1 [TokenRBracket, TokenString, TokenComma] _ _
          TokenComma [','] h1.n0 h1.rest (by simpa using hs2) (by decide) (by decide)
        have hlen1 : p1.s.rest.length < fuel := by
          rw [h1.rest]; rw [hr] at hf
          simp only [renderElems, List.length_append, List.length_cons, quoted] at hf ⊢
          omega
        cases fuel with
        | zero => omega
        | succ fuel =>
          have hlen : p2.s.rest.length < fuel := by
            rw [h2.rest]; rw [h1.rest] at hlen1
            simp only [List.length_append, List.length_cons] at hlen1 ⊢
            omega
          obtain ⟨p3, e3, hn3, hr3⟩ := ih (acc ++ [utf8Bytes a]) p2 fuel sep R ht h2.n0
            (sep_ws sep hsep) (by rw [h2.rest]) hlen
          refine ⟨p3, ?_, hn3, hr3⟩
          simp only [Parser.parseArrayLoop, e1]
          rw [if_neg (by decide), if_neg (by decide)]
          simp only [quoted, Unquote_plain a ha, e2]
          rw [if_pos trivial, e3]
          simp

theorem parseArray_render (sep : List Char) (hsep : isSeparator sep = true)
    (xs : List (List Char)) (hx : ∀ x ∈ xs, isPlainString x = true) (p : Parser)
    (R : List Char) (hn : p.buf.n ≠ 0) (ht : p.buf.tok = TokenLBracket)
    (hr : p.s.rest = sep ++ (renderElems sep xs ++ ']' :: R)) :
    ∃ p1, p.parseArray = some (.ok (xs.map utf8Bytes), p1) ∧ p1.buf.n = 0
      ∧ p1.s.rest = R := by
  obtain ⟨p1, e1, h1⟩ := getToken_buffered p [TokenLBracket] hn (by rw [ht]; decide)
    (by rw [ht]; decide) (by rw [ht]; decide) (by rw [ht]; decide)
  obtain ⟨p2, e2, hn2, hr2⟩ := parseArrayLoop_render sep hsep xs [] p1 (p1.s.rest.length + 1)
    sep R hx h1.n0 (sep_ws sep hsep) (by rw [h1.rest, hr]) (by omega)
  refine ⟨p2, ?_, hn2, hr2⟩
  simp only [Parser.parseArray, e1, e2, List.nil_append]

theorem digitChar_value : ∀ k : Fin 10, (Nat.digitChar k.val).toNat - 48 = k.val
    ∧ isDigit (Nat.digitChar k.val) = true := by
  decide

theorem toDigitsCore_value (fuel : Nat) : ∀ (n : Nat) (ds : List Char), n < fuel →
    (Nat.toDigitsCore 10 fuel n ds).foldl (fun a c => a * 10 + (c.toNat - 48)) 0
      = ds.foldl (fun a c => a * 10 + (c.toNat - 48)) n := by
  induction fuel with
  | zero => intro n ds h; omega
  | succ fuel ih =>
    intro n ds h
    have hd := (digitChar_value ⟨n % 10, Nat.mod_lt _ (by decide)⟩).1
    simp only at hd
    simp only [Nat.toDigitsCore]
    by_cases h0 : n / 10 = 0
    · rw [if_pos h0]
      simp only [List.foldl_cons, hd, Nat.zero_mul, Nat.zero_add]
      have : n % 10 = n := by omega
      rw [this]
    · rw [if_neg h0]
      rw [ih (n / 10) _ (by omega)]
      simp only [List.foldl_cons, hd]
      have : n / 10 * 10 + n % 10 = n := by omega
      rw [this]

theorem toDigitsCore_digits (fuel : Nat) : ∀ (n : Nat) (ds : List Char),
    (∀ c ∈ ds, isDigit c = true) → ∀ c ∈ Nat.toDigitsCore 10 fuel n ds, isDigit c = true := by
  induction fuel with
  | zero => intro n ds h; simpa [Nat.toDigitsCore] using h
  | succ fuel ih =>
    intro n ds h
    have hd := (digitChar_value ⟨n % 10, Nat.mod_lt _ (by decide)⟩).2
    simp only at hd
    have h2 : ∀ c ∈ Nat.digitChar (n % 10) :: ds, isDigit c = true := by
      intro c hc
      rcases List.mem_cons.mp hc with e | e
      · rw [e]; exact hd
      · exact h c e
    simp only [Nat.toDigitsCore]
    by_cases h0 : n / 10 = 0
    · rw [if_pos h0]; exact h2
    · rw [if_neg h0]; exact ih _ _ h2

theorem toDigitsCore_ne_nil (fuel n : Nat) (ds : List Char) (h : n < fuel) :
    Nat.toDigitsCore 10 fuel n ds ≠ [] := by
  induction fuel generalizing n ds with
  | zero => omega
  | succ fuel ih =>
    simp only [Nat.toDigitsCore]
    by_cases h0 : n / 10 = 0
    · rw [if_pos h0]; simp
    · rw [if_neg h0]; exact ih _ _ (by omega)

theorem fmtInt_value (n : Nat) : decimalValue (fmtInt n) = n := by
  simp only [decimalValue, fmtInt, Nat.toDigits]
  rw [toDigitsCore_value (n + 1) n [] (by omega)]
  rfl

theorem fmtInt_digits (n : Nat) : ∀ c ∈ fmtInt n, isDigit c = true :=
  toDigitsCore_digits (n + 1) n [] (by simp)

theorem fmtInt_ne_nil (n : Nat) : fmtInt n ≠ [] :=
  toDigitsCore_ne_nil (n + 1) n [] (by omega)

theorem digits_no_dot (d : List Char) (hd : ∀ c ∈ d, isDigit c = true) : '.' ∉ d :=
  fun h => isDigit_ne_dot (hd _ h) rfl

theorem parseField_render (sep : List Char) (hsep : isSeparator sep = true) (v : Value)
    (hv : valueOk v = true) (p : Parser) (W R : List Char) (hn : p.buf.n = 0)
    (hW : ∀ c ∈ W, isWhitespace c = true)
    (hr : p.s.rest = W ++ '=' :: '>' :: (sep ++ (renderValue sep v ++ (sep ++ R)))) :
    ∃ p1, p.parseField = some (.ok v, p1) ∧ p1.buf.n = 0 ∧ p1.s.rest = sep ++ R := by
  obtain ⟨p1, e1, h1⟩ := getToken_at p [TokenAssignment] _ _ TokenAssignment "=>".toList hn hr
    (sig_assign W _ hW) (by decide) (by decide)
  cases v with
  | str s =>
    simp only [valueOk] at hv
    have hv1 : isPlainString (textOf s) = true := by
      simp only [isPlainValue, Bool.and_eq_true] at hv
      exact hv.1
    obtain ⟨p2, e2, h2⟩ := getToken_at p1 [TokenString, TokenNumber, TokenLBracket] _ _
      TokenString (quoted (textOf s)) h1.n0 h1.rest
      (by simpa [renderValue] using sig_string sep (textOf s) (sep ++ R) (sep_ws sep hsep) hv1)
      (by decide) (by decide)
    refine ⟨p2, ?_, h2.n0, h2.rest⟩
    simp only [Parser.parseField, e1, e2]
    rw [if_pos trivial]
    simp only [quoted, Unquote_value s hv]
  | int n =>
    simp only [valueOk, Bool.and_eq_true, decide_eq_true_eq] at hv
    have hdig := fmtInt_digits n.toNat
    obtain ⟨p2, e2, h2⟩ := getToken_at p1 [TokenString, TokenNumber, TokenLBracket] _ _
      TokenNumber (fmtInt n.toNat) h1.n0 h1.rest
      (by simpa [renderValue] using
        sig_number sep (fmtInt n.toNat) sep R (sep_ws sep hsep) (fmtInt_ne_nil _) hdig hsep)
      (by decide) (by decide)
    refine ⟨p2, ?_, h2.n0, h2.rest⟩
    simp only [Parser.parseField, e1, e2]
    have hcast : ((n.toNat : Nat) : Int) = n := Int.toNat_of_nonneg hv.1
    have hle : n.toNat ≤ 2 ^ 63 - 1 := by omega
    rw [if_neg (by decide), if_neg (by decide), if_pos trivial, if_neg (digits_no_dot _ hdig),
      ParseInt_digits _ (fmtInt_ne_nil _) hdig, fmtInt_value, if_pos hle, hcast]
  | float f => simp [valueOk] at hv
  | strs xs =>
    simp only [valueOk, List.all_eq_true] at hv
    have hsig := sig_lbracket sep (sep ++ (renderElems sep (xs.map textOf) ++ ']' :: (sep ++ R)))
      (sep_ws sep hsep)
    obtain ⟨p2, e2, h2⟩ := getToken_at p1 [TokenString, TokenNumber, TokenLBracket] _ _
      TokenLBracket ['['] h1.n0 h1.rest
      (by simpa [renderValue] using hsig)
      (by decide) (by decide)
    have hplain : ∀ x ∈ xs.map textOf, isPlainString x = true := by
      intro x hx
      obtain ⟨b, hb, rfl⟩ := List.mem_map.mp hx
      have := hv b hb
      simp only [isPlainValue, Bool.and_eq_true] at this
      exact this.1
    obtain ⟨p3, e3, hn3, hr3⟩ := parseArray_render sep hsep (xs.map textOf) hplain p2.unscan
      (sep ++ R)
      (by
        obtain ⟨s, line, col, ⟨tok, lit, n, bl, bc⟩⟩ := p2
        simp [Parser.unscan])
      (by
        have := h2.2.1
        obtain ⟨s, line, col, ⟨tok, lit, n, bl, bc⟩⟩ := p2
        simpa [Parser.unscan] using this)
      (by
        have := h2.rest
        obtain ⟨s, line, col, ⟨tok, lit, n, bl, bc⟩⟩ := p2
        simpa [Parser.unscan] using this)
    refine ⟨p3, ?_, hn3, hr3⟩
    simp only [Parser.parseField, e1, e2]
    rw [if_neg (by decide), if_pos trivial, e3, map_utf8Bytes_textOf xs hv]

theorem get_none_of_not_mem (m : PluginFields) (k : List Char) (h : k ∉ m.map Prod.fst) :
    PluginFields.get m k = none := by
  induction m with
  | nil => rfl
  | cons kv t ih =>
    obtain ⟨k1, v1⟩ := kv
    simp only [List.map_cons, List.mem_cons, not_or] at h
    simp only [PluginFields.get]
    rw [if_neg (fun e => h.1 e.symm)]
    exact ih h.2

theorem set_of_not_mem (m : PluginFields) (k : List Char) (v : Value)
    (h : k ∉ m.map Prod.fst) : PluginFields.set m k v = m ++ [(k, v)] := by
  induction m with
  | nil => rfl
  | cons kv t ih =>
    obtain ⟨k1, v1⟩ := kv
    simp only [List.map_cons, List.mem_cons, not_or] at h
    simp only [PluginFields.set]
    rw [if_neg (fun e => h.1 e.symm), ih h.2]
    rfl

theorem parsePluginFieldsLoop_render (sep : List Char) (hsep : isSeparator sep = true)
    (fs : PluginFields) :
    ∀ (acc : PluginFields) (p : Parser) (fuel : Nat) (W R : List Char),
      (∀ kv ∈ fs, isIdentifier kv.1 = true ∧ valueOk kv.2 = true) →
      ((acc ++ fs).map Prod.fst).Nodup → p.buf.n = 0 → (∀ c ∈ W, isWhitespace c = true) →
      p.s.rest = W ++ (renderFields sep fs ++ '}' :: R) → p.s.rest.length < fuel →
      ∃ p1, Parser.parsePluginFieldsLoop fuel acc p = some (.ok (acc ++ fs), p1)
        ∧ p1.buf.n = 0 ∧ p1.s.rest = R := by
  induction fs with
  | nil =>
    intro acc p fuel W R _ _ hn hW hr hf
    cases fuel with
    | zero => omega
    | succ fuel =>
      obtain ⟨p1, e1, h1⟩ := getToken_at p [TokenIdentifier, TokenRCurlyBrace] _ R
        TokenRCurlyBrace ['}'] hn hr (by simpa [renderFields] using sig_rcurly W R hW)
        (by decide) (by decide)
      refine ⟨p1, ?_, h1.n0, h1.rest⟩
      simp [Parser.parsePluginFieldsLoop, e1]
  | cons kv t ih =>
    intro acc p fuel W R hok hnd hn hW hr hf
    obtain ⟨k, v⟩ := kv
    have hkv := hok (k, v) (List.mem_cons_self _ _)
    have ht : ∀ kv ∈ t, isIdentifier kv.1 = true ∧ valueOk kv.2 = true :=
      fun x h => hok x (List.mem_cons_of_mem _ h)
    cases fuel with
    | zero => omega
    | succ fuel =>
      have hs := sig_identifier W k sep
        ('=' :: '>' :: (sep ++ (renderValue sep v ++ (sep ++ (renderFields sep t ++ '}' :: R)))))
        hW hkv.1 hsep
      obtain ⟨p1, e1, h1⟩ := getToken_at p [TokenIdentifier, TokenRCurlyBrace] _ _
        TokenIdentifier k hn hr
        (by simpa [renderFields, List.append_assoc] using hs) (by decide) (by decide)
      obtain ⟨p2, e2, hn2, hr2⟩ := parseField_render sep hsep v hkv.2 p1 sep
        (renderFields sep t ++ '}' :: R) h1.n0 (sep_ws sep hsep) (by rw [h1.rest])
      have hknot : k ∉ acc.map Prod.fst := by
        intro hmem
        rw [List.map_append, List.nodup_append] at hnd
        exact hnd.2.2 hmem (List.mem_map.mpr ⟨(k, v), List.mem_cons_self _ _, rfl⟩)
      have hnd2 : (((acc ++ [(k, v)]) ++ t).map Prod.fst).Nodup := by
        simpa [List.append_assoc] using hnd
      have hlen : p2.s.rest.length < fuel := by
        rw [hr2]; rw [hr] at hf
        simp only [renderFields, List.length_append, List.length_cons] at hf ⊢
        omega
      obtain ⟨p3, e3, hn3, hr3⟩ := ih (acc ++ [(k, v)]) p2 fuel sep R ht hnd2 hn2
        (sep_ws sep hsep) hr2 hlen
      refine ⟨p3, ?_, hn3, hr3⟩
      simp only [Parser.parsePluginFieldsLoop, e1, e2, Parser.mergeField,
        get_none_of_not_mem acc k hknot, set_of_not_mem acc k v hknot]
      rw [if_neg (by decide), e3]
      simp

theorem parsePluginFields_render (sep : List Char) (hsep : isSeparator sep = true)
    (fs : PluginFields) (hok : fieldsOk fs = true) (p : Parser) (W R : List Char)
    (hn : p.buf.n = 0) (hW : ∀ c ∈ W, isWhitespace c = true)
    (hr : p.s.rest = W ++ '{' :: (sep ++ (renderFields sep fs ++ '}' :: R))) :
    ∃ p1, p.parsePluginFields = some (.ok fs, p1) ∧ p1.buf.n = 0 ∧ p1.s.rest = R := by
  simp only [fieldsOk, Bool.and_eq_true, List.all_eq_true, decide_eq_true_eq] at hok
  obtain ⟨p1, e1, h1⟩ := getToken_at p [TokenLCurlyBrace] _ _ TokenLCurlyBrace ['{'] hn hr
    (sig_lcurly W _ hW) (by decide) (by decide)
  obtain ⟨p2, e2, hn2, hr2⟩ := parsePluginFieldsLoop_render sep hsep fs [] p1
    (p1.s.rest.length + 1) sep R hok.1 (by simpa using hok.2) h1.n0 (sep_ws sep hsep)
    h1.rest (by omega)
  refine ⟨p2, ?_, hn2, hr2⟩
  simp only [Parser.parsePluginFields, e1, e2, List.nil_append]

theorem parseSectionBlockLoop_render (sep : List Char) (hsep : isSeparator sep = true)
    (ps : List PluginConfig) :
    ∀ (acc : List PluginConfig) (p : Parser) (fuel : Nat) (W R : List Char),
      (∀ pl ∈ ps, pluginOk pl = true) → p.buf.n = 0 → (∀ c ∈ W, isWhitespace c = true) →
      p.s.rest = W ++ (renderPlugins sep ps ++ '}' :: R) → p.s.rest.length < fuel →
      ∃ p1, Parser.parseSectionBlockLoop fuel acc p = some (.ok (acc ++ ps), p1)
        ∧ p1.buf.n = 0 ∧ p1.s.rest = R := by
  induction ps with
  | nil =>
    intro acc p fuel W R _ hn hW hr hf
    cases fuel with
    | zero => omega
    | succ fuel =>
      obtain ⟨p1, e1, h1⟩ := getToken_at p [TokenIdentifier, TokenRCurlyBrace] _ R
        TokenRCurlyBrace ['}'] hn hr (by simpa [renderPlugins] using sig_rcurly W R hW)
        (by decide) (by decide)
      refine ⟨p1, ?_, h1.n0, h1.rest⟩
      simp [Parser.parseSectionBlockLoop, e1]
  | cons pl t ih =>
    intro acc p fuel W R hok hn hW hr hf
    have hpl := hok pl (List.mem_cons_self _ _)
    simp only [pluginOk, Bool.and_eq_true] at hpl
    have ht : ∀ x ∈ t, pluginOk x = true := fun x h => hok x (List.mem_cons_of_mem _ h)
    cases fuel with
    | zero => omega
    | succ fuel =>
      have hs := sig_identifier W pl.Name sep
        ('{' :: (sep ++ (renderFields sep pl.Fields ++ '}' :: (sep
          ++ (renderPlugins sep t ++ '}' :: R))))) hW hpl.1 hsep
      obtain ⟨p1, e1, h1⟩ := getToken_at p [TokenIdentifier, TokenRCurlyBrace] _ _
        TokenIdentifier pl.Name hn hr
        (by simpa [renderPlugins, List.append_assoc] using hs) (by decide) (by decide)
      obtain ⟨p2, e2, hn2, hr2⟩ := parsePluginFields_render sep hsep pl.Fields hpl.2 p1 sep
        (sep ++ (renderPlugins sep t ++ '}' :: R)) h1.n0 (sep_ws sep hsep) (by rw [h1.rest])
      have hlen : p2.s.rest.length < fuel := by
        rw [hr2]; rw [hr] at hf
        simp only [renderPlugins, List.length_append, List.length_cons] at hf ⊢
        omega
      obtain ⟨p3, e3, hn3, hr3⟩ := ih (acc ++ [pl]) p2 fuel sep R ht hn2
        (sep_ws sep hsep) hr2 hlen
      refine ⟨p3, ?_, hn3, hr3⟩
      simp only [Parser.parseSectionBlockLoop, e1, e2]
      rw [if_neg (by decide), e3]
      simp

theorem parseSectionBlock_render (sep : List Char) (hsep : isSeparator sep = true)
    (ps : List PluginConfig) (hok : ∀ pl ∈ ps, pluginOk pl = true) (p : Parser)
    (W R : List Char) (hn : p.buf.n = 0) (hW : ∀ c ∈ W, isWhitespace c = true)
    (hr : p.s.rest = W ++ '{' :: (sep ++ (renderPlugins sep ps ++ '}' :: R))) :
    ∃ p1, p.parseSectionBlock = some (.ok ps, p1) ∧ p1.buf.n = 0 ∧ p1.s.rest = R := by
  obtain ⟨p1, e1, h1⟩ := getToken_at p [TokenLCurlyBrace] _ _ TokenLCurlyBrace ['{'] hn hr
    (sig_lcurly W _ hW) (by decide) (by decide)
  obtain ⟨p2, e2, hn2, hr2⟩ := parseSectionBlockLoop_render sep hsep ps [] p1
    (p1.s.rest.length + 1) sep R hok h1.n0 (sep_ws sep hsep) h1.rest (by omega)
  refine ⟨p2, ?_, hn2, hr2⟩
  simp only [Parser.parseSectionBlock, e1, e2, List.nil_append]

theorem ParseLoop_section (sep : List Char) (hsep : isSeparator sep = true)
    (kw : List Char) (hkw : kw = "input".toList ∨ kw = "filter".toList ∨ kw = "output".toList)
    (ps : List PluginConfig) (hok : ∀ pl ∈ ps, pluginOk pl = true) (cfg : Config) (p : Parser)
    (fuel : Nat) (W R : List Char) (hn : p.buf.n = 0) (hW : ∀ c ∈ W, isWhitespace c = true)
    (hr : p.s.rest = W ++ (kw ++ (sep ++ ('{' :: (sep ++ (renderPlugins sep ps ++ '}' :: R))))))
    (hf : p.s.rest.length < fuel) :
    ∃ p2 m, p2.buf.n = 0 ∧ p2.s.rest = R ∧ p2.s.rest.length < m
      ∧ Parser.ParseLoop fuel cfg p = Parser.ParseLoop m (addSection cfg kw ps) p2 := by
  cases fuel with
  | zero => omega
  | succ m =>
    have hid : isIdentifier kw = true := by
      rcases hkw with h | h | h <;> subst h <;> decide
    have hs := sig_identifier W kw sep ('{' :: (sep ++ (renderPlugins sep ps ++ '}' :: R)))
      hW hid hsep
    obtain ⟨p1, e1, h1⟩ := getToken_at p [TokenIdentifier] _ _ TokenIdentifier kw hn hr hs
      (by decide) (by decide)
    obtain ⟨p2, e2, hn2, hr2⟩ := parseSectionBlock_render sep hsep ps hok p1 sep R h1.n0
      (sep_ws sep hsep) (by rw [h1.rest])
    have hlen : p2.s.rest.length < m := by
      rw [hr2]; rw [hr] at hf
      simp only [List.length_append, List.length_cons] at hf ⊢
      omega
    refine ⟨p2, m, hn2, hr2, hlen, ?_⟩
    simp only [Parser.ParseLoop, e1, e2]
    rw [if_neg (by decide)]
    rcases hkw with h | h | h <;> subst h <;> simp [addSection]

theorem ParseLoop_end (cfg : Config) (p : Parser) (m : Nat) (hn : p.buf.n = 0)
    (hr : p.s.rest = []) :
    ∃ p1, Parser.ParseLoop (m + 1) cfg p = some (.ok cfg, p1) := by
  obtain ⟨p1, e, e1, _, _⟩ := getToken_fresh p [TokenIdentifier] hn
  rw [hr, sig_nil] at e1
  exact ⟨p1, by simp [Parser.ParseLoop, e1]⟩

theorem parseField_digits (sep : List Char) (hsep : isSeparator sep = true) (d : List Char)
    (hd0 : d ≠ []) (hd : ∀ c ∈ d, isDigit c = true) (p : Parser) (W R : List Char)
    (hn : p.buf.n = 0) (hW : ∀ c ∈ W, isWhitespace c = true)
    (hr : p.s.rest = W ++ '=' :: '>' :: (sep ++ (d ++ (sep ++ R)))) :
    ∃ p1, p.parseField
        = some (if decimalValue d ≤ 2 ^ 63 - 1 then .ok (.int (decimalValue d))
            else .error (.NumError "ParseInt".toList d .ErrRange), p1)
      ∧ p1.buf.n = 0 ∧ p1.s.rest = sep ++ R := by
  obtain ⟨p1, e1, h1⟩ := getToken_at p [TokenAssignment] _ _ TokenAssignment "=>".toList hn hr
    (sig_assign W _ hW) (by decide) (by decide)
  obtain ⟨p2, e2, h2⟩ := getToken_at p1 [TokenString, TokenNumber, TokenLBracket] _ _
    TokenNumber d h1.n0 h1.rest (sig_number sep d sep R (sep_ws sep hsep) hd0 hd hsep)
    (by decide) (by decide)
  refine ⟨p2, ?_, h2.n0, h2.rest⟩
  simp only [Parser.parseField, e1, e2]
  rw [if_neg (by decide), if_neg (by decide), if_pos trivial, if_neg (digits_no_dot _ hd),
    ParseInt_digits _ hd0 hd]
  by_cases h : decimalValue d ≤ 2 ^ 63 - 1
  · rw [if_pos h, if_pos h]
  · rw [if_neg h, if_neg h]

theorem Parse_oneField (sep : List Char) (hsep : isSeparator sep = true) (d : List Char)
    (res : Except Error Value)
    (hfield : ∀ p : Parser, p.buf.n = 0 →
      p.s.rest = sep ++ '=' :: '>' :: (sep ++ (d ++ (sep ++ ('}' :: (sep ++ ['}']))))) →
      ∃ p1, p.parseField = some (res, p1) ∧ p1.buf.n = 0
        ∧ p1.s.rest = sep ++ ('}' :: (sep ++ ['}']))) :
    Parse (oneFieldText sep d)
      = some (match res with
          | .ok v => .ok (oneFieldConfig v)
          | .error e => .error e) := by
  have hws := sep_ws sep hsep
  obtain ⟨p1, e1, h1⟩ := getToken_at (NewParser (oneFieldText sep d)) [TokenIdentifier]
    (oneFieldText sep d) _ TokenIdentifier "input".toList rfl rfl
    (sig_identifier [] "input".toList sep _ (by simp) (by decide) hsep) (by decide) (by decide)
  obtain ⟨p2, e2, h2⟩ := getToken_at p1 [TokenLCurlyBrace] _ _ TokenLCurlyBrace ['{'] h1.n0
    h1.rest (sig_lcurly sep _ hws) (by decide) (by decide)
  obtain ⟨p3, e3, h3⟩ := getToken_at p2 [TokenIdentifier, TokenRCurlyBrace] _ _
    TokenIdentifier ['p'] h2.n0 h2.rest
    (sig_identifier sep ['p'] sep _ hws (by decide) hsep) (by decide) (by decide)
  obtain ⟨p4, e4, h4⟩ := getToken_at p3 [TokenLCurlyBrace] _ _ TokenLCurlyBrace ['{'] h3.n0
    h3.rest (sig_lcurly sep _ hws) (by decide) (by decide)
  obtain ⟨p5, e5, h5⟩ := getToken_at p4 [TokenIdentifier, TokenRCurlyBrace] _ _
    TokenIdentifier ['f'] h4.n0 h4.rest
    (sig_identifier sep ['f'] sep _ hws (by decide) hsep) (by decide) (by decide)
  obtain ⟨p6, e6, hn6, hr6⟩ := hfield p5 h5.n0 h5.rest
  obtain ⟨p7, e7, h7⟩ := getToken_at p6 [TokenIdentifier, TokenRCurlyBrace] _ _
    TokenRCurlyBrace ['}'] hn6 hr6 (sig_rcurly sep _ hws) (by decide) (by decide)
  obtain ⟨p8, e8, h8⟩ := getToken_at p7 [TokenIdentifier, TokenRCurlyBrace] _ _
    TokenRCurlyBrace ['}'] h7.n0 h7.rest (sig_rcurly sep _ hws) (by decide) (by decide)
  have hl1 : 0 < p6.s.rest.length := by
    rw [hr6]; simp
  have hf4 : ∃ k4, p4.s.rest.length + 1 = k4 + 2 := by
    refine ⟨p4.s.rest.length - 1, ?_⟩
    rw [h4.rest]
    simp only [List.length_append, List.length_cons]
    omega
  obtain ⟨k4, hk4⟩ := hf4
  have hf2 : ∃ k2, p2.s.rest.length + 1 = k2 + 2 := by
    refine ⟨p2.s.rest.length - 1, ?_⟩
    rw [h2.rest]
    simp only [List.length_append, List.length_cons]
    omega
  obtain ⟨k2, hk2⟩ := hf2
  have hf0 : ∃ k, (NewParser (oneFieldText sep d)).s.rest.length + 1 = k + 2 := by
    refine ⟨(NewParser (oneFieldText sep d)).s.rest.length - 1, ?_⟩
    have : (NewParser (oneFieldText sep d)).s.rest = oneFieldText sep d := rfl
    rw [this]
    simp only [oneFieldText, List.length_append, List.length_cons]
    omega
  obtain ⟨k, hk⟩ := hf0
  cases res with
  | error e =>
    have a1 : Parser.parsePluginFieldsLoop (k4 + 2) [] p4 = some (.error e, p6) := by
      simp only [Parser.parsePluginFieldsLoop, e5, e6]
      rw [if_neg (by decide)]
    have a2 : p3.parsePluginFields = some (.error e, p6) := by
      simp only [Parser.parsePluginFields, e4, hk4, a1]
    have a3 : Parser.parseSectionBlockLoop (k2 + 2) [] p2 = some (.error e, p6) := by
      simp only [Parser.parseSectionBlockLoop, e3, a2]
      rw [if_neg (by decide)]
    have a4 : p1.parseSectionBlock = some (.error e, p6) := by
      simp only [Parser.parseSectionBlock, e2, hk2, a3]
    have a5 : Parser.ParseLoop (k + 2) { Input := [], Filter := [], Output := [] }
        (NewParser (oneFieldText sep d)) = some (.error e, p6) := by
      simp only [Parser.ParseLoop, e1, a4]
      rw [if_neg (by decide), if_neg (by decide)]
    show Option.map (fun r => r.1) (Parser.ParseLoop
      ((NewParser (oneFieldText sep d)).s.rest.length + 1)
      { Input := [], Filter := [], Output := [] } (NewParser (oneFieldText sep d))) = _
    rw [hk, a5]
    rfl
  | ok v =>
    have a1 : Parser.parsePluginFieldsLoop (k4 + 2) [] p4 = some (.ok [(['f'], v)], p7) := by
      simp only [Parser.parsePluginFieldsLoop, e5, e6, Parser.mergeField, PluginFields.get,
        PluginFields.set, e7]
      rw [if_neg (by decide), if_pos trivial]
    have a2 : p3.parsePluginFields = some (.ok [(['f'], v)], p7) := by
      simp only [Parser.parsePluginFields, e4, hk4, a1]
    have a3 : Parser.parseSectionBlockLoop (k2 + 2) [] p2
        = some (.ok [{ Name := ['p'], Fields := [(['f'], v)] }], p8) := by
      simp only [Parser.parseSectionBlockLoop, e3, a2, e8]
      rw [if_neg (by decide), if_pos trivial]
      rfl
    have a4 : p1.parseSectionBlock
        = some (.ok [{ Name := ['p'], Fields := [(['f'], v)] }], p8) := by
      simp only [Parser.parseSectionBlock, e2, hk2, a3]
    obtain ⟨p9, e9⟩ := ParseLoop_end
      (addSection { Input := [], Filter := [], Output := [] } "input".toList
        [{ Name := ['p'], Fields := [(['f'], v)] }]) p8 k h8.n0 h8.rest
    have a5 : Parser.ParseLoop (k + 2) { Input := [], Filter := [], Output := [] }
        (NewParser (oneFieldText sep d)) = some (.ok (oneFieldConfig v), p9) := by
      simp only [Parser.ParseLoop, e1, a4]
      rw [if_neg (by decide), if_neg (by decide), if_pos trivial]
      exact e9
    show Option.map (fun r => r.1) (Parser.ParseLoop
      ((NewParser (oneFieldText sep d)).s.rest.length + 1)
      { Input := [], Filter := [], Output := [] } (NewParser (oneFieldText sep d))) = _
    rw [hk, a5]
    rfl

theorem wsRun_ext (B : List Char) (cs : List Char) (h : (wsRun cs).2 ≠ []) :
    wsRun (cs ++ B) = ((wsRun cs).1, (wsRun cs).2 ++ B) := by
  induction cs with
  | nil => simp [wsRun] at h
  | cons c cs ih =>
    rw [List.cons_append]
    simp only [wsRun] at h ⊢
    by_cases h1 : c = eof
    · simp only [if_pos h1]
    · simp only [if_neg h1] at h ⊢
      by_cases h2 : (!isWhitespace c) = true
      · simp only [if_pos h2]
        rfl
      · simp only [if_neg h2] at h ⊢
        rw [ih h]

theorem identRun_ext (B : List Char) (cs : List Char) (h : (identRun cs).2 ≠ []) :
    identRun (cs ++ B) = ((identRun cs).1, (identRun cs).2 ++ B) := by
  induction cs with
  | nil => simp [identRun] at h
  | cons c cs ih =>
    rw [List.cons_append]
    simp only [identRun] at h ⊢
    by_cases h1 : c = eof
    · simp only [if_pos h1]
    · simp only [if_neg h1] at h ⊢
      by_cases h2 : (!isLetter c && !isDigit c && decide (c ≠ '_') && decide (c ≠ '@')
          && decide (c ≠ '-')) = true
      · simp only [if_pos h2]
        rfl
      · simp only [if_neg h2] at h ⊢
        rw [ih h]

theorem commentRun_ext (B : List Char) (cs : List Char) (h : (commentRun cs).2 ≠ []) :
    commentRun (cs ++ B) = ((commentRun cs).1, (commentRun cs).2 ++ B) := by
  induction cs with
  | nil => simp [commentRun] at h
  | cons c cs ih =>
    rw [List.cons_append]
    simp only [commentRun] at h ⊢
    by_cases h1 : c = eof
    · simp only [if_pos h1]
    · simp only [if_neg h1] at h ⊢
      by_cases h2 : c = '\n'
      · simp only [if_pos h2]
        rfl
      · simp only [if_neg h2] at h ⊢
        rw [ih h]

theorem numRun_ext (B : List Char) (cs : List Char) :
    ∀ hd : Bool, (numRun hd cs).2.2 ≠ [] →
      numRun hd (cs ++ B) = ((numRun hd cs).1, (numRun hd cs).2.1, (numRun hd cs).2.2 ++ B) := by
  induction cs with
  | nil => intro hd h; simp [numRun] at h
  | cons c cs ih =>
    intro hd h
    rw [List.cons_append]
    simp only [numRun] at h ⊢
    by_cases h1 : c = eof
    · simp only [if_pos h1]
    · simp only [if_neg h1] at h ⊢
      by_cases h2 : (hd && decide (c = '.')) = true
      · simp only [if_pos h2]
      · simp only [if_neg h2] at h ⊢
        by_cases h3 : isLetter c = true
        · simp only [if_pos h3]
        · simp only [if_neg h3] at h ⊢
          by_cases h4 : (!isDigit c) = true
          · simp only [if_pos h4]
            rfl
          · simp only [if_neg h4] at h ⊢
            rw [ih _ h]

theorem seqRun_ext (delim : Char) (newline : Bool) (B : List Char) (cs : List Char) :
    ∀ esc : Bool, (seqRun delim newline esc cs).2.2 ≠ [] →
      seqRun delim newline esc (cs ++ B)
        = ((seqRun delim newline esc cs).1, (seqRun delim newline esc cs).2.1,
            (seqRun delim newline esc cs).2.2 ++ B) := by
  induction cs with
  | nil => intro esc h; simp [seqRun] at h
  | cons c cs ih =>
    intro esc h
    rw [List.cons_append]
    simp only [seqRun] at h ⊢
    by_cases h1 : c = eof
    · simp only [if_pos h1]
    · simp only [if_neg h1] at h ⊢
      by_cases h2 : (!newline && decide (c = '\n')) = true
      · simp only [if_pos h2]
      · simp only [if_neg h2] at h ⊢
        by_cases h3 : (!esc && decide (c = delim)) = true
        · simp only [if_pos h3]
        · simp only [if_neg h3] at h ⊢
          rw [ih _ h]

theorem lexOperator_ext (B : List Char) (c : Char) (cs : List Char)
    (h : (lexOperator c cs).2 ≠ []) :
    lexOperator c (cs ++ B) = ((lexOperator c cs).1, (lexOperator c cs).2 ++ B) := by
  cases cs with
  | nil =>
    exfalso
    revert h
    simp only [lexOperator, List.tail_nil]
    split_ifs <;> simp
  | cons d ds =>
    simp only [lexOperator, List.cons_append, List.headD_cons, List.tail_cons]
    split_ifs <;> rfl

theorem lex_ext (B : List Char) (X : List Char) (h : (lex X).2 ≠ []) :
    lex (X ++ B) = ((lex X).1, (lex X).2 ++ B) := by
  cases X with
  | nil => simp [lex_nil] at h
  | cons c cs =>
    rw [List.cons_append]
    rw [lex] at h ⊢
    rw [lex]
    by_cases h1 : isWhitespace c = true
    · simp only [if_pos h1] at h ⊢
      rw [wsRun_ext B cs h]
    simp only [if_neg h1] at h ⊢
    by_cases h2 : (isLetter c || decide (c = '@')) = true
    · simp only [if_pos h2] at h ⊢
      rw [identRun_ext B cs h]
    simp only [if_neg h2] at h ⊢
    by_cases h3 : isOperator c = true
    · simp only [if_pos h3] at h ⊢
      rw [lexOperator_ext B c cs h]
    simp only [if_neg h3] at h ⊢
    by_cases h4 : isDigit c = true
    · simp only [if_pos h4] at h ⊢
      rw [numRun_ext B cs false h]
    simp only [if_neg h4] at h ⊢
    by_cases h5 : c = eof
    · simp only [if_pos h5]
    simp only [if_neg h5] at h ⊢
    by_cases h6 : c = '{'
    · simp only [if_pos h6]
    simp only [if_neg h6] at h ⊢
    by_cases h7 : c = '('
    · simp only [if_pos h7]
    simp only [if_neg h7] at h ⊢
    by_cases h8 : c = '['
    · simp only [if_pos h8]
    simp only [if_neg h8] at h ⊢
    by_cases h9 : c = '}'
    · simp only [if_pos h9]
    simp only [if_neg h9] at h ⊢
    by_cases h10 : c = ')'
    · simp only [if_pos h10]
    simp only [if_neg h10] at h ⊢
    by_cases h11 : c = ']'
    · simp only [if_pos h11]
    simp only [if_neg h11] at h ⊢
    by_cases h12 : c = ','
    · simp only [if_pos h12]
    simp only [if_neg h12] at h ⊢
    by_cases h13 : c = '#'
    · simp only [if_pos h13] at h ⊢
      cases cs with
      | nil => simp [commentRun] at h
      | cons d ds =>
        simp only [List.cons_append, List.headD_cons, List.tail_cons] at h ⊢
        rw [commentRun_ext B ds h]
    simp only [if_neg h13] at h ⊢
    by_cases h14 : c = '/'
    · simp only [if_pos h14] at h ⊢
      rw [seqRun_ext '/' false B cs false h]
    simp only [if_neg h14] at h ⊢
    by_cases h15 : c = '"'
    · simp only [if_pos h15] at h ⊢
      rw [seqRun_ext '"' true B cs false h]
    simp only [if_neg h15] at h ⊢

theorem numRun_tok (cs : List Char) : ∀ hd : Bool,
    (numRun hd cs).1 = TokenNumber ∨ (numRun hd cs).1 = TokenIllegal := by
  induction cs with
  | nil => intro hd; simp [numRun]
  | cons c cs ih =>
    intro hd
    simp only [numRun]
    split_ifs
    all_goals first
      | exact Or.inl rfl
      | exact Or.inr rfl
      | exact ih _

theorem keywordToken_ne_rcurly (s : List Char) : keywordToken s ≠ TokenRCurlyBrace := by
  simp only [keywordToken]
  split_ifs <;> exact Token.noConfusion

theorem lexOperator_ne_rcurly (c : Char) (cs : List Char) :
    (lexOperator c cs).1.1 ≠ TokenRCurlyBrace := by
  simp only [lexOperator]
  split_ifs <;> exact Token.noConfusion

theorem lex_rcurly_inv (X : List Char) (h : (lex X).1.1 = TokenRCurlyBrace) :
    ∃ cs, X = '}' :: cs := by
  cases X with
  | nil => simp [lex_nil] at h
  | cons c cs =>
    by_cases h9 : c = '}'
    · exact ⟨cs, by rw [h9]⟩
    exfalso
    rw [lex] at h
    by_cases h1 : isWhitespace c = true
    · simp only [if_pos h1] at h
      exact absurd h (by decide)
    simp only [if_neg h1] at h
    by_cases h2 : (isLetter c || decide (c = '@')) = true
    · simp only [if_pos h2] at h
      exact keywordToken_ne_rcurly _ h
    simp only [if_neg h2] at h
    by_cases h3 : isOperator c = true
    · simp only [if_pos h3] at h
      exact lexOperator_ne_rcurly _ _ h
    simp only [if_neg h3] at h
    by_cases h4 : isDigit c = true
    · simp only [if_pos h4] at h
      rcases numRun_tok cs false with e | e <;> rw [e] at h <;> exact absurd h (by decide)
    simp only [if_neg h4] at h
    by_cases h5 : c = eof
    · simp only [if_pos h5] at h
      exact absurd h (by decide)
    simp only [if_neg h5] at h
    by_cases h6 : c = '{'
    · simp only [if_pos h6] at h
      exact absurd h (by decide)
    simp only [if_neg h6] at h
    by_cases h7 : c = '('
    · simp only [if_pos h7] at h
      exact absurd h (by decide)
    simp only [if_neg h7] at h
    by_cases h8 : c = '['
    · simp only [if_pos h8] at h
      exact absurd h (by decide)
    simp only [if_neg h8, if_neg h9] at h
    by_cases h10 : c = ')'
    · simp only [if_pos h10] at h
      exact absurd h (by decide)
    simp only [if_neg h10] at h
    by_cases h11 : c = ']'
    · simp only [if_pos h11] at h
      exact absurd h (by decide)
    simp only [if_neg h11] at h
    by_cases h12 : c = ','
    · simp only [if_pos h12] at h
      exact absurd h (by decide)
    simp only [if_neg h12] at h
    by_cases h13 : c = '#'
    · simp only [if_pos h13] at h
      exact absurd h (by decide)
    simp only [if_neg h13] at h
    by_cases h14 : c = '/'
    · simp only [if_pos h14] at h
      split_ifs at h
    simp only [if_neg h14] at h
    by_cases h15 : c = '"'
    · simp only [if_pos h15] at h
      split_ifs at h
    simp only [if_neg h15] at h
    exact absurd h (by decide)

theorem lex_ext_rcurly (B : List Char) (X : List Char) (h : (lex X).1.1 = TokenRCurlyBrace) :
    lex (X ++ B) = ((lex X).1, (lex X).2 ++ B) := by
  obtain ⟨cs, e⟩ := lex_rcurly_inv X h
  subst e
  rw [List.cons_append, lex_rcurly, lex_rcurly]

theorem sig_ext (B : List Char) (X : List Char) :
    ((sig X).2 ≠ [] ∨ (sig X).1.1 = TokenRCurlyBrace) →
    sig (X ++ B) = ((sig X).1, (sig X).2 ++ B) := by
  generalize hn : X.length = n
  induction n using Nat.strong_induction_on generalizing X with
  | _ n ih =>
    intro h
    rw [sig_eq X] at h ⊢
    by_cases hc : (lex X).1.1 = TokenWhitespace ∨ (lex X).1.1 = TokenComment
    · have hX : X ≠ [] := by
        intro h0; subst h0; simp [lex_nil] at hc
      have hl := lex_length X hX
      rw [if_pos hc] at h ⊢
      have hne : (lex X).2 ≠ [] := by
        intro h0
        rw [h0, sig_nil] at h
        simp at h
      have e := lex_ext B X hne
      rw [sig_eq (X ++ B), e]
      simp only
      rw [if_pos hc]
      exact ih _ (by omega) _ rfl h
    · rw [if_neg hc] at h ⊢
      have e : lex (X ++ B) = ((lex X).1, (lex X).2 ++ B) := by
        rcases h with h | h
        · exact lex_ext B X h
        · exact lex_ext_rcurly B X h
      rw [sig_eq (X ++ B), e]
      simp only
      rw [if_neg hc]

theorem wsRun_append (W X : List Char) (hW : ∀ c ∈ W, isWhitespace c = true) :
    wsRun (W ++ X) = (W ++ (wsRun X).1, (wsRun X).2) := by
  induction W with
  | nil => rfl
  | cons w ws ih =>
    have hw := hW w (List.mem_cons_self _ _)
    have ih1 := ih (fun c hc => hW c (List.mem_cons_of_mem _ hc))
    rw [List.cons_append, wsRun, if_neg (isWhitespace_ne_eof hw), ih1]
    simp [hw]

theorem sig_skip_ws (W B : List Char) (hW : ∀ c ∈ W, isWhitespace c = true)
    (hB : B.head? ≠ some eof) : sig (W ++ B) = sig B := by
  cases B with
  | nil =>
    rw [List.append_nil]
    cases W with
    | nil => rfl
    | cons w ws =>
      have hw := hW w (List.mem_cons_self _ _)
      have h1 := wsRun_append ws [] (fun c hc => hW c (List.mem_cons_of_mem _ hc))
      rw [List.append_nil] at h1
      have hl : lex (w :: ws) = ((TokenWhitespace, w :: (ws ++ (wsRun []).1)), (wsRun []).2) := by
        rw [lex, if_pos hw, h1]
      rw [sig_eq, hl]
      simp [wsRun]
  | cons b bs =>
    have hb : b ≠ eof := fun e => hB (by rw [e]; rfl)
    by_cases hbw : isWhitespace b = true
    · cases W with
      | nil => rfl
      | cons w ws =>
        have hw := hW w (List.mem_cons_self _ _)
        have h1 := wsRun_append ws (b :: bs) (fun c hc => hW c (List.mem_cons_of_mem _ hc))
        have h2 : wsRun (b :: bs) = (b :: (wsRun bs).1, (wsRun bs).2) := by
          rw [wsRun, if_neg hb]
          simp [hbw]
        have hl : lex (w :: (ws ++ b :: bs))
            = ((TokenWhitespace, w :: (ws ++ b :: (wsRun bs).1)), (wsRun bs).2) := by
          rw [lex, if_pos hw, h1, h2]
        have hl2 : lex (b :: bs) = ((TokenWhitespace, b :: (wsRun bs).1), (wsRun bs).2) := by
          rw [lex, if_pos hbw]
        rw [sig_eq, List.cons_append, hl, sig_eq (b :: bs), hl2]
        simp
    · exact sig_skip W (b :: bs) hW (fun c hc => by
        simp only [List.head?_cons, Option.some.injEq] at hc
        subst hc
        exact ⟨hb, by simpa using hbw⟩)

theorem keywordToken_sig (s : List Char) :
    ¬(keywordToken s = TokenEOF ∨ keywordToken s = TokenWhitespace
      ∨ keywordToken s = TokenComment) := by
  unfold keywordToken
  split_ifs <;> decide

theorem lexOperator_sig (c : Char) (cs : List Char) :
    ¬((lexOperator c cs).1.1 = TokenEOF ∨ (lexOperator c cs).1.1 = TokenWhitespace
      ∨ (lexOperator c cs).1.1 = TokenComment) := by
  unfold lexOperator
  split_ifs <;> decide

theorem lex_sig_inv (c : Char) (cs : List Char) (hc0 : isWhitespace c = false) (hc1 : c ≠ eof)
    (hc2 : c ≠ '#')
    (h : (lex (c :: cs)).1.1 = TokenEOF ∨ (lex (c :: cs)).1.1 = TokenWhitespace
      ∨ (lex (c :: cs)).1.1 = TokenComment) : False := by
  rw [lex] at h
  have h1 : ¬ isWhitespace c = true := by simp [hc0]
  simp only [if_neg h1] at h
  by_cases h2 : (isLetter c || decide (c = '@')) = true
  · simp only [if_pos h2] at h
    exact keywordToken_sig _ h
  simp only [if_neg h2] at h
  by_cases h3 : isOperator c = true
  · simp only [if_pos h3] at h
    exact lexOperator_sig _ _ h
  simp only [if_neg h3] at h
  by_cases h4 : isDigit c = true
  · simp only [if_pos h4] at h
    rcases numRun_tok cs false with e | e <;> rw [e] at h <;> exact absurd h (by decide)
  simp only [if_neg h4, if_neg hc1] at h
  by_cases h6 : c = '{'
  · simp only [if_pos h6] at h
    exact absurd h (by decide)
  simp only [if_neg h6] at h
  by_cases h7 : c = '('
  · simp only [if_pos h7] at h
    exact absurd h (by decide)
  simp only [if_neg h7] at h
  by_cases h8 : c = '['
  · simp only [if_pos h8] at h
    exact absurd h (by decide)
  simp only [if_neg h8] at h
  by_cases h9 : c = '}'
  · simp only [if_pos h9] at h
    exact absurd h (by decide)
  simp only [if_neg h9] at h
  by_cases h10 : c = ')'
  · simp only [if_pos h10] at h
    exact absurd h (by decide)
  simp only [if_neg h10] at h
  by_cases h11 : c = ']'
  · simp only [if_pos h11] at h
    exact absurd h (by decide)
  simp only [if_neg h11] at h
  by_cases h12 : c = ','
  · simp only [if_pos h12] at h
    exact absurd h (by decide)
  simp only [if_neg h12, if_neg hc2] at h
  by_cases h14 : c = '/'
  · simp only [if_pos h14] at h
    split_ifs at h <;> exact absurd h (by decide)
  simp only [if_neg h14] at h
  by_cases h15 : c = '"'
  · simp only [if_pos h15] at h
    split_ifs at h <;> exact absurd h (by decide)
  simp only [if_neg h15] at h
  exact absurd h (by decide)

theorem wsRun_split (xs : List Char) (h0 : eof ∉ xs) :
    xs = (wsRun xs).1 ++ (wsRun xs).2 ∧ ∀ c ∈ (wsRun xs).1, isWhitespace c = true := by
  induction xs with
  | nil => simp [wsRun]
  | cons x xs ih =>
    have hx0 : x ≠ eof := fun e => h0 (by rw [e]; exact List.mem_cons_self _ _)
    have ih1 := ih (fun h => h0 (List.mem_cons_of_mem _ h))
    rw [wsRun, if_neg hx0]
    by_cases hw : isWhitespace x = true
    · simp only [hw, Bool.not_true, Bool.false_eq_true, if_false]
      refine ⟨by rw [List.cons_append, ← ih1.1], ?_⟩
      intro c hc
      rcases List.mem_cons.mp hc with e | e
      · rw [e]; exact hw
      · exact ih1.2 c e
    · simp [hw]

theorem sig_eof_ws (X : List Char) : eof ∉ X → '#' ∉ X → (sig X).1.1 = TokenEOF →
    ∀ c ∈ X, isWhitespace c = true := by
  generalize hn : X.length = n
  induction n using Nat.strong_induction_on generalizing X with
  | _ n ih =>
    intro h0 h1 h
    cases X with
    | nil => intro c hc; cases hc
    | cons x xs =>
      have hx0 : x ≠ eof := fun e => h0 (by rw [e]; exact List.mem_cons_self _ _)
      have hx1 : x ≠ '#' := fun e => h1 (by rw [e]; exact List.mem_cons_self _ _)
      by_cases hw : isWhitespace x = true
      · have hl : lex (x :: xs) = ((TokenWhitespace, x :: (wsRun xs).1), (wsRun xs).2) := by
          rw [lex, if_pos hw]
        rw [sig_eq, hl] at h
        simp only [true_or, if_true] at h
        have hsp := wsRun_split xs (fun h => h0 (List.mem_cons_of_mem _ h))
        have hlen : (wsRun xs).2.length < n := by
          have := congrArg List.length hsp.1
          rw [List.length_append] at this
          rw [← hn, List.length_cons]
          omega
        have hmem : ∀ c ∈ (wsRun xs).2, c ∈ x :: xs := fun c hc =>
          List.mem_cons_of_mem _ (by rw [hsp.1]; exact List.mem_append_right _ hc)
        have ih1 := ih _ hlen (wsRun xs).2 rfl (fun h => h0 (hmem _ h)) (fun h => h1 (hmem _ h)) h
        intro c hc
        rcases List.mem_cons.mp hc with e | e
        · rw [e]; exact hw
        · rw [hsp.1] at e
          rcases List.mem_append.mp e with e | e
          · exact hsp.2 c e
          · exact ih1 c e
      · exfalso
        have hw0 : isWhitespace x = false := by simpa using hw
        have hns := lex_sig_inv x xs hw0 hx0 hx1
        rw [sig_eq] at h
        by_cases hc : (lex (x :: xs)).1.1 = TokenWhitespace ∨ (lex (x :: xs)).1.1 = TokenComment
        · exact hns (Or.inr hc)
        · rw [if_neg hc] at h
          exact hns (Or.inl h)

theorem getToken_ext (B : List Char) (p q p1 : Parser) (types : List Token) (tok : Token)
    (lit : List Char) (hn : p.buf.n = 0) (hx : Parser.Ext B p q)
    (hg : p.getToken types = some ((tok, lit, none), p1))
    (hc : p1.s.rest ≠ [] ∨ tok = TokenRCurlyBrace) :
    ∃ q1, q.getToken types = some ((tok, lit, none), q1) ∧ Parser.Ext B p1 q1 ∧ p1.buf.n = 0
      ∧ p1.s.rest <:+ p.s.rest := by
  obtain ⟨hs, hh, ht1, ht2⟩ := getToken_inv p p1 types tok lit hn hg
  have hr1 : p1.s.rest = (sig p.s.rest).2 := hh.rest
  have hc1 : (sig p.s.rest).2 ≠ [] ∨ (sig p.s.rest).1.1 = TokenRCurlyBrace := by
    rw [← hr1, hs]
    exact hc
  have hse := sig_ext B p.s.rest hc1
  rw [hs, ← hr1] at hse
  obtain ⟨q1, e, hq⟩ := getToken_at q types (p.s.rest ++ B) (p1.s.rest ++ B) tok lit
    (hx.1.trans hn) hx.2.2.2 hse ht1 ht2
  refine ⟨q1, e, ⟨hq.n0.trans hh.n0.symm, hq.2.1.trans hh.2.1.symm,
    hq.2.2.1.trans hh.2.2.1.symm, hq.rest⟩, hh.n0, ?_⟩
  rw [hr1]
  exact sig_suffix _

theorem getToken_ne_nil (p p1 : Parser) (types : List Token) (tok : Token) (lit : List Char)
    (hn : p.buf.n = 0) (ht : TokenEOF ∉ types)
    (hg : p.getToken types = some ((tok, lit, none), p1)) : p.s.rest ≠ [] := by
  obtain ⟨hs, hh, ht1, ht2⟩ := getToken_inv p p1 types tok lit hn hg
  intro h0
  rw [h0, sig_nil] at hs
  simp only [Prod.mk.injEq] at hs
  rw [← hs.1] at ht2
  exact ht ht2

theorem parseArrayLoop_ne_nil (fuel : Nat) (vals res : List (List Nat)) (p p1 : Parser)
    (hn : p.buf.n = 0) (h : Parser.parseArrayLoop fuel vals p = some (.ok res, p1)) :
    p.s.rest ≠ [] := by
  cases fuel with
  | zero => simp [Parser.parseArrayLoop] at h
  | succ n =>
    rw [Parser.parseArrayLoop] at h
    cases hg : p.getToken [TokenRBracket, TokenString, TokenComma] with
    | none => rw [hg] at h; simp at h
    | some r =>
      obtain ⟨⟨tok, lit, err⟩, p2⟩ := r
      cases err with
      | some e => rw [hg] at h; simp at h
      | none => exact getToken_ne_nil p p2 _ tok lit hn (by decide) hg

theorem getToken_post (p p1 : Parser) (types : List Token) (tok : Token) (lit : List Char)
    (hn : p.buf.n = 0) (hg : p.getToken types = some ((tok, lit, none), p1)) :
    p1.buf.n = 0 ∧ p1.s.rest <:+ p.s.rest ∧ p1.buf.tok = tok := by
  obtain ⟨hs, hh, ht1, ht2⟩ := getToken_inv p p1 types tok lit hn hg
  refine ⟨hh.n0, ?_, hh.2.1⟩
  rw [hh.rest]
  exact sig_suffix _

theorem parseArrayLoop_ext (B : List Char) (res : List (List Nat)) (p1 : Parser) (fuel : Nat) :
    ∀ (fuel2 : Nat) (vals : List (List Nat)) (p q : Parser), p.buf.n = 0 → Parser.Ext B p q →
      fuel ≤ fuel2 → Parser.parseArrayLoop fuel vals p = some (.ok res, p1) →
      p1.buf.n = 0 ∧ p1.s.rest <:+ p.s.rest ∧ (p1.s.rest ≠ [] →
        ∃ q1, Parser.parseArrayLoop fuel2 vals q = some (.ok res, q1) ∧ Parser.Ext B p1 q1) := by
  induction fuel with
  | zero =>
    intro fuel2 vals p q hn hx hf h
    simp [Parser.parseArrayLoop] at h
  | succ n ih =>
    intro fuel2 vals p q hn hx hf h
    cases fuel2 with
    | zero => omega
    | succ m =>
      rw [Parser.parseArrayLoop] at h
      cases hg : p.getToken [TokenRBracket, TokenString, TokenComma] with
      | none => rw [hg] at h; simp at h
      | some r =>
        obtain ⟨⟨tok, lit, err⟩, p2⟩ := r
        cases err with
        | some e => rw [hg] at h; simp at h
        | none =>
          rw [hg] at h
          simp only at h
          obtain ⟨hn2, hs2, _⟩ := getToken_post p p2 _ tok lit hn hg
          by_cases h1 : tok = TokenComma
          · rw [if_pos h1] at h
            obtain ⟨q2, e2, hx2, _, _⟩ := getToken_ext B p q p2 _ tok lit hn hx hg
              (Or.inl (parseArrayLoop_ne_nil n vals res p2 p1 hn2 h))
            obtain ⟨hn1, hs1, himp⟩ := ih m vals p2 q2 hn2 hx2 (by omega) h
            refine ⟨hn1, hs1.trans hs2, fun hc => ?_⟩
            obtain ⟨q1, e1, hx1⟩ := himp hc
            refine ⟨q1, ?_, hx1⟩
            rw [Parser.parseArrayLoop, e2]
            simp only
            rw [if_pos h1, e1]
          rw [if_neg h1] at h
          by_cases h2 : tok = TokenRBracket
          · rw [if_pos h2] at h
            simp only [Option.some.injEq, Prod.mk.injEq, Except.ok.injEq] at h
            obtain ⟨hv, hp⟩ := h
            subst hp
            refine ⟨hn2, hs2, fun hc => ?_⟩
            obtain ⟨q2, e2, hx2, _, _⟩ := getToken_ext B p q p2 _ tok lit hn hx hg
              (Or.inl hc)
            refine ⟨q2, ?_, hx2⟩
            rw [Parser.parseArrayLoop, e2]
            simp only
            rw [if_neg h1, if_pos h2, hv]
          rw [if_neg h2] at h
          cases hu : Unquote lit with
          | error e => rw [hu] at h; simp at h
          | ok str =>
            rw [hu] at h
            simp only at h
            obtain ⟨q2, e2, hx2, _, _⟩ := getToken_ext B p q p2 _ tok lit hn hx hg
              (Or.inl (parseArrayLoop_ne_nil n _ res p2 p1 hn2 h))
            obtain ⟨hn1, hs1, himp⟩ := ih m _ p2 q2 hn2 hx2 (by omega) h
            refine ⟨hn1, hs1.trans hs2, fun hc => ?_⟩
            obtain ⟨q1, e1, hx1⟩ := himp hc
            refine ⟨q1, ?_, hx1⟩
            rw [Parser.parseArrayLoop, e2]
            simp only
            rw [if_neg h1, if_neg h2, hu]
            simp only
            rw [e1]

theorem parseArray_ext (B : List Char) (res : List (List Nat)) (p q p1 : Parser)
    (hn : p.buf.n ≠ 0) (ht : p.buf.tok = TokenLBracket) (hx : Parser.Ext B p q)
    (h : p.parseArray = some (.ok res, p1)) :
    p.s.rest ≠ [] ∧ p1.buf.n = 0 ∧ p1.s.rest <:+ p.s.rest ∧ (p1.s.rest ≠ [] →
      ∃ q1, q.parseArray = some (.ok res, q1) ∧ Parser.Ext B p1 q1) := by
  obtain ⟨p2, e2, hh2⟩ := getToken_buffered p [TokenLBracket] hn (by rw [ht]; decide)
    (by rw [ht]; decide) (by rw [ht]; decide) (by rw [ht]; decide)
  have hqt : q.buf.tok = TokenLBracket := hx.2.1.trans ht
  obtain ⟨q2, f2, hq2⟩ := getToken_buffered q [TokenLBracket] (by rw [hx.1]; exact hn)
    (by rw [hqt]; decide) (by rw [hqt]; decide) (by rw [hqt]; decide) (by rw [hqt]; decide)
  have hx2 : Parser.Ext B p2 q2 :=
    ⟨hq2.n0.trans hh2.n0.symm, hq2.2.1.trans (hx.2.1.trans hh2.2.1.symm),
      hq2.2.2.1.trans (hx.2.2.1.trans hh2.2.2.1.symm), by rw [hq2.rest, hh2.rest]; exact hx.2.2.2⟩
  rw [Parser.parseArray, e2] at h
  simp only at h
  have hne := parseArrayLoop_ne_nil _ _ _ _ _ hh2.n0 h
  obtain ⟨hn1, hs1, himp⟩ := parseArrayLoop_ext B res p1 _ (q2.s.rest.length + 1) [] p2 q2
    hh2.n0 hx2 (by rw [hx2.2.2.2, List.length_append]; omega) h
  rw [hh2.rest] at hs1 hne
  refine ⟨hne, hn1, hs1, fun hc => ?_⟩
  obtain ⟨q1, e1, hx1⟩ := himp hc
  refine ⟨q1, ?_, hx1⟩
  rw [Parser.parseArray, f2]
  simp only
  rw [e1]

theorem unscan_ext (B : List Char) (p q : Parser) (hx : Parser.Ext B p q) :
    Parser.Ext B p.unscan q.unscan := by
  obtain ⟨s, l, c, ⟨bt, bl, bn, bli, bc⟩⟩ := p
  obtain ⟨s2, l2, c2, ⟨bt2, bl2, bn2, bli2, bc2⟩⟩ := q
  obtain ⟨h1, h2, h3, h4⟩ := hx
  exact ⟨rfl, h2, h3, h4⟩

theorem unscan_facts (p : Parser) :
    p.unscan.buf.n ≠ 0 ∧ p.unscan.buf.tok = p.buf.tok ∧ p.unscan.s.rest = p.s.rest := by
  obtain ⟨s, l, c, ⟨bt, bl, bn, bli, bc⟩⟩ := p
  exact ⟨by simp [Parser.unscan], rfl, rfl⟩

theorem Ext_refl (p : Parser) : Parser.Ext [] p p :=
  ⟨rfl, rfl, rfl, (List.append_nil _).symm⟩

theorem mergeField_ok (p q : Parser) (fields : PluginFields) (lit : List Char) (field m : Value)
    (h : p.mergeField fields lit field = .ok m) : q.mergeField fields lit field = .ok m := by
  unfold Parser.mergeField at h ⊢
  cases hget : PluginFields.get fields lit with
  | none => rw [hget] at h; exact h
  | some v0 =>
    rw [hget] at h
    cases v0 <;> cases field <;> first | exact h | simp at h

theorem parseField_ext (B : List Char) (v : Value) (p q p1 : Parser) (hn : p.buf.n = 0)
    (hx : Parser.Ext B p q) (h : p.parseField = some (.ok v, p1)) :
    p.s.rest ≠ [] ∧ p1.buf.n = 0 ∧ p1.s.rest <:+ p.s.rest ∧ (p1.s.rest ≠ [] →
      ∃ q1, q.parseField = some (.ok v, q1) ∧ Parser.Ext B p1 q1) := by
  rw [Parser.parseField] at h
  cases hg : p.getToken [TokenAssignment] with
  | none => rw [hg] at h; simp at h
  | some r =>
    obtain ⟨⟨tok, lit, err⟩, p2⟩ := r
    cases err with
    | some e => rw [hg] at h; simp at h
    | none =>
      rw [hg] at h
      simp only at h
      obtain ⟨hn2, hs2, _⟩ := getToken_post p p2 _ tok lit hn hg
      have hne := getToken_ne_nil p p2 _ tok lit hn (by decide) hg
      cases hg3 : p2.getToken [TokenString, TokenNumber, TokenLBracket] with
      | none => rw [hg3] at h; simp at h
      | some r3 =>
        obtain ⟨⟨tok3, lit3, err3⟩, p3⟩ := r3
        cases err3 with
        | some e => rw [hg3] at h; simp at h
        | none =>
          rw [hg3] at h
          simp only at h
          obtain ⟨hn3, hs3, ht3⟩ := getToken_post p2 p3 _ tok3 lit3 hn2 hg3
          have hne2 := getToken_ne_nil p2 p3 _ tok3 lit3 hn2 (by decide) hg3
          obtain ⟨q2, e2, hx2, _, _⟩ := getToken_ext B p q p2 _ tok lit hn hx hg (Or.inl hne2)
          by_cases h1 : tok3 = TokenString
          · rw [if_pos h1] at h
            cases hu : Unquote lit3 with
            | error e => rw [hu] at h; simp at h
            | ok str =>
              rw [hu] at h
              simp only [Option.some.injEq, Prod.mk.injEq, Except.ok.injEq] at h
              obtain ⟨hv, hp⟩ := h
              subst hp
              refine ⟨hne, hn3, hs3.trans hs2, fun hc => ?_⟩
              obtain ⟨q3, e3, hx3, _, _⟩ := getToken_ext B p2 q2 p3 _ tok3 lit3 hn2 hx2 hg3
                (Or.inl hc)
              refine ⟨q3, ?_, hx3⟩
              rw [Parser.parseField, e2]
              simp only
              rw [e3]
              simp only
              rw [if_pos h1, hu, ← hv]
          rw [if_neg h1] at h
          by_cases h2 : tok3 = TokenLBracket
          · rw [if_pos h2] at h
            cases hpa : p3.unscan.parseArray with
            | none => rw [hpa] at h; simp at h
            | some r4 =>
              obtain ⟨res4, p4⟩ := r4
              cases res4 with
              | error e => rw [hpa] at h; simp at h
              | ok vals =>
                rw [hpa] at h
                simp only [Option.some.injEq, Prod.mk.injEq, Except.ok.injEq] at h
                obtain ⟨hv, hp⟩ := h
                subst hp
                obtain ⟨hun, hut, hur⟩ := unscan_facts p3
                obtain ⟨hne3, hn4, hs4, _⟩ := parseArray_ext [] vals p3.unscan p3.unscan p4 hun
                  (hut.trans (ht3.trans h2)) (Ext_refl _) hpa
                rw [hur] at hne3 hs4
                obtain ⟨q3, e3, hx3, _, _⟩ := getToken_ext B p2 q2 p3 _ tok3 lit3 hn2 hx2 hg3
                  (Or.inl hne3)
                obtain ⟨_, _, _, himp⟩ := parseArray_ext B vals p3.unscan q3.unscan p4 hun
                  (hut.trans (ht3.trans h2)) (unscan_ext B p3 q3 hx3) hpa
                refine ⟨hne, hn4, (hs4.trans hs3).trans hs2, fun hc => ?_⟩
                obtain ⟨q4, e4, hx4⟩ := himp hc
                refine ⟨q4, ?_, hx4⟩
                rw [Parser.parseField, e2]
                simp only
                rw [e3]
                simp only
                rw [if_neg h1, if_pos h2, e4, ← hv]
          rw [if_neg h2] at h
          by_cases h3 : tok3 = TokenNumber
          · rw [if_pos h3] at h
            by_cases h4 : '.' ∈ lit3
            · rw [if_pos h4] at h
              cases hu : ParseFloat lit3 with
              | error e => rw [hu] at h; simp at h
              | ok f =>
                rw [hu] at h
                simp only [Option.some.injEq, Prod.mk.injEq, Except.ok.injEq] at h
                obtain ⟨hv, hp⟩ := h
                subst hp
                refine ⟨hne, hn3, hs3.trans hs2, fun hc => ?_⟩
                obtain ⟨q3, e3, hx3, _, _⟩ := getToken_ext B p2 q2 p3 _ tok3 lit3 hn2 hx2 hg3
                  (Or.inl hc)
                refine ⟨q3, ?_, hx3⟩
                rw [Parser.parseField, e2]
                simp only
                rw [e3]
                simp only
                rw [if_neg h1, if_neg h2, if_pos h3, if_pos h4, hu, ← hv]
            · rw [if_neg h4] at h
              cases hu : ParseInt lit3 with
              | error e => rw [hu] at h; simp at h
              | ok f =>
                rw [hu] at h
                simp only [Option.some.injEq, Prod.mk.injEq, Except.ok.injEq] at h
                obtain ⟨hv, hp⟩ := h
                subst hp
                refine ⟨hne, hn3, hs3.trans hs2, fun hc => ?_⟩
                obtain ⟨q3, e3, hx3, _, _⟩ := getToken_ext B p2 q2 p3 _ tok3 lit3 hn2 hx2 hg3
                  (Or.inl hc)
                refine ⟨q3, ?_, hx3⟩
                rw [Parser.parseField, e2]
                simp only
                rw [e3]
                simp only
                rw [if_neg h1, if_neg h2, if_pos h3, if_neg h4, hu, ← hv]
          · rw [if_neg h3] at h
            simp at h

theorem parsePluginFieldsLoop_ne_nil (fuel : Nat) (acc : PluginFields) (res : PluginFields) (p p1 : Parser)
    (hn : p.buf.n = 0) (h : Parser.parsePluginFieldsLoop fuel acc p = some (.ok res, p1)) :
    p.s.rest ≠ [] := by
  cases fuel with
  | zero => simp [Parser.parsePluginFieldsLoop] at h
  | succ n =>
    rw [Parser.parsePluginFieldsLoop] at h
    cases hg : p.getToken [TokenIdentifier, TokenRCurlyBrace] with
    | none => rw [hg] at h; simp at h
    | some r =>
      obtain ⟨⟨tok, lit, err⟩, p2⟩ := r
      cases err with
      | some e => rw [hg] at h; simp at h
      | none => exact getToken_ne_nil p p2 _ tok lit hn (by decide) hg

theorem parseSectionBlockLoop_ne_nil (fuel : Nat) (acc : List PluginConfig) (res : List PluginConfig) (p p1 : Parser)
    (hn : p.buf.n = 0) (h : Parser.parseSectionBlockLoop fuel acc p = some (.ok res, p1)) :
    p.s.rest ≠ [] := by
  cases fuel with
  | zero => simp [Parser.parseSectionBlockLoop] at h
  | succ n =>
    rw [Parser.parseSectionBlockLoop] at h
    cases hg : p.getToken [TokenIdentifier, TokenRCurlyBrace] with
    | none => rw [hg] at h; simp at h
    | some r =>
      obtain ⟨⟨tok, lit, err⟩, p2⟩ := r
      cases err with
      | some e => rw [hg] at h; simp at h
      | none => exact getToken_ne_nil p p2 _ tok lit hn (by decide) hg

theorem parsePluginFieldsLoop_ext (B : List Char) (res : PluginFields) (p1 : Parser) (fuel : Nat) :
    ∀ (fuel2 : Nat) (acc : PluginFields) (p q : Parser), p.buf.n = 0 → Parser.Ext B p q →
      fuel ≤ fuel2 → Parser.parsePluginFieldsLoop fuel acc p = some (.ok res, p1) →
      p1.buf.n = 0 ∧ p1.s.rest <:+ p.s.rest
        ∧ ∃ q1, Parser.parsePluginFieldsLoop fuel2 acc q = some (.ok res, q1) ∧ Parser.Ext B p1 q1 := by
  induction fuel with
  | zero =>
    intro fuel2 acc p q hn hx hf h
    simp [Parser.parsePluginFieldsLoop] at h
  | succ n ih =>
    intro fuel2 acc p q hn hx hf h
    cases fuel2 with
    | zero => omega
    | succ m =>
      rw [Parser.parsePluginFieldsLoop] at h
      cases hg : p.getToken [TokenIdentifier, TokenRCurlyBrace] with
      | none => rw [hg] at h; simp at h
      | some r =>
        obtain ⟨⟨tok, lit, err⟩, p2⟩ := r
        cases err with
        | some e => rw [hg] at h; simp at h
        | none =>
          rw [hg] at h
          simp only at h
          obtain ⟨hn2, hs2, _⟩ := getToken_post p p2 _ tok lit hn hg
          by_cases h1 : tok = TokenRCurlyBrace
          · rw [if_pos h1] at h
            simp only [Option.some.injEq, Prod.mk.injEq, Except.ok.injEq] at h
            obtain ⟨hv, hp⟩ := h
            subst hp
            obtain ⟨q2, e2, hx2, _, _⟩ := getToken_ext B p q p2 _ tok lit hn hx hg (Or.inr h1)
            refine ⟨hn2, hs2, q2, ?_, hx2⟩
            rw [Parser.parsePluginFieldsLoop, e2]
            simp only
            rw [if_pos h1, hv]
          rw [if_neg h1] at h
          cases hpf : p2.parseField with
          | none => rw [hpf] at h; simp at h
          | some r3 =>
            obtain ⟨res3, p3⟩ := r3
            cases res3 with
            | error e => rw [hpf] at h; simp at h
            | ok field =>
              rw [hpf] at h
              simp only at h
              obtain ⟨hne2, hn3, hs3, _⟩ := parseField_ext [] field p2 p2 p3 hn2 (Ext_refl _) hpf
              obtain ⟨q2, e2, hx2, _, _⟩ := getToken_ext B p q p2 _ tok lit hn hx hg
                (Or.inl hne2)
              obtain ⟨_, _, _, himp⟩ := parseField_ext B field p2 q2 p3 hn2 hx2 hpf
              cases hm : p3.mergeField acc lit field with
              | error e => rw [hm] at h; simp at h
              | ok merged =>
                rw [hm] at h
                simp only at h
                obtain ⟨q3, e3, hx3⟩ := himp (parsePluginFieldsLoop_ne_nil n _ res p3 p1 hn3 h)
                obtain ⟨hn1, hs1, q1, e1, hx1⟩ := ih m _ p3 q3 hn3 hx3 (by omega) h
                refine ⟨hn1, (hs1.trans hs3).trans hs2, q1, ?_, hx1⟩
                rw [Parser.parsePluginFieldsLoop, e2]
                simp only
                rw [if_neg h1, e3]
                simp only
                rw [mergeField_ok p3 q3 acc lit field merged hm]
                simp only
                rw [e1]
theorem parsePluginFields_ext (B : List Char) (res : PluginFields) (p q p1 : Parser)
    (hn : p.buf.n = 0) (hx : Parser.Ext B p q) (h : p.parsePluginFields = some (.ok res, p1)) :
    p.s.rest ≠ [] ∧ p1.buf.n = 0 ∧ p1.s.rest <:+ p.s.rest
      ∧ ∃ q1, q.parsePluginFields = some (.ok res, q1) ∧ Parser.Ext B p1 q1 := by
  rw [Parser.parsePluginFields] at h
  cases hg : p.getToken [TokenLCurlyBrace] with
  | none => rw [hg] at h; simp at h
  | some r =>
    obtain ⟨⟨tok, lit, err⟩, p2⟩ := r
    cases err with
    | some e => rw [hg] at h; simp at h
    | none =>
      rw [hg] at h
      simp only at h
      obtain ⟨hn2, hs2, _⟩ := getToken_post p p2 _ tok lit hn hg
      have hne := getToken_ne_nil p p2 _ tok lit hn (by decide) hg
      obtain ⟨q2, e2, hx2, _, _⟩ := getToken_ext B p q p2 _ tok lit hn hx hg
        (Or.inl (parsePluginFieldsLoop_ne_nil _ _ res p2 p1 hn2 h))
      obtain ⟨hn1, hs1, q1, e1, hx1⟩ := parsePluginFieldsLoop_ext B res p1 _
        (q2.s.rest.length + 1) [] p2 q2 hn2 hx2
        (by rw [hx2.2.2.2, List.length_append]; omega) h
      refine ⟨hne, hn1, hs1.trans hs2, q1, ?_, hx1⟩
      rw [Parser.parsePluginFields, e2]
      simp only
      rw [e1]

theorem parseSectionBlockLoop_ext (B : List Char) (res : List PluginConfig) (p1 : Parser) (fuel : Nat) :
    ∀ (fuel2 : Nat) (acc : List PluginConfig) (p q : Parser), p.buf.n = 0 → Parser.Ext B p q →
      fuel ≤ fuel2 → Parser.parseSectionBlockLoop fuel acc p = some (.ok res, p1) →
      p1.buf.n = 0 ∧ p1.s.rest <:+ p.s.rest
        ∧ ∃ q1, Parser.parseSectionBlockLoop fuel2 acc q = some (.ok res, q1) ∧ Parser.Ext B p1 q1 := by
  induction fuel with
  | zero =>
    intro fuel2 acc p q hn hx hf h
    simp [Parser.parseSectionBlockLoop] at h
  | succ n ih =>
    intro fuel2 acc p q hn hx hf h
    cases fuel2 with
    | zero => omega
    | succ m =>
      rw [Parser.parseSectionBlockLoop] at h
      cases hg : p.getToken [TokenIdentifier, TokenRCurlyBrace] with
      | none => rw [hg] at h; simp at h
      | some r =>
        obtain ⟨⟨tok, lit, err⟩, p2⟩ := r
        cases err with
        | some e => rw [hg] at h; simp at h
        | none =>
          rw [hg] at h
          simp only at h
          obtain ⟨hn2, hs2, _⟩ := getToken_post p p2 _ tok lit hn hg
          by_cases h1 : tok = TokenRCurlyBrace
          · rw [if_pos h1] at h
            simp only [Option.some.injEq, Prod.mk.injEq, Except.ok.injEq] at h
            obtain ⟨hv, hp⟩ := h
            subst hp
            obtain ⟨q2, e2, hx2, _, _⟩ := getToken_ext B p q p2 _ tok lit hn hx hg (Or.inr h1)
            refine ⟨hn2, hs2, q2, ?_, hx2⟩
            rw [Parser.parseSectionBlockLoop, e2]
            simp only
            rw [if_pos h1, hv]
          rw [if_neg h1] at h
          cases hpf : p2.parsePluginFields with
          | none => rw [hpf] at h; simp at h
          | some r3 =>
            obtain ⟨res3, p3⟩ := r3
            cases res3 with
            | error e => rw [hpf] at h; simp at h
            | ok fields =>
              rw [hpf] at h
              simp only at h
              obtain ⟨hne2, hn3, hs3, _⟩ := parsePluginFields_ext [] fields p2 p2 p3 hn2 (Ext_refl _) hpf
              obtain ⟨q2, e2, hx2, _, _⟩ := getToken_ext B p q p2 _ tok lit hn hx hg
                (Or.inl hne2)
              obtain ⟨_, _, _, q3, e3, hx3⟩ := parsePluginFields_ext B fields p2 q2 p3 hn2 hx2 hpf
              obtain ⟨hn1, hs1, q1, e1, hx1⟩ := ih m _ p3 q3 hn3 hx3 (by omega) h
              refine ⟨hn1, (hs1.trans hs3).trans hs2, q1, ?_, hx1⟩
              rw [Parser.parseSectionBlockLoop, e2]
              simp only
              rw [if_neg h1, e3]
              simp only
              rw [e1]
theorem parseSectionBlock_ext (B : List Char) (res : List PluginConfig) (p q p1 : Parser)
    (hn : p.buf.n = 0) (hx : Parser.Ext B p q) (h : p.parseSectionBlock = some (.ok res, p1)) :
    p.s.rest ≠ [] ∧ p1.buf.n = 0 ∧ p1.s.rest <:+ p.s.rest
      ∧ ∃ q1, q.parseSectionBlock = some (.ok res, q1) ∧ Parser.Ext B p1 q1 := by
  rw [Parser.parseSectionBlock] at h
  cases hg : p.getToken [TokenLCurlyBrace] with
  | none => rw [hg] at h; simp at h
  | some r =>
    obtain ⟨⟨tok, lit, err⟩, p2⟩ := r
    cases err with
    | some e => rw [hg] at h; simp at h
    | none =>
      rw [hg] at h
      simp only at h
      obtain ⟨hn2, hs2, _⟩ := getToken_post p p2 _ tok lit hn hg
      have hne := getToken_ne_nil p p2 _ tok lit hn (by decide) hg
      obtain ⟨q2, e2, hx2, _, _⟩ := getToken_ext B p q p2 _ tok lit hn hx hg
        (Or.inl (parseSectionBlockLoop_ne_nil _ _ res p2 p1 hn2 h))
      obtain ⟨hn1, hs1, q1, e1, hx1⟩ := parseSectionBlockLoop_ext B res p1 _
        (q2.s.rest.length + 1) [] p2 q2 hn2 hx2
        (by rw [hx2.2.2.2, List.length_append]; omega) h
      refine ⟨hne, hn1, hs1.trans hs2, q1, ?_, hx1⟩
      rw [Parser.parseSectionBlock, e2]
      simp only
      rw [e1]

theorem Config.append_empty (c : Config) :
    c.append { Input := [], Filter := [], Output := [] } = c := by
  obtain ⟨i, f, o⟩ := c
  simp [Config.append]

theorem ParseLoop_acc (d : Config) (k : Nat) :
    ∀ (m : Nat) (c0 c : Config) (r q r1 : Parser), r.buf.n = 0 → q.buf.n = 0 →
      sig q.s.rest = sig r.s.rest → k ≤ m →
      Parser.ParseLoop k c0 r = some (.ok c, r1) →
      ∃ q1, Parser.ParseLoop m (d.append c0) q = some (.ok (d.append c), q1) := by
  induction k with
  | zero =>
    intro m c0 c r q r1 hn hqn hsig hf h
    simp [Parser.ParseLoop] at h
  | succ n ih =>
    intro m c0 c r q r1 hn hqn hsig hf h
    cases m with
    | zero => omega
    | succ m =>
      rw [Parser.ParseLoop] at h
      obtain ⟨r2, e, hg, hh, he⟩ := getToken_fresh r [TokenIdentifier] hn
      obtain ⟨q2, e2, hg2, hh2, he2⟩ := getToken_fresh q [TokenIdentifier] hqn
      rw [hsig] at hg2 hh2 he2
      rw [hg] at h
      simp only at h
      by_cases h1 : (sig r.s.rest).1.1 = TokenEOF
      · rw [if_pos h1] at h
        simp only [Option.some.injEq, Prod.mk.injEq, Except.ok.injEq] at h
        refine ⟨q2, ?_⟩
        rw [Parser.ParseLoop, hg2]
        simp only
        rw [if_pos h1, h.1]
      rw [if_neg h1] at h
      cases e with
      | some err => simp at h
      | none =>
        have he2n : e2 = none := he2.mpr (he.mp rfl)
        subst he2n
        simp only at h
        by_cases h2 : (sig r.s.rest).1.2 ≠ "input".toList ∧ (sig r.s.rest).1.2 ≠ "output".toList
            ∧ (sig r.s.rest).1.2 ≠ "filter".toList
        · rw [if_pos h2] at h
          simp at h
        rw [if_neg h2] at h
        cases hpsb : r2.parseSectionBlock with
        | none => rw [hpsb] at h; simp at h
        | some r3 =>
          obtain ⟨res3, r3⟩ := r3
          cases res3 with
          | error e => rw [hpsb] at h; simp at h
          | ok cfgs =>
            rw [hpsb] at h
            simp only at h
            have hx2 : Parser.Ext [] r2 q2 :=
              ⟨hh2.n0.trans hh.n0.symm, hh2.2.1.trans hh.2.1.symm,
                hh2.2.2.1.trans hh.2.2.1.symm, by rw [hh2.rest, hh.rest, List.append_nil]⟩
            obtain ⟨_, hn3, _, q3, e3, hx3⟩ :=
              parseSectionBlock_ext [] cfgs r2 q2 r3 hh.n0 hx2 hpsb
            have hqn3 : q3.buf.n = 0 := hx3.1.trans hn3
            have hsig3 : sig q3.s.rest = sig r3.s.rest := by
              rw [hx3.2.2.2, List.append_nil]
            rw [Parser.ParseLoop, hg2]
            simp only
            rw [if_neg h1, if_neg h2, e3]
            simp only
            by_cases h3 : (sig r.s.rest).1.2 = "input".toList
            · rw [if_pos h3] at h ⊢
              obtain ⟨q1, e1⟩ := ih m _ c r3 q3 r1 hn3 hqn3 hsig3 (by omega) h
              refine ⟨q1, ?_⟩
              rw [← e1]
              simp [Config.append]
            rw [if_neg h3] at h ⊢
            by_cases h4 : (sig r.s.rest).1.2 = "filter".toList
            · rw [if_pos h4] at h ⊢
              obtain ⟨q1, e1⟩ := ih m _ c r3 q3 r1 hn3 hqn3 hsig3 (by omega) h
              refine ⟨q1, ?_⟩
              rw [← e1]
              simp [Config.append]
            rw [if_neg h4] at h ⊢
            by_cases h5 : (sig r.s.rest).1.2 = "output".toList
            · rw [if_pos h5] at h ⊢
              obtain ⟨q1, e1⟩ := ih m _ c r3 q3 r1 hn3 hqn3 hsig3 (by omega) h
              refine ⟨q1, ?_⟩
              rw [← e1]
              simp [Config.append]
            rw [if_neg h5] at h ⊢
            exact ih m _ c r3 q3 r1 hn3 hqn3 hsig3 (by omega) h

theorem Parse_inv (X : List Char) (c : Config) (h : Parse X = some (.ok c)) :
    ∃ p1, Parser.ParseLoop (X.length + 1) { Input := [], Filter := [], Output := [] }
      (NewParser X) = some (.ok c, p1) := by
  unfold Parse Parser.Parse at h
  obtain ⟨a, ha, hc⟩ := Option.map_eq_some'.mp h
  obtain ⟨res, p1⟩ := a
  simp only at hc
  subst hc
  exact ⟨p1, ha⟩

theorem ParseLoop_concat (B : List Char) (cB : Config) (hB0 : B.head? ≠ some eof)
    (hB : Parse B = some (.ok cB)) (n : Nat) :
    ∀ (m : Nat) (cfg cA : Config) (p q p1 : Parser), p.buf.n = 0 → Parser.Ext B p q →
      eof ∉ p.s.rest → '#' ∉ p.s.rest → p.s.rest.length + B.length + 1 ≤ m →
      Parser.ParseLoop n cfg p = some (.ok cA, p1) →
      ∃ q1, Parser.ParseLoop m cfg q = some (.ok (cA.append cB), q1) := by
  induction n with
  | zero =>
    intro m cfg cA p q p1 hn hx h0 h1 hf h
    simp [Parser.ParseLoop] at h
  | succ n ih =>
    intro m cfg cA p q p1 hn hx h0 h1 hf h
    have hqn : q.buf.n = 0 := hx.1.trans hn
    rw [Parser.ParseLoop] at h
    obtain ⟨p2, e, hg, hh, he⟩ := getToken_fresh p [TokenIdentifier] hn
    rw [hg] at h
    simp only at h
    by_cases ht : (sig p.s.rest).1.1 = TokenEOF
    · rw [if_pos ht] at h
      simp only [Option.some.injEq, Prod.mk.injEq, Except.ok.injEq] at h
      have hws := sig_eof_ws p.s.rest h0 h1 ht
      have hsig : sig q.s.rest = sig (NewParser B).s.rest := by
        rw [hx.2.2.2]
        exact sig_skip_ws p.s.rest B hws hB0
      obtain ⟨r1, hrun⟩ := Parse_inv B cB hB
      obtain ⟨q1, e1⟩ := ParseLoop_acc cfg (B.length + 1) m _ cB (NewParser B) q r1 rfl hqn hsig
        (by omega) hrun
      rw [Config.append_empty] at e1
      rw [← h.1]
      exact ⟨q1, e1⟩
    rw [if_neg ht] at h
    cases e with
    | some err => simp at h
    | none =>
      simp only at h
      by_cases h2 : (sig p.s.rest).1.2 ≠ "input".toList ∧ (sig p.s.rest).1.2 ≠ "output".toList
          ∧ (sig p.s.rest).1.2 ≠ "filter".toList
      · rw [if_pos h2] at h
        simp at h
      rw [if_neg h2] at h
      cases hpsb : p2.parseSectionBlock with
      | none => rw [hpsb] at h; simp at h
      | some r3 =>
        obtain ⟨res3, p3⟩ := r3
        cases res3 with
        | error e => rw [hpsb] at h; simp at h
        | ok cfgs =>
          rw [hpsb] at h
          simp only at h
          obtain ⟨hne2, hn3, hs3, _⟩ :=
            parseSectionBlock_ext [] cfgs p2 p2 p3 hh.n0 (Ext_refl _) hpsb
          obtain ⟨q2, e2, hx2, _, hs2⟩ := getToken_ext B p q p2 _ _ _ hn hx hg (Or.inl hne2)
          obtain ⟨_, _, _, q3, e3, hx3⟩ := parseSectionBlock_ext B cfgs p2 q2 p3 hh.n0 hx2 hpsb
          have hlen2 : p2.s.rest.length < p.s.rest.length := by
            rw [hh.rest]
            exact sig_length _ ht
          have hlen3 : p3.s.rest.length ≤ p2.s.rest.length := hs3.length_le
          have hsuf : p3.s.rest <:+ p.s.rest := hs3.trans hs2
          have h03 : eof ∉ p3.s.rest := fun hm => h0 (hsuf.subset hm)
          have h13 : '#' ∉ p3.s.rest := fun hm => h1 (hsuf.subset hm)
          cases m with
          | zero => omega
          | succ m =>
            rw [Parser.ParseLoop, e2]
            simp only
            rw [if_neg ht, if_neg h2, e3]
            simp only
            by_cases h3 : (sig p.s.rest).1.2 = "input".toList
            · rw [if_pos h3] at h ⊢
              exact ih m _ cA p3 q3 p1 hn3 hx3 h03 h13 (by omega) h
            rw [if_neg h3] at h ⊢
            by_cases h4 : (sig p.s.rest).1.2 = "filter".toList
            · rw [if_pos h4] at h ⊢
              exact ih m _ cA p3 q3 p1 hn3 hx3 h03 h13 (by omega) h
            rw [if_neg h4] at h ⊢
            by_cases h5 : (sig p.s.rest).1.2 = "output".toList
            · rw [if_pos h5] at h ⊢
              exact ih m _ cA p3 q3 p1 hn3 hx3 h03 h13 (by omega) h
            rw [if_neg h5] at h ⊢
            exact ih m _ cA p3 q3 p1 hn3 hx3 h03 h13 (by omega) h

theorem seqRun_open (delim : Char) (body : List Char) :
    ∀ esc : Bool, delimsEscaped delim esc body = true →
      (seqRun delim true esc body).1 = false
        ∧ (eof ∉ body → seqRun delim true esc body = (false, body, [])) := by
  induction body with
  | nil => intro esc _; exact ⟨rfl, fun _ => rfl⟩
  | cons c cs ih =>
    intro esc h
    simp only [delimsEscaped, Bool.and_eq_true, Bool.or_eq_true, decide_eq_true_eq] at h
    obtain ⟨h1, h2⟩ := h
    have ih1 := ih _ h2
    have hd : ¬((!esc && decide (c = delim)) = true) := by
      rcases h1 with h1 | h1
      · simp [h1]
      · simp [h1]
    rw [seqRun]
    by_cases he : c = eof
    · rw [if_pos he]
      exact ⟨rfl, fun h0 => absurd (by rw [he]; exact List.mem_cons_self _ _) h0⟩
    rw [if_neg he, if_neg (by simp), if_neg hd]
    refine ⟨ih1.1, fun h0 => ?_⟩
    rw [ih1.2 (fun hm => h0 (List.mem_cons_of_mem _ hm))]

theorem lex_open_string (body : List Char) (h : delimsEscaped '"' false body = true) :
    (lex ('"' :: body)).1.1 = TokenIllegal
      ∧ (eof ∉ body → lex ('"' :: body) = ((TokenIllegal, '"' :: (body ++ ['"'])), [])) := by
  have hl : lex ('"' :: body)
      = ((if (seqRun '"' true false body).1 then TokenString else TokenIllegal,
        '"' :: ((seqRun '"' true false body).2.1 ++ ['"'])), (seqRun '"' true false body).2.2) := by
    rw [lex]
    rw [if_neg (by decide), if_neg (by decide), if_neg (by decide), if_neg (by decide),
      if_neg (by decide), if_neg (by decide), if_neg (by decide), if_neg (by decide),
      if_neg (by decide), if_neg (by decide), if_neg (by decide), if_neg (by decide),
      if_neg (by decide), if_neg (by decide), if_pos rfl]
  obtain ⟨h1, h2⟩ := seqRun_open '"' body false h
  rw [hl]
  refine ⟨by simp [h1], fun h0 => ?_⟩
  rw [h2 h0]
  simp

theorem getToken_illegal (p : Parser) (X Y lit : List Char)
    (hn : p.buf.n = 0) (hr : p.s.rest = X) (hs : sig X = ((TokenIllegal, lit), Y)) :
    ∃ p1, p1.Holds TokenIllegal lit Y ∧ ∀ types : List Token, p.getToken types
        = some ((TokenIllegal, lit, some (.illegal lit p1.PrevPos.1 p1.PrevPos.2)), p1) := by
  obtain ⟨p1, e1, h1⟩ := scanIgnore_fresh p hn
  rw [hr, hs] at e1 h1
  refine ⟨p1, h1, fun types => ?_⟩
  simp only [Parser.getToken, e1, Parser.errIllegal]
  rfl

theorem sig_open_string (W body : List Char) (hW : ∀ c ∈ W, isWhitespace c = true)
    (h : delimsEscaped '"' false body = true) :
    ∃ lit Y, sig (W ++ '"' :: body) = ((TokenIllegal, lit), Y)
      ∧ (eof ∉ body → lit = '"' :: (body ++ ['"'])) := by
  obtain ⟨h1, h2⟩ := lex_open_string body h
  refine ⟨(lex ('"' :: body)).1.2, (lex ('"' :: body)).2, ?_, fun h0 => by rw [h2 h0]⟩
  have hl : lex ('"' :: body)
      = ((TokenIllegal, (lex ('"' :: body)).1.2), (lex ('"' :: body)).2) := by
    rw [← h1]
  exact sig_skip_eq W ('"' :: body) _ '"' body TokenIllegal _ hW rfl (by decide) (by decide)
    hl (by decide) (by decide)

theorem illegal_message (lit : List Char) (l c : Nat) :
    (Error.illegal lit l c).Error
      = "illegal token ".toList ++ [Char.ofNat 39] ++ lit ++ [Char.ofNat 39]
        ++ " on line ".toList ++ fmtInt l ++ " col ".toList ++ fmtInt c := rfl

theorem ParseLoop_prefix (B : List Char) (hB0 : B.head? ≠ some eof) (n : Nat) :
    ∀ (m : Nat) (cfg cA : Config) (p q p1 : Parser), p.buf.n = 0 → Parser.Ext B p q →
      eof ∉ p.s.rest → '#' ∉ p.s.rest → p.s.rest.length + B.length + 1 ≤ m →
      Parser.ParseLoop n cfg p = some (.ok cA, p1) →
      ∃ q1 m1, q1.buf.n = 0 ∧ sig q1.s.rest = sig B ∧ B.length + 1 ≤ m1
        ∧ Parser.ParseLoop m cfg q = Parser.ParseLoop m1 cA q1 := by
  induction n with
  | zero =>
    intro m cfg cA p q p1 hn hx h0 h1 hf h
    simp [Parser.ParseLoop] at h
  | succ n ih =>
    intro m cfg cA p q p1 hn hx h0 h1 hf h
    have hqn : q.buf.n = 0 := hx.1.trans hn
    rw [Parser.ParseLoop] at h
    obtain ⟨p2, e, hg, hh, he⟩ := getToken_fresh p [TokenIdentifier] hn
    rw [hg] at h
    simp only at h
    by_cases ht : (sig p.s.rest).1.1 = TokenEOF
    · rw [if_pos ht] at h
      simp only [Option.some.injEq, Prod.mk.injEq, Except.ok.injEq] at h
      have hws := sig_eof_ws p.s.rest h0 h1 ht
      have hsig : sig q.s.rest = sig B := by
        rw [hx.2.2.2]
        exact sig_skip_ws p.s.rest B hws hB0
      rw [← h.1]
      exact ⟨q, m, hqn, hsig, by omega, rfl⟩
    rw [if_neg ht] at h
    cases e with
    | some err => simp at h
    | none =>
      simp only at h
      by_cases h2 : (sig p.s.rest).1.2 ≠ "input".toList ∧ (sig p.s.rest).1.2 ≠ "output".toList
          ∧ (sig p.s.rest).1.2 ≠ "filter".toList
      · rw [if_pos h2] at h
        simp at h
      rw [if_neg h2] at h
      cases hpsb : p2.parseSectionBlock with
      | none => rw [hpsb] at h; simp at h
      | some r3 =>
        obtain ⟨res3, p3⟩ := r3
        cases res3 with
        | error e => rw [hpsb] at h; simp at h
        | ok cfgs =>
          rw [hpsb] at h
          simp only at h
          obtain ⟨hne2, hn3, hs3, _⟩ :=
            parseSectionBlock_ext [] cfgs p2 p2 p3 hh.n0 (Ext_refl _) hpsb
          obtain ⟨q2, e2, hx2, _, hs2⟩ := getToken_ext B p q p2 _ _ _ hn hx hg (Or.inl hne2)
          obtain ⟨_, _, _, q3, e3, hx3⟩ := parseSectionBlock_ext B cfgs p2 q2 p3 hh.n0 hx2 hpsb
          have hlen2 : p2.s.rest.length < p.s.rest.length := by
            rw [hh.rest]
            exact sig_length _ ht
          have hlen3 : p3.s.rest.length ≤ p2.s.rest.length := hs3.length_le
          have hsuf : p3.s.rest <:+ p.s.rest := hs3.trans hs2
          have h03 : eof ∉ p3.s.rest := fun hm => h0 (hsuf.subset hm)
          have h13 : '#' ∉ p3.s.rest := fun hm => h1 (hsuf.subset hm)
          cases m with
          | zero => omega
          | succ m =>
            rw [Parser.ParseLoop, e2]
            simp only
            rw [if_neg ht, if_neg h2, e3]
            simp only
            by_cases h3 : (sig p.s.rest).1.2 = "input".toList
            · rw [if_pos h3] at h ⊢
              exact ih m _ cA p3 q3 p1 hn3 hx3 h03 h13 (by omega) h
            rw [if_neg h3] at h ⊢
            by_cases h4 : (sig p.s.rest).1.2 = "filter".toList
            · rw [if_pos h4] at h ⊢
              exact ih m _ cA p3 q3 p1 hn3 hx3 h03 h13 (by omega) h
            rw [if_neg h4] at h ⊢
            by_cases h5 : (sig p.s.rest).1.2 = "output".toList
            · rw [if_pos h5] at h ⊢
              exact ih m _ cA p3 q3 p1 hn3 hx3 h03 h13 (by omega) h
            rw [if_neg h5] at h ⊢
            exact ih m _ cA p3 q3 p1 hn3 hx3 h03 h13 (by omega) h

theorem Parse_prefix (A B : List Char) (cA : Config) (hA : Parse A = some (.ok cA))
    (h1 : '#' ∉ A) (h0 : eof ∉ A) (hB0 : B.head? ≠ some eof) :
    ∃ q1 m1, q1.buf.n = 0 ∧ sig q1.s.rest = sig B ∧ B.length + 1 ≤ m1
      ∧ Parse (A ++ B) = (Parser.ParseLoop m1 cA q1).map (fun r => r.1) := by
  obtain ⟨p1, hrun⟩ := Parse_inv A cA hA
  obtain ⟨q1, m1, hn1, hs1, hm1, e1⟩ := ParseLoop_prefix B hB0 (A.length + 1)
    ((A ++ B).length + 1) _ cA (NewParser A) (NewParser (A ++ B)) p1 rfl ⟨rfl, rfl, rfl, rfl⟩
    h0 h1
    (by
      have : (NewParser A).s.rest = A := rfl
      rw [this, List.length_append])
    hrun
  refine ⟨q1, m1, hn1, hs1, hm1, ?_⟩
  unfold Parse Parser.Parse
  have hr : (NewParser (A ++ B)).s.rest = A ++ B := rfl
  rw [hr, e1]

theorem ParseLoop_unknown (n : Nat) (cfg : Config) (p : Parser) (lit Y : List Char)
    (hn : p.buf.n = 0) (hs : sig p.s.rest = ((TokenIdentifier, lit), Y))
    (hl : lit ≠ "input".toList ∧ lit ≠ "output".toList ∧ lit ≠ "filter".toList) :
    ∃ p1, p1.Holds TokenIdentifier lit Y ∧ Parser.ParseLoop (n + 1) cfg p
      = some (.error (.unexpected lit "input|output|filter".toList p1.PrevPos.1 p1.PrevPos.2),
          p1) := by
  obtain ⟨p1, e1, h1⟩ := getToken_at p [TokenIdentifier] _ Y TokenIdentifier lit hn rfl hs
    (by decide) (by decide)
  refine ⟨p1, h1, ?_⟩
  simp only [Parser.ParseLoop, e1, Parser.errUnexpected]
  rw [if_neg (by decide), if_pos hl]

theorem lex_eof_cons (t : List Char) : lex (eof :: t) = ((TokenEOF, []), t) := by
  rw [lex]
  rw [if_neg (by decide), if_neg (by decide), if_neg (by decide), if_neg (by decide),
    if_pos rfl]

theorem sig_eof_cons (t : List Char) : sig (eof :: t) = ((TokenEOF, []), t) :=
  sig_of_lex_eq _ _ TokenEOF [] (lex_eof_cons t) (by decide) (by decide)

theorem head_ne_eof_of_sig (X : List Char) (h : (sig X).1.1 ≠ TokenEOF) :
    X.head? ≠ some eof := by
  cases X with
  | nil => simp
  | cons x t =>
    intro hx
    simp only [List.head?_cons, Option.some.injEq] at hx
    rw [hx, sig_eof_cons] at h
    exact h rfl

theorem sig_string_body (W body R : List Char) (hW : ∀ c ∈ W, isWhitespace c = true)
    (hb : isStringBody body = true) :
    sig (W ++ (quoted body ++ R)) = ((TokenString, quoted body), R) := by
  simp only [isStringBody, Bool.and_eq_true, decide_eq_true_eq, Bool.not_eq_true'] at hb
  have hl := lex_string body R hb.1.1 hb.1.2 hb.2
  have hX : quoted body ++ R = '"' :: (body ++ '"' :: R) := by
    simp [quoted, List.append_assoc]
  rw [hX]
  exact sig_skip_eq W _ R '"' _ TokenString _ hW rfl (by decide) (by decide) hl (by decide)
    (by decide)

theorem arrayText_length (items : List (List Char × ArrayItem)) (W : List Char) (it : ArrayItem) :
    (arrayText items).length < (arrayText ((W, it) :: items)).length := by
  cases it with
  | comma => simp [arrayText]; omega
  | string body => simp [arrayText, quoted]; omega

theorem parseArrayLoop_items (items : List (List Char × ArrayItem)) :
    ∀ (vals : List (List Nat)) (acc : List (List Nat)) (p : Parser) (fuel : Nat)
      (W R : List Char),
      (∀ it ∈ items, (∀ c ∈ it.1, isWhitespace c = true)
        ∧ ∀ body, it.2 = .string body → isStringBody body = true) →
      arrayValues items = some vals → p.buf.n = 0 → (∀ c ∈ W, isWhitespace c = true) →
      p.s.rest = arrayText items ++ (W ++ ']' :: R) → p.s.rest.length < fuel →
      ∃ p1, Parser.parseArrayLoop fuel acc p = some (.ok (acc ++ vals), p1) ∧ p1.buf.n = 0
        ∧ p1.s.rest = R := by
  induction items with
  | nil =>
    intro vals acc p fuel W R _ hv hn hW hr hf
    simp only [arrayValues, Option.some.injEq] at hv
    subst hv
    cases fuel with
    | zero => omega
    | succ fuel =>
      obtain ⟨p1, e1, h1⟩ := getToken_at p [TokenRBracket, TokenString, TokenComma] _ R
        TokenRBracket [']'] hn hr (by simpa [arrayText] using sig_rbracket W R hW)
        (by decide) (by decide)
      refine ⟨p1, ?_, h1.n0, h1.rest⟩
      simp [Parser.parseArrayLoop, e1]
  | cons it t ih =>
    intro vals acc p fuel W R hok hv hn hW hr hf
    obtain ⟨W1, item⟩ := it
    have hit := hok (W1, item) (List.mem_cons_self _ _)
    have ht : ∀ it ∈ t, (∀ c ∈ it.1, isWhitespace c = true)
        ∧ ∀ body, it.2 = .string body → isStringBody body = true :=
      fun x h => hok x (List.mem_cons_of_mem _ h)
    cases fuel with
    | zero => omega
    | succ fuel =>
      have hlen0 := arrayText_length t W1 item
      cases item with
      | comma =>
        simp only [arrayValues] at hv
        obtain ⟨p1, e1, h1⟩ := getToken_at p [TokenRBracket, TokenString, TokenComma] _
          (arrayText t ++ (W ++ ']' :: R)) TokenComma [','] hn hr
          (by simpa [arrayText, List.append_assoc] using sig_comma W1 _ hit.1)
          (by decide) (by decide)
        have hlen : p1.s.rest.length < fuel := by
          rw [h1.rest]; rw [hr] at hf
          simp only [List.length_append] at hf ⊢
          omega
        obtain ⟨p2, e2, hn2, hr2⟩ := ih vals acc p1 fuel W R ht hv h1.n0 hW h1.rest hlen
        refine ⟨p2, ?_, hn2, hr2⟩
        simp only [Parser.parseArrayLoop, e1]
        rw [if_pos trivial, e2]
      | string body =>
        have hb := hit.2 body rfl
        simp only [arrayValues] at hv
        cases hu : Unquote (quoted body) with
        | error e => rw [hu] at hv; simp at hv
        | ok v =>
          rw [hu] at hv
          simp only at hv
          cases hvs : arrayValues t with
          | none => rw [hvs] at hv; simp at hv
          | some vs =>
            rw [hvs] at hv
            simp only [Option.some.injEq] at hv
            subst hv
            obtain ⟨p1, e1, h1⟩ := getToken_at p [TokenRBracket, TokenString, TokenComma] _
              (arrayText t ++ (W ++ ']' :: R)) TokenString (quoted body) hn hr
              (by simpa [arrayText, List.append_assoc] using sig_string_body W1 body _ hit.1 hb)
              (by decide) (by decide)
            have hlen : p1.s.rest.length < fuel := by
              rw [h1.rest]; rw [hr] at hf
              simp only [List.length_append] at hf ⊢
              omega
            obtain ⟨p2, e2, hn2, hr2⟩ := ih vs (acc ++ [v]) p1 fuel W R ht hvs h1.n0 hW
              h1.rest hlen
            refine ⟨p2, ?_, hn2, hr2⟩
            simp only [Parser.parseArrayLoop, e1]
            rw [if_neg (by decide), if_neg (by decide), hu]
            simp only
            rw [e2]
            simp

theorem itemsOk_spec (items : List (List Char × ArrayItem)) (h : itemsOk items = true) :
    ∀ it ∈ items, (∀ c ∈ it.1, isWhitespace c = true)
      ∧ ∀ body, it.2 = .string body → isStringBody body = true := by
  intro it hit
  simp only [itemsOk, List.all_eq_true, Bool.and_eq_true] at h
  obtain ⟨h1, h2⟩ := h it hit
  refine ⟨h1, fun body hb => ?_⟩
  rw [hb] at h2
  exact h2

theorem parseArray_items (items : List (List Char × ArrayItem)) (vals : List (List Nat))
    (W0 W R : List Char)
    (hok : ∀ it ∈ items, (∀ c ∈ it.1, isWhitespace c = true)
      ∧ ∀ body, it.2 = .string body → isStringBody body = true)
    (hv : arrayValues items = some vals) (hW0 : ∀ c ∈ W0, isWhitespace c = true)
    (hW : ∀ c ∈ W, isWhitespace c = true) (p : Parser) :
    (p.buf.n = 0 ∧ p.s.rest = W0 ++ '[' :: (arrayText items ++ (W ++ ']' :: R))
      ∨ p.buf.n ≠ 0 ∧ p.buf.tok = TokenLBracket
        ∧ p.s.rest = arrayText items ++ (W ++ ']' :: R)) →
    ∃ p1, p.parseArray = some (.ok vals, p1) ∧ p1.buf.n = 0 ∧ p1.s.rest = R := by
  intro hp
  have hstart : ∃ tok lit p1, p.getToken [TokenLBracket] = some ((tok, lit, none), p1)
      ∧ p1.buf.n = 0 ∧ p1.s.rest = arrayText items ++ (W ++ ']' :: R) := by
    rcases hp with ⟨hn, hr⟩ | ⟨hn, ht, hr⟩
    · obtain ⟨p1, e1, h1⟩ := getToken_at p [TokenLBracket] _ _ TokenLBracket ['['] hn hr
        (sig_lbracket W0 _ hW0) (by decide) (by decide)
      exact ⟨_, _, p1, e1, h1.n0, h1.rest⟩
    · obtain ⟨p1, e1, h1⟩ := getToken_buffered p [TokenLBracket] hn (by rw [ht]; decide)
        (by rw [ht]; decide) (by rw [ht]; decide) (by rw [ht]; decide)
      exact ⟨_, _, p1, e1, h1.n0, h1.rest.trans hr⟩
  obtain ⟨tok, lit, p1, e1, hn1, hr1⟩ := hstart
  obtain ⟨p2, e2, hn2, hr2⟩ := parseArrayLoop_items items vals [] p1 (p1.s.rest.length + 1) W R
    hok hv hn1 hW hr1 (by omega)
  refine ⟨p2, ?_, hn2, hr2⟩
  simp only [Parser.parseArray, e1, e2, List.nil_append]

theorem escapedAfter_snoc (pre : List Char) (c : Char) :
    ∀ esc : Bool, escapedAfter esc (pre ++ [c])
      = (!(escapedAfter esc pre) && decide (c = '\\')) := by
  induction pre with
  | nil => intro esc; rfl
  | cons x xs ih =>
    intro esc
    simp only [List.cons_append, escapedAfter]
    exact ih _

theorem trailingBackslashes_snoc (pre : List Char) (c : Char) :
    trailingBackslashes (pre ++ [c])
      = if c = '\\' then trailingBackslashes pre + 1 else 0 := by
  simp only [trailingBackslashes, List.reverse_append, List.reverse_cons, List.reverse_nil,
    List.nil_append, List.singleton_append, List.takeWhile_cons]
  by_cases h : c = '\\'
  · simp [h]
  · simp [h]

theorem escapedAfter_parity (pre : List Char) :
    escapedAfter false pre = decide (trailingBackslashes pre % 2 = 1) := by
  induction pre using List.reverseRecOn with
  | nil => rfl
  | append_singleton xs c ih =>
    rw [escapedAfter_snoc, trailingBackslashes_snoc, ih]
    by_cases h : c = '\\'
    · simp only [h, decide_True, Bool.and_true, if_true]
      by_cases hp : trailingBackslashes xs % 2 = 1
      · simp [hp]; omega
      · simp [hp]; omega
    · simp [h]

theorem quotesOddAfter_eq (cs : List Char) :
    ∀ pre : List Char, quotesOddAfter pre cs = delimsEscaped '"' (escapedAfter false pre) cs := by
  induction cs with
  | nil => intro pre; rfl
  | cons c cs ih =>
    intro pre
    simp only [quotesOddAfter, delimsEscaped]
    rw [ih (pre ++ [c]), escapedAfter_snoc, escapedAfter_parity pre]

theorem advance_snoc (cs : List Char) (c : Char) :
    ∀ pos, advance pos (cs ++ [c]) = advance1 (advance pos cs) c := by
  induction cs with
  | nil => intro pos; rfl
  | cons x xs ih => intro pos; exact ih _

theorem afterLastNewline_snoc (p : List Char) (c : Char) :
    afterLastNewline (p ++ [c]) = if c = '\n' then 0 else afterLastNewline p + 1 := by
  simp only [afterLastNewline, List.reverse_append, List.reverse_cons, List.reverse_nil,
    List.nil_append, List.singleton_append, List.takeWhile_cons]
  by_cases h : c = '\n'
  · simp [h]
  · simp [h]

theorem advance_start (p : List Char) :
    advance (1, 0) p
      = (1 + p.count '\n', afterLastNewline p + if '\n' ∈ p then 1 else 0) := by
  induction p using List.reverseRecOn with
  | nil => rfl
  | append_singleton xs c ih =>
    rw [advance_snoc, ih, afterLastNewline_snoc]
    by_cases h : c = '\n'
    · subst h
      simp [advance1]
      omega
    · have h2 : ¬ '\n' = c := fun e => h e.symm
      simp [advance1, h, h2, List.count_append]
      omega

theorem readN_pos (p : List Char) :
    ∀ (rest : List Char) (last : Option Char) (l k ll lk : Nat),
      (positionTracker.readN p.length ⟨⟨p ++ rest, last⟩, l, k, ll, lk⟩).Pos = advance (l, k) p
        ∧ (positionTracker.readN p.length ⟨⟨p ++ rest, last⟩, l, k, ll, lk⟩).RuneScanner.rest
          = rest := by
  induction p with
  | nil => intro rest last l k ll lk; exact ⟨rfl, rfl⟩
  | cons c cs ih =>
    intro rest last l k ll lk
    simp only [List.length_cons, positionTracker.readN, List.cons_append,
      positionTracker.ReadRune, RuneScanner.ReadRune, advance, advance1]
    by_cases h : c = '\n'
    · simp only [if_pos h]
      exact ih rest _ _ _ _ _
    · simp only [if_neg h]
      exact ih rest _ _ _ _ _

theorem lex_operator (ch : Char) (cs : List Char)
    (h : ch = '=' ∨ ch = '!' ∨ ch = '<' ∨ ch = '>') : lex (ch :: cs) = lexOperator ch cs := by
  rcases h with h | h | h | h <;> subst h <;>
    rw [lex, if_neg (by decide), if_neg (by decide), if_pos (by decide)]

theorem lex_operatorTable (op : List Char) (tok : Token) (lit : List Char) (c : Char)
    (R : List Char) (h : (op, tok, lit) ∈ operatorTable)
    (hc : op ++ [c] ∉ operatorTable.map (fun e => e.1)) :
    lex (op ++ c :: R) = ((tok, lit), c :: R) := by
  simp only [operatorTable, List.mem_cons, Prod.mk.injEq, List.mem_singleton,
    List.not_mem_nil, or_false] at h
  rcases h with h | h | h | h | h | h | h | h | h | h <;> obtain ⟨h1, h2, h3⟩ := h <;>
    subst h1 h2 h3
  · rw [show "=~".toList ++ c :: R = '=' :: '~' :: c :: R from rfl, lex_operator _ _ (by simp)]
    rfl
  · rw [show "==".toList ++ c :: R = '=' :: '=' :: c :: R from rfl, lex_operator _ _ (by simp)]
    rfl
  · rw [show "=>".toList ++ c :: R = '=' :: '>' :: c :: R from rfl, lex_operator _ _ (by simp)]
    rfl
  · rw [show "!=".toList ++ c :: R = '!' :: '=' :: c :: R from rfl, lex_operator _ _ (by simp)]
    rfl
  · rw [show "!~".toList ++ c :: R = '!' :: '~' :: c :: R from rfl, lex_operator _ _ (by simp)]
    rfl
  · rw [show ">=".toList ++ c :: R = '>' :: '=' :: c :: R from rfl, lex_operator _ _ (by simp)]
    rfl
  · rw [show "<=".toList ++ c :: R = '<' :: '=' :: c :: R from rfl, lex_operator _ _ (by simp)]
    rfl
  · have h1 : c ≠ '=' := by
      intro e; subst e; exact hc (by decide)
    have h2 : c ≠ '~' := by
      intro e; subst e; exact hc (by decide)
    rw [show "!".toList ++ c :: R = '!' :: c :: R from rfl, lex_operator _ _ (by simp)]
    simp [lexOperator, h1, h2]
  · have h1 : c ≠ '=' := by
      intro e; subst e; exact hc (by decide)
    rw [show "<".toList ++ c :: R = '<' :: c :: R from rfl, lex_operator _ _ (by simp)]
    simp [lexOperator, h1]
  · have h1 : c ≠ '=' := by
      intro e; subst e; exact hc (by decide)
    rw [show ">".toList ++ c :: R = '>' :: c :: R from rfl, lex_operator _ _ (by simp)]
    simp [lexOperator, h1]

theorem isOperator_cases (c : Char) (h : isOperator c = true) :
    c = '<' ∨ c = '=' ∨ c = '>' ∨ c = '!' := by
  simp only [isOperator, Bool.or_eq_true, Bool.and_eq_true, decide_eq_true_eq] at h
  rcases h with ⟨h1, h2⟩ | h
  · have a1 : ('<' : Char).toNat ≤ c.toNat := h1
    have a2 : c.toNat ≤ ('>' : Char).toNat := h2
    have b1 : ('<' : Char).toNat = 60 := by decide
    have b2 : ('>' : Char).toNat = 62 := by decide
    rw [b1] at a1
    rw [b2] at a2
    have hc : c.toNat = 60 ∨ c.toNat = 61 ∨ c.toNat = 62 := by omega
    have key : ∀ d : Char, c.toNat = d.toNat → c = d := by
      intro d hd
      apply Char.ext
      apply UInt32.ext
      exact hd
    rcases hc with hc | hc | hc
    · exact Or.inl (key '<' hc)
    · exact Or.inr (Or.inl (key '=' hc))
    · exact Or.inr (Or.inr (Or.inl (key '>' hc)))
  · exact Or.inr (Or.inr (Or.inr h))

theorem lex_unrecognised (c : Char) (cs : List Char) (h0 : c ≠ eof)
    (h1 : isWhitespace c = false) (h2 : isLetter c = false) (h3 : c ≠ '@')
    (h4 : isDigit c = false)
    (h5 : c ∉ ['=', '!', '<', '>', '{', '}', '(', ')', '[', ']', ',', '#', '/', '"']) :
    lex (c :: cs) = ((TokenIllegal, [c]), cs) := by
  simp only [List.mem_cons, List.mem_singleton, List.not_mem_nil, or_false, not_or] at h5
  obtain ⟨a1, a2, a3, a4, a5, a6, a7, a8, a9, a10, a11, a12, a13, a14⟩ := h5
  have hop : ¬ isOperator c = true := by
    intro h
    rcases isOperator_cases c h with h | h | h | h
    · exact a3 h
    · exact a1 h
    · exact a4 h
    · exact a2 h
  rw [lex, if_neg (by simp [h1]), if_neg (by simp [h2, h3]), if_neg hop, if_neg (by simp [h4]),
    if_neg h0, if_neg a5, if_neg a7, if_neg a9, if_neg a6, if_neg a8, if_neg a10, if_neg a11,
    if_neg a12, if_neg a13, if_neg a14]

theorem lex_eof_iff (X : List Char) :
    (lex X).1.1 = TokenEOF ↔ X = [] ∨ X.head? = some eof := by
  constructor
  · intro h
    cases X with
    | nil => exact Or.inl rfl
    | cons x xs =>
      right
      by_cases hx : x = eof
      · rw [hx]; rfl
      exfalso
      by_cases hw : isWhitespace x = true
      · rw [lex, if_pos hw] at h
        exact Token.noConfusion h
      by_cases hc : x = '#'
      · subst hc
        rw [lex, if_neg (by decide), if_neg (by decide), if_neg (by decide), if_neg (by decide),
          if_neg (by decide), if_neg (by decide), if_neg (by decide), if_neg (by decide),
          if_neg (by decide), if_neg (by decide), if_neg (by decide), if_neg (by decide),
          if_pos rfl] at h
        exact Token.noConfusion h
      exact lex_sig_inv x xs (by simpa using hw) hx hc (Or.inl h)
  · intro h
    rcases h with h | h
    · rw [h]; rfl
    · cases X with
      | nil => simp at h
      | cons x xs =>
        simp only [List.head?_cons, Option.some.injEq] at h
        rw [h, lex_eof_cons]

theorem sig_eof_rest (X : List Char) : eof ∉ X → (sig X).1.1 = TokenEOF → (sig X).2 = [] := by
  generalize hn : X.length = n
  induction n using Nat.strong_induction_on generalizing X with
  | _ n ih =>
    intro h0 h
    cases X with
    | nil => rfl
    | cons x xs =>
      rw [sig_eq] at h ⊢
      by_cases hc : (lex (x :: xs)).1.1 = TokenWhitespace ∨ (lex (x :: xs)).1.1 = TokenComment
      · rw [if_pos hc] at h ⊢
        have hl := lex_length (x :: xs) (List.cons_ne_nil _ _)
        exact ih _ (by omega) _ rfl (fun hm => h0 ((lex_suffix _).subset hm)) h
      · rw [if_neg hc] at h ⊢
        rcases (lex_eof_iff _).mp h with e | e
        · cases e
        · simp only [List.head?_cons, Option.some.injEq] at e
          exact absurd (by rw [e]; exact List.mem_cons_self _ _) h0

theorem ParseLoop_reads_all (n : Nat) :
    ∀ (cfg r : Config) (p p1 : Parser), p.buf.n = 0 → eof ∉ p.s.rest →
      Parser.ParseLoop n cfg p = some (.ok r, p1) → p1.s.rest = [] := by
  induction n with
  | zero =>
    intro cfg r p p1 hn h0 h
    simp [Parser.ParseLoop] at h
  | succ n ih =>
    intro cfg r p p1 hn h0 h
    rw [Parser.ParseLoop] at h
    obtain ⟨p2, e, hg, hh, he⟩ := getToken_fresh p [TokenIdentifier] hn
    rw [hg] at h
    simp only at h
    by_cases ht : (sig p.s.rest).1.1 = TokenEOF
    · rw [if_pos ht] at h
      simp only [Option.some.injEq, Prod.mk.injEq, Except.ok.injEq] at h
      rw [← h.2, hh.rest]
      exact sig_eof_rest _ h0 ht
    rw [if_neg ht] at h
    cases e with
    | some err => simp at h
    | none =>
      simp only at h
      by_cases h2 : (sig p.s.rest).1.2 ≠ "input".toList ∧ (sig p.s.rest).1.2 ≠ "output".toList
          ∧ (sig p.s.rest).1.2 ≠ "filter".toList
      · rw [if_pos h2] at h
        simp at h
      rw [if_neg h2] at h
      cases hpsb : p2.parseSectionBlock with
      | none => rw [hpsb] at h; simp at h
      | some r3 =>
        obtain ⟨res3, p3⟩ := r3
        cases res3 with
        | error e => rw [hpsb] at h; simp at h
        | ok cfgs =>
          rw [hpsb] at h
          simp only at h
          obtain ⟨_, hn3, hs3, _⟩ :=
            parseSectionBlock_ext [] cfgs p2 p2 p3 hh.n0 (Ext_refl _) hpsb
          have hs2 : p2.s.rest <:+ p.s.rest := by
            rw [hh.rest]
            exact sig_suffix _
          have h03 : eof ∉ p3.s.rest := fun hm => h0 ((hs3.trans hs2).subset hm)
          by_cases h3 : (sig p.s.rest).1.2 = "input".toList
          · rw [if_pos h3] at h
            exact ih _ r p3 p1 hn3 h03 h
          rw [if_neg h3] at h
          by_cases h4 : (sig p.s.rest).1.2 = "filter".toList
          · rw [if_pos h4] at h
            exact ih _ r p3 p1 hn3 h03 h
          rw [if_neg h4] at h
          by_cases h5 : (sig p.s.rest).1.2 = "output".toList
          · rw [if_pos h5] at h
            exact ih _ r p3 p1 hn3 h03 h
          rw [if_neg h5] at h
          exact ih _ r p3 p1 hn3 h03 h

theorem Tracks_new (X : List Char) : (NewScanner X).Tracks X :=
  Or.inr ⟨[], rfl, rfl, fun c h => by cases h⟩

theorem Tracks_read (X : List Char) (s : Scanner) (h : s.Tracks X) : s.read.2.Tracks X := by
  obtain ⟨⟨⟨rest, last⟩, l, k, ll, lk⟩⟩ := s
  cases rest with
  | nil =>
    rw [read_nil]
    exact Or.inl ⟨rfl, rfl⟩
  | cons c cs =>
    rw [read_cons]
    rcases h with ⟨h1, _⟩ | ⟨pre, h1, h2, _⟩
    · cases h1
    · right
      refine ⟨pre ++ [c], ?_, ?_, ?_⟩
      · simpa using h1
      · rw [advance_snoc, ← h2]
        by_cases hc : c = '\n'
        · simp [Scanner.Pos, positionTracker.Pos, advance1, hc]
        · simp [Scanner.Pos, positionTracker.Pos, advance1, hc]
      · intro d hd
        simp only [Option.some.injEq] at hd
        subst hd
        exact ⟨pre, rfl, h2⟩

theorem Tracks_unread (X : List Char) (s : Scanner) (h : s.Tracks X) : s.unread.Tracks X := by
  obtain ⟨⟨⟨rest, last⟩, l, k, ll, lk⟩⟩ := s
  cases last with
  | none =>
    rw [unread_none]
    exact h
  | some c =>
    rw [unread_some]
    rcases h with ⟨_, h1⟩ | ⟨pre, h1, _, h3⟩
    · cases h1
    · obtain ⟨pre0, e1, e2⟩ := h3 c rfl
      right
      refine ⟨pre0, ?_, e2, fun d hd => by cases hd⟩
      rw [h1, e1]
      simp

theorem Tracks_pos (X : List Char) (s : Scanner) (h : s.Tracks X) (hr : s.rest ≠ []) :
    ∃ pre, X = pre ++ s.rest ∧ s.Pos = advance (1, 0) pre := by
  rcases h with ⟨h1, _⟩ | ⟨pre, h1, h2, _⟩
  · exact absurd h1 hr
  · exact ⟨pre, h1, h2⟩

theorem scanWhitespaceLoop_tracks (X : List Char) (n : Nat) :
    ∀ (buf : List Char) (s : Scanner) (r : (Token × List Char)) (s1 : Scanner), s.Tracks X →
      Scanner.scanWhitespaceLoop n buf s = some (r, s1) → s1.Tracks X := by
  induction n with
  | zero =>
    intro buf s r s1 _ h
    simp [Scanner.scanWhitespaceLoop] at h
  | succ n ih =>
    intro buf s r s1 hT h
    have hT1 := Tracks_read X s hT
    rw [Scanner.scanWhitespaceLoop] at h
    rcases hrd : s.read with ⟨ch, s2⟩
    rw [hrd] at h hT1
    simp only at h hT1
    split_ifs at h
    all_goals first
      | exact ih _ s2 r s1 hT1 h
      | exact ih _ _ s2 r s1 hT1 h
      | (simp only [Option.some.injEq, Prod.mk.injEq] at h
         rw [← h.2]
         first
           | exact hT1
           | exact Tracks_unread X s2 hT1)

theorem scanCommentLoop_tracks (X : List Char) (n : Nat) :
    ∀ (buf : List Char) (s : Scanner) (r : (Token × List Char)) (s1 : Scanner), s.Tracks X →
      Scanner.scanCommentLoop n buf s = some (r, s1) → s1.Tracks X := by
  induction n with
  | zero =>
    intro buf s r s1 _ h
    simp [Scanner.scanCommentLoop] at h
  | succ n ih =>
    intro buf s r s1 hT h
    have hT1 := Tracks_read X s hT
    rw [Scanner.scanCommentLoop] at h
    rcases hrd : s.read with ⟨ch, s2⟩
    rw [hrd] at h hT1
    simp only at h hT1
    split_ifs at h
    all_goals first
      | exact ih _ s2 r s1 hT1 h
      | exact ih _ _ s2 r s1 hT1 h
      | (simp only [Option.some.injEq, Prod.mk.injEq] at h
         rw [← h.2]
         first
           | exact hT1
           | exact Tracks_unread X s2 hT1)

theorem scanIdentifierLoop_tracks (X : List Char) (n : Nat) :
    ∀ (buf : List Char) (s : Scanner) (r : List Char) (s1 : Scanner), s.Tracks X →
      Scanner.scanIdentifierLoop n buf s = some (r, s1) → s1.Tracks X := by
  induction n with
  | zero =>
    intro buf s r s1 _ h
    simp [Scanner.scanIdentifierLoop] at h
  | succ n ih =>
    intro buf s r s1 hT h
    have hT1 := Tracks_read X s hT
    rw [Scanner.scanIdentifierLoop] at h
    rcases hrd : s.read with ⟨ch, s2⟩
    rw [hrd] at h hT1
    simp only at h hT1
    split_ifs at h
    all_goals first
      | exact ih _ s2 r s1 hT1 h
      | exact ih _ _ s2 r s1 hT1 h
      | (simp only [Option.some.injEq, Prod.mk.injEq] at h
         rw [← h.2]
         first
           | exact hT1
           | exact Tracks_unread X s2 hT1)

theorem scanNumberLoop_tracks (X : List Char) (n : Nat) :
    ∀ (buf : List Char) (hd : Bool) (s : Scanner) (r : (Token × List Char)) (s1 : Scanner), s.Tracks X →
      Scanner.scanNumberLoop n buf hd s = some (r, s1) → s1.Tracks X := by
  induction n with
  | zero =>
    intro buf hd s r s1 _ h
    simp [Scanner.scanNumberLoop] at h
  | succ n ih =>
    intro buf hd s r s1 hT h
    have hT1 := Tracks_read X s hT
    rw [Scanner.scanNumberLoop] at h
    rcases hrd : s.read with ⟨ch, s2⟩
    rw [hrd] at h hT1
    simp only at h hT1
    split_ifs at h
    all_goals first
      | exact ih _ s2 r s1 hT1 h
      | exact ih _ _ s2 r s1 hT1 h
      | (simp only [Option.some.injEq, Prod.mk.injEq] at h
         rw [← h.2]
         first
           | exact hT1
           | exact Tracks_unread X s2 hT1)

theorem scanSequenceLoop_tracks (X : List Char) (tokenType : Token) (delim : Char)
    (newline : Bool) (n : Nat) :
    ∀ (buf : List Char) (esc : Bool) (s : Scanner) (r : Token × List Char) (s1 : Scanner),
      s.Tracks X →
      Scanner.scanSequenceLoop tokenType delim newline n buf esc s = some (r, s1) →
      s1.Tracks X := by
  induction n with
  | zero =>
    intro buf esc s r s1 _ h
    simp [Scanner.scanSequenceLoop] at h
  | succ n ih =>
    intro buf esc s r s1 hT h
    have hT1 := Tracks_read X s hT
    rw [Scanner.scanSequenceLoop] at h
    rcases hrd : s.read with ⟨ch, s2⟩
    rw [hrd] at h hT1
    simp only at h hT1
    split_ifs at h
    all_goals first
      | exact ih _ _ s2 r s1 hT1 h
      | (simp only [Option.some.injEq, Prod.mk.injEq] at h
         rw [← h.2]
         exact hT1)

theorem scanOperator_tracks (X : List Char) (s : Scanner) (hT : s.Tracks X) :
    s.scanOperator.2.Tracks X := by
  have hT1 := Tracks_read X s hT
  rw [Scanner.scanOperator]
  rcases hrd : s.read with ⟨ch, s2⟩
  rw [hrd] at hT1
  simp only at hT1 ⊢
  have hT2 := Tracks_read X s2 hT1
  rcases hrd2 : s2.read with ⟨ch2, s3⟩
  rw [hrd2] at hT2
  simp only at hT2 ⊢
  split_ifs
  all_goals first
    | exact hT2
    | exact Tracks_unread X s3 hT2

theorem Scan_unfold (s : Scanner) :
    s.Scan =
      if isWhitespace s.read.1 then s.read.2.unread.scanWhitespace
      else if isLetter s.read.1 || s.read.1 = '@' then s.read.2.unread.scanIdentifier
      else if isOperator s.read.1 then some s.read.2.unread.scanOperator
      else if isDigit s.read.1 then s.read.2.unread.scanNumber
      else if s.read.1 = eof then some ((TokenEOF, []), s.read.2)
      else if s.read.1 = '{' then some ((TokenLCurlyBrace, [s.read.1]), s.read.2)
      else if s.read.1 = '(' then some ((TokenLParen, [s.read.1]), s.read.2)
      else if s.read.1 = '[' then some ((TokenLBracket, [s.read.1]), s.read.2)
      else if s.read.1 = '}' then some ((TokenRCurlyBrace, [s.read.1]), s.read.2)
      else if s.read.1 = ')' then some ((TokenRParen, [s.read.1]), s.read.2)
      else if s.read.1 = ']' then some ((TokenRBracket, [s.read.1]), s.read.2)
      else if s.read.1 = ',' then some ((TokenComma, [s.read.1]), s.read.2)
      else if s.read.1 = '#' then s.read.2.scanComment
      else if s.read.1 = '/' then s.read.2.unread.scanRegex
      else if s.read.1 = '"' then s.read.2.unread.scanString
      else some ((TokenIllegal, [s.read.1]), s.read.2) := by
  rw [Scanner.Scan]

theorem scanWhitespace_tracks (X : List Char) (s : Scanner) (r : Token × List Char)
    (s1 : Scanner) (hT : s.Tracks X) (h : s.scanWhitespace = some (r, s1)) : s1.Tracks X := by
  have hT1 := Tracks_read X s hT
  rw [Scanner.scanWhitespace] at h
  rcases hrd : s.read with ⟨ch, s2⟩
  rw [hrd] at h hT1
  exact scanWhitespaceLoop_tracks X _ _ s2 r s1 hT1 h

theorem scanComment_tracks (X : List Char) (s : Scanner) (r : Token × List Char)
    (s1 : Scanner) (hT : s.Tracks X) (h : s.scanComment = some (r, s1)) : s1.Tracks X := by
  have hT1 := Tracks_read X s hT
  rw [Scanner.scanComment] at h
  rcases hrd : s.read with ⟨ch, s2⟩
  rw [hrd] at h hT1
  exact scanCommentLoop_tracks X _ _ s2 r s1 hT1 h

theorem scanNumber_tracks (X : List Char) (s : Scanner) (r : Token × List Char)
    (s1 : Scanner) (hT : s.Tracks X) (h : s.scanNumber = some (r, s1)) : s1.Tracks X := by
  have hT1 := Tracks_read X s hT
  rw [Scanner.scanNumber] at h
  rcases hrd : s.read with ⟨ch, s2⟩
  rw [hrd] at h hT1
  exact scanNumberLoop_tracks X _ _ _ s2 r s1 hT1 h

theorem scanIdentifier_tracks (X : List Char) (s : Scanner) (r : Token × List Char)
    (s1 : Scanner) (hT : s.Tracks X) (h : s.scanIdentifier = some (r, s1)) : s1.Tracks X := by
  have hT1 := Tracks_read X s hT
  rw [Scanner.scanIdentifier] at h
  rcases hrd : s.read with ⟨ch, s2⟩
  rw [hrd] at h hT1
  simp only at h hT1
  cases hl : Scanner.scanIdentifierLoop (s2.rest.length + 1) [ch] s2 with
  | none => rw [hl] at h; simp at h
  | some r2 =>
    obtain ⟨str, s4⟩ := r2
    rw [hl] at h
    simp only [Option.some.injEq, Prod.mk.injEq] at h
    rw [← h.2]
    exact scanIdentifierLoop_tracks X _ _ s2 str s4 hT1 hl

theorem scanSequence_tracks (X : List Char) (tokenType : Token) (delim : Char)
    (newline : Bool) (s : Scanner) (r : Token × List Char)
    (s1 : Scanner) (hT : s.Tracks X) (h : s.scanSequence tokenType delim newline = some (r, s1)) :
    s1.Tracks X := by
  have hT1 := Tracks_read X s hT
  rw [Scanner.scanSequence] at h
  rcases hrd : s.read with ⟨ch, s2⟩
  rw [hrd] at h hT1
  exact scanSequenceLoop_tracks X _ _ _ _ _ _ s2 r s1 hT1 h

theorem scanString_tracks (X : List Char) (s : Scanner) (r : Token × List Char)
    (s1 : Scanner) (hT : s.Tracks X) (h : s.scanString = some (r, s1)) : s1.Tracks X := by
  rw [Scanner.scanString] at h
  cases hl : s.scanSequence TokenString '"' true with
  | none => rw [hl] at h; simp at h
  | some r2 =>
    obtain ⟨⟨tok, lit⟩, s4⟩ := r2
    rw [hl] at h
    simp only [Option.some.injEq, Prod.mk.injEq] at h
    rw [← h.2]
    exact scanSequence_tracks X _ _ _ s _ s4 hT hl

theorem Scan_tracks (X : List Char) (s : Scanner) (r : Token × List Char) (s1 : Scanner)
    (hT : s.Tracks X) (h : s.Scan = some (r, s1)) : s1.Tracks X := by
  have hT1 := Tracks_read X s hT
  have hU := Tracks_unread X _ hT1
  rw [Scan_unfold] at h
  by_cases c1 : isWhitespace s.read.1 = true
  · rw [if_pos c1] at h
    exact scanWhitespace_tracks X _ r s1 hU h
  rw [if_neg c1] at h
  by_cases c2 : (isLetter s.read.1 || decide (s.read.1 = '@')) = true
  · rw [if_pos c2] at h
    exact scanIdentifier_tracks X _ r s1 hU h
  rw [if_neg c2] at h
  by_cases c3 : isOperator s.read.1 = true
  · rw [if_pos c3] at h
    simp only [Option.some.injEq] at h
    have := scanOperator_tracks X _ hU
    rw [h] at this
    exact this
  rw [if_neg c3] at h
  by_cases c4 : isDigit s.read.1 = true
  · rw [if_pos c4] at h
    exact scanNumber_tracks X _ r s1 hU h
  rw [if_neg c4] at h
  have hdone : ∀ t : Token × List Char, some (t, s.read.2) = some (r, s1) → s1.Tracks X := by
    intro t ht
    simp only [Option.some.injEq, Prod.mk.injEq] at ht
    rw [← ht.2]
    exact hT1
  by_cases c5 : s.read.1 = eof
  · rw [if_pos c5] at h
    exact hdone _ h
  rw [if_neg c5] at h
  by_cases c6 : s.read.1 = '{'
  · rw [if_pos c6] at h
    exact hdone _ h
  rw [if_neg c6] at h
  by_cases c7 : s.read.1 = '('
  · rw [if_pos c7] at h
    exact hdone _ h
  rw [if_neg c7] at h
  by_cases c8 : s.read.1 = '['
  · rw [if_pos c8] at h
    exact hdone _ h
  rw [if_neg c8] at h
  by_cases c9 : s.read.1 = '}'
  · rw [if_pos c9] at h
    exact hdone _ h
  rw [if_neg c9] at h
  by_cases c10 : s.read.1 = ')'
  · rw [if_pos c10] at h
    exact hdone _ h
  rw [if_neg c10] at h
  by_cases c11 : s.read.1 = ']'
  · rw [if_pos c11] at h
    exact hdone _ h
  rw [if_neg c11] at h
  by_cases c12 : s.read.1 = ','
  · rw [if_pos c12] at h
    exact hdone _ h
  rw [if_neg c12] at h
  by_cases c13 : s.read.1 = '#'
  · rw [if_pos c13] at h
    exact scanComment_tracks X _ r s1 hT1 h
  rw [if_neg c13] at h
  by_cases c14 : s.read.1 = '/'
  · rw [if_pos c14] at h
    exact scanSequence_tracks X _ _ _ _ r s1 hU h
  rw [if_neg c14] at h
  by_cases c15 : s.read.1 = '"'
  · rw [if_pos c15] at h
    exact scanString_tracks X _ r s1 hU h
  rw [if_neg c15] at h
  exact hdone _ h

theorem scan_J (X : List Char) (p : Parser) (r : Token × List Char) (p1 : Parser)
    (hT : p.s.Tracks X) (hB : p.buf.n ≠ 0 → p.BufAt X) (h : p.scan = some (r, p1)) :
    p1.s.Tracks X ∧ p1.BufAt X ∧ r = (p1.buf.tok, p1.buf.lit) := by
  obtain ⟨s, line, col, ⟨btok, blit, n, bline, bcol⟩⟩ := p
  simp only [Parser.scan] at h
  by_cases hn : n ≠ 0
  · rw [if_pos hn] at h
    simp only [Option.some.injEq, Prod.mk.injEq] at h
    obtain ⟨h1, h2⟩ := h
    subst h2
    exact ⟨hT, hB hn, h1.symm⟩
  · rw [if_neg hn] at h
    obtain ⟨s1, e1, e2⟩ := Scan_lex s
    rw [e1] at h
    simp only [Option.some.injEq, Prod.mk.injEq] at h
    obtain ⟨h1, h2⟩ := h
    subst h2
    refine ⟨Scan_tracks X s _ s1 hT e1, ?_, h1.symm⟩
    by_cases hr : s.rest = []
    · exact ⟨X, [], by simp, by rw [hr], fun h0 => absurd rfl h0⟩
    · obtain ⟨pre, hp1, hp2⟩ := Tracks_pos X s hT hr
      exact ⟨pre, s.rest, hp1, rfl, fun _ => hp2⟩

theorem scanIgnoreLoop_J (X : List Char) (n : Nat) :
    ∀ (tok : Token) (lit : List Char) (p : Parser) (r : Token × List Char) (p1 : Parser),
      p.s.Tracks X → p.BufAt X → (tok, lit) = (p.buf.tok, p.buf.lit) →
      Parser.scanIgnoreWhitespaceCommentLoop n tok lit p = some (r, p1) →
      p1.s.Tracks X ∧ p1.BufAt X ∧ r = (p1.buf.tok, p1.buf.lit) ∧ r.1 ≠ TokenWhitespace
        ∧ r.1 ≠ TokenComment := by
  induction n with
  | zero =>
    intro tok lit p r p1 _ _ _ h
    simp [Parser.scanIgnoreWhitespaceCommentLoop] at h
  | succ n ih =>
    intro tok lit p r p1 hT hB he h
    rw [Parser.scanIgnoreWhitespaceCommentLoop] at h
    by_cases hc : tok = TokenWhitespace ∨ tok = TokenComment
    · rw [if_pos hc] at h
      cases hs : p.scan with
      | none => rw [hs] at h; simp at h
      | some r2 =>
        obtain ⟨⟨tok2, lit2⟩, p2⟩ := r2
        rw [hs] at h
        simp only at h
        obtain ⟨a1, a2, a3⟩ := scan_J X p _ p2 hT (fun _ => hB) hs
        exact ih tok2 lit2 p2 r p1 a1 a2 a3 h
    · rw [if_neg hc] at h
      simp only [Option.some.injEq, Prod.mk.injEq] at h
      obtain ⟨h1, h2⟩ := h
      subst h2
      rw [← h1]
      exact ⟨hT, hB, he, fun e => hc (Or.inl e), fun e => hc (Or.inr e)⟩

theorem scanIgnore_J (X : List Char) (p : Parser) (r : Token × List Char) (p1 : Parser)
    (hT : p.s.Tracks X) (hB : p.buf.n ≠ 0 → p.BufAt X)
    (h : p.scanIgnoreWhitespaceComment = some (r, p1)) :
    p1.s.Tracks X ∧ p1.BufAt X ∧ r = (p1.buf.tok, p1.buf.lit) ∧ r.1 ≠ TokenWhitespace
      ∧ r.1 ≠ TokenComment := by
  rw [Parser.scanIgnoreWhitespaceComment] at h
  cases hs : p.scan with
  | none => rw [hs] at h; simp at h
  | some r2 =>
    obtain ⟨⟨tok2, lit2⟩, p2⟩ := r2
    rw [hs] at h
    simp only at h
    obtain ⟨a1, a2, a3⟩ := scan_J X p _ p2 hT hB hs
    exact scanIgnoreLoop_J X _ tok2 lit2 p2 r p1 a1 a2 a3 h

theorem BufAt_error (X : List Char) (p : Parser) (tok : Token) (lit : List Char)
    (hB : p.BufAt X) (he : (tok, lit) = (p.buf.tok, p.buf.lit)) (h1 : tok ≠ TokenWhitespace)
    (h2 : tok ≠ TokenComment) (e : Error)
    (hs : e = .illegal lit p.PrevPos.1 p.PrevPos.2
      ∨ (∃ ex, e = .unexpected lit ex p.PrevPos.1 p.PrevPos.2)
      ∨ (∃ ex, e = .unexpectedOneOf lit ex p.PrevPos.1 p.PrevPos.2)) : e.At X := by
  obtain ⟨pre, Y0, b1, b2, b3⟩ := hB
  have hpp : p.PrevPos = (p.buf.line, p.buf.col) := by
    obtain ⟨s, line, col, ⟨btok, blit, n, bline, bcol⟩⟩ := p
    rfl
  intro lit2 l c hshape
  have hlc : lit2 = lit ∧ (l, c) = (p.buf.line, p.buf.col) := by
    rw [← hpp]
    rcases hs with hs | ⟨ex, hs⟩ | ⟨ex, hs⟩ <;> subst hs <;>
      rcases hshape with hh | ⟨ex2, hh⟩ | ⟨ex2, hh⟩ <;> cases hh <;> exact ⟨rfl, rfl⟩
  refine ⟨pre, Y0, tok, b1, ?_, h1, h2, fun h0 => ?_⟩
  · rw [b2, ← he, hlc.1]
  · rw [hlc.2]
    exact b3 h0

theorem getToken_J (X : List Char) (p : Parser) (types : List Token) (tok : Token)
    (lit : List Char) (e : Option Error) (p1 : Parser)
    (hT : p.s.Tracks X) (hB : p.buf.n ≠ 0 → p.BufAt X)
    (h : p.getToken types = some ((tok, lit, e), p1)) :
    p1.s.Tracks X ∧ p1.BufAt X ∧ (tok, lit) = (p1.buf.tok, p1.buf.lit)
      ∧ tok ≠ TokenWhitespace ∧ tok ≠ TokenComment ∧ ∀ err, e = some err → err.At X := by
  rw [Parser.getToken] at h
  cases hs : p.scanIgnoreWhitespaceComment with
  | none => rw [hs] at h; simp at h
  | some r2 =>
    obtain ⟨⟨tok2, lit2⟩, p2⟩ := r2
    rw [hs] at h
    simp only at h
    obtain ⟨a1, a2, a3, a4, a5⟩ := scanIgnore_J X p _ p2 hT hB hs
    simp only at a4 a5
    have hE := BufAt_error X p2 tok2 lit2 a2 a3 a4 a5
    by_cases c1 : tok2 = TokenIllegal
    · rw [if_pos c1] at h
      simp only [Option.some.injEq, Prod.mk.injEq] at h
      obtain ⟨⟨h1, h2, h3⟩, h4⟩ := h
      subst h4 h1 h2
      refine ⟨a1, a2, a3, a4, a5, fun err he => ?_⟩
      rw [← h3] at he
      simp only [Option.some.injEq] at he
      exact hE err (Or.inl (by rw [← he]; rfl))
    rw [if_neg c1] at h
    by_cases c2 : tok2 ∈ types
    · rw [if_pos c2] at h
      simp only [Option.some.injEq, Prod.mk.injEq] at h
      obtain ⟨⟨h1, h2, h3⟩, h4⟩ := h
      subst h4 h1 h2
      refine ⟨a1, a2, a3, a4, a5, fun err he => ?_⟩
      rw [← h3] at he
      cases he
    rw [if_neg c2] at h
    have hpp : p2.PrevPos = (p2.PrevPos.1, p2.PrevPos.2) := rfl
    rw [hpp] at h
    simp only at h
    split at h
    · simp only [Option.some.injEq, Prod.mk.injEq] at h
      obtain ⟨⟨h1, h2, h3⟩, h4⟩ := h
      subst h4 h1 h2
      refine ⟨a1, a2, a3, a4, a5, fun err he => ?_⟩
      rw [← h3] at he
      simp only [Option.some.injEq] at he
      exact hE err (Or.inr (Or.inl ⟨_, he.symm⟩))
    · simp only [Option.some.injEq, Prod.mk.injEq] at h
      obtain ⟨⟨h1, h2, h3⟩, h4⟩ := h
      subst h4 h1 h2
      refine ⟨a1, a2, a3, a4, a5, fun err he => ?_⟩
      rw [← h3] at he
      simp only [Option.some.injEq] at he
      exact hE err (Or.inr (Or.inr ⟨_, he.symm⟩))

theorem Unquote_error (s : List Char) (e : Error) (h : Unquote s = .error e) :
    e = .ErrSyntax := by
  unfold Unquote at h
  split at h
  · cases h; rfl
  · split_ifs at h
    · cases h; rfl
    · cases h; rfl
    · cases h; rfl
    · split at h
      · cases h
      · cases h; rfl

theorem ParseInt_error (s : List Char) (e : Error) (h : ParseInt s = .error e) :
    ∃ x, e = .NumError "ParseInt".toList s x := by
  unfold ParseInt at h
  split at h
  · cases h; exact ⟨_, rfl⟩
  · simp only at h
    split_ifs at h
    all_goals (try split at h)
    all_goals (try split_ifs at h)
    all_goals (cases h; exact ⟨_, rfl⟩)

theorem ParseFloat_error (s : List Char) (e : Error) (h : ParseFloat s = .error e) :
    ∃ x, e = .NumError "ParseFloat".toList s x := by
  unfold ParseFloat at h
  split at h
  · cases h; exact ⟨_, rfl⟩
  · split_ifs at h
    · cases h; exact ⟨_, rfl⟩
    · cases h; exact ⟨_, rfl⟩

theorem At_parse (X : List Char) (e : Error) (l c : Nat) : (Error.parse e l c).At X := by
  intro lit l2 c2 h
  rcases h with h | ⟨_, h⟩ | ⟨_, h⟩ <;> cases h

theorem At_ErrSyntax (X : List Char) : Error.ErrSyntax.At X := by
  intro lit l2 c2 h
  rcases h with h | ⟨_, h⟩ | ⟨_, h⟩ <;> cases h

theorem At_NumError (X : List Char) (f n : List Char) (e : Error) :
    (Error.NumError f n e).At X := by
  intro lit l2 c2 h
  rcases h with h | ⟨_, h⟩ | ⟨_, h⟩ <;> cases h

theorem At_panic (X : List Char) (m : List Char) : (Error.panic m).At X := by
  intro lit l2 c2 h
  rcases h with h | ⟨_, h⟩ | ⟨_, h⟩ <;> cases h

theorem parseArrayLoop_J (X : List Char) (n : Nat) :
    ∀ (vals : List (List Nat)) (p : Parser) (res : Except Error (List (List Nat)))
      (p1 : Parser), p.s.Tracks X → (p.buf.n ≠ 0 → p.BufAt X) →
      Parser.parseArrayLoop n vals p = some (res, p1) →
      p1.s.Tracks X ∧ p1.BufAt X ∧ ∀ e, res = .error e → e.At X := by
  induction n with
  | zero =>
    intro vals p res p1 _ _ h
    simp [Parser.parseArrayLoop] at h
  | succ n ih =>
    intro vals p res p1 hT hB h
    rw [Parser.parseArrayLoop] at h
    cases hg : p.getToken [TokenRBracket, TokenString, TokenComma] with
    | none => rw [hg] at h; simp at h
    | some r =>
      obtain ⟨⟨tok, lit, err⟩, p2⟩ := r
      obtain ⟨a1, a2, _, _, _, a6⟩ := getToken_J X p _ tok lit err p2 hT hB hg
      rw [hg] at h
      cases err with
      | some e =>
        simp only [Option.some.injEq, Prod.mk.injEq] at h
        obtain ⟨h1, h2⟩ := h
        subst h1 h2
        exact ⟨a1, a2, fun e2 he => by cases he; exact a6 _ rfl⟩
      | none =>
        simp only at h
        by_cases c1 : tok = TokenComma
        · rw [if_pos c1] at h
          exact ih vals p2 res p1 a1 (fun _ => a2) h
        rw [if_neg c1] at h
        by_cases c2 : tok = TokenRBracket
        · rw [if_pos c2] at h
          simp only [Option.some.injEq, Prod.mk.injEq] at h
          obtain ⟨h1, h2⟩ := h
          subst h1 h2
          exact ⟨a1, a2, fun e2 he => by cases he⟩
        rw [if_neg c2] at h
        cases hu : Unquote lit with
        | error e =>
          rw [hu] at h
          simp only [Option.some.injEq, Prod.mk.injEq] at h
          obtain ⟨h1, h2⟩ := h
          subst h1 h2
          refine ⟨a1, a2, fun e2 he => ?_⟩
          cases he
          exact At_parse X _ _ _
        | ok str =>
          rw [hu] at h
          exact ih _ p2 res p1 a1 (fun _ => a2) h

theorem parseArray_J (X : List Char) (p : Parser) (res : Except Error (List (List Nat)))
    (p1 : Parser) (hT : p.s.Tracks X) (hB : p.buf.n ≠ 0 → p.BufAt X)
    (h : p.parseArray = some (res, p1)) :
    p1.s.Tracks X ∧ p1.BufAt X ∧ ∀ e, res = .error e → e.At X := by
  rw [Parser.parseArray] at h
  cases hg : p.getToken [TokenLBracket] with
  | none => rw [hg] at h; simp at h
  | some r =>
    obtain ⟨⟨tok, lit, err⟩, p2⟩ := r
    obtain ⟨a1, a2, _, _, _, a6⟩ := getToken_J X p _ tok lit err p2 hT hB hg
    rw [hg] at h
    cases err with
    | some e =>
      simp only [Option.some.injEq, Prod.mk.injEq] at h
      obtain ⟨h1, h2⟩ := h
      subst h1 h2
      exact ⟨a1, a2, fun e2 he => by cases he; exact a6 _ rfl⟩
    | none =>
      simp only at h
      exact parseArrayLoop_J X _ [] p2 res p1 a1 (fun _ => a2) h

theorem unscan_J (X : List Char) (p : Parser) (hT : p.s.Tracks X) (hB : p.BufAt X) :
    p.unscan.s.Tracks X ∧ p.unscan.BufAt X := by
  obtain ⟨s, line, col, ⟨btok, blit, n, bline, bcol⟩⟩ := p
  exact ⟨hT, hB⟩

theorem parseField_J (X : List Char) (p : Parser) (res : Except Error Value)
    (p1 : Parser) (hT : p.s.Tracks X) (hB : p.buf.n ≠ 0 → p.BufAt X)
    (h : p.parseField = some (res, p1)) :
    p1.s.Tracks X ∧ p1.BufAt X ∧ ∀ e, res = .error e → e.At X := by
  rw [Parser.parseField] at h
  cases hg : p.getToken [TokenAssignment] with
  | none => rw [hg] at h; simp at h
  | some r =>
    obtain ⟨⟨tok, lit, err⟩, p2⟩ := r
    obtain ⟨a1, a2, _, _, _, a6⟩ := getToken_J X p _ tok lit err p2 hT hB hg
    rw [hg] at h
    cases err with
    | some e =>
      simp only [Option.some.injEq, Prod.mk.injEq] at h
      obtain ⟨h1, h2⟩ := h
      subst h1 h2
      exact ⟨a1, a2, fun e2 he => by cases he; exact a6 _ rfl⟩
    | none =>
      simp only at h
      cases hg3 : p2.getToken [TokenString, TokenNumber, TokenLBracket] with
      | none => rw [hg3] at h; simp at h
      | some r3 =>
        obtain ⟨⟨tok3, lit3, err3⟩, p3⟩ := r3
        obtain ⟨b1, b2, _, _, _, b6⟩ := getToken_J X p2 _ tok3 lit3 err3 p3 a1 (fun _ => a2) hg3
        rw [hg3] at h
        cases err3 with
        | some e =>
          simp only [Option.some.injEq, Prod.mk.injEq] at h
          obtain ⟨h1, h2⟩ := h
          subst h1 h2
          exact ⟨b1, b2, fun e2 he => by cases he; exact b6 _ rfl⟩
        | none =>
          simp only at h
          by_cases c1 : tok3 = TokenString
          · rw [if_pos c1] at h
            cases hu : Unquote lit3 with
            | error e =>
              rw [hu] at h
              simp only [Option.some.injEq, Prod.mk.injEq] at h
              obtain ⟨h1, h2⟩ := h
              subst h1 h2
              refine ⟨b1, b2, fun e2 he => ?_⟩
              cases he
              rw [Unquote_error _ _ hu]
              exact At_ErrSyntax X
            | ok str =>
              rw [hu] at h
              simp only [Option.some.injEq, Prod.mk.injEq] at h
              obtain ⟨h1, h2⟩ := h
              subst h1 h2
              exact ⟨b1, b2, fun e2 he => by cases he⟩
          rw [if_neg c1] at h
          by_cases c2 : tok3 = TokenLBracket
          · rw [if_pos c2] at h
            obtain ⟨u1, u2⟩ := unscan_J X p3 b1 b2
            cases hpa : p3.unscan.parseArray with
            | none => rw [hpa] at h; simp at h
            | some r4 =>
              obtain ⟨res4, p4⟩ := r4
              obtain ⟨d1, d2, d3⟩ := parseArray_J X _ res4 p4 u1 (fun _ => u2) hpa
              rw [hpa] at h
              cases res4 with
              | error e =>
                simp only [Option.some.injEq, Prod.mk.injEq] at h
                obtain ⟨h1, h2⟩ := h
                subst h1 h2
                exact ⟨d1, d2, fun e2 he => by cases he; exact d3 _ rfl⟩
              | ok vals =>
                simp only [Option.some.injEq, Prod.mk.injEq] at h
                obtain ⟨h1, h2⟩ := h
                subst h1 h2
                exact ⟨d1, d2, fun e2 he => by cases he⟩
          rw [if_neg c2] at h
          by_cases c3 : tok3 = TokenNumber
          · rw [if_pos c3] at h
            by_cases c4 : '.' ∈ lit3
            · rw [if_pos c4] at h
              cases hu : ParseFloat lit3 with
              | error e =>
                rw [hu] at h
                simp only [Option.some.injEq, Prod.mk.injEq] at h
                obtain ⟨h1, h2⟩ := h
                subst h1 h2
                refine ⟨b1, b2, fun e2 he => ?_⟩
                cases he
                obtain ⟨x, hx⟩ := ParseFloat_error _ _ hu
                rw [hx]
                exact At_NumError X _ _ _
              | ok f =>
                rw [hu] at h
                simp only [Option.some.injEq, Prod.mk.injEq] at h
                obtain ⟨h1, h2⟩ := h
                subst h1 h2
                exact ⟨b1, b2, fun e2 he => by cases he⟩
            · rw [if_neg c4] at h
              cases hu : ParseInt lit3 with
              | error e =>
                rw [hu] at h
                simp only [Option.some.injEq, Prod.mk.injEq] at h
                obtain ⟨h1, h2⟩ := h
                subst h1 h2
                refine ⟨b1, b2, fun e2 he => ?_⟩
                cases he
                obtain ⟨x, hx⟩ := ParseInt_error _ _ hu
                rw [hx]
                exact At_NumError X _ _ _
              | ok f =>
                rw [hu] at h
                simp only [Option.some.injEq, Prod.mk.injEq] at h
                obtain ⟨h1, h2⟩ := h
                subst h1 h2
                exact ⟨b1, b2, fun e2 he => by cases he⟩
          · rw [if_neg c3] at h
            simp only [Option.some.injEq, Prod.mk.injEq] at h
            obtain ⟨h1, h2⟩ := h
            subst h1 h2
            refine ⟨b1, b2, fun e2 he => ?_⟩
            cases he
            exact At_panic X _

theorem mergeField_error (p : Parser) (fields : PluginFields) (lit : List Char)
    (field : Value) (e : Error) (h : p.mergeField fields lit field = .error e) :
    ∃ inner l c, e = .parse inner l c := by
  obtain ⟨s, line, col, ⟨btok, blit, n, bline, bcol⟩⟩ := p
  unfold Parser.mergeField at h
  cases hget : PluginFields.get fields lit with
  | none => rw [hget] at h; cases h
  | some v0 =>
    rw [hget] at h
    cases v0 <;> cases field <;> first
      | (cases h; done)
      | (cases h; exact ⟨_, _, _, rfl⟩)

theorem parsePluginFieldsLoop_J (X : List Char) (n : Nat) :
    ∀ (acc : PluginFields) (p : Parser) (res : Except Error (PluginFields))
      (p1 : Parser), p.s.Tracks X → (p.buf.n ≠ 0 → p.BufAt X) →
      Parser.parsePluginFieldsLoop n acc p = some (res, p1) →
      p1.s.Tracks X ∧ p1.BufAt X ∧ ∀ e, res = .error e → e.At X := by
  induction n with
  | zero =>
    intro acc p res p1 _ _ h
    simp [Parser.parsePluginFieldsLoop] at h
  | succ n ih =>
    intro acc p res p1 hT hB h
    rw [Parser.parsePluginFieldsLoop] at h
    cases hg : p.getToken [TokenIdentifier, TokenRCurlyBrace] with
    | none => rw [hg] at h; simp at h
    | some r =>
      obtain ⟨⟨tok, lit, err⟩, p2⟩ := r
      obtain ⟨a1, a2, _, _, _, a6⟩ := getToken_J X p _ tok lit err p2 hT hB hg
      rw [hg] at h
      cases err with
      | some e =>
        simp only [Option.some.injEq, Prod.mk.injEq] at h
        obtain ⟨h1, h2⟩ := h
        subst h1 h2
        exact ⟨a1, a2, fun e2 he => by cases he; exact a6 _ rfl⟩
      | none =>
        simp only at h
        by_cases c1 : tok = TokenRCurlyBrace
        · rw [if_pos c1] at h
          simp only [Option.some.injEq, Prod.mk.injEq] at h
          obtain ⟨h1, h2⟩ := h
          subst h1 h2
          exact ⟨a1, a2, fun e2 he => by cases he⟩
        rw [if_neg c1] at h
        cases hpf : p2.parseField with
        | none => rw [hpf] at h; simp at h
        | some r3 =>
          obtain ⟨res3, p3⟩ := r3
          obtain ⟨b1, b2, b3⟩ := parseField_J X p2 res3 p3 a1 (fun _ => a2) hpf
          rw [hpf] at h
          cases res3 with
          | error e =>
            simp only [Option.some.injEq, Prod.mk.injEq] at h
            obtain ⟨h1, h2⟩ := h
            subst h1 h2
            exact ⟨b1, b2, fun e2 he => by cases he; exact b3 _ rfl⟩
          | ok field =>
            simp only at h
            cases hm : p3.mergeField acc lit field with
            | error e =>
              rw [hm] at h
              simp only [Option.some.injEq, Prod.mk.injEq] at h
              obtain ⟨h1, h2⟩ := h
              subst h1 h2
              refine ⟨b1, b2, fun e2 he => ?_⟩
              cases he
              obtain ⟨inner, l, c, hx⟩ := mergeField_error _ _ _ _ _ hm
              rw [hx]
              exact At_parse X _ _ _
            | ok merged =>
              rw [hm] at h
              exact ih _ p3 res p1 b1 (fun _ => b2) h

theorem parsePluginFields_J (X : List Char) (p : Parser) (res : Except Error (PluginFields))
    (p1 : Parser) (hT : p.s.Tracks X) (hB : p.buf.n ≠ 0 → p.BufAt X)
    (h : p.parsePluginFields = some (res, p1)) :
    p1.s.Tracks X ∧ p1.BufAt X ∧ ∀ e, res = .error e → e.At X := by
  rw [Parser.parsePluginFields] at h
  cases hg : p.getToken [TokenLCurlyBrace] with
  | none => rw [hg] at h; simp at h
  | some r =>
    obtain ⟨⟨tok, lit, err⟩, p2⟩ := r
    obtain ⟨a1, a2, _, _, _, a6⟩ := getToken_J X p _ tok lit err p2 hT hB hg
    rw [hg] at h
    cases err with
    | some e =>
      simp only [Option.some.injEq, Prod.mk.injEq] at h
      obtain ⟨h1, h2⟩ := h
      subst h1 h2
      exact ⟨a1, a2, fun e2 he => by cases he; exact a6 _ rfl⟩
    | none =>
      simp only at h
      exact parsePluginFieldsLoop_J X _ [] p2 res p1 a1 (fun _ => a2) h

theorem parseSectionBlockLoop_J (X : List Char) (n : Nat) :
    ∀ (acc : List PluginConfig) (p : Parser) (res : Except Error (List PluginConfig))
      (p1 : Parser), p.s.Tracks X → (p.buf.n ≠ 0 → p.BufAt X) →
      Parser.parseSectionBlockLoop n acc p = some (res, p1) →
      p1.s.Tracks X ∧ p1.BufAt X ∧ ∀ e, res = .error e → e.At X := by
  induction n with
  | zero =>
    intro acc p res p1 _ _ h
    simp [Parser.parseSectionBlockLoop] at h
  | succ n ih =>
    intro acc p res p1 hT hB h
    rw [Parser.parseSectionBlockLoop] at h
    cases hg : p.getToken [TokenIdentifier, TokenRCurlyBrace] with
    | none => rw [hg] at h; simp at h
    | some r =>
      obtain ⟨⟨tok, lit, err⟩, p2⟩ := r
      obtain ⟨a1, a2, _, _, _, a6⟩ := getToken_J X p _ tok lit err p2 hT hB hg
      rw [hg] at h
      cases err with
      | some e =>
        simp only [Option.some.injEq, Prod.mk.injEq] at h
        obtain ⟨h1, h2⟩ := h
        subst h1 h2
        exact ⟨a1, a2, fun e2 he => by cases he; exact a6 _ rfl⟩
      | none =>
        simp only at h
        by_cases c1 : tok = TokenRCurlyBrace
        · rw [if_pos c1] at h
          simp only [Option.some.injEq, Prod.mk.injEq] at h
          obtain ⟨h1, h2⟩ := h
          subst h1 h2
          exact ⟨a1, a2, fun e2 he => by cases he⟩
        rw [if_neg c1] at h
        cases hpf : p2.parsePluginFields with
        | none => rw [hpf] at h; simp at h
        | some r3 =>
          obtain ⟨res3, p3⟩ := r3
          obtain ⟨b1, b2, b3⟩ := parsePluginFields_J X p2 res3 p3 a1 (fun _ => a2) hpf
          rw [hpf] at h
          cases res3 with
          | error e =>
            simp only [Option.some.injEq, Prod.mk.injEq] at h
            obtain ⟨h1, h2⟩ := h
            subst h1 h2
            exact ⟨b1, b2, fun e2 he => by cases he; exact b3 _ rfl⟩
          | ok fields =>
            simp only at h
            exact ih _ p3 res p1 b1 (fun _ => b2) h

theorem parseSectionBlock_J (X : List Char) (p : Parser) (res : Except Error (List PluginConfig))
    (p1 : Parser) (hT : p.s.Tracks X) (hB : p.buf.n ≠ 0 → p.BufAt X)
    (h : p.parseSectionBlock = some (res, p1)) :
    p1.s.Tracks X ∧ p1.BufAt X ∧ ∀ e, res = .error e → e.At X := by
  rw [Parser.parseSectionBlock] at h
  cases hg : p.getToken [TokenLCurlyBrace] with
  | none => rw [hg] at h; simp at h
  | some r =>
    obtain ⟨⟨tok, lit, err⟩, p2⟩ := r
    obtain ⟨a1, a2, _, _, _, a6⟩ := getToken_J X p _ tok lit err p2 hT hB hg
    rw [hg] at h
    cases err with
    | some e =>
      simp only [Option.some.injEq, Prod.mk.injEq] at h
      obtain ⟨h1, h2⟩ := h
      subst h1 h2
      exact ⟨a1, a2, fun e2 he => by cases he; exact a6 _ rfl⟩
    | none =>
      simp only at h
      exact parseSectionBlockLoop_J X _ [] p2 res p1 a1 (fun _ => a2) h

theorem ParseLoop_J (X : List Char) (n : Nat) :
    ∀ (cfg : Config) (p : Parser) (res : Except Error Config) (p1 : Parser),
      p.s.Tracks X → (p.buf.n ≠ 0 → p.BufAt X) →
      Parser.ParseLoop n cfg p = some (res, p1) → ∀ e, res = .error e → e.At X := by
  induction n with
  | zero =>
    intro cfg p res p1 _ _ h
    simp [Parser.ParseLoop] at h
  | succ n ih =>
    intro cfg p res p1 hT hB h
    rw [Parser.ParseLoop] at h
    cases hg : p.getToken [TokenIdentifier] with
    | none => rw [hg] at h; simp at h
    | some r =>
      obtain ⟨⟨tok, lit, err⟩, p2⟩ := r
      obtain ⟨a1, a2, a3, a4, a5, a6⟩ := getToken_J X p _ tok lit err p2 hT hB hg
      rw [hg] at h
      simp only at h
      by_cases c0 : tok = TokenEOF
      · rw [if_pos c0] at h
        simp only [Option.some.injEq, Prod.mk.injEq] at h
        intro e he
        rw [← h.1] at he
        cases he
      rw [if_neg c0] at h
      cases err with
      | some e =>
        simp only [Option.some.injEq, Prod.mk.injEq] at h
        intro e2 he
        rw [← h.1] at he
        cases he
        exact a6 _ rfl
      | none =>
        simp only at h
        by_cases c1 : lit ≠ "input".toList ∧ lit ≠ "output".toList ∧ lit ≠ "filter".toList
        · rw [if_pos c1] at h
          simp only [Option.some.injEq, Prod.mk.injEq] at h
          intro e2 he
          rw [← h.1] at he
          cases he
          exact BufAt_error X p2 tok lit a2 a3 a4 a5 _ (Or.inr (Or.inl ⟨_, rfl⟩))
        rw [if_neg c1] at h
        cases hpf : p2.parseSectionBlock with
        | none => rw [hpf] at h; simp at h
        | some r3 =>
          obtain ⟨res3, p3⟩ := r3
          obtain ⟨b1, b2, b3⟩ := parseSectionBlock_J X p2 res3 p3 a1 (fun _ => a2) hpf
          rw [hpf] at h
          cases res3 with
          | error e =>
            simp only [Option.some.injEq, Prod.mk.injEq] at h
            intro e2 he
            rw [← h.1] at he
            cases he
            exact b3 _ rfl
          | ok cfgs =>
            simp only at h
            split_ifs at h
            all_goals exact ih _ p3 res p1 b1 (fun _ => b2) h

theorem Parse_At (X : List Char) (e : Error) (h : Parse X = some (.error e)) : e.At X := by
  unfold Parse Parser.Parse at h
  obtain ⟨a, ha, hc⟩ := Option.map_eq_some'.mp h
  obtain ⟨res, p1⟩ := a
  simp only at hc
  subst hc
  exact ParseLoop_J X _ _ (NewParser X) _ p1 (Tracks_new X) (fun hn => absurd rfl hn) ha e rfl

theorem getToken_total (p : Parser) (types : List Token) (hn : p.buf.n = 0) :
    ∃ tok lit e p1, p.getToken types = some ((tok, lit, e), p1) ∧ p1.buf.n = 0
      ∧ p1.s.rest.length ≤ p.s.rest.length
      ∧ (tok ≠ TokenEOF → p1.s.rest.length < p.s.rest.length)
      ∧ (e = none → tok ∈ types) ∧ p1.buf.tok = tok := by
  obtain ⟨p1, e, hg, hh, he⟩ := getToken_fresh p types hn
  refine ⟨_, _, e, p1, hg, hh.n0, ?_, ?_, fun h => (he.mp h).2, hh.2.1⟩
  · rw [hh.rest]
    exact (sig_suffix _).length_le
  · intro ht
    rw [hh.rest]
    exact sig_length _ ht

theorem parseArrayLoop_total (fuel : Nat) :
    ∀ (vals : List (List Nat)) (p : Parser), p.buf.n = 0 → p.s.rest.length < fuel →
      ∃ res p1, Parser.parseArrayLoop fuel vals p = some (res, p1) ∧ p1.buf.n = 0
        ∧ p1.s.rest.length ≤ p.s.rest.length := by
  induction fuel with
  | zero => intro vals p _ hf; omega
  | succ n ih =>
    intro vals p hn hf
    obtain ⟨tok, lit, e, p1, hg, hn1, hle, hlt, hty, _⟩ :=
      getToken_total p [TokenRBracket, TokenString, TokenComma] hn
    rw [Parser.parseArrayLoop, hg]
    cases e with
    | some err => exact ⟨_, _, rfl, hn1, hle⟩
    | none =>
      have hne : tok ≠ TokenEOF := by
        intro h0
        have := hty rfl
        rw [h0] at this
        revert this
        decide
      have hlt1 := hlt hne
      simp only
      by_cases c1 : tok = TokenComma
      · rw [if_pos c1]
        obtain ⟨res, p2, e2, hn2, hle2⟩ := ih vals p1 hn1 (by omega)
        exact ⟨res, p2, e2, hn2, by omega⟩
      rw [if_neg c1]
      by_cases c2 : tok = TokenRBracket
      · rw [if_pos c2]
        exact ⟨_, _, rfl, hn1, hle⟩
      rw [if_neg c2]
      cases hu : Unquote lit with
      | error e2 => exact ⟨_, _, rfl, hn1, hle⟩
      | ok str =>
        simp only
        obtain ⟨res, p2, e2, hn2, hle2⟩ := ih (vals ++ [str]) p1 hn1 (by omega)
        exact ⟨res, p2, e2, hn2, by omega⟩

theorem parseArray_total (p : Parser) (hn : p.buf.n ≠ 0) (ht : p.buf.tok = TokenLBracket) :
    ∃ res p1, p.parseArray = some (res, p1) ∧ p1.buf.n = 0
      ∧ p1.s.rest.length ≤ p.s.rest.length := by
  obtain ⟨p1, e1, h1⟩ := getToken_buffered p [TokenLBracket] hn (by rw [ht]; decide)
    (by rw [ht]; decide) (by rw [ht]; decide) (by rw [ht]; decide)
  obtain ⟨res, p2, e2, hn2, hle2⟩ := parseArrayLoop_total (p1.s.rest.length + 1) [] p1 h1.n0
    (by omega)
  rw [Parser.parseArray, e1]
  simp only
  rw [h1.rest] at hle2
  exact ⟨res, p2, e2, hn2, hle2⟩

theorem ne_eof_of_mem (tok : Token) (types : List Token) (h : tok ∈ types)
    (h0 : TokenEOF ∉ types) : tok ≠ TokenEOF := by
  intro e
  rw [e] at h
  exact h0 h

theorem parseField_total (p : Parser) (hn : p.buf.n = 0) :
    ∃ res p1, p.parseField = some (res, p1) ∧ p1.buf.n = 0
      ∧ p1.s.rest.length ≤ p.s.rest.length := by
  obtain ⟨tok, lit, e, p1, hg, hn1, hle, _, _, _⟩ := getToken_total p [TokenAssignment] hn
  rw [Parser.parseField, hg]
  cases e with
  | some err => exact ⟨_, _, rfl, hn1, hle⟩
  | none =>
    simp only
    obtain ⟨tok2, lit2, e2, p2, hg2, hn2, hle2, _, hty2, hbt⟩ :=
      getToken_total p1 [TokenString, TokenNumber, TokenLBracket] hn1
    rw [hg2]
    cases e2 with
    | some err => exact ⟨_, _, rfl, hn2, by omega⟩
    | none =>
      simp only
      by_cases c1 : tok2 = TokenString
      · rw [if_pos c1]
        cases hu : Unquote lit2 with
        | error e3 => exact ⟨_, _, rfl, hn2, by omega⟩
        | ok str => exact ⟨_, _, rfl, hn2, by omega⟩
      rw [if_neg c1]
      by_cases c2 : tok2 = TokenLBracket
      · rw [if_pos c2]
        obtain ⟨hun, hut, hur⟩ := unscan_facts p2
        obtain ⟨res, p3, e3, hn3, hle3⟩ := parseArray_total p2.unscan hun
          (hut.trans (hbt.trans c2))
        rw [e3]
        rw [hur] at hle3
        cases res with
        | error e4 => exact ⟨_, _, rfl, hn3, by omega⟩
        | ok vals => exact ⟨_, _, rfl, hn3, by omega⟩
      rw [if_neg c2]
      by_cases c3 : tok2 = TokenNumber
      · rw [if_pos c3]
        by_cases c4 : '.' ∈ lit2
        · rw [if_pos c4]
          cases hu : ParseFloat lit2 with
          | error e3 => exact ⟨_, _, rfl, hn2, by omega⟩
          | ok f => exact ⟨_, _, rfl, hn2, by omega⟩
        · rw [if_neg c4]
          cases hu : ParseInt lit2 with
          | error e3 => exact ⟨_, _, rfl, hn2, by omega⟩
          | ok f => exact ⟨_, _, rfl, hn2, by omega⟩
      · rw [if_neg c3]
        exact ⟨_, _, rfl, hn2, by omega⟩

theorem parsePluginFieldsLoop_total (fuel : Nat) :
    ∀ (fields : PluginFields) (p : Parser), p.buf.n = 0 → p.s.rest.length < fuel →
      ∃ res p1, Parser.parsePluginFieldsLoop fuel fields p = some (res, p1) ∧ p1.buf.n = 0
        ∧ p1.s.rest.length ≤ p.s.rest.length := by
  induction fuel with
  | zero => intro fields p _ hf; omega
  | succ n ih =>
    intro fields p hn hf
    obtain ⟨tok, lit, e, p1, hg, hn1, hle, hlt, hty, _⟩ :=
      getToken_total p [TokenIdentifier, TokenRCurlyBrace] hn
    rw [Parser.parsePluginFieldsLoop, hg]
    cases e with
    | some err => exact ⟨_, _, rfl, hn1, hle⟩
    | none =>
      have hlt1 := hlt (ne_eof_of_mem tok _ (hty rfl) (by decide))
      simp only
      by_cases c1 : tok = TokenRCurlyBrace
      · rw [if_pos c1]
        exact ⟨_, _, rfl, hn1, hle⟩
      rw [if_neg c1]
      obtain ⟨res2, p2, e2, hn2, hle2⟩ := parseField_total p1 hn1
      rw [e2]
      cases res2 with
      | error e3 => exact ⟨_, _, rfl, hn2, by omega⟩
      | ok field =>
        simp only
        cases hm : p2.mergeField fields lit field with
        | error e3 => exact ⟨_, _, rfl, hn2, by omega⟩
        | ok merged =>
          simp only
          obtain ⟨res, p3, e3, hn3, hle3⟩ := ih (fields.set lit merged) p2 hn2 (by omega)
          exact ⟨res, p3, e3, hn3, by omega⟩

theorem parsePluginFields_total (p : Parser) (hn : p.buf.n = 0) :
    ∃ res p1, p.parsePluginFields = some (res, p1) ∧ p1.buf.n = 0
      ∧ p1.s.rest.length ≤ p.s.rest.length := by
  obtain ⟨tok, lit, e, p1, hg, hn1, hle, _, _, _⟩ := getToken_total p [TokenLCurlyBrace] hn
  rw [Parser.parsePluginFields, hg]
  cases e with
  | some err => exact ⟨_, _, rfl, hn1, hle⟩
  | none =>
    simp only
    obtain ⟨res, p2, e2, hn2, hle2⟩ :=
      parsePluginFieldsLoop_total (p1.s.rest.length + 1) [] p1 hn1 (by omega)
    exact ⟨res, p2, e2, hn2, by omega⟩

theorem parseSectionBlockLoop_total (fuel : Nat) :
    ∀ (cfgs : List PluginConfig) (p : Parser), p.buf.n = 0 → p.s.rest.length < fuel →
      ∃ res p1, Parser.parseSectionBlockLoop fuel cfgs p = some (res, p1) ∧ p1.buf.n = 0
        ∧ p1.s.rest.length ≤ p.s.rest.length := by
  induction fuel with
  | zero => intro cfgs p _ hf; omega
  | succ n ih =>
    intro cfgs p hn hf
    obtain ⟨tok, lit, e, p1, hg, hn1, hle, hlt, hty, _⟩ :=
      getToken_total p [TokenIdentifier, TokenRCurlyBrace] hn
    rw [Parser.parseSectionBlockLoop, hg]
    cases e with
    | some err => exact ⟨_, _, rfl, hn1, hle⟩
    | none =>
      have hlt1 := hlt (ne_eof_of_mem tok _ (hty rfl) (by decide))
      simp only
      by_cases c1 : tok = TokenRCurlyBrace
      · rw [if_pos c1]
        exact ⟨_, _, rfl, hn1, hle⟩
      rw [if_neg c1]
      obtain ⟨res2, p2, e2, hn2, hle2⟩ := parsePluginFields_total p1 hn1
      rw [e2]
      cases res2 with
      | error e3 => exact ⟨_, _, rfl, hn2, by omega⟩
      | ok fields =>
        simp only
        obtain ⟨res, p3, e3, hn3, hle3⟩ := ih _ p2 hn2 (by omega)
        exact ⟨res, p3, e3, hn3, by omega⟩

theorem parseSectionBlock_total (p : Parser) (hn : p.buf.n = 0) :
    ∃ res p1, p.parseSectionBlock = some (res, p1) ∧ p1.buf.n = 0
      ∧ p1.s.rest.length ≤ p.s.rest.length := by
  obtain ⟨tok, lit, e, p1, hg, hn1, hle, _, _, _⟩ := getToken_total p [TokenLCurlyBrace] hn
  rw [Parser.parseSectionBlock, hg]
  cases e with
  | some err => exact ⟨_, _, rfl, hn1, hle⟩
  | none =>
    simp only
    obtain ⟨res, p2, e2, hn2, hle2⟩ :=
      parseSectionBlockLoop_total (p1.s.rest.length + 1) [] p1 hn1 (by omega)
    exact ⟨res, p2, e2, hn2, by omega⟩

theorem ParseLoop_total (fuel : Nat) :
    ∀ (cfg : Config) (p : Parser), p.buf.n = 0 → p.s.rest.length < fuel →
      ∃ res p1, Parser.ParseLoop fuel cfg p = some (res, p1) := by
  induction fuel with
  | zero => intro cfg p _ hf; omega
  | succ n ih =>
    intro cfg p hn hf
    obtain ⟨tok, lit, e, p1, hg, hn1, hle, hlt, hty, _⟩ :=
      getToken_total p [TokenIdentifier] hn
    rw [Parser.ParseLoop, hg]
    simp only
    by_cases c0 : tok = TokenEOF
    · rw [if_pos c0]
      exact ⟨_, _, rfl⟩
    rw [if_neg c0]
    have hlt1 := hlt c0
    cases e with
    | some err => exact ⟨_, _, rfl⟩
    | none =>
      simp only
      by_cases c1 : lit ≠ "input".toList ∧ lit ≠ "output".toList ∧ lit ≠ "filter".toList
      · rw [if_pos c1]
        exact ⟨_, _, rfl⟩
      rw [if_neg c1]
      obtain ⟨res2, p2, e2, hn2, hle2⟩ := parseSectionBlock_total p1 hn1
      rw [e2]
      cases res2 with
      | error e3 => exact ⟨_, _, rfl⟩
      | ok cfgs =>
        simp only
        split_ifs
        all_goals exact ih _ p2 hn2 (by omega)

theorem Parse_total (X : List Char) : ∃ r, Parse X = some r := by
  obtain ⟨res, p1, e⟩ := ParseLoop_total (X.length + 1) { Input := [], Filter := [], Output := [] }
    (NewParser X) rfl (by
      have : (NewParser X).s.rest = X := rfl
      rw [this]
      omega)
  refine ⟨res, ?_⟩
  unfold Parse Parser.Parse
  have hr : (NewParser X).s.rest = X := rfl
  rw [hr, e]
  rfl

theorem char_toNat_valid (c : Char) :
    c.toNat < 0xD800 ∨ (0xDFFF < c.toNat ∧ c.toNat < 0x110000) := c.valid

theorem decodeRunes_skip (l r : List Nat) :
    decodeRunes l.length (l ++ r) = decodeRunes 0 r := by
  induction l with
  | nil => rfl
  | cons a t ih =>
    simp only [List.length_cons, List.cons_append, decodeRunes]
    exact ih

theorem DecodeRune_EncodeRune (c : Char) (r : List Nat) :
    DecodeRune (EncodeRune c.toNat ++ r) = (c.toNat, (EncodeRune c.toNat).length)
      ∧ 0 < (EncodeRune c.toNat).length := by
  have hv := char_toNat_valid c
  generalize c.toNat = n at hv
  unfold EncodeRune
  split_ifs with h1 h2 h3 h4
  · simp [DecodeRune]; omega
  · simp only [DecodeRune, List.cons_append, List.nil_append, List.length_cons, List.length_nil]
    rw [if_neg (by omega), if_pos (by omega), if_pos (by omega)]
    refine ⟨?_, by omega⟩
    rw [Prod.mk.injEq]
    exact ⟨by omega, rfl⟩
  · omega
  · simp only [DecodeRune, List.cons_append, List.nil_append, List.length_cons, List.length_nil]
    rw [if_neg (by omega), if_neg (by omega), if_pos (by omega), if_pos (by split_ifs <;> omega)]
    refine ⟨?_, by omega⟩
    rw [Prod.mk.injEq]
    exact ⟨by omega, rfl⟩
  · simp only [DecodeRune, List.cons_append, List.nil_append, List.length_cons, List.length_nil]
    rw [if_neg (by omega), if_neg (by omega), if_neg (by omega), if_pos (by omega),
      if_pos (by split_ifs <;> omega)]
    refine ⟨?_, by omega⟩
    rw [Prod.mk.injEq]
    exact ⟨by omega, rfl⟩

theorem textOf_utf8Bytes (t : List Char) : textOf (utf8Bytes t) = t := by
  unfold textOf
  induction t with
  | nil => rfl
  | cons c cs ih =>
    obtain ⟨h1, h2⟩ := DecodeRune_EncodeRune c (utf8Bytes cs)
    simp only [utf8Bytes]
    cases he : EncodeRune c.toNat with
    | nil => rw [he] at h2; simp at h2
    | cons b u =>
      rw [he] at h1
      simp only [List.cons_append] at h1 ⊢
      simp only [decodeRunes, h1, List.length_cons, Nat.add_sub_cancel]
      rw [decodeRunes_skip, ih]
      simp [Char.ofNat_toNat]

theorem isPlainValue_utf8Bytes (t : List Char) (h : isPlainString t = true) :
    isPlainValue (utf8Bytes t) = true := by
  simp only [isPlainValue, textOf_utf8Bytes, h, decide_True, Bool.and_self]

theorem parsePluginFieldsLoop_prefix (sep : List Char) (hsep : isSeparator sep = true)
    (fs : PluginFields) :
    ∀ (acc : PluginFields) (p : Parser) (fuel : Nat) (W X : List Char),
      (∀ kv ∈ fs, isIdentifier kv.1 = true ∧ valueOk kv.2 = true) →
      ((acc ++ fs).map Prod.fst).Nodup → p.buf.n = 0 → (∀ c ∈ W, isWhitespace c = true) →
      p.s.rest = W ++ (renderFields sep fs ++ X) → p.s.rest.length < fuel →
      ∃ p1 m W1, p1.buf.n = 0 ∧ (∀ c ∈ W1, isWhitespace c = true) ∧ p1.s.rest = W1 ++ X
        ∧ p1.s.rest.length < m
        ∧ Parser.parsePluginFieldsLoop fuel acc p
          = Parser.parsePluginFieldsLoop m (acc ++ fs) p1 := by
  induction fs with
  | nil =>
    intro acc p fuel W X _ _ hn hW hr hf
    exact ⟨p, fuel, W, hn, hW, by simpa [renderFields] using hr, hf, by simp⟩
  | cons kv t ih =>
    intro acc p fuel W X hok hnd hn hW hr hf
    obtain ⟨k, v⟩ := kv
    have hkv := hok (k, v) (List.mem_cons_self _ _)
    have ht : ∀ kv ∈ t, isIdentifier kv.1 = true ∧ valueOk kv.2 = true :=
      fun x h => hok x (List.mem_cons_of_mem _ h)
    cases fuel with
    | zero => omega
    | succ fuel =>
      have hs := sig_identifier W k sep
        ('=' :: '>' :: (sep ++ (renderValue sep v ++ (sep ++ (renderFields sep t ++ X)))))
        hW hkv.1 hsep
      obtain ⟨p1, e1, h1⟩ := getToken_at p [TokenIdentifier, TokenRCurlyBrace] _ _
        TokenIdentifier k hn hr
        (by simpa [renderFields, List.append_assoc] using hs) (by decide) (by decide)
      obtain ⟨p2, e2, hn2, hr2⟩ := parseField_render sep hsep v hkv.2 p1 sep
        (renderFields sep t ++ X) h1.n0 (sep_ws sep hsep) (by rw [h1.rest])
      have hknot : k ∉ acc.map Prod.fst := by
        intro hmem
        rw [List.map_append, List.nodup_append] at hnd
        exact hnd.2.2 hmem (List.mem_map.mpr ⟨(k, v), List.mem_cons_self _ _, rfl⟩)
      have hnd2 : (((acc ++ [(k, v)]) ++ t).map Prod.fst).Nodup := by
        simpa [List.append_assoc] using hnd
      have hlen : p2.s.rest.length < fuel := by
        rw [hr2]; rw [hr] at hf
        simp only [renderFields, List.length_append, List.length_cons] at hf ⊢
        omega
      obtain ⟨p3, m, W1, hn3, hW1, hr3, hl3, e3⟩ := ih (acc ++ [(k, v)]) p2 fuel sep X ht hnd2
        hn2 (sep_ws sep hsep) hr2 hlen
      refine ⟨p3, m, W1, hn3, hW1, hr3, hl3, ?_⟩
      simp only [Parser.parsePluginFieldsLoop, e1, e2, Parser.mergeField,
        get_none_of_not_mem acc k hknot, set_of_not_mem acc k v hknot]
      rw [if_neg (by decide), e3]
      simp

theorem parseSectionBlockLoop_prefix (sep : List Char) (hsep : isSeparator sep = true)
    (ps : List PluginConfig) :
    ∀ (acc : List PluginConfig) (p : Parser) (fuel : Nat) (W X : List Char),
      (∀ pl ∈ ps, pluginOk pl = true) → p.buf.n = 0 → (∀ c ∈ W, isWhitespace c = true) →
      p.s.rest = W ++ (renderPlugins sep ps ++ X) → p.s.rest.length < fuel →
      ∃ p1 m W1, p1.buf.n = 0 ∧ (∀ c ∈ W1, isWhitespace c = true) ∧ p1.s.rest = W1 ++ X
        ∧ p1.s.rest.length < m
        ∧ Parser.parseSectionBlockLoop fuel acc p
          = Parser.parseSectionBlockLoop m (acc ++ ps) p1 := by
  induction ps with
  | nil =>
    intro acc p fuel W X _ hn hW hr hf
    exact ⟨p, fuel, W, hn, hW, by simpa [renderPlugins] using hr, hf, by simp⟩
  | cons pl t ih =>
    intro acc p fuel W X hok hn hW hr hf
    have hpl := hok pl (List.mem_cons_self _ _)
    simp only [pluginOk, Bool.and_eq_true] at hpl
    have ht : ∀ x ∈ t, pluginOk x = true := fun x h => hok x (List.mem_cons_of_mem _ h)
    cases fuel with
    | zero => omega
    | succ fuel =>
      have hs := sig_identifier W pl.Name sep
        ('{' :: (sep ++ (renderFields sep pl.Fields ++ '}' :: (sep
          ++ (renderPlugins sep t ++ X))))) hW hpl.1 hsep
      obtain ⟨p1, e1, h1⟩ := getToken_at p [TokenIdentifier, TokenRCurlyBrace] _ _
        TokenIdentifier pl.Name hn hr
        (by simpa [renderPlugins, List.append_assoc] using hs) (by decide) (by decide)
      obtain ⟨p2, e2, hn2, hr2⟩ := parsePluginFields_render sep hsep pl.Fields hpl.2 p1 sep
        (sep ++ (renderPlugins sep t ++ X)) h1.n0 (sep_ws sep hsep) (by rw [h1.rest])
      have hlen : p2.s.rest.length < fuel := by
        rw [hr2]; rw [hr] at hf
        simp only [renderPlugins, List.length_append, List.length_cons] at hf ⊢
        omega
      obtain ⟨p3, m, W1, hn3, hW1, hr3, hl3, e3⟩ := ih (acc ++ [pl]) p2 fuel sep X ht hn2
        (sep_ws sep hsep) hr2 hlen
      refine ⟨p3, m, W1, hn3, hW1, hr3, hl3, ?_⟩
      simp only [Parser.parseSectionBlockLoop, e1, e2]
      rw [if_neg (by decide), e3]
      simp

theorem isSectionKeyword_spec (kw : List Char) (h : isSectionKeyword kw = true) :
    kw = "input".toList ∨ kw = "filter".toList ∨ kw = "output".toList := by
  simpa [isSectionKeyword, or_assoc] using h

theorem ParseLoop_sections (sep : List Char) (hsep : isSeparator sep = true)
    (secs : List (List Char × List PluginConfig)) :
    ∀ (cfg : Config) (p : Parser) (fuel : Nat) (W X : List Char),
      (∀ s ∈ secs, isSectionKeyword s.1 = true ∧ ∀ pl ∈ s.2, pluginOk pl = true) →
      p.buf.n = 0 → (∀ c ∈ W, isWhitespace c = true) →
      p.s.rest = W ++ (renderSections sep secs ++ X) → p.s.rest.length < fuel →
      ∃ cfg1 p1 m W1, p1.buf.n = 0 ∧ (∀ c ∈ W1, isWhitespace c = true)
        ∧ p1.s.rest = W1 ++ X ∧ p1.s.rest.length < m
        ∧ Parser.ParseLoop fuel cfg p = Parser.ParseLoop m cfg1 p1 := by
  induction secs with
  | nil =>
    intro cfg p fuel W X _ hn hW hr hf
    exact ⟨cfg, p, fuel, W, hn, hW, by simpa [renderSections] using hr, hf, rfl⟩
  | cons s t ih =>
    intro cfg p fuel W X hok hn hW hr hf
    obtain ⟨kw, ps⟩ := s
    have hs := hok (kw, ps) (List.mem_cons_self _ _)
    have ht : ∀ s ∈ t, isSectionKeyword s.1 = true ∧ ∀ pl ∈ s.2, pluginOk pl = true :=
      fun x h => hok x (List.mem_cons_of_mem _ h)
    obtain ⟨p2, m, hn2, hr2, hl2, e2⟩ := ParseLoop_section sep hsep kw
      (isSectionKeyword_spec kw hs.1) ps hs.2 cfg p fuel W (sep ++ (renderSections sep t ++ X))
      hn hW (by rw [hr]; simp [renderSections, renderSection, List.append_assoc]) hf
    obtain ⟨cfg1, p3, m3, W1, hn3, hW1, hr3, hl3, e3⟩ := ih (addSection cfg kw ps) p2 m sep X ht
      hn2 (sep_ws sep hsep) hr2 hl2
    exact ⟨cfg1, p3, m3, W1, hn3, hW1, hr3, hl3, e2.trans e3⟩

theorem get_some_mem (m : PluginFields) (k : List Char) (v : Value)
    (h : PluginFields.get m k = some v) : (k, v) ∈ m := by
  induction m with
  | nil => simp [PluginFields.get] at h
  | cons kv t ih =>
    obtain ⟨k1, v1⟩ := kv
    simp only [PluginFields.get] at h
    by_cases e : k1 = k
    · rw [if_pos e] at h
      simp only [Option.some.injEq] at h
      rw [e, h]
      exact List.mem_cons_self _ _
    · rw [if_neg e] at h
      exact List.mem_cons_of_mem _ (ih h)

theorem mergeField_conflict (p : Parser) (fields : PluginFields) (lit : List Char)
    (old v : Value) (hstored : fields.get lit = some old)
    (hnum : (∃ i, old = .int i) ∨ (∃ i, v = .int i)) :
    p.mergeField fields lit v
      = .error (.parse (mergeConflict old lit) p.PrevPos.1 p.PrevPos.2) := by
  cases old with
  | strs xs =>
    rcases hnum with ⟨i, h⟩ | ⟨i, h⟩
    · cases h
    · subst h
      simp [Parser.mergeField, hstored, Parser.err, mergeConflict]
  | str s => simp [Parser.mergeField, hstored, Parser.err, mergeConflict]
  | int i => simp [Parser.mergeField, hstored, Parser.err, mergeConflict]
  | float f => simp [Parser.mergeField, hstored, Parser.err, mergeConflict]

theorem mergeConflict_names (old : Value) (lit : List Char) (l c : Nat) :
    ∃ pre post, (Error.parse (mergeConflict old lit) l c).Error = pre ++ lit ++ post := by
  cases old with
  | strs xs =>
    exact ⟨"parse error: field ".toList ++ [Char.ofNat 39], [Char.ofNat 39]
      ++ " is an array but new value is not a string or []string".toList
      ++ " at line ".toList ++ fmtInt l ++ " col ".toList ++ fmtInt c,
      by simp [Error.Error, mergeConflict]⟩
  | str s =>
    exact ⟨"parse error: field ".toList ++ [Char.ofNat 39], [Char.ofNat 39]
      ++ " already delcared and not an array".toList
      ++ " at line ".toList ++ fmtInt l ++ " col ".toList ++ fmtInt c,
      by simp [Error.Error, mergeConflict]⟩
  | int i =>
    exact ⟨"parse error: field ".toList ++ [Char.ofNat 39], [Char.ofNat 39]
      ++ " already delcared and not an array".toList
      ++ " at line ".toList ++ fmtInt l ++ " col ".toList ++ fmtInt c,
      by simp [Error.Error, mergeConflict]⟩
  | float f =>
    exact ⟨"parse error: field ".toList ++ [Char.ofNat 39], [Char.ofNat 39]
      ++ " already delcared and not an array".toList
      ++ " at line ".toList ++ fmtInt l ++ " col ".toList ++ fmtInt c,
      by simp [Error.Error, mergeConflict]⟩

theorem Parse_reassign (sep : List Char) (hsep : isSeparator sep = true)
    (secs : List (List Char × List PluginConfig))
    (hsecs : ∀ s ∈ secs, isSectionKeyword s.1 = true ∧ ∀ pl ∈ s.2, pluginOk pl = true)
    (kw : List Char) (hkw : isSectionKeyword kw = true) (ps : List PluginConfig)
    (hps : ∀ pl ∈ ps, pluginOk pl = true) (name : List Char) (hname : isIdentifier name = true)
    (fs : PluginFields) (hfs : fieldsOk fs = true) (lit : List Char) (old v : Value)
    (hold : fs.get lit = some old) (hv : valueOk v = true)
    (hnum : (∃ i, old = .int i) ∨ (∃ i, v = .int i)) (R : List Char) :
    ∃ l c, Parse (reassignText sep secs kw ps name fs lit v R)
      = some (.error (.parse (mergeConflict old lit) l c)) := by
  have hws := sep_ws sep hsep
  have hkw2 := isSectionKeyword_spec kw hkw
  have hkwid : isIdentifier kw = true := by
    rcases hkw2 with h | h | h <;> subst h <;> decide
  simp only [fieldsOk, Bool.and_eq_true, List.all_eq_true, decide_eq_true_eq] at hfs
  have hlit : isIdentifier lit = true := (hfs.1 _ (get_some_mem fs lit old hold)).1
  -- the complete sections
  obtain ⟨cfg1, p1, m1, W1, hn1, hW1, hr1, hl1, e1⟩ := ParseLoop_sections sep hsep secs
    { Input := [], Filter := [], Output := [] }
    (NewParser (reassignText sep secs kw ps name fs lit v R))
    ((NewParser (reassignText sep secs kw ps name fs lit v R)).s.rest.length + 1) [] _
    hsecs rfl (by simp) (by show reassignText sep secs kw ps name fs lit v R = _; rfl)
    (by omega)
  cases m1 with
  | zero => omega
  | succ m1 =>
    -- the section keyword and its brace
    obtain ⟨p2, e2, h2⟩ := getToken_at p1 [TokenIdentifier] _ _ TokenIdentifier kw hn1 hr1
      (sig_identifier W1 kw sep _ hW1 hkwid hsep) (by decide) (by decide)
    obtain ⟨p3, e3, h3⟩ := getToken_at p2 [TokenLCurlyBrace] _ _ TokenLCurlyBrace ['{'] h2.n0
      h2.rest (sig_lcurly sep _ hws) (by decide) (by decide)
    -- the complete plugins
    obtain ⟨p4, m4, W4, hn4, hW4, hr4, hl4, e4⟩ := parseSectionBlockLoop_prefix sep hsep ps []
      p3 (p3.s.rest.length + 1) sep _ hps h3.n0 hws h3.rest (by omega)
    cases m4 with
    | zero => omega
    | succ m4 =>
      obtain ⟨p5, e5, h5⟩ := getToken_at p4 [TokenIdentifier, TokenRCurlyBrace] _ _
        TokenIdentifier name hn4 hr4 (sig_identifier W4 name sep _ hW4 hname hsep)
        (by decide) (by decide)
      obtain ⟨p6, e6, h6⟩ := getToken_at p5 [TokenLCurlyBrace] _ _ TokenLCurlyBrace ['{']
        h5.n0 h5.rest (sig_lcurly sep _ hws) (by decide) (by decide)
      -- the fields before the second assignment
      obtain ⟨p7, m7, W7, hn7, hW7, hr7, hl7, e7⟩ := parsePluginFieldsLoop_prefix sep hsep fs
        [] p6 (p6.s.rest.length + 1) sep _ hfs.1 (by simpa using hfs.2) h6.n0 hws h6.rest
        (by omega)
      cases m7 with
      | zero => omega
      | succ m7 =>
        obtain ⟨p8, e8, h8⟩ := getToken_at p7 [TokenIdentifier, TokenRCurlyBrace] _ _
          TokenIdentifier lit hn7 hr7 (sig_identifier W7 lit sep _ hW7 hlit hsep)
          (by decide) (by decide)
        obtain ⟨p9, e9, hn9, hr9⟩ := parseField_render sep hsep v hv p8 sep R h8.n0 hws
          (by rw [h8.rest])
        have a1 : Parser.parsePluginFieldsLoop (m7 + 1) ([] ++ fs) p7
            = some (.error (.parse (mergeConflict old lit) p9.PrevPos.1 p9.PrevPos.2), p9) := by
          simp only [Parser.parsePluginFieldsLoop, e8, e9, List.nil_append]
          rw [if_neg (by decide), mergeField_conflict p9 fs lit old v hold hnum]
        have a2 : p5.parsePluginFields
            = some (.error (.parse (mergeConflict old lit) p9.PrevPos.1 p9.PrevPos.2), p9) := by
          simp only [Parser.parsePluginFields, e6, e7, a1]
        have a3 : Parser.parseSectionBlockLoop (m4 + 1) ([] ++ ps) p4
            = some (.error (.parse (mergeConflict old lit) p9.PrevPos.1 p9.PrevPos.2), p9) := by
          simp only [Parser.parseSectionBlockLoop, e5, a2]
          rw [if_neg (by decide)]
        have a4 : p2.parseSectionBlock
            = some (.error (.parse (mergeConflict old lit) p9.PrevPos.1 p9.PrevPos.2), p9) := by
          simp only [Parser.parseSectionBlock, e3, e4, a3]
        have a5 : Parser.ParseLoop (m1 + 1) cfg1 p1
            = some (.error (.parse (mergeConflict old lit) p9.PrevPos.1 p9.PrevPos.2), p9) := by
          simp only [Parser.ParseLoop, e2, a4]
          rw [if_neg (by decide)]
          rcases hkw2 with h | h | h <;> subst h <;> simp
        refine ⟨p9.PrevPos.1, p9.PrevPos.2, ?_⟩
        show Option.map (fun r => r.1) (Parser.ParseLoop _ _ _) = _
        rw [e1, a5]
        rfl

theorem EncodeRune_lt (r : Nat) : ∀ b ∈ EncodeRune r, b < 256 := by
  intro b hb
  unfold EncodeRune at hb
  split_ifs at hb <;> simp only [List.mem_cons, List.mem_singleton, List.not_mem_nil,
    or_false] at hb <;> omega

theorem utf8Bytes_lt (s : List Char) : ∀ b ∈ utf8Bytes s, b < 256 := by
  induction s with
  | nil => intro b hb; simp [utf8Bytes] at hb
  | cons c cs ih =>
    intro b hb
    simp only [utf8Bytes, List.mem_append] at hb
    rcases hb with h | h
    · exact EncodeRune_lt _ b h
    · exact ih b h

theorem unquoteChars_lt : ∀ (s : List Char) (skip : Nat) (r : List Nat),
    unquoteChars skip s = some r → ∀ b ∈ r, b < 256 := by
  intro s
  induction s with
  | nil =>
    intro skip r h b hb
    cases skip with
    | zero =>
      simp only [unquoteChars, Option.some.injEq] at h
      subst h
      simp at hb
    | succ k => simp [unquoteChars] at h
  | cons c cs ih =>
    intro skip r h b hb
    cases skip with
    | succ k =>
      simp only [unquoteChars] at h
      exact ih k r h b hb
    | zero =>
      simp only [unquoteChars] at h
      cases hu : UnquoteChar (c :: cs) with
      | none => rw [hu] at h; simp at h
      | some x =>
        obtain ⟨v, mb, k⟩ := x
        rw [hu] at h
        simp only at h
        cases hr : unquoteChars (k - 1) cs with
        | none => rw [hr] at h; simp at h
        | some r1 =>
          rw [hr] at h
          simp only [Option.map_some', Option.some.injEq] at h
          subst h
          rcases List.mem_append.mp hb with h1 | h1
          · split_ifs at h1
            · simp only [List.mem_singleton] at h1
              subst h1
              exact Nat.mod_lt _ (by decide)
            · exact EncodeRune_lt _ b h1
          · exact ih _ r1 hr b h1

/-- What `Unquote` returns is a string of bytes: every element is below 256. -/
theorem Unquote_lt (s : List Char) (r : List Nat) (h : Unquote s = .ok r) :
    ∀ b ∈ r, b < 256 := by
  unfold Unquote at h
  split at h
  · cases h
  · split_ifs at h
    · cases h
      exact utf8Bytes_lt _
    · split at h
      · cases h
        exact unquoteChars_lt _ _ _ (by assumption)
      · cases h

/-! ## Properties of the scanner and the parser -/

/-- C6, the code at the failing inputs: a number is cut at its dot. For every digit string
`a` (not empty) and every `b`, `Scan` on `a.b...` returns the Number token with literal
`a` and leaves the dot unread, so the literal handed to the parser never holds a dot. -/
theorem C6_scan_stops_at_dot (s : Scanner) (a b : List Char) (ha0 : a ≠ [])
    (ha : ∀ y ∈ a, isDigit y = true) (hs : s.rest = a ++ '.' :: b) :
    ∃ s1, s.Scan = some ((TokenNumber, a), s1) ∧ s1.rest = '.' :: b := by
  obtain ⟨s1, e1, e2⟩ := Scan_lex s
  cases a with
  | nil => exact absurd rfl ha0
  | cons x xs =>
    have hl := lex_digits x xs (ha x (List.mem_cons_self _ _))
      (fun y hy => ha y (List.mem_cons_of_mem _ hy)) '.' b (by decide) (by decide) (by decide)
    rw [hs, List.cons_append, hl] at e1 e2
    exact ⟨s1, e1, e2⟩

/-- C6, witness: on `1.5 ` the scanner returns Number `1` and leaves `.5 `, and Parse
rejects the field `f => 1.5` as an illegal token `.` at line 1, column 18. -/
theorem C6_scan_stops_at_dot_witness :
    ("1".toList ≠ [] ∧ (∀ y ∈ "1".toList, isDigit y = true)
      ∧ (NewScanner "1.5 ".toList).rest = "1".toList ++ '.' :: "5 ".toList)
    ∧ (∃ s1, (NewScanner "1.5 ".toList).Scan = some ((TokenNumber, "1".toList), s1)
        ∧ s1.rest = '.' :: "5 ".toList)
    ∧ Parse "input \x7b p \x7b f => 1.5 \x7d \x7d".toList
        = some (.error (.illegal ".".toList 1 18)) :=
  ⟨⟨by decide, by decide, by decide⟩,
   C6_scan_stops_at_dot (NewScanner "1.5 ".toList) "1".toList "5 ".toList (by decide) (by decide)
     (by decide),
   by decide⟩

/-- C8, the code at the failing input: on `1.2.3` the first `Scan` returns the Number
token `1` (a proper part of the run) and leaves `.2.3`; on `12ab` it returns Illegal with
literal `12`, the letter `a` consumed. -/
theorem C8_number_shape :
    (NewScanner "1.2.3".toList).Scan.map (fun r => (r.1, r.2.rest))
        = some ((TokenNumber, "1".toList), ".2.3".toList)
    ∧ (NewScanner "12ab".toList).Scan.map (fun r => (r.1, r.2.rest))
        = some ((TokenIllegal, "12".toList), "b".toList) := by
  decide

/-- C9, the code at the failing inputs: when `#` is immediately followed by a newline,
the Comment token swallows that newline: the literal starts with the newline and goes on
with the characters of the next line. -/
theorem C9_comment_swallows_newline (s : Scanner) (R : List Char)
    (hs : s.rest = '#' :: '\n' :: R) :
    ∃ s1, s.Scan = some ((TokenComment, '\n' :: (commentRun R).1), s1)
      ∧ s1.rest = (commentRun R).2 := by
  obtain ⟨s1, e1, e2⟩ := Scan_lex s
  rw [hs] at e1 e2
  have hl : lex ('#' :: '\n' :: R) = ((TokenComment, '\n' :: (commentRun R).1), (commentRun R).2) := by
    simp only [lex]
    rw [if_neg (by decide), if_neg (by decide), if_neg (by decide), if_neg (by decide),
      if_neg (by decide), if_neg (by decide), if_neg (by decide), if_neg (by decide),
      if_neg (by decide), if_neg (by decide), if_neg (by decide), if_neg (by decide),
      if_pos trivial]
    rfl
  rw [hl] at e1 e2
  exact ⟨s1, e1, e2⟩

/-- C9, witness: on `#`, newline, `foo`, newline, `bar` the comment literal is the
newline followed by `foo`, and the next `Scan` starts at the second newline. -/
theorem C9_comment_swallows_newline_witness :
    (NewScanner "#\nfoo\nbar".toList).rest = '#' :: '\n' :: "foo\nbar".toList
    ∧ (∃ s1, (NewScanner "#\nfoo\nbar".toList).Scan
          = some ((TokenComment, '\n' :: (commentRun "foo\nbar".toList).1), s1)
        ∧ s1.rest = (commentRun "foo\nbar".toList).2)
    ∧ (NewScanner "#\nfoo\nbar".toList).Scan.map (fun r => (r.1, r.2.rest))
        = some ((TokenComment, "\nfoo".toList), "\nbar".toList) :=
  ⟨by decide, C9_comment_swallows_newline (NewScanner "#\nfoo\nbar".toList) "foo\nbar".toList
    (by decide), by decide⟩

/-- C10, counterexample: on a string literal with a newline before its closing quote the
scanner returns the String token, not Illegal. -/
theorem C10_counterexample :
    (NewScanner "\"a\nb\" ".toList).Scan.map (fun r => (r.1, r.2.rest))
        = some ((TokenString, "\"a\nb\"".toList), " ".toList)
    ∧ (NewScanner "\"a\nb\" ".toList).Scan.map (fun r => r.1.1) ≠ some TokenIllegal := by
  decide

/-- C10, amended: a newline inside a string literal is accepted by the scanner. For every
input that begins with `"`, whose body up to the first unescaped closing `"` holds a
newline and no NUL, `Scan` returns the String token with the whole literal, newline
included; it is `strconv.Unquote`, called by the parser on that literal, that fails. -/
theorem C10_string_with_newline (s : Scanner) (body R : List Char)
    (hs : s.rest = '"' :: (body ++ '"' :: R)) (h1 : eof ∉ body)
    (h2 : delimsEscaped '"' false body = true) (h3 : escapedAfter false body = false)
    (h4 : '\n' ∈ body) :
    (∃ s1, s.Scan = some ((TokenString, '"' :: (body ++ ['"'])), s1) ∧ s1.rest = R)
      ∧ Unquote ('"' :: (body ++ ['"'])) = .error .ErrSyntax := by
  obtain ⟨s1, e1, e2⟩ := Scan_lex s
  rw [hs, lex_string body R h1 h2 h3] at e1 e2
  exact ⟨⟨s1, e1, e2⟩, Unquote_newline body h4⟩

/-- C10, witness: the literal `"a`, newline, `b"` is scanned as one String token, and a
field with that value makes Parse fail with the syntax error of `Unquote`. -/
theorem C10_string_with_newline_witness :
    ((NewScanner "\"a\nb\" ".toList).rest = '"' :: ("a\nb".toList ++ '"' :: " ".toList)
      ∧ eof ∉ "a\nb".toList ∧ delimsEscaped '"' false "a\nb".toList = true
      ∧ escapedAfter false "a\nb".toList = false ∧ '\n' ∈ "a\nb".toList)
    ∧ ((∃ s1, (NewScanner "\"a\nb\" ".toList).Scan
            = some ((TokenString, '"' :: ("a\nb".toList ++ ['"'])), s1) ∧ s1.rest = " ".toList)
        ∧ Unquote ('"' :: ("a\nb".toList ++ ['"'])) = .error .ErrSyntax)
    ∧ Parse "input \x7b p \x7b f => \"a\nb\" \x7d \x7d".toList = some (.error .ErrSyntax) :=
  ⟨⟨by decide, by decide, by decide, by decide, by decide⟩,
   C10_string_with_newline (NewScanner "\"a\nb\" ".toList) "a\nb".toList " ".toList
     (by decide) (by decide) (by decide) (by decide) (by decide),
   by decide⟩

/-- C2: a field whose stored value is the string sequence `xs` and that is assigned
again. When the loop of `parsePluginFields` reads the field name `lit` and `parseField`
returns the new value `v`, then a string `s` makes the loop go on with `xs ++ [s]` stored
under `lit`, and a sequence `ys` makes it go on with `xs ++ ys`; the other fields keep
their values. -/
theorem C2_merge_onto_array (n : Nat) (fields : PluginFields) (p p1 p2 : Parser)
    (lit : List Char) (xs : List (List Nat)) (v : Value)
    (hstored : fields.get lit = some (.strs xs))
    (htok : p.getToken [TokenIdentifier, TokenRCurlyBrace]
      = some ((TokenIdentifier, lit, none), p1))
    (hval : p1.parseField = some (.ok v, p2)) :
    (∀ s, v = .str s →
      Parser.parsePluginFieldsLoop (n + 1) fields p
          = Parser.parsePluginFieldsLoop n (fields.set lit (.strs (xs ++ [s]))) p2
        ∧ (fields.set lit (.strs (xs ++ [s]))).get lit = some (.strs (xs ++ [s]))
        ∧ ∀ k, k ≠ lit → (fields.set lit (.strs (xs ++ [s]))).get k = fields.get k)
    ∧ (∀ ys, v = .strs ys →
      Parser.parsePluginFieldsLoop (n + 1) fields p
          = Parser.parsePluginFieldsLoop n (fields.set lit (.strs (xs ++ ys))) p2
        ∧ (fields.set lit (.strs (xs ++ ys))).get lit = some (.strs (xs ++ ys))
        ∧ ∀ k, k ≠ lit → (fields.set lit (.strs (xs ++ ys))).get k = fields.get k) := by
  constructor
  · intro s hs
    subst hs
    refine ⟨?_, get_set_self _ _ _, fun k hk => get_set_other _ _ _ _ hk⟩
    simp [Parser.parsePluginFieldsLoop, htok, hval, Parser.mergeField, hstored]
  · intro ys hys
    subst hys
    refine ⟨?_, get_set_self _ _ _, fun k hk => get_set_other _ _ _ _ hk⟩
    simp [Parser.parsePluginFieldsLoop, htok, hval, Parser.mergeField, hstored]

/-- C2, witness: inside a block where `f` holds the sequence `x`, the assignment
`f => "y"` stores `x, y`; and Parse gives `x, y` for `f => ["x"]` then `f => "y"`, and
the three `tags` assignments of the test configuration give the three strings in
order. -/
theorem C2_merge_onto_array_witness :
    (PluginFields.get [("f".toList, Value.strs [utf8Bytes "x".toList])] "f".toList
        = some (.strs [utf8Bytes "x".toList])
      ∧ exampleAtFieldY.getToken [TokenIdentifier, TokenRCurlyBrace]
        = some ((TokenIdentifier, "f".toList, none),
            exampleAtFieldY.afterToken [TokenIdentifier, TokenRCurlyBrace])
      ∧ (exampleAtFieldY.afterToken [TokenIdentifier, TokenRCurlyBrace]).parseField
        = some (.ok (.str (utf8Bytes "y".toList)),
            (exampleAtFieldY.afterToken [TokenIdentifier, TokenRCurlyBrace]).afterField))
    ∧ (Parser.parsePluginFieldsLoop (3 + 1) [("f".toList, Value.strs [utf8Bytes "x".toList])]
          exampleAtFieldY
        = Parser.parsePluginFieldsLoop 3
            (PluginFields.set [("f".toList, Value.strs [utf8Bytes "x".toList])] "f".toList
              (.strs ([utf8Bytes "x".toList] ++ [utf8Bytes "y".toList])))
            (exampleAtFieldY.afterToken [TokenIdentifier, TokenRCurlyBrace]).afterField)
    ∧ Parse "input \x7b p \x7b f => [\"x\"] f => \"y\" \x7d \x7d".toList
        = some (.ok { Input := [{ Name := "p".toList,
                                  Fields := [("f".toList, .strs [utf8Bytes "x".toList, utf8Bytes "y".toList])] }],
                      Filter := [], Output := [] })
    ∧ Parse ("input \x7b stdin \x7b tags => [ \"\x7b\x7b ansible_hostname \x7d\x7d\" ]\n\n"
          ++ "    tags => \"hi\"\n    tags=>[\"a\"]\n \x7d \x7d").toList
        = some (.ok { Input := [{ Name := "stdin".toList,
                                  Fields := [("tags".toList,
                                    .strs [utf8Bytes "\x7b\x7b ansible_hostname \x7d\x7d".toList,
                                           utf8Bytes "hi".toList, utf8Bytes "a".toList])] }],
                      Filter := [], Output := [] }) :=
  ⟨⟨by decide, by decide, by decide⟩,
   ((C2_merge_onto_array 3 [("f".toList, Value.strs [utf8Bytes "x".toList])] exampleAtFieldY
      (exampleAtFieldY.afterToken [TokenIdentifier, TokenRCurlyBrace])
      (exampleAtFieldY.afterToken [TokenIdentifier, TokenRCurlyBrace]).afterField
      "f".toList [utf8Bytes "x".toList] (.str (utf8Bytes "y".toList))
      (by decide) (by decide) (by decide)).1 (utf8Bytes "y".toList) rfl).1,
   by decide, by decide⟩

/-- C3, counterexample: `tags => "a"` followed by `tags => "b"` in one plugin block does
not parse: Parse returns the merge error for `tags`, and no Config. -/
theorem C3_counterexample :
    Parse "input \x7b p \x7b tags => \"a\" tags => \"b\" \x7d \x7d".toList
        = some (.error (.parse (.notArray "tags".toList) 1 32))
    ∧ Parse "input \x7b p \x7b tags => \"a\" tags => \"b\" \x7d \x7d".toList
        ≠ some (.ok { Input := [{ Name := "p".toList,
                                  Fields := [("tags".toList, .strs [utf8Bytes "a".toList, utf8Bytes "b".toList])] }],
                      Filter := [], Output := [] }) := by
  decide

/-- C3, amended: a field whose stored value is a string `a` cannot be assigned again.
When the loop of `parsePluginFields` reads the field name `lit` and `parseField` returns
any new value (a string `b` included), the loop stops with the error
`parse error: field 'lit' already delcared and not an array at line L col C`. Two strings
end up as a two-element sequence only when the first is written as an array. -/
theorem C3_string_then_string_fails (n : Nat) (fields : PluginFields) (p p1 p2 : Parser)
    (lit : List Char) (a : List Nat) (v : Value)
    (hstored : fields.get lit = some (.str a))
    (htok : p.getToken [TokenIdentifier, TokenRCurlyBrace]
      = some ((TokenIdentifier, lit, none), p1))
    (hval : p1.parseField = some (.ok v, p2)) :
    Parser.parsePluginFieldsLoop (n + 1) fields p
        = some (.error (.parse (.notArray lit) p2.PrevPos.1 p2.PrevPos.2), p2)
      ∧ (Error.parse (.notArray lit) p2.PrevPos.1 p2.PrevPos.2).Error
        = "parse error: field ".toList ++ [Char.ofNat 39] ++ lit ++ [Char.ofNat 39]
          ++ " already delcared and not an array".toList ++ " at line ".toList
          ++ fmtInt p2.PrevPos.1 ++ " col ".toList ++ fmtInt p2.PrevPos.2 := by
  constructor
  · simp [Parser.parsePluginFieldsLoop, htok, hval, Parser.mergeField, hstored, Parser.err]
  · simp [Error.Error]

/-- C3, witness: inside a block where `tags` holds the string `a`, the assignment
`tags => "b"` stops the loop with the merge error. -/
theorem C3_string_then_string_fails_witness :
    (PluginFields.get [("tags".toList, Value.str (utf8Bytes "a".toList))] "tags".toList
        = some (.str (utf8Bytes "a".toList))
      ∧ exampleAtTagsB.getToken [TokenIdentifier, TokenRCurlyBrace]
        = some ((TokenIdentifier, "tags".toList, none),
            exampleAtTagsB.afterToken [TokenIdentifier, TokenRCurlyBrace])
      ∧ (exampleAtTagsB.afterToken [TokenIdentifier, TokenRCurlyBrace]).parseField
        = some (.ok (.str (utf8Bytes "b".toList)),
            (exampleAtTagsB.afterToken [TokenIdentifier, TokenRCurlyBrace]).afterField))
    ∧ (Parser.parsePluginFieldsLoop (3 + 1) [("tags".toList, Value.str (utf8Bytes "a".toList))]
          exampleAtTagsB
        = some (.error (.parse (.notArray "tags".toList)
              (exampleAtTagsB.afterToken [TokenIdentifier, TokenRCurlyBrace]).afterField.PrevPos.1
              (exampleAtTagsB.afterToken [TokenIdentifier, TokenRCurlyBrace]).afterField.PrevPos.2),
            (exampleAtTagsB.afterToken [TokenIdentifier, TokenRCurlyBrace]).afterField)
      ∧ (Error.parse (.notArray "tags".toList)
              (exampleAtTagsB.afterToken [TokenIdentifier, TokenRCurlyBrace]).afterField.PrevPos.1
              (exampleAtTagsB.afterToken [TokenIdentifier, TokenRCurlyBrace]).afterField.PrevPos.2).Error
        = "parse error: field ".toList ++ [Char.ofNat 39] ++ "tags".toList ++ [Char.ofNat 39]
          ++ " already delcared and not an array".toList ++ " at line ".toList
          ++ fmtInt
              (exampleAtTagsB.afterToken [TokenIdentifier, TokenRCurlyBrace]).afterField.PrevPos.1
          ++ " col ".toList
          ++ fmtInt
              (exampleAtTagsB.afterToken
                [TokenIdentifier, TokenRCurlyBrace]).afterField.PrevPos.2) :=
  ⟨⟨by decide, by decide, by decide⟩,
   C3_string_then_string_fails 3 [("tags".toList, Value.str (utf8Bytes "a".toList))] exampleAtTagsB
      (exampleAtTagsB.afterToken [TokenIdentifier, TokenRCurlyBrace])
      (exampleAtTagsB.afterToken [TokenIdentifier, TokenRCurlyBrace]).afterField
      "tags".toList (utf8Bytes "a".toList) (.str (utf8Bytes "b".toList)) (by decide) (by decide)
      (by decide)⟩

/-- C1: render, then parse. For every Config whose plugin and field names are identifiers
other than the keywords, whose field names are distinct within each plugin and whose
values are plain strings, integers from 0 to 2^63 - 1 or lists of plain strings, and for
every separator made of spaces, tabs and newlines, Parse of the text
`input { ... } filter { ... } output { ... }` returns exactly that Config. A string
value is held as its bytes and written as its text; it is plain when the bytes are the
UTF-8 of a text without `"`, backslash, newline and NUL, and every such text has one. -/
theorem C1_render_parse_roundtrip (sep : List Char) (cfg : Config)
    (hsep : isSeparator sep = true) (hcfg : configOk cfg = true) :
    Parse (render sep cfg) = some (.ok cfg) := by
  simp only [configOk, Bool.and_eq_true, List.all_eq_true] at hcfg
  obtain ⟨⟨hi, hf⟩, ho⟩ := hcfg
  have hn0 : (NewParser (render sep cfg)).buf.n = 0 := rfl
  have hr0 : (NewParser (render sep cfg)).s.rest
      = [] ++ ("input".toList ++ (sep ++ ('{' :: (sep ++ (renderPlugins sep cfg.Input
          ++ '}' :: (sep ++ ("filter".toList ++ (sep ++ ('{' :: (sep
            ++ (renderPlugins sep cfg.Filter ++ '}' :: (sep ++ ("output".toList ++ (sep
              ++ ('{' :: (sep ++ (renderPlugins sep cfg.Output ++ '}' :: []))))))))))))))))) := by
    show render sep cfg = _
    simp [render, renderSection, List.append_assoc]
  obtain ⟨p1, m1, hn1, hr1, hl1, e1⟩ := ParseLoop_section sep hsep "input".toList
    (Or.inl rfl) cfg.Input hi { Input := [], Filter := [], Output := [] }
    (NewParser (render sep cfg)) ((NewParser (render sep cfg)).s.rest.length + 1) [] _
    hn0 (by simp) hr0 (by omega)
  obtain ⟨p2, m2, hn2, hr2, hl2, e2⟩ := ParseLoop_section sep hsep "filter".toList
    (Or.inr (Or.inl rfl)) cfg.Filter hf
    (addSection { Input := [], Filter := [], Output := [] } "input".toList cfg.Input)
    p1 m1 sep _ hn1 (sep_ws sep hsep) hr1 hl1
  obtain ⟨p3, m3, hn3, hr3, hl3, e3⟩ := ParseLoop_section sep hsep "output".toList
    (Or.inr (Or.inr rfl)) cfg.Output ho
    (addSection (addSection { Input := [], Filter := [], Output := [] } "input".toList
      cfg.Input) "filter".toList cfg.Filter)
    p2 m2 sep _ hn2 (sep_ws sep hsep) hr2 hl2
  cases m3 with
  | zero => omega
  | succ m4 =>
    obtain ⟨p4, e4⟩ := ParseLoop_end
      (addSection (addSection (addSection { Input := [], Filter := [], Output := [] }
        "input".toList cfg.Input) "filter".toList cfg.Filter) "output".toList cfg.Output)
      p3 m4 hn3 hr3
    have hc : addSection (addSection (addSection { Input := [], Filter := [], Output := [] }
        "input".toList cfg.Input) "filter".toList cfg.Filter) "output".toList cfg.Output
        = cfg := by
      simp [addSection]
    rw [hc] at e4 e3
    show Option.map (fun r => r.1) (Parser.ParseLoop ((NewParser (render sep cfg)).s.rest.length + 1)
      { Input := [], Filter := [], Output := [] } (NewParser (render sep cfg))) = _
    rw [e1, e2, e3, e4]
    rfl

set_option maxRecDepth 100000 in
/-- C1, witness: the round trip at a Config with a string, an integer, an array and an
empty array, written with single spaces; and the example configuration of
TestParser_Parse parses without error, into one input plugin, three filter plugins and
one output plugin. -/
theorem C1_render_parse_roundtrip_witness :
    (isSeparator " ".toList = true ∧ configOk exampleConfig = true)
    ∧ Parse (render " ".toList exampleConfig) = some (.ok exampleConfig)
    ∧ (Parse exampleLogstashConfig).map
        (fun r => r.toOption.map
          (fun c => (c.Input.map PluginConfig.Name, c.Filter.map PluginConfig.Name,
            c.Output.map PluginConfig.Name)))
        = some (some (["stdin".toList], ["mutate".toList, "json".toList, "date".toList],
            ["elasticsearch_http".toList])) :=
  ⟨⟨by decide, by decide⟩,
   C1_render_parse_roundtrip " ".toList exampleConfig (by decide) (by decide), by decide⟩

/-- C7: integer fields. For every non-empty string of decimal digits `d` written as a
field value and followed by whitespace (a separator of spaces, tabs and newlines),
`parseField` returns the integer that `d` denotes when it is at most 2^63 - 1 and the
range error of `strconv.ParseInt` otherwise; accordingly Parse of
`input { p { f => d } }` returns the Config that stores that integer under `f`, or that
error and no Config. -/
theorem C7_integer_field (sep d : List Char) (hsep : isSeparator sep = true) (hd0 : d ≠ [])
    (hd : ∀ c ∈ d, isDigit c = true) :
    (∀ (p : Parser) (W R : List Char), p.buf.n = 0 → (∀ c ∈ W, isWhitespace c = true) →
      p.s.rest = W ++ '=' :: '>' :: (sep ++ (d ++ (sep ++ R))) →
      ∃ p1, p.parseField
        = some (if decimalValue d ≤ 2 ^ 63 - 1 then .ok (.int (decimalValue d))
            else .error (.NumError "ParseInt".toList d .ErrRange), p1))
    ∧ Parse (oneFieldText sep d)
      = some (if decimalValue d ≤ 2 ^ 63 - 1 then .ok (oneFieldConfig (.int (decimalValue d)))
          else .error (.NumError "ParseInt".toList d .ErrRange)) := by
  constructor
  · intro p W R hn hW hr
    obtain ⟨p1, e1, _, _⟩ := parseField_digits sep hsep d hd0 hd p W R hn hW hr
    exact ⟨p1, e1⟩
  · by_cases h : decimalValue d ≤ 2 ^ 63 - 1
    · rw [if_pos h]
      exact Parse_oneField sep hsep d (.ok (.int (decimalValue d))) (fun p hn hr => by
        have := parseField_digits sep hsep d hd0 hd p sep _ hn (sep_ws sep hsep) hr
        rw [if_pos h] at this
        exact this)
    · rw [if_neg h]
      exact Parse_oneField sep hsep d (.error (.NumError "ParseInt".toList d .ErrRange))
        (fun p hn hr => by
          have := parseField_digits sep hsep d hd0 hd p sep _ hn (sep_ws sep hsep) hr
          rw [if_neg h] at this
          exact this)

/-- C7, witness: `port => 9200` stores 9200; 9223372036854775807 is stored, and
9223372036854775808 makes Parse fail with
`strconv.ParseInt: parsing "9223372036854775808": value out of range`. -/
theorem C7_integer_field_witness :
    (isSeparator " ".toList = true ∧ "9200".toList ≠ []
      ∧ ∀ c ∈ "9200".toList, isDigit c = true)
    ∧ Parse (oneFieldText " ".toList "9200".toList)
      = some (if decimalValue "9200".toList ≤ 2 ^ 63 - 1
          then .ok (oneFieldConfig (.int (decimalValue "9200".toList)))
          else .error (.NumError "ParseInt".toList "9200".toList .ErrRange))
    ∧ decimalValue "9200".toList = 9200
    ∧ oneFieldText " ".toList "9200".toList = "input \x7b p \x7b f => 9200 \x7d \x7d".toList
    ∧ Parse "input \x7b p \x7b f => 9223372036854775807 \x7d \x7d".toList
      = some (.ok (oneFieldConfig (.int 9223372036854775807)))
    ∧ Parse "input \x7b p \x7b f => 9223372036854775808 \x7d \x7d".toList
      = some (.error (.NumError "ParseInt".toList "9223372036854775808".toList .ErrRange))
    ∧ (Error.NumError "ParseInt".toList "9223372036854775808".toList .ErrRange).Error
      = "strconv.ParseInt: parsing \"9223372036854775808\": value out of range".toList :=
  ⟨⟨by decide, by decide, by decide⟩,
   (C7_integer_field " ".toList "9200".toList (by decide) (by decide) (by decide)).2,
   by decide, by decide, by decide, by decide, by decide⟩

/-- C5 (counterexample): the input of one space and the input NUL, `x` are both accepted
(each gives the empty Config) and the first holds neither `#` nor NUL, but Parse rejects
their concatenation: `scanWhitespace` reads the NUL as its end-of-input sentinel and
drops it, so the `x` behind it is scanned. -/
theorem C5_counterexample :
    Parse [' '] = some (.ok { Input := [], Filter := [], Output := [] })
      ∧ Parse [eof, 'x'] = some (.ok { Input := [], Filter := [], Output := [] })
      ∧ '#' ∉ [' '] ∧ eof ∉ [' ']
      ∧ Parse ([' '] ++ [eof, 'x'])
        = some (.error (.unexpected "x".toList "input|output|filter".toList 1 2)) := by
  decide

/-- C5 (amended): section accumulation. For all inputs `A` and `B` that Parse accepts,
where `A` holds neither `#` nor NUL and `B` does not begin with NUL, Parse accepts
`A ++ B`, and each of the Input, Filter and Output sequences of the result is the
sequence of the result for `A` followed by that of the result for `B`; the length of the
Filter sequence is the sum of both lengths. -/
theorem C5_section_accumulation (A B : List Char) (cA cB : Config)
    (hA : Parse A = some (.ok cA)) (hB : Parse B = some (.ok cB))
    (h1 : '#' ∉ A) (h0 : eof ∉ A) (hB0 : B.head? ≠ some eof) :
    Parse (A ++ B)
        = some (.ok { Input := cA.Input ++ cB.Input, Filter := cA.Filter ++ cB.Filter,
                      Output := cA.Output ++ cB.Output })
      ∧ (cA.Filter ++ cB.Filter).length = cA.Filter.length + cB.Filter.length := by
  refine ⟨?_, List.length_append _ _⟩
  obtain ⟨p1, hrun⟩ := Parse_inv A cA hA
  obtain ⟨q1, e1⟩ := ParseLoop_concat B cB hB0 hB (A.length + 1) ((A ++ B).length + 1) _ cA
    (NewParser A) (NewParser (A ++ B)) p1 rfl ⟨rfl, rfl, rfl, rfl⟩ h0 h1
    (by
      have : (NewParser A).s.rest = A := rfl
      rw [this, List.length_append])
    hrun
  unfold Parse Parser.Parse
  have hr : (NewParser (A ++ B)).s.rest = A ++ B := rfl
  rw [hr, e1]
  rfl

set_option maxRecDepth 100000 in
/-- C5 (witness): `filter { a { } }` followed by `filter { b { x => 1 } c { } }` gives
the Filter sequence a, b, c: one plugin of the first block, then the two of the second. -/
theorem C5_section_accumulation_witness :
    Parse ("filter \x7b a \x7b \x7d \x7d".toList
          ++ "filter \x7b b \x7b x => 1 \x7d c \x7b \x7d \x7d".toList)
        = some (.ok { Input := [] ++ [],
                      Filter := [{ Name := "a".toList, Fields := [] }]
                        ++ [{ Name := "b".toList, Fields := [("x".toList, .int 1)] },
                            { Name := "c".toList, Fields := [] }],
                      Output := [] ++ [] })
      ∧ ([{ Name := "a".toList, Fields := [] }]
          ++ [{ Name := "b".toList, Fields := [("x".toList, Value.int 1)] },
              { Name := "c".toList, Fields := [] }] : List PluginConfig).length = 1 + 2 :=
  C5_section_accumulation "filter \x7b a \x7b \x7d \x7d".toList
    "filter \x7b b \x7b x => 1 \x7d c \x7b \x7d \x7d".toList
    { Input := [], Filter := [{ Name := "a".toList, Fields := [] }], Output := [] }
    { Input := [],
      Filter := [{ Name := "b".toList, Fields := [("x".toList, .int 1)] },
                 { Name := "c".toList, Fields := [] }],
      Output := [] }
    (by decide) (by decide) (by decide) (by decide) (by decide)

/-- C11: an unterminated string. For every `body` in which each `"` is read while the
escape flag is set (no unescaped closing quote before the end of the input), `Scan` on
`"` followed by `body` returns the Illegal token, with the literal `"body"` when `body`
holds no NUL. In a parser state whose next significant token is that string, `getToken`
returns the error `illegal token '<literal>' on line <L> col <C>` whatever kinds are
expected, and every grammar rule entered in that state returns that error; so does
`parseField` when the string is the value after `=>`, and Parse when the string is at
the top level: no Config is returned. -/
theorem C11_unterminated_string (body : List Char)
    (h : delimsEscaped '"' false body = true) :
    (∀ s : Scanner, s.rest = '"' :: body →
        ∃ lit s1, s.Scan = some ((TokenIllegal, lit), s1)
          ∧ (eof ∉ body → lit = '"' :: (body ++ ['"']) ∧ s1.rest = []))
    ∧ (∀ (p : Parser) (W : List Char), p.buf.n = 0 → (∀ c ∈ W, isWhitespace c = true) →
        p.s.rest = W ++ '"' :: body →
        ∃ lit l c p1, (eof ∉ body → lit = '"' :: (body ++ ['"']))
          ∧ (Error.illegal lit l c).Error
            = "illegal token ".toList ++ [Char.ofNat 39] ++ lit ++ [Char.ofNat 39]
              ++ " on line ".toList ++ fmtInt l ++ " col ".toList ++ fmtInt c
          ∧ (∀ types, p.getToken types
              = some ((TokenIllegal, lit, some (.illegal lit l c)), p1))
          ∧ (∀ n vals, Parser.parseArrayLoop (n + 1) vals p
              = some (.error (.illegal lit l c), p1))
          ∧ p.parseField = some (.error (.illegal lit l c), p1)
          ∧ (∀ n fields, Parser.parsePluginFieldsLoop (n + 1) fields p
              = some (.error (.illegal lit l c), p1))
          ∧ p.parsePluginFields = some (.error (.illegal lit l c), p1)
          ∧ (∀ n cfgs, Parser.parseSectionBlockLoop (n + 1) cfgs p
              = some (.error (.illegal lit l c), p1))
          ∧ p.parseSectionBlock = some (.error (.illegal lit l c), p1)
          ∧ (∀ n cfg, Parser.ParseLoop (n + 1) cfg p = some (.error (.illegal lit l c), p1)))
    ∧ (∀ (p : Parser) (W W2 : List Char), p.buf.n = 0 → (∀ c ∈ W, isWhitespace c = true) →
        (∀ c ∈ W2, isWhitespace c = true) → p.s.rest = W ++ '=' :: '>' :: (W2 ++ '"' :: body) →
        ∃ lit l c p1, p.parseField = some (.error (.illegal lit l c), p1))
    ∧ (∀ W : List Char, (∀ c ∈ W, isWhitespace c = true) →
        ∃ lit l c, Parse (W ++ '"' :: body) = some (.error (.illegal lit l c))) := by
  have hstep : ∀ (p : Parser) (W : List Char), p.buf.n = 0 →
      (∀ c ∈ W, isWhitespace c = true) → p.s.rest = W ++ '"' :: body →
      ∃ lit p1, (eof ∉ body → lit = '"' :: (body ++ ['"']))
        ∧ ∀ types, p.getToken types
          = some ((TokenIllegal, lit, some (.illegal lit p1.PrevPos.1 p1.PrevPos.2)), p1) := by
    intro p W hn hW hr
    obtain ⟨lit, Y, hs, hlit⟩ := sig_open_string W body hW h
    obtain ⟨p1, _, hg⟩ := getToken_illegal p _ Y lit hn hr hs
    exact ⟨lit, p1, hlit, hg⟩
  refine ⟨?_, ?_, ?_, ?_⟩
  · intro s hs
    obtain ⟨s1, e1, e2⟩ := Scan_lex s
    obtain ⟨h1, h2⟩ := lex_open_string body h
    rw [hs] at e1 e2
    refine ⟨(lex ('"' :: body)).1.2, s1, ?_, fun h0 => ?_⟩
    · rw [e1, ← h1]
    · rw [e2, h2 h0]
      exact ⟨rfl, rfl⟩
  · intro p W hn hW hr
    obtain ⟨lit, p1, hlit, hg⟩ := hstep p W hn hW hr
    refine ⟨lit, p1.PrevPos.1, p1.PrevPos.2, p1, hlit, rfl, hg, ?_, ?_, ?_, ?_, ?_, ?_, ?_⟩
    · intro n vals
      simp only [Parser.parseArrayLoop, hg]
    · simp only [Parser.parseField, hg]
    · intro n fields
      simp only [Parser.parsePluginFieldsLoop, hg]
    · simp only [Parser.parsePluginFields, hg]
    · intro n cfgs
      simp only [Parser.parseSectionBlockLoop, hg]
    · simp only [Parser.parseSectionBlock, hg]
    · intro n cfg
      simp only [Parser.ParseLoop, hg]
      rw [if_neg (by decide)]
  · intro p W W2 hn hW hW2 hr
    obtain ⟨p1, e1, h1⟩ := getToken_at p [TokenAssignment] _ _ TokenAssignment "=>".toList
      hn hr (sig_assign W _ hW) (by decide) (by decide)
    obtain ⟨lit, p2, _, hg⟩ := hstep p1 W2 h1.n0 hW2 h1.rest
    refine ⟨lit, p2.PrevPos.1, p2.PrevPos.2, p2, ?_⟩
    simp only [Parser.parseField, e1, hg]
  · intro W hW
    obtain ⟨lit, p1, _, hg⟩ := hstep (NewParser (W ++ '"' :: body)) W rfl hW rfl
    refine ⟨lit, p1.PrevPos.1, p1.PrevPos.2, ?_⟩
    simp only [Parse, Parser.Parse, Parser.ParseLoop, hg]
    rw [if_neg (by decide)]
    rfl

set_option maxRecDepth 100000 in
/-- C11, witness: `"abc` at the end of the input is scanned as Illegal with the literal
`"abc"`, and as the value of a field it makes Parse fail with
`illegal token '"abc"' on line 1 col 17`. -/
theorem C11_unterminated_string_witness :
    delimsEscaped '"' false "abc".toList = true
    ∧ (∃ lit l c, Parse (" ".toList ++ '"' :: "abc".toList) = some (.error (.illegal lit l c)))
    ∧ (NewScanner "\"abc".toList).Scan.map (fun r => r.1)
        = some (TokenIllegal, "\"abc\"".toList)
    ∧ Parse "input \x7b p \x7b f => \"abc".toList
        = some (.error (.illegal "\"abc\"".toList 1 17))
    ∧ (Error.illegal "\"abc\"".toList 1 17).Error
        = "illegal token ".toList ++ [Char.ofNat 39] ++ "\"abc\"".toList ++ [Char.ofNat 39]
          ++ " on line 1 col 17".toList :=
  ⟨by decide,
   (C11_unterminated_string "abc".toList (by decide)).2.2.2 " ".toList (by decide),
   by decide, by decide, by decide⟩

/-- C12: an unknown keyword at the top level. Let `lit` be none of `input`, `output`,
`filter`. Whenever the loop of Parse starts an iteration (the start of the input, or
right after a complete section block) and the next significant token is the identifier
`lit`, the loop returns the error
`unexpected token '<lit>' expected 'input|output|filter' on line <L> col <C>`;
so Parse returns that error and no Config on every input `A ++ X` where `A` is an
accepted input (without `#` and NUL; the empty input for the start) and the next
significant token of `X` is the identifier `lit`. -/
theorem C12_unknown_keyword (lit : List Char)
    (hl : lit ≠ "input".toList ∧ lit ≠ "output".toList ∧ lit ≠ "filter".toList) :
    (∀ (n : Nat) (cfg : Config) (p : Parser) (Y : List Char), p.buf.n = 0 →
        sig p.s.rest = ((TokenIdentifier, lit), Y) →
        ∃ l c p1, Parser.ParseLoop (n + 1) cfg p
          = some (.error (.unexpected lit "input|output|filter".toList l c), p1))
    ∧ (∀ (A X Y : List Char) (cA : Config), Parse A = some (.ok cA) → '#' ∉ A → eof ∉ A →
        sig X = ((TokenIdentifier, lit), Y) →
        ∃ l c, Parse (A ++ X)
          = some (.error (.unexpected lit "input|output|filter".toList l c)))
    ∧ (∀ l c : Nat, (Error.unexpected lit "input|output|filter".toList l c).Error
        = "unexpected token ".toList ++ [Char.ofNat 39] ++ lit ++ [Char.ofNat 39]
          ++ " expected ".toList ++ [Char.ofNat 39] ++ "input|output|filter".toList
          ++ [Char.ofNat 39] ++ " on line ".toList ++ fmtInt l ++ " col ".toList
          ++ fmtInt c) := by
  refine ⟨?_, ?_, fun l c => rfl⟩
  · intro n cfg p Y hn hs
    obtain ⟨p1, _, e1⟩ := ParseLoop_unknown n cfg p lit Y hn hs hl
    exact ⟨_, _, p1, e1⟩
  · intro A X Y cA hA h1 h0 hs
    have hX0 : X.head? ≠ some eof := head_ne_eof_of_sig X (by rw [hs]; exact Token.noConfusion)
    obtain ⟨q1, m1, hn1, hs1, hm1, e1⟩ := Parse_prefix A X cA hA h1 h0 hX0
    obtain ⟨m2, hm2⟩ : ∃ m2, m1 = m2 + 1 := ⟨m1 - 1, by omega⟩
    obtain ⟨p1, _, e2⟩ := ParseLoop_unknown m2 cA q1 lit Y hn1 (by rw [hs1, hs]) hl
    rw [hm2, e2] at e1
    exact ⟨_, _, e1⟩

set_option maxRecDepth 100000 in
/-- C12, witness: `inputs` at the start of the input, and `outputs` after a complete
filter block, are rejected with the message that names the three keywords. -/
theorem C12_unknown_keyword_witness :
    ("outputs".toList ≠ "input".toList ∧ "outputs".toList ≠ "output".toList
      ∧ "outputs".toList ≠ "filter".toList)
    ∧ (∃ l c, Parse ("filter \x7b a \x7b \x7d \x7d".toList ++ " outputs \x7b \x7d".toList)
        = some (.error (.unexpected "outputs".toList "input|output|filter".toList l c)))
    ∧ Parse "filter \x7b a \x7b \x7d \x7d outputs \x7b \x7d".toList
        = some (.error (.unexpected "outputs".toList "input|output|filter".toList 1 17))
    ∧ Parse "inputs \x7b \x7d".toList
        = some (.error (.unexpected "inputs".toList "input|output|filter".toList 1 0))
    ∧ (Error.unexpected "inputs".toList "input|output|filter".toList 1 0).Error
        = ("unexpected token ".toList ++ [Char.ofNat 39] ++ "inputs".toList
          ++ [Char.ofNat 39] ++ " expected ".toList ++ [Char.ofNat 39]
          ++ "input|output|filter".toList ++ [Char.ofNat 39] ++ " on line 1 col 0".toList) :=
  ⟨by decide,
   (C12_unknown_keyword "outputs".toList (by decide)).2.1
     "filter \x7b a \x7b \x7d \x7d".toList " outputs \x7b \x7d".toList " \x7b \x7d".toList
     { Input := [], Filter := [{ Name := "a".toList, Fields := [] }], Output := [] }
     (by decide) (by decide) (by decide) (by decide),
   by decide, by decide, by decide⟩

/-- C14 (counterexample): `parseArray` accepts two strings without a comma between them,
a lone comma, a doubled comma, a leading and a trailing comma; and Parse accepts a field
whose value is written `["a" "b"]`. -/
theorem C14_counterexample :
    (NewParser "[\"a\" \"b\"]".toList).parseArray.map (fun r => r.1)
        = some (.ok [utf8Bytes "a".toList, utf8Bytes "b".toList])
    ∧ (NewParser "[,]".toList).parseArray.map (fun r => r.1) = some (.ok [])
    ∧ (NewParser "[\"a\",,\"b\"]".toList).parseArray.map (fun r => r.1)
        = some (.ok [utf8Bytes "a".toList, utf8Bytes "b".toList])
    ∧ (NewParser "[,\"a\"]".toList).parseArray.map (fun r => r.1)
        = some (.ok [utf8Bytes "a".toList])
    ∧ (NewParser "[\"a\",]".toList).parseArray.map (fun r => r.1)
        = some (.ok [utf8Bytes "a".toList])
    ∧ Parse "input \x7b p \x7b f => [\"a\" \"b\"] \x7d \x7d".toList
        = some (.ok (oneFieldConfig (.strs [utf8Bytes "a".toList, utf8Bytes "b".toList]))) := by
  decide

/-- C14 (amended): the array grammar of `parseArray`. Between `[` and `]` any sequence
of string literals and commas is accepted, with any whitespace around them: the commas
are skipped wherever they stand and the result is the strings, in order, each as the
bytes that `strconv.Unquote` returns for its literal. That holds for `parseArray` called
on the `[` and for `parseField` on `=> [ ... ]`. Inside the brackets a significant token
that is not `]`, a string or a comma (the end of the input included) makes the loop
return an error, and so does a string that `strconv.Unquote` rejects. -/
theorem C14_array_grammar (items : List (List Char × ArrayItem)) (vals : List (List Nat))
    (W0 W1 W R : List Char) (hitems : itemsOk items = true)
    (hv : arrayValues items = some vals) (hW0 : ∀ c ∈ W0, isWhitespace c = true)
    (hW1 : ∀ c ∈ W1, isWhitespace c = true) (hW : ∀ c ∈ W, isWhitespace c = true) :
    (∀ p : Parser, p.buf.n = 0 →
        p.s.rest = W0 ++ '[' :: (arrayText items ++ (W ++ ']' :: R)) →
        ∃ p1, p.parseArray = some (.ok vals, p1) ∧ p1.s.rest = R)
    ∧ (∀ p : Parser, p.buf.n = 0 →
        p.s.rest = W1 ++ '=' :: '>' :: (W0 ++ '[' :: (arrayText items ++ (W ++ ']' :: R))) →
        ∃ p1, p.parseField = some (.ok (.strs vals), p1) ∧ p1.s.rest = R)
    ∧ (∀ (n : Nat) (acc : List (List Nat)) (p : Parser), p.buf.n = 0 →
        (sig p.s.rest).1.1 ∉ [TokenRBracket, TokenString, TokenComma] →
        ∃ e p1, Parser.parseArrayLoop (n + 1) acc p = some (.error e, p1))
    ∧ (∀ (n : Nat) (acc : List (List Nat)) (p : Parser) (lit Y : List Char) (e : Error),
        p.buf.n = 0 → sig p.s.rest = ((TokenString, lit), Y) → Unquote lit = .error e →
        ∃ l c p1, Parser.parseArrayLoop (n + 1) acc p = some (.error (.parse e l c), p1)) := by
  have hok := itemsOk_spec items hitems
  refine ⟨?_, ?_, ?_, ?_⟩
  · intro p hn hr
    obtain ⟨p1, e1, _, hr1⟩ := parseArray_items items vals W0 W R hok hv hW0 hW p
      (Or.inl ⟨hn, hr⟩)
    exact ⟨p1, e1, hr1⟩
  · intro p hn hr
    obtain ⟨p1, e1, h1⟩ := getToken_at p [TokenAssignment] _ _ TokenAssignment "=>".toList
      hn hr (sig_assign W1 _ hW1) (by decide) (by decide)
    obtain ⟨p2, e2, h2⟩ := getToken_at p1 [TokenString, TokenNumber, TokenLBracket] _ _
      TokenLBracket ['['] h1.n0 h1.rest (sig_lbracket W0 _ hW0) (by decide) (by decide)
    obtain ⟨hun, hut, hur⟩ := unscan_facts p2
    obtain ⟨p3, e3, _, hr3⟩ := parseArray_items items vals W0 W R hok hv hW0 hW p2.unscan
      (Or.inr ⟨hun, hut.trans h2.2.1, hur.trans h2.rest⟩)
    refine ⟨p3, ?_, hr3⟩
    simp only [Parser.parseField, e1, e2]
    rw [if_neg (by decide), if_pos trivial, e3]
  · intro n acc p hn ht
    obtain ⟨p1, e, hg, _, he⟩ := getToken_fresh p [TokenRBracket, TokenString, TokenComma] hn
    cases e with
    | none => exact absurd (he.mp rfl).2 ht
    | some err =>
      refine ⟨err, p1, ?_⟩
      simp only [Parser.parseArrayLoop, hg]
  · intro n acc p lit Y e hn hs hu
    obtain ⟨p1, e1, h1⟩ := getToken_at p [TokenRBracket, TokenString, TokenComma] _ Y
      TokenString lit hn rfl hs (by decide) (by decide)
    refine ⟨p1.PrevPos.1, p1.PrevPos.2, p1, ?_⟩
    simp only [Parser.parseArrayLoop, e1]
    rw [if_neg (by decide), if_neg (by decide), hu]
    rfl

set_option maxRecDepth 100000 in
/-- C14, witness: `[ "a\xc3\xa9" "b\u00e9",, ]` is parsed as two strings, `a` and `b`
each followed by the two bytes 0xC3 0xA9 of U+00E9: the escape `\xhh` gives one byte,
the escape `\u` the UTF-8 of its rune, and a rune written as it is gives the same bytes. -/
theorem C14_array_grammar_witness :
    (∀ p : Parser, p.buf.n = 0 →
        p.s.rest = [] ++ '[' :: (arrayText [(" ".toList, .string "a\\xc3\\xa9".toList),
            (" ".toList, .string "b\\u00e9".toList), ([], .comma), ([], .comma)]
          ++ (" ".toList ++ ']' :: " \x7d".toList)) →
        ∃ p1, p.parseArray = some (.ok [[97, 195, 169], [98, 195, 169]], p1)
          ∧ p1.s.rest = " \x7d".toList)
    ∧ '[' :: (arrayText [(" ".toList, .string "a\\xc3\\xa9".toList),
            (" ".toList, .string "b\\u00e9".toList), ([], .comma), ([], .comma)]
          ++ (" ".toList ++ ']' :: " \x7d".toList))
        = "[ \"a\\xc3\\xa9\" \"b\\u00e9\",, ] \x7d".toList
    ∧ (NewParser "[ \"a\\xc3\\xa9\" \"b\\u00e9\",, ] \x7d".toList).parseArray.map (fun r => r.1)
        = some (.ok [[97, 195, 169], [98, 195, 169]])
    ∧ (NewParser "[ \"a\" 1 ]".toList).parseArray.map (fun r => r.1)
        = some (.error (.unexpectedOneOf "1".toList
            "TokenRBracket|TokenString|TokenComma".toList 1 6))
    ∧ Unquote "\"\\xc3\\xa9\"".toList = .ok [195, 169]
    ∧ Unquote "\"\\303\\251\"".toList = .ok [195, 169]
    ∧ Unquote [Char.ofNat 34, Char.ofNat 233, Char.ofNat 34] = .ok [195, 169]
    ∧ utf8Bytes [Char.ofNat 233] = [195, 169]
    ∧ Unquote "\"\\xff\"".toList = .ok [255] :=
  ⟨(C14_array_grammar [(" ".toList, .string "a\\xc3\\xa9".toList),
      (" ".toList, .string "b\\u00e9".toList), ([], .comma), ([], .comma)]
      [[97, 195, 169], [98, 195, 169]] [] [] " ".toList " \x7d".toList
      (by decide) (by decide) (by decide) (by decide) (by decide)).1,
   by decide, by decide, by decide, by decide, by decide, by decide, by decide, by decide⟩

/-- C15: string scanning and escapes. For every `body` without NUL in which every `"` is
immediately preceded by a maximal run of backslashes of odd length, and which does not
end in such a run of odd length, `Scan` on `"`, `body`, `"`, `R` returns the String
token whose literal is `"body"`, the source text between the same quotes, and leaves `R`
unread: the string ends at the first `"` that an even number of backslashes (zero
included) precedes. A newline in `body` changes nothing. -/
theorem C15_string_escapes (s : Scanner) (body R : List Char)
    (hs : s.rest = '"' :: (body ++ '"' :: R)) (h0 : eof ∉ body)
    (h2 : quotesOdd body = true) (h3 : trailingBackslashes body % 2 = 0) :
    ∃ s1, s.Scan = some ((TokenString, '"' :: (body ++ ['"'])), s1) ∧ s1.rest = R := by
  have hd : delimsEscaped '"' false body = true := by
    rw [← h2, quotesOdd, quotesOddAfter_eq]
    rfl
  have he : escapedAfter false body = false := by
    rw [escapedAfter_parity]
    simp [h3]
  obtain ⟨s1, e1, e2⟩ := Scan_lex s
  rw [hs, lex_string body R h0 hd he] at e1 e2
  exact ⟨s1, e1, e2⟩

/-- C15, witness: in `"a\"b\\" c` the first inner quote follows one backslash and is
kept, the closing quote follows two backslashes and ends the string. -/
theorem C15_string_escapes_witness :
    ((NewScanner "\"a\\\"b\\\\\" c".toList).rest
        = '"' :: ("a\\\"b\\\\".toList ++ '"' :: " c".toList)
      ∧ eof ∉ "a\\\"b\\\\".toList ∧ quotesOdd "a\\\"b\\\\".toList = true
      ∧ trailingBackslashes "a\\\"b\\\\".toList % 2 = 0)
    ∧ (∃ s1, (NewScanner "\"a\\\"b\\\\\" c".toList).Scan
          = some ((TokenString, '"' :: ("a\\\"b\\\\".toList ++ ['"'])), s1)
        ∧ s1.rest = " c".toList)
    ∧ "a\\\"b\\\\".toList = ['a', '\\', '"', 'b', '\\', '\\']
    ∧ (NewScanner "\"a\\\" c".toList).Scan.map (fun r => r.1)
        = some (TokenIllegal, "\"a\\\" c\"".toList) :=
  ⟨⟨by decide, by decide, by decide, by decide⟩,
   C15_string_escapes (NewScanner "\"a\\\"b\\\\\" c".toList) "a\\\"b\\\\".toList " c".toList
     (by decide) (by decide) (by decide) (by decide),
   by decide, by decide⟩

/-- C16: the position after reading a text. After the tracker made by
`NewpositionTracker` has read exactly the characters of `p`, `Pos()` is the line
`1 + ` the number of newlines of `p` and the column that is the number of characters of
`p` after its last newline, plus one when `p` holds a newline: `ReadRune` restarts the
column at 1 on a newline while the tracker starts it at 0. So after `a`, newline, `b` the
position is line 2 column 2, not column 1; on the first line the column is the number of
characters read. -/
theorem C16_position_after_reads (p rest : List Char) :
    ((NewpositionTracker { rest := p ++ rest, last := none }).readN p.length).Pos
        = (1 + p.count '\n', afterLastNewline p + if '\n' ∈ p then 1 else 0)
    ∧ ((NewpositionTracker { rest := "a\nb".toList, last := none }).readN 3).Pos = (2, 2)
    ∧ (1 + "a\nb".toList.count '\n', afterLastNewline "a\nb".toList) = (2, 1)
    ∧ ((NewpositionTracker { rest := "ab".toList, last := none }).readN 2).Pos = (1, 2) := by
  refine ⟨?_, by decide, by decide, by decide⟩
  rw [← advance_start p]
  exact (readN_pos p rest none 1 0 1 0).1

/-- C17: unread restores the position. For every tracker state whose input is not
exhausted, `ReadRune` succeeds and returns the first unread rune; the `UnreadRune` that
follows succeeds, `Pos()` is then what it was before the read (whether the rune was a
newline or not), the input is what it was, and the next `ReadRune` returns the same rune
again. -/
theorem C17_unread_restores (p : positionTracker) (c : Char) (cs : List Char)
    (h : p.RuneScanner.rest = c :: cs) :
    p.ReadRune.1 = (c, false)
      ∧ p.ReadRune.2.RuneScanner.rest = cs
      ∧ p.ReadRune.2.Pos = advance1 p.Pos c
      ∧ p.ReadRune.2.UnreadRune.1 = false
      ∧ p.ReadRune.2.UnreadRune.2.Pos = p.Pos
      ∧ p.ReadRune.2.UnreadRune.2.RuneScanner.rest = c :: cs
      ∧ p.ReadRune.2.UnreadRune.2.ReadRune.1 = (c, false) := by
  obtain ⟨⟨rest, last⟩, l, k, ll, lk⟩ := p
  simp only at h
  subst h
  by_cases hc : c = '\n'
  · simp [positionTracker.ReadRune, RuneScanner.ReadRune, positionTracker.UnreadRune,
      RuneScanner.UnreadRune, positionTracker.Pos, advance1, hc]
  · simp [positionTracker.ReadRune, RuneScanner.ReadRune, positionTracker.UnreadRune,
      RuneScanner.UnreadRune, positionTracker.Pos, advance1, hc]

/-- C17, witness: on the second line of `a`, newline, newline, `b` the tracker stands at
line 2 column 1; reading the newline moves it to line 3 column 1 and the unread brings it
back to line 2 column 1. After `scanOperator` has read `!x` and pushed the `x` back, the
scanner stands behind the `!`. -/
theorem C17_unread_restores_witness :
    ((NewpositionTracker { rest := "a\n\nb".toList, last := none }).readN 2).RuneScanner.rest
        = '\n' :: "b".toList
    ∧ ((NewpositionTracker { rest := "a\n\nb".toList, last := none }).readN 2).Pos = (2, 1)
    ∧ ((NewpositionTracker { rest := "a\n\nb".toList, last := none }).readN 2).ReadRune.2.Pos
        = (3, 1)
    ∧ ((NewpositionTracker { rest := "a\n\nb".toList, last := none }).readN 2
        ).ReadRune.2.UnreadRune.2.Pos = (2, 1)
    ∧ ((NewpositionTracker { rest := "a\n\nb".toList, last := none }).readN 2
        ).ReadRune.2.UnreadRune.2.ReadRune.1 = ('\n', false)
    ∧ ((NewScanner "!x".toList).scanOperator.2.Pos, (NewScanner "!x".toList).scanOperator.2.rest)
        = ((1, 1), "x".toList) :=
  ⟨by decide, by decide, by decide,
   (C17_unread_restores
      ((NewpositionTracker { rest := "a\n\nb".toList, last := none }).readN 2) '\n' "b".toList
      (by decide)).2.2.2.2.1,
   by decide, by decide⟩

/-- C18: the operator scan. For each operator spelling `op` and each next character `c`
that does not make `op` followed by `c` a spelling, `Scan` on `op`, `c`, `R` returns the
token kind of the operator and leaves `c` unread. The literal is the text of `op` for
eight of the ten spellings; for `<=` the code returns the literal `>=` and for `<` the
literal `>`. -/
theorem C18_operator_scan (s : Scanner) (op : List Char) (tok : Token) (lit : List Char)
    (c : Char) (R : List Char) (h : (op, tok, lit) ∈ operatorTable)
    (hc : op ++ [c] ∉ operatorTable.map (fun e => e.1)) (hs : s.rest = op ++ c :: R) :
    (∃ s1, s.Scan = some ((tok, lit), s1) ∧ s1.rest = c :: R)
    ∧ (lit = op ∨ op = "<=".toList ∧ lit = ">=".toList ∨ op = "<".toList ∧ lit = ">".toList)
    ∧ operatorTable.map (fun e => (e.1, e.2.1))
        = [("=~".toList, TokenEqRegex), ("==".toList, TokenEq), ("=>".toList, TokenAssignment),
           ("!=".toList, TokenNEq), ("!~".toList, TokenNEqRegex), (">=".toList, TokenGTE),
           ("<=".toList, TokenLTE), ("!".toList, TokenNegate), ("<".toList, TokenLT),
           (">".toList, TokenGT)] := by
  refine ⟨?_, ?_, rfl⟩
  · obtain ⟨s1, e1, e2⟩ := Scan_lex s
    rw [hs, lex_operatorTable op tok lit c R h hc] at e1 e2
    exact ⟨s1, e1, e2⟩
  · simp only [operatorTable, List.mem_cons, Prod.mk.injEq, List.mem_singleton,
      List.not_mem_nil, or_false] at h
    rcases h with h | h | h | h | h | h | h | h | h | h <;> obtain ⟨h1, _, h3⟩ := h <;>
      subst h1 h3 <;> simp

/-- C18, witness: `<= 1` is scanned as the token LTE with the literal `>=`, and `< 1` as
LT with the literal `>`; `>= 1` and `!x` come out with their own text. -/
theorem C18_operator_scan_witness :
    (("<=".toList, TokenLTE, ">=".toList) ∈ operatorTable
      ∧ "<=".toList ++ [' '] ∉ operatorTable.map (fun e => e.1)
      ∧ (NewScanner "<= 1".toList).rest = "<=".toList ++ ' ' :: "1".toList)
    ∧ (∃ s1, (NewScanner "<= 1".toList).Scan = some ((TokenLTE, ">=".toList), s1)
        ∧ s1.rest = ' ' :: "1".toList)
    ∧ (NewScanner "<= 1".toList).Scan.map (fun r => r.1) = some (TokenLTE, ">=".toList)
    ∧ (NewScanner "< 1".toList).Scan.map (fun r => r.1) = some (TokenLT, ">".toList)
    ∧ (NewScanner ">= 1".toList).Scan.map (fun r => r.1) = some (TokenGTE, ">=".toList)
    ∧ (NewScanner "!x".toList).Scan.map (fun r => (r.1, r.2.rest))
        = some ((TokenNegate, "!".toList), "x".toList) :=
  ⟨⟨by decide, by decide, by decide⟩,
   (C18_operator_scan (NewScanner "<= 1".toList) "<=".toList TokenLTE ">=".toList ' '
      "1".toList (by decide) (by decide) (by decide)).1,
   by decide, by decide, by decide, by decide⟩

/-- C19 (counterexample): the input NUL, `x` is not empty and its first character is
none of the characters the claim lists, yet `Scan` returns the EOF token with the empty
literal, not Illegal, while `x` remains; and Parse accepts that input and leaves the `x`
unread. -/
theorem C19_counterexample :
    (isWhitespace eof = false ∧ isLetter eof = false ∧ eof ≠ '@' ∧ isDigit eof = false
      ∧ eof ∉ ['=', '!', '<', '>', '{', '}', '(', ')', '[', ']', ',', '#', '/', '"'])
    ∧ (NewScanner [eof, 'x']).Scan.map (fun r => (r.1, r.2.rest))
        = some ((TokenEOF, []), ['x'])
    ∧ (NewParser [eof, 'x']).Parse.map (fun r => (r.1, r.2.s.rest))
        = some (.ok { Input := [], Filter := [], Output := [] }, ['x']) := by
  decide

/-- C19 (amended): unrecognised characters and the end of the input. When the first
unread character is not NUL and is none of space, tab, newline, a letter, `@`, a digit,
`= ! < > { } ( ) [ ] , # / "`, `Scan` returns Illegal with that one character as the
literal and consumes only it. `Scan` returns the EOF token exactly when no character
remains or the next character is NUL, the value of the end-of-input sentinel. So Parse
does not accept an input without NUL while leaving part of it unread. -/
theorem C19_illegal_and_eof (s : Scanner) (c : Char) (cs : List Char) (hs : s.rest = c :: cs)
    (h0 : c ≠ eof) (h1 : isWhitespace c = false) (h2 : isLetter c = false) (h3 : c ≠ '@')
    (h4 : isDigit c = false)
    (h5 : c ∉ ['=', '!', '<', '>', '{', '}', '(', ')', '[', ']', ',', '#', '/', '"']) :
    (∃ s1, s.Scan = some ((TokenIllegal, [c]), s1) ∧ s1.rest = cs)
    ∧ (∀ t : Scanner, (∃ lit t1, t.Scan = some ((TokenEOF, lit), t1))
        ↔ (t.rest = [] ∨ t.rest.head? = some eof))
    ∧ (∀ t : Scanner, (t.rest = [] ∨ t.rest.head? = some eof) →
        ∃ t1, t.Scan = some ((TokenEOF, []), t1))
    ∧ (∀ (X : List Char) (r : Config) (p1 : Parser), eof ∉ X →
        (NewParser X).Parse = some (.ok r, p1) → p1.s.rest = []) := by
  refine ⟨?_, ?_, ?_, ?_⟩
  · obtain ⟨s1, e1, e2⟩ := Scan_lex s
    rw [hs, lex_unrecognised c cs h0 h1 h2 h3 h4 h5] at e1 e2
    exact ⟨s1, e1, e2⟩
  · intro t
    obtain ⟨t1, e1, _⟩ := Scan_lex t
    constructor
    · rintro ⟨lit, t2, e2⟩
      rw [e1] at e2
      simp only [Option.some.injEq, Prod.mk.injEq] at e2
      exact (lex_eof_iff _).mp (by rw [e2.1])
    · intro h
      have ht := (lex_eof_iff _).mpr h
      refine ⟨(lex t.rest).1.2, t1, ?_⟩
      rw [e1, ← ht]
  · intro t h
    obtain ⟨t1, e1, _⟩ := Scan_lex t
    refine ⟨t1, ?_⟩
    rw [e1]
    rcases h with h | h
    · rw [h]; rfl
    · cases hr : t.rest with
      | nil => rfl
      | cons x xs =>
        rw [hr] at h
        simp only [List.head?_cons, Option.some.injEq] at h
        rw [h, lex_eof_cons]
  · intro X r p1 h0 h
    exact ParseLoop_reads_all _ _ r (NewParser X) p1 rfl h0 h

/-- C19, witness: `$` at the start of `$x` is scanned as Illegal with the literal `$`,
and `x` is left. -/
theorem C19_illegal_and_eof_witness :
    ((NewScanner "$x".toList).rest = '$' :: "x".toList ∧ '$' ≠ eof
      ∧ isWhitespace '$' = false ∧ isLetter '$' = false ∧ '$' ≠ '@' ∧ isDigit '$' = false
      ∧ '$' ∉ ['=', '!', '<', '>', '{', '}', '(', ')', '[', ']', ',', '#', '/', '"'])
    ∧ (∃ s1, (NewScanner "$x".toList).Scan = some ((TokenIllegal, ['$']), s1)
        ∧ s1.rest = "x".toList)
    ∧ (NewScanner []).Scan.map (fun r => r.1) = some (TokenEOF, []) :=
  ⟨⟨by decide, by decide, by decide, by decide, by decide, by decide, by decide⟩,
   (C19_illegal_and_eof (NewScanner "$x".toList) '$' "x".toList (by decide) (by decide)
      (by decide) (by decide) (by decide) (by decide) (by decide)).1,
   by decide⟩

set_option maxRecDepth 100000 in
/-- C13: the position in an error message. When Parse fails with an `illegal token` or
an `unexpected token` error that names the literal `lit`, line `l` and column `c`, the
input is a text `pre` followed by the offending token (a significant token with the
literal `lit`), and unless that token is the end of the input, `l` is 1 plus the number
of newlines of `pre` and `c` is the number of characters of `pre` after its last
newline, plus one when `pre` holds a newline. The column of the first character of the
token, counted from 1, is that number of characters plus one: the message has it for a
token on the second or a later line, and one less on the first line. So `foo` at the
start gives line 1 col 0, and a line 5 that reads `    codec "json"` gives line 5
col 11. -/
theorem C13_error_position (X : List Char) (e : Error) (lit : List Char) (l c : Nat)
    (h : Parse X = some (.error e))
    (he : e = .illegal lit l c ∨ (∃ ex, e = .unexpected lit ex l c)
      ∨ (∃ ex, e = .unexpectedOneOf lit ex l c)) :
    (∃ pre Y0 tok, X = pre ++ Y0 ∧ (lex Y0).1 = (tok, lit) ∧ tok ≠ TokenWhitespace
      ∧ tok ≠ TokenComment
      ∧ (tok ≠ TokenEOF → l = 1 + pre.count '\n'
          ∧ c = afterLastNewline pre + if '\n' ∈ pre then 1 else 0))
    ∧ Parse "foo".toList
        = some (.error (.unexpected "foo".toList "input|output|filter".toList 1 0))
    ∧ Parse ("input \x7b\n  stdin \x7b\n    type => \"a\"\n    tags => \"b\"\n".toList
          ++ "    codec \"json\"\n  \x7d\n\x7d\n".toList)
        = some (.error (.unexpected "\"json\"".toList "TokenAssignment".toList 5 11)) := by
  refine ⟨?_, by decide, by decide⟩
  obtain ⟨pre, Y0, tok, h1, h2, h3, h4, h5⟩ := Parse_At X e h lit l c he
  refine ⟨pre, Y0, tok, h1, h2, h3, h4, fun ht => ?_⟩
  have hY : Y0 ≠ [] := by
    intro h0
    rw [h0, lex_nil] at h2
    simp only [Prod.mk.injEq] at h2
    exact ht h2.1.symm
  have := h5 hY
  rw [advance_start, Prod.mk.injEq] at this
  exact this

/-- C13, witness: on `foo` Parse fails with `unexpected token 'foo' expected
'input|output|filter' on line 1 col 0`: the token starts at line 1, column 1, and no
text stands before it. On ` foo` the column is 1 where the token starts at column 2. -/
theorem C13_error_position_witness :
    Parse "foo".toList
        = some (.error (.unexpected "foo".toList "input|output|filter".toList 1 0))
    ∧ (∃ pre Y0 tok, "foo".toList = pre ++ Y0 ∧ (lex Y0).1 = (tok, "foo".toList)
        ∧ tok ≠ TokenWhitespace ∧ tok ≠ TokenComment
        ∧ (tok ≠ TokenEOF → 1 = 1 + pre.count '\n'
            ∧ 0 = afterLastNewline pre + if '\n' ∈ pre then 1 else 0))
    ∧ Parse " foo".toList
        = some (.error (.unexpected "foo".toList "input|output|filter".toList 1 1))
    ∧ Parse "\nfoo".toList
        = some (.error (.unexpected "foo".toList "input|output|filter".toList 2 1)) :=
  ⟨by decide,
   (C13_error_position "foo".toList
      (.unexpected "foo".toList "input|output|filter".toList 1 0) "foo".toList 1 0
      (by decide) (Or.inr (Or.inl ⟨_, rfl⟩))).1,
   by decide, by decide⟩

/-- C20: progress and termination. A call of `Scan` made while characters remain returns
a token and leaves the unread input strictly shorter; on exhausted input it returns EOF
and the input stays exhausted. `getToken` always returns, never lengthens the unread
input and shortens it whenever its token is not EOF. Parse returns a result, a Config or
an error, on every input: the loop of Parse ends within one more iteration than the
input has characters, and every inner loop within one more iteration than there are
unread characters when it starts. -/
theorem C20_progress_termination (s : Scanner) (p : Parser) (types : List Token) :
    (s.rest ≠ [] → ∃ r s1, s.Scan = some (r, s1) ∧ s1.rest.length < s.rest.length)
    ∧ (s.rest = [] → ∃ s1, s.Scan = some ((TokenEOF, []), s1) ∧ s1.rest = [])
    ∧ (p.buf.n = 0 → ∃ tok lit e p1, p.getToken types = some ((tok, lit, e), p1)
        ∧ p1.s.rest.length ≤ p.s.rest.length
        ∧ (tok ≠ TokenEOF → p1.s.rest.length < p.s.rest.length))
    ∧ (∀ X : List Char, ∃ r, Parse X = some r)
    ∧ (∀ X : List Char, ∃ r p1,
        Parser.ParseLoop (X.length + 1) { Input := [], Filter := [], Output := [] }
          (NewParser X) = some (r, p1)) := by
  refine ⟨?_, ?_, ?_, Parse_total, ?_⟩
  · intro h
    obtain ⟨s1, e1, e2⟩ := Scan_lex s
    refine ⟨_, s1, e1, ?_⟩
    rw [e2]
    exact lex_length _ h
  · intro h
    obtain ⟨s1, e1, e2⟩ := Scan_lex s
    rw [h, lex_nil] at e1 e2
    exact ⟨s1, e1, e2⟩
  · intro hn
    obtain ⟨tok, lit, e, p1, hg, _, hle, hlt, _, _⟩ := getToken_total p types hn
    exact ⟨tok, lit, e, p1, hg, hle, hlt⟩
  · intro X
    exact ParseLoop_total (X.length + 1) _ (NewParser X) rfl (by
      have : (NewParser X).s.rest = X := rfl
      rw [this]
      omega)

/-- C20, witness: on `ab c` the first `Scan` returns the identifier `ab` and leaves two
of the four characters; on the empty input `Scan` returns EOF. -/
theorem C20_progress_termination_witness :
    (NewScanner "ab c".toList).rest ≠ []
    ∧ (∃ r s1, (NewScanner "ab c".toList).Scan = some (r, s1)
        ∧ s1.rest.length < (NewScanner "ab c".toList).rest.length)
    ∧ (NewScanner "ab c".toList).Scan.map (fun r => (r.1, r.2.rest))
        = some ((TokenIdentifier, "ab".toList), " c".toList)
    ∧ (NewScanner []).Scan.map (fun r => (r.1, r.2.rest)) = some ((TokenEOF, []), [])
    ∧ Parse "input \x7b".toList
        = some (.error (.unexpectedOneOf []
            "TokenIdentifier|TokenRCurlyBrace".toList 1 7)) :=
  ⟨by decide,
   (C20_progress_termination (NewScanner "ab c".toList) (NewParser []) []).1 (by decide),
   by decide, by decide, by decide⟩

set_option maxRecDepth 100000 in
/-- C4 (counterexample): `tags` is assigned the number 12 and then assigned again, and
Parse fails with an error that does not name the field. The second value
`99999999999999999999` is a number above 2^63 - 1, `parseField` returns the range error
of `strconv.ParseInt` for it, and `parsePluginFields` hands that error back before it
comes to the merge; the same happens with the syntax error of `strconv.Unquote` for the
string `"a\qb"`. -/
theorem C4_counterexample :
    Parse "input \x7b p \x7b tags => 12 tags => 99999999999999999999 \x7d \x7d".toList
        = some (.error (.NumError "ParseInt".toList "99999999999999999999".toList .ErrRange))
    ∧ (Error.NumError "ParseInt".toList "99999999999999999999".toList .ErrRange).Error
        = "strconv.ParseInt: parsing \"99999999999999999999\": value out of range".toList
    ∧ ¬ ("tags".toList <:+:
        (Error.NumError "ParseInt".toList "99999999999999999999".toList .ErrRange).Error)
    ∧ Parse "input \x7b p \x7b tags => 12 tags => \"a\\qb\" \x7d \x7d".toList
        = some (.error .ErrSyntax)
    ∧ Error.ErrSyntax.Error = "invalid syntax".toList := by
  decide

/-- C4 (amended): a second assignment whose value parses, with a number on either side,
makes Parse fail with the merge error that names the field. The input is any text that
starts with complete sections `secs`, then the section `kw` with complete plugins `ps`,
then the plugin `name` with the fields `fs` (distinct names, one of them `lit` with the
value `old`), then `lit => v` and, after a separator, any text `R`; the names are
identifiers, the values are plain strings, integers of 0 to 2^63 - 1 or lists of plain
strings, and the tokens are separated by `sep`. When `old` or `v` is an integer, Parse
returns no Config but the error `parse error: field 'lit' ... at line l col c`: the
message `is an array but new value is not a string or []string` when `old` is a list of
strings, `already delcared and not an array` otherwise. -/
theorem C4_reassign_conflict (sep : List Char)
    (secs : List (List Char × List PluginConfig)) (kw : List Char) (ps : List PluginConfig)
    (name : List Char) (fs : PluginFields) (lit : List Char) (old v : Value) (R : List Char)
    (hsep : isSeparator sep = true)
    (hsecs : secs.all (fun s => isSectionKeyword s.1 && s.2.all pluginOk) = true)
    (hkw : isSectionKeyword kw = true) (hps : ps.all pluginOk = true)
    (hname : isIdentifier name = true) (hfs : fieldsOk fs = true)
    (hold : fs.get lit = some old) (hv : valueOk v = true)
    (hnum : (∃ i, old = .int i) ∨ (∃ i, v = .int i)) :
    ∃ l c, Parse (reassignText sep secs kw ps name fs lit v R)
        = some (.error (.parse (mergeConflict old lit) l c))
      ∧ (∃ pre post, (Error.parse (mergeConflict old lit) l c).Error = pre ++ lit ++ post)
      ∧ (Error.parse (mergeConflict old lit) l c).Error
        = "parse error: field ".toList ++ [Char.ofNat 39] ++ lit ++ [Char.ofNat 39]
          ++ (match old with
              | .strs _ => " is an array but new value is not a string or []string".toList
              | _ => " already delcared and not an array".toList)
          ++ " at line ".toList ++ fmtInt l ++ " col ".toList ++ fmtInt c := by
  have hsecs2 : ∀ s ∈ secs, isSectionKeyword s.1 = true ∧ ∀ pl ∈ s.2, pluginOk pl = true := by
    intro s hs
    have := List.all_eq_true.mp hsecs s hs
    simp only [Bool.and_eq_true, List.all_eq_true] at this
    exact this
  obtain ⟨l, c, h⟩ := Parse_reassign sep hsep secs hsecs2 kw hkw ps
    (List.all_eq_true.mp hps) name hname fs hfs lit old v hold hv hnum R
  refine ⟨l, c, h, mergeConflict_names old lit l c, ?_⟩
  cases old <;> simp [Error.Error, mergeConflict]

set_option maxRecDepth 100000 in
/-- C4, witness: after the complete section `filter { a { } }`, in the plugin `p` of the
section `input`, `f` holds the list with the string `x` and is assigned 12: Parse
returns the merge error for `f`. So it does for `f => 12` followed by `f => "x"`. -/
theorem C4_reassign_conflict_witness :
    (isSeparator " ".toList = true
      ∧ [("filter".toList, [({ Name := "a".toList, Fields := [] } : PluginConfig)])].all
          (fun s => isSectionKeyword s.1 && s.2.all pluginOk) = true
      ∧ isSectionKeyword "input".toList = true
      ∧ ([] : List PluginConfig).all pluginOk = true
      ∧ isIdentifier "p".toList = true
      ∧ fieldsOk [("f".toList, Value.strs [utf8Bytes "x".toList])] = true
      ∧ PluginFields.get [("f".toList, Value.strs [utf8Bytes "x".toList])] "f".toList
          = some (.strs [utf8Bytes "x".toList])
      ∧ valueOk (.int 12) = true)
    ∧ (∃ l c, Parse (reassignText " ".toList
          [("filter".toList, [{ Name := "a".toList, Fields := [] }])] "input".toList []
          "p".toList [("f".toList, Value.strs [utf8Bytes "x".toList])] "f".toList (.int 12)
          "\x7d \x7d".toList)
        = some (.error (.parse (mergeConflict (.strs [utf8Bytes "x".toList]) "f".toList) l c))
      ∧ (∃ pre post,
          (Error.parse (mergeConflict (.strs [utf8Bytes "x".toList]) "f".toList) l c).Error
            = pre ++ "f".toList ++ post)
      ∧ (Error.parse (mergeConflict (.strs [utf8Bytes "x".toList]) "f".toList) l c).Error
        = "parse error: field ".toList ++ [Char.ofNat 39] ++ "f".toList ++ [Char.ofNat 39]
          ++ (match Value.strs [utf8Bytes "x".toList] with
              | .strs _ => " is an array but new value is not a string or []string".toList
              | _ => " already delcared and not an array".toList)
          ++ " at line ".toList ++ fmtInt l ++ " col ".toList ++ fmtInt c)
    ∧ reassignText " ".toList [("filter".toList, [{ Name := "a".toList, Fields := [] }])]
          "input".toList [] "p".toList [("f".toList, Value.strs [utf8Bytes "x".toList])]
          "f".toList (.int 12) "\x7d \x7d".toList
        = "filter \x7b a \x7b \x7d \x7d input \x7b p \x7b f => [ \"x\" ] f => 12 \x7d \x7d".toList
    ∧ Parse "filter \x7b a \x7b \x7d \x7d input \x7b p \x7b f => [ \"x\" ] f => 12 \x7d \x7d".toList
        = some (.error (.parse (.newValue "f".toList) 1 47))
    ∧ Parse "input \x7b p \x7b f => 12 f => \"x\" \x7d \x7d".toList
        = some (.error (.parse (.notArray "f".toList) 1 25)) :=
  ⟨⟨by decide, by decide, by decide, by decide, by decide, by decide, by decide, by decide⟩,
   C4_reassign_conflict " ".toList [("filter".toList, [{ Name := "a".toList, Fields := [] }])]
      "input".toList [] "p".toList [("f".toList, Value.strs [utf8Bytes "x".toList])]
      "f".toList (.strs [utf8Bytes "x".toList]) (.int 12) "\x7d \x7d".toList
      (by decide) (by decide) (by decide) (by decide) (by decide) (by decide) (by decide)
      (by decide) (Or.inr ⟨12, rfl⟩),
   by decide, by decide, by decide⟩

end Logstash
